import Mathlib

/-!
# Transactional memory with irrevocable transactions

A shallow embedding of the `Tm` runtime (`tmapi.cpp`, `transaction.cpp`, `variable.h`).

* Every C++ object is a record; the objects live in tables indexed by natural numbers
  (`new Transaction` and `new T` take the next free index).
* `shared_ptr<T>` / `T*` are addresses of heap cells (`Buf`); `weak_ptr<Transaction>` is the
  index of a transaction, upgraded successfully iff the transaction object is still alive.
* `thread_local` data is a table indexed by the thread number, which every operation takes
  as its first argument `th`.
* Every member function is a function on the whole `State`; an operation runs atomically
  (interleavings are sequences of complete operations, memory orderings are not modelled).
* `T` is instantiated with `int` (as in the benchmarks), modelled by `Int`.
-/

namespace Tm

/-- Address of a heap cell holding a `T`: the cell a variable was constructed with, or a cell
obtained later from `new T`. -/
inductive Buf where
  | init (v : Nat)
  | alloc (n : Nat)
  deriving DecidableEq, Repr

/-- The maps `unordered_map<VariableBase*, void*>`: variable index to buffer address. -/
abbrev BufMap := AList (fun _ : Nat => Buf)

/-- The exception tree of `tmapi.h` (leaves only), extended by the two ways a run of the
model can stop without returning or throwing: a failed `assert`, and exhausted fuel in the
mutual recursion `ro`/`roIrr`, `rw`/`rwIrr`. -/
inductive Exc where
  | ReadFailedException
  | WriteFailedException
  | IrrevocTransException
  | CommitFailedException
  | InvalidUseException
  | AssertionFailure
  | FuelExhausted
  deriving DecidableEq, Repr

/-- Results of calls can be compared. -/
instance decEqResult {α : Type} [DecidableEq α] : DecidableEq (Except Exc α)
  | .ok a, .ok b =>
    if h : a = b then isTrue (congrArg Except.ok h)
    else isFalse (fun h1 => h (Except.ok.inj h1))
  | .error a, .error b =>
    if h : a = b then isTrue (congrArg Except.error h)
    else isFalse (fun h1 => h (Except.error.inj h1))
  | .ok _, .error _ => isFalse (fun h => Except.noConfusion h)
  | .error _, .ok _ => isFalse (fun h => Except.noConfusion h)

/-- Fields of `class Transaction` (`transaction.h`); `alive` records that the object has not
been destroyed (some `shared_ptr` still owns it). -/
structure Transaction where
  cleanReadsetLock : Bool := false
  commitLock : Bool := false
  comitted : Bool := false
  aborted : Bool := false
  amIIrrevocable : Bool := false
  rsetBuffers : BufMap := ∅
  wsetBuffers : BufMap := ∅
  locksHeld : List Nat := []
  hijackedWsetBuffers : BufMap := ∅
  alive : Bool := false

/-- Fields of `class VariableBase` and `class Variable<T>` (`variable.h`). -/
structure Variable where
  usedByIrr : Bool := false
  dirty : Bool := false
  dirtyIrr : Bool := false
  lock : Bool := false
  readers : Nat → Option Nat := fun _ => none
  previousLockOwner : Option Nat := none
  mostRecentLockOwner : Option Nat := none
  varPtr : Buf

/-- The whole process: all variables, all transaction objects, the heap of `T` cells, the
static `irrTransactionLock`, the thread-local `currentTransaction` slots, `maxThreadNum`
and the two hooks (`none`: the hook returns, `some e`: the hook throws `e`). -/
structure State where
  vars : Nat → Variable
  txs : Nat → Transaction
  nextTx : Nat
  heap : Buf → Int
  nextBuf : Nat
  irrTransactionLock : Bool
  currentTransaction : Nat → Option Nat
  maxThreadNum : Nat
  nonTransAccess : Option Exc
  forcingAbortOnIrr : Option Exc

/-- Result of an operation: what it returned or threw, and the state it left. -/
abbrev Res (α : Type) := Except Exc α × State

def State.modVar (s : State) (v : Nat) (f : Variable → Variable) : State :=
  { s with vars := Function.update s.vars v (f (s.vars v)) }

def State.modTx (s : State) (x : Nat) (f : Transaction → Transaction) : State :=
  { s with txs := Function.update s.txs x (f (s.txs x)) }

/-- The statement `new T(val)`: the cell `Buf.alloc s.nextBuf` is taken and holds `val`. -/
def State.newT (s : State) (val : Int) : State :=
  { s with heap := Function.update s.heap (Buf.alloc s.nextBuf) val, nextBuf := s.nextBuf + 1 }

/-- The authoritative value of a variable, `*varPtr`. -/
def State.value (s : State) (v : Nat) : Int := s.heap (s.vars v).varPtr

/-- Upgrade of a weak pointer, `weak_ptr::lock()`. -/
def State.lockWeak (s : State) (w : Option Nat) : Option Nat :=
  match w with
  | none => none
  | some x => if (s.txs x).alive then some x else none

/-- The function `Variable::setRset`. -/
def setRset (ctb v : Nat) (buffer : Buf) (s : State) : State :=
  s.modTx ctb fun t => { t with rsetBuffers := t.rsetBuffers.insert v buffer }

/-- The function `Variable::unsetRset` (the buffer itself is looked up by the caller). -/
def unsetRset (ctb v : Nat) (s : State) : State :=
  s.modTx ctb fun t => { t with rsetBuffers := t.rsetBuffers.erase v }

/-- The function `Variable::setWset`. -/
def setWset (ctb v : Nat) (buffer : Buf) (s : State) : State :=
  s.modTx ctb fun t => { t with wsetBuffers := t.wsetBuffers.insert v buffer }

/-- The statement `currentTransaction.reset()` in thread `th`: the slot is emptied and the
transaction object it owned is destroyed. -/
def resetCurrent (th : Nat) (s : State) : State :=
  match s.currentTransaction th with
  | none => s
  | some y =>
    { s.modTx y (fun t => { t with alive := false }) with
      currentTransaction := Function.update s.currentTransaction th none }

/-- Clears the `lock` of every variable in the list. -/
def unlockAll (ms : List Nat) (s : State) : State :=
  ms.foldl (fun st m => st.modVar m fun x => { x with lock := false }) s

/-- Stores `b` to `usedByIrr` of every variable in the list. -/
def storeUsedByIrr (b : Bool) (vs : List Nat) (s : State) : State :=
  vs.foldl (fun st v => st.modVar v fun x => { x with usedByIrr := b }) s

/-- Stores `b` to `dirty` of every variable in the list. -/
def storeDirty (b : Bool) (vs : List Nat) (s : State) : State :=
  vs.foldl (fun st v => st.modVar v fun x => { x with dirty := b }) s

/-- Stores `b` to `dirtyIrr` of every variable in the list. -/
def storeDirtyIrr (b : Bool) (vs : List Nat) (s : State) : State :=
  vs.foldl (fun st v => st.modVar v fun x => { x with dirtyIrr := b }) s

/-- The function `Transaction::cleanup` of transaction `ctb`, run by thread `th`. -/
def cleanup (th ctb : Nat) (s : State) : State :=
  let s1 := unlockAll (s.txs ctb).locksHeld s
  let s2 := s1.modTx ctb fun t => { t with locksHeld := [] }
  -- deleteFromRset / deleteFromHijacked only free memory
  resetCurrent th s2

/-- The function `Transaction::abort`. -/
def abort (th ctb : Nat) (s : State) : Res Unit :=
  if (s.txs ctb).comitted then (.error .InvalidUseException, s)
  else
    if (s.txs ctb).amIIrrevocable then
      match s.forcingAbortOnIrr with
      | some e => (.error e, s)
      | none =>
        let s1 := storeUsedByIrr false (s.txs ctb).rsetBuffers.keys s
        let s2 := storeUsedByIrr false (s1.txs ctb).wsetBuffers.keys s1
        let s3 := s2.modTx ctb fun t => { t with aborted := true }
        let s4 := { s3 with irrTransactionLock := false }
        (.ok (), cleanup th ctb s4)
    else
      let s3 := s.modTx ctb fun t => { t with aborted := true }
      (.ok (), cleanup th ctb s3)

/-- The statement pair `ctb->abort(); throw e;`. -/
def abortThrow {α : Type} (th ctb : Nat) (e : Exc) (s : State) : Res α :=
  match (abort th ctb s).1 with
  | .error e1 => (.error e1, (abort th ctb s).2)
  | .ok _ => (.error e, (abort th ctb s).2)

/-- The function `Variable::acquireRead`; the boolean tells whether the lock was obtained. -/
def acquireRead (v : Nat) (s : State) : Bool × State :=
  let s1 := s.modVar v fun x => { x with usedByIrr := true }
  if (s1.vars v).lock then (false, s1)
  else (true, s1.modVar v fun x => { x with lock := true })

/-- The loop of `Transaction::acquireReadset` over the read set, with its two local lists. -/
def acquireReadsetLoop : List Nat → List Nat → List Nat → State → Option (List Nat) × State
  | [], acquired, _, s => (some acquired, s)
  | var :: rest, acquired, setAsUsedByIrr, s =>
    let r := acquireRead var s
    let used := setAsUsedByIrr ++ [var]
    if r.1 then acquireReadsetLoop rest (acquired ++ [var]) used r.2
    else (none, unlockAll acquired (storeUsedByIrr false used r.2))

/-- The function `Transaction::acquireReadset`. -/
def acquireReadset (ctb : Nat) (s : State) : Bool × State :=
  match acquireReadsetLoop (s.txs ctb).rsetBuffers.keys [] [] s with
  | (none, s1) => (false, s1)
  | (some acquired, s1) =>
    (true, s1.modTx ctb fun t =>
      { t with locksHeld := acquired.foldl (fun l m => l.insert m) t.locksHeld })

/-- The function `Transaction::irr`. -/
def irr (th ctb : Nat) (s : State) : Res Unit :=
  if (s.txs ctb).amIIrrevocable then (.ok (), s)
  else if s.irrTransactionLock then abortThrow th ctb .IrrevocTransException s
  else
    let s1 := { s with irrTransactionLock := true }
    let r := acquireReadset ctb s1
    if !r.1 then
      abortThrow th ctb .IrrevocTransException { r.2 with irrTransactionLock := false }
    else
      let s2 := r.2
      -- cleanReadsetLock.test_and_set() || commitLock.test_and_set()
      let t := s2.txs ctb
      let s3 := s2.modTx ctb fun t => { t with cleanReadsetLock := true }
      let failed := t.cleanReadsetLock || t.commitLock
      let s4 := if t.cleanReadsetLock then s3
                else s3.modTx ctb fun t => { t with commitLock := true }
      if failed then
        let s5 := storeUsedByIrr false (s4.txs ctb).rsetBuffers.keys s4
        abortThrow th ctb .IrrevocTransException { s5 with irrTransactionLock := false }
      else
        (.ok (), s4.modTx ctb fun t => { t with amIIrrevocable := true })

/-- One iteration of the loop of `Variable::killReaders`, for reader slot `i`. -/
def killReader (th v i : Nat) (s : State) : State :=
  if i = th then s
  else
    match s.lockWeak ((s.vars v).readers i) with
    | none => s
    | some possReader =>
      if (s.txs possReader).cleanReadsetLock then s
      else s.modTx possReader fun t => { t with cleanReadsetLock := true, aborted := true }

/-- The function `Variable::killReaders`, run by thread `th` on variable `v`. -/
def Variable.killReaders (th v : Nat) (s : State) : State :=
  (List.range s.maxThreadNum).foldl (fun st i => killReader th v i st) s

/-- The function `Transaction::killReaders`. -/
def killReaders (th ctb : Nat) (s : State) : State :=
  (s.txs ctb).wsetBuffers.keys.foldl (fun st v => Variable.killReaders th v st) s

/-- The function `Variable::performWrite`. -/
def performWrite (v : Nat) (newValShared : Buf) (s : State) : State :=
  s.modVar v fun x => { x with varPtr := newValShared, dirty := false }

/-- The function `Variable::performWriteAsIrr`. -/
def performWriteAsIrr (ctb v : Nat) (newVal : Buf) (s : State) : State :=
  match (s.txs ctb).hijackedWsetBuffers.lookup v with
  | some hijackedBuffer =>
    let s1 := { s with heap := Function.update s.heap hijackedBuffer (s.heap newVal) }
    s1.modVar v fun x => { x with varPtr := hijackedBuffer, dirtyIrr := false }
  | none =>
    s.modVar v fun x => { x with varPtr := newVal, dirtyIrr := false }

/-- The two publishing loops of `Transaction::commit`. -/
def publish (ctb : Nat) (s : State) : State :=
  if (s.txs ctb).amIIrrevocable then
    (s.txs ctb).wsetBuffers.entries.foldl (fun st e => performWriteAsIrr ctb e.1 e.2 st) s
  else
    (s.txs ctb).wsetBuffers.entries.foldl (fun st e => performWrite e.1 e.2 st) s

/-- The part of `Transaction::commit` after the commit locks are held (lines 184-218). -/
def commitFinish (th ctb : Nat) (s : State) : State :=
  let s1 := publish ctb s
  let s2 :=
    if (s1.txs ctb).amIIrrevocable then
      storeUsedByIrr false (s1.txs ctb).wsetBuffers.keys
        (storeUsedByIrr false (s1.txs ctb).rsetBuffers.keys s1)
    else s1
  let s3 := s2.modTx ctb fun t => { t with comitted := true }
  let s4 := unlockAll (s3.txs ctb).locksHeld s3
  let s5 := s4.modTx ctb fun t => { t with locksHeld := [] }
  let s6 := if (s5.txs ctb).amIIrrevocable then { s5 with irrTransactionLock := false } else s5
  cleanup th ctb s6

/-- The function `Transaction::commit`. -/
def commit (th ctb : Nat) (s : State) : Res Unit :=
  if (s.txs ctb).comitted then (.error .AssertionFailure, s)
  else if (s.txs ctb).aborted then
    if (s.txs ctb).amIIrrevocable then (.error .AssertionFailure, s)
    else abortThrow th ctb .CommitFailedException s
  else
    let keys := (s.txs ctb).wsetBuffers.keys
    let s1 := if (s.txs ctb).amIIrrevocable then storeDirtyIrr true keys s
              else storeDirty true keys s
    let s2 := killReaders th ctb s1
    if (s2.txs ctb).amIIrrevocable then (.ok (), commitFinish th ctb s2)
    else if (s2.txs ctb).cleanReadsetLock then
      abortThrow th ctb .CommitFailedException
        (storeDirty false (s2.txs ctb).wsetBuffers.keys s2)
    else
      let s3 := s2.modTx ctb fun t => { t with cleanReadsetLock := true }
      if (s3.txs ctb).commitLock then
        abortThrow th ctb .CommitFailedException
          (storeDirty false (s3.txs ctb).wsetBuffers.keys s3)
      else
        let s4 := s3.modTx ctb fun t => { t with commitLock := true }
        (.ok (), commitFinish th ctb s4)

/-- The tail of `Variable::irrAcquire` after the `do ... while(false)` block. -/
def irrAcquireCopy (ctb v : Nat) (wantReadOnly : Bool) (s : State) : State :=
  let buffer := Buf.alloc s.nextBuf
  let s1 := s.newT (s.heap (s.vars v).varPtr)
  if wantReadOnly then setRset ctb v buffer s1 else setWset ctb v buffer s1

/-- The function `Variable::irrAcquire`. -/
def irrAcquire (ctb v : Nat) (wantReadOnly : Bool) (s : State) : Res Unit :=
  let s1 := s.modVar v fun x => { x with usedByIrr := true }
  if !(s1.vars v).lock then
    let s2 := s1.modVar v fun x => { x with lock := true }
    let s3 := s2.modTx ctb fun t => { t with locksHeld := t.locksHeld.insert v }
    (.ok (), irrAcquireCopy ctb v wantReadOnly s3)
  else
    match s1.lockWeak (s1.vars v).mostRecentLockOwner with
    | none => (.ok (), irrAcquireCopy ctb v wantReadOnly s1)
    | some lockOwner =>
      if !(s1.txs lockOwner).commitLock then
        let s2 := s1.modTx lockOwner fun t => { t with commitLock := true, aborted := true }
        (.ok (), irrAcquireCopy ctb v wantReadOnly s2)
      else if (s1.txs lockOwner).aborted || (s1.txs lockOwner).comitted then
        (.ok (), irrAcquireCopy ctb v wantReadOnly s1)
      else
        match (s1.txs lockOwner).wsetBuffers.lookup v with
        | none => (.error .AssertionFailure, s1)
        | some hijackedBuffer =>
          let s2 := s1.modTx ctb fun t =>
            { t with hijackedWsetBuffers := t.hijackedWsetBuffers.insert v hijackedBuffer }
          let buffer := Buf.alloc s2.nextBuf
          let s3 := s2.newT (s2.heap hijackedBuffer)
          (.ok (), setWset ctb v buffer s3)

/-- The functions `Variable::ro` and `Variable::roIrr`; `fuel` bounds the mutual recursion. -/
def roFuel : Nat → Nat → Nat → State → Res Buf
  | 0, _, _, s => (.error .FuelExhausted, s)
  | fuel + 1, th, v, s =>
    match s.currentTransaction th with
    | none =>
      match s.nonTransAccess with
      | some e => (.error e, s)
      | none => (.ok (s.vars v).varPtr, s)
    | some ctb =>
      match (s.txs ctb).rsetBuffers.lookup v with
      | some buffer => (.ok buffer, s)
      | none =>
        match (s.txs ctb).wsetBuffers.lookup v with
        | some buffer => (.ok buffer, s)
        | none =>
          if (s.txs ctb).amIIrrevocable then
            -- roIrr
            match irrAcquire ctb v true s with
            | (.error e, s1) => (.error e, s1)
            | (.ok _, s1) => roFuel fuel th v s1
          else
            let s1 := s.modVar v fun x =>
              { x with readers := Function.update x.readers th (some ctb) }
            if (s1.vars v).dirty || (s1.vars v).dirtyIrr then
              abortThrow th ctb .ReadFailedException s1
            else
              let buffer := Buf.alloc s1.nextBuf
              let s2 := s1.newT (s1.heap (s1.vars v).varPtr)
              if (s2.txs ctb).aborted then abortThrow th ctb .ReadFailedException s2
              else (.ok buffer, setRset ctb v buffer s2)

/-- The function `Variable::ro` called by thread `th` on variable `v`. -/
def ro (th v : Nat) (s : State) : Res Buf := roFuel 2 th v s

/-- The function `Variable::rw` from its second test of `usedByIrr` on (lines 269-312): what
a revocable transaction does once it has taken the lock of the variable and stored
`mostRecentLockOwner`; `s1` is the state at that point. -/
def rwLocked (th ctb v : Nat) (s1 : State) : Res Buf :=
  if (s1.vars v).usedByIrr then
    abortThrow th ctb .WriteFailedException (s1.modVar v fun x => { x with lock := false })
  else
    let r : Buf × State :=
      match (s1.txs ctb).rsetBuffers.lookup v with
      | some readBuffer => (readBuffer, unsetRset ctb v s1)
      | none => (Buf.alloc s1.nextBuf, s1.newT (s1.heap (s1.vars v).varPtr))
    let s2 := r.2
    if (s2.txs ctb).aborted then
      abortThrow th ctb .WriteFailedException (s2.modVar v fun x => { x with lock := false })
    else
      let s3 := setWset ctb v r.1 s2
      (.ok r.1, s3.modTx ctb fun t => { t with locksHeld := t.locksHeld.insert v })

/-- The functions `Variable::rw` and `Variable::rwIrr`; `fuel` bounds the mutual recursion. -/
def rwFuel : Nat → Nat → Nat → State → Res Buf
  | 0, _, _, s => (.error .FuelExhausted, s)
  | fuel + 1, th, v, s =>
    match s.currentTransaction th with
    | none =>
      match s.nonTransAccess with
      | some e => (.error e, s)
      | none => (.ok (s.vars v).varPtr, s)
    | some ctb =>
      match (s.txs ctb).wsetBuffers.lookup v with
      | some buffer => (.ok buffer, s)
      | none =>
        if (s.txs ctb).amIIrrevocable then
          -- rwIrr
          match (s.txs ctb).rsetBuffers.lookup v with
          | some readBuffer => rwFuel fuel th v (setWset ctb v readBuffer (unsetRset ctb v s))
          | none =>
            match irrAcquire ctb v false s with
            | (.error e, s1) => (.error e, s1)
            | (.ok _, s1) => rwFuel fuel th v s1
        else if (s.vars v).usedByIrr then abortThrow th ctb .WriteFailedException s
        else if (s.vars v).lock then abortThrow th ctb .WriteFailedException s
        else
          rwLocked th ctb v (s.modVar v fun x =>
            { x with lock := true, previousLockOwner := x.mostRecentLockOwner,
                     mostRecentLockOwner := some ctb })

/-- The function `Variable::rw` called by thread `th` on variable `v`. -/
def rw (th v : Nat) (s : State) : Res Buf := rwFuel 2 th v s

/-- The function `beginT`. -/
def beginT (th : Nat) (s : State) : Res Unit :=
  match s.currentTransaction th with
  | some _ => (.error .InvalidUseException, s)
  | none =>
    (.ok (), { s with
      txs := Function.update s.txs s.nextTx { alive := true }
      nextTx := s.nextTx + 1
      currentTransaction := Function.update s.currentTransaction th (some s.nextTx) })

/-- The function `abortT`. -/
def abortT (th : Nat) (s : State) : Res Unit :=
  match s.currentTransaction th with
  | none => (.error .InvalidUseException, s)
  | some ctb => abort th ctb s

/-- The function `irrT`. -/
def irrT (th : Nat) (s : State) : Res Unit :=
  match s.currentTransaction th with
  | none => (.error .InvalidUseException, s)
  | some ctb => irr th ctb s

/-- The function `commitT`. -/
def commitT (th : Nat) (s : State) : Res Unit :=
  match s.currentTransaction th with
  | none => (.error .InvalidUseException, s)
  | some ctb => commit th ctb s

/-- The user statement `v.rw() = val`: the reference returned by `rw` is assigned to. -/
def assign (th v : Nat) (val : Int) (s : State) : Res Unit :=
  match rw th v s with
  | (.error e, s1) => (.error e, s1)
  | (.ok buffer, s1) => (.ok (), { s1 with heap := Function.update s1.heap buffer val })

/-- The calls a thread can make. -/
inductive Op where
  | beginT
  | abortT
  | irrT
  | commitT
  | ro (v : Nat)
  | rw (v : Nat)
  | assign (v : Nat) (val : Int)
  deriving DecidableEq, Repr

/-- Runs one call of thread `th`; the reference returned by `ro`/`rw` is dropped. -/
def exec (th : Nat) (op : Op) (s : State) : Res Unit :=
  match op with
  | .beginT => beginT th s
  | .abortT => abortT th s
  | .irrT => irrT th s
  | .commitT => commitT th s
  | .ro v => ((ro th v s).1.map fun _ => (), (ro th v s).2)
  | .rw v => ((rw th v s).1.map fun _ => (), (rw th v s).2)
  | .assign v val => assign th v val s

/-- The state before any transaction: every variable constructed with `Variable(T val)`,
from `vals`; no transaction object; the hooks as configured. -/
def initState (maxThreadNum : Nat) (vals : Nat → Int) (nonTransAccess forcingAbortOnIrr : Option Exc) :
    State where
  vars := fun v => { varPtr := Buf.init v }
  txs := fun _ => {}
  nextTx := 0
  heap := fun b => match b with
    | Buf.init v => vals v
    | Buf.alloc _ => 0
  nextBuf := 0
  irrTransactionLock := false
  currentTransaction := fun _ => none
  maxThreadNum := maxThreadNum
  nonTransAccess := nonTransAccess
  forcingAbortOnIrr := forcingAbortOnIrr

/-- The state of a freshly started program with the default hooks of `tmapi.cpp`. -/
def defaultState (vals : Nat → Int) : State :=
  initState 32 vals (some .InvalidUseException) (some .InvalidUseException)

/-- States reachable from an initial state by complete calls of threads whose number is below `maxThreadNum`. -/
inductive Reachable : State → Prop where
  | init (n : Nat) (vals : Nat → Int) (h1 h2 : Option Exc) : Reachable (initState n vals h1 h2)
  | step (s : State) (th : Nat) (op : Op) :
      Reachable s → th < s.maxThreadNum → Reachable (exec th op s).2

/-! ## Auxiliary definitions for the proofs -/

/-- A loop storing to one field of every variable in a list: the variables of the list are
changed by `g`, the others are untouched, and nothing else in the state moves. -/
def mapVars (g : Variable → Variable) (vs : List Nat) (s : State) : State :=
  vs.foldl (fun st v => st.modVar v g) s

/-- The transaction holds `b` as the buffer of some variable of its read or write set. -/
def Transaction.owns (t : Transaction) (b : Buf) : Prop :=
  ∃ v, t.rsetBuffers.lookup v = some b ∨ t.wsetBuffers.lookup v = some b

/-- What holds in every state between two calls. -/
structure Inv (s : State) : Prop where
  alive_lt : ∀ x, (s.txs x).alive → x < s.nextTx
  cur_alive : ∀ t x, s.currentTransaction t = some x → (s.txs x).alive
  cur_inj : ∀ t u x, s.currentTransaction t = some x → s.currentTransaction u = some x → t = u
  readers_lt : ∀ v i x, (s.vars v).readers i = some x → x < s.nextTx
  readers_cur : ∀ v i x, (s.vars v).readers i = some x → (s.txs x).alive →
    s.currentTransaction i = some x
  not_comitted : ∀ x, (s.txs x).alive → (s.txs x).comitted = false
  irr_locks : ∀ x, (s.txs x).alive → (s.txs x).amIIrrevocable →
    (s.txs x).cleanReadsetLock ∧ (s.txs x).commitLock ∧ (s.txs x).aborted = false ∧
      s.irrTransactionLock
  irr_unique : ∀ x y, (s.txs x).alive → (s.txs y).alive → (s.txs x).amIIrrevocable →
    (s.txs y).amIIrrevocable → x = y
  mrlo_lt : ∀ v x, (s.vars v).mostRecentLockOwner = some x → x < s.nextTx
  mrlo_wset : ∀ v x, (s.vars v).mostRecentLockOwner = some x → (s.txs x).alive →
    v ∈ (s.txs x).wsetBuffers
  cl_dead : ∀ x, (s.txs x).alive → (s.txs x).commitLock →
    (s.txs x).aborted ∨ (s.txs x).amIIrrevocable
  crl_dead : ∀ x, (s.txs x).alive → (s.txs x).cleanReadsetLock →
    (s.txs x).aborted ∨ (s.txs x).amIIrrevocable
  lock_excl : ∀ x y v, (s.txs x).alive → (s.txs y).alive → v ∈ (s.txs x).locksHeld →
    v ∈ (s.txs y).locksHeld → x = y
  held_locked : ∀ x v, (s.txs x).alive → v ∈ (s.txs x).locksHeld → (s.vars v).lock
  wset_held : ∀ x v, (s.txs x).alive → (s.txs x).amIIrrevocable = false →
    v ∈ (s.txs x).wsetBuffers →
    v ∈ (s.txs x).locksHeld ∧ (s.vars v).mostRecentLockOwner = some x
  hij_empty : ∀ x, (s.txs x).alive → (s.txs x).hijackedWsetBuffers = ∅
  var_lt : ∀ w n, (s.vars w).varPtr = Buf.alloc n → n < s.nextBuf
  buf_lt : ∀ x b, (s.txs x).alive → (s.txs x).owns b → ∃ n, b = Buf.alloc n ∧ n < s.nextBuf
  buf_not_auth : ∀ x b w, (s.txs x).alive → (s.txs x).owns b → (s.vars w).varPtr ≠ b
  buf_disj : ∀ x y b, (s.txs x).alive → (s.txs y).alive → (s.txs x).owns b →
    (s.txs y).owns b → x = y
  sets_disj : ∀ x v, (s.txs x).alive → v ∈ (s.txs x).rsetBuffers → v ∉ (s.txs x).wsetBuffers
  ab_locked : ∀ x, (s.txs x).alive → (s.txs x).aborted →
    (s.txs x).cleanReadsetLock ∨ (s.txs x).commitLock

/-- What a call of one thread may do to the transaction object of another thread: only take
one of its two locks and mark it aborted. -/
structure Touched (t t' : Transaction) : Prop where
  rset : t'.rsetBuffers = t.rsetBuffers
  wset : t'.wsetBuffers = t.wsetBuffers
  hij : t'.hijackedWsetBuffers = t.hijackedWsetBuffers
  locks : t'.locksHeld = t.locksHeld
  alive : t'.alive = t.alive
  comitted : t'.comitted = t.comitted
  irr : t'.amIIrrevocable = t.amIIrrevocable
  crl : t.cleanReadsetLock → t'.cleanReadsetLock
  cl : t.commitLock → t'.commitLock
  ab : t.aborted → t'.aborted
  kill : t'.aborted → t.aborted ∨ t.cleanReadsetLock = false ∨ t.commitLock = false
  crl_ab : t'.cleanReadsetLock → t.cleanReadsetLock ∨ t'.aborted
  cl_ab : t'.commitLock → t.commitLock ∨ t'.aborted
  ab_lock : t'.aborted → t.aborted ∨ t'.cleanReadsetLock ∨ t'.commitLock

/-- The cell was obtained from `new T` between the two states. -/
def Fresh (s s' : State) (b : Buf) : Prop := ∃ n, b = Buf.alloc n ∧ s.nextBuf ≤ n ∧ n < s'.nextBuf

/-- Footprint of a call of thread `th` after which its transaction `c` goes on. -/
structure Lives (th c : Nat) (s s' : State) : Prop where
  cur : s.currentTransaction th = some c
  cur_eq : s'.currentTransaction = s.currentTransaction
  nextTx_eq : s'.nextTx = s.nextTx
  nextBuf_le : s.nextBuf ≤ s'.nextBuf
  others : ∀ y, y ≠ c → Touched (s.txs y) (s'.txs y)
  c_alive : (s'.txs c).alive = (s.txs c).alive
  c_comitted : (s'.txs c).comitted = (s.txs c).comitted
  c_aborted : (s'.txs c).aborted = (s.txs c).aborted
  c_hij : (s'.txs c).hijackedWsetBuffers = (s.txs c).hijackedWsetBuffers
  c_irr : (s.txs c).amIIrrevocable → (s'.txs c).amIIrrevocable
  c_irr_new : (s'.txs c).amIIrrevocable → (s.txs c).amIIrrevocable = false →
    s.irrTransactionLock = false ∧ s'.irrTransactionLock ∧ (s'.txs c).aborted = false ∧
    (s'.txs c).cleanReadsetLock ∧ (s'.txs c).commitLock
  c_crl : (s.txs c).cleanReadsetLock → (s'.txs c).cleanReadsetLock
  c_cl : (s.txs c).commitLock → (s'.txs c).commitLock
  c_crl_new : (s'.txs c).cleanReadsetLock → (s.txs c).cleanReadsetLock ∨ (s'.txs c).amIIrrevocable
  c_cl_new : (s'.txs c).commitLock → (s.txs c).commitLock ∨ (s'.txs c).amIIrrevocable
  irrLock_mono : s.irrTransactionLock → s'.irrTransactionLock
  c_locks : ∀ v, v ∈ (s.txs c).locksHeld → v ∈ (s'.txs c).locksHeld
  c_locks_new : ∀ v, v ∈ (s'.txs c).locksHeld → v ∉ (s.txs c).locksHeld →
    (s.vars v).lock = false ∧ (s'.vars v).lock
  c_owns : ∀ b, (s'.txs c).owns b → (s.txs c).owns b ∨ Fresh s s' b
  c_wset_mono : ∀ v, v ∈ (s.txs c).wsetBuffers → v ∈ (s'.txs c).wsetBuffers
  c_disj : ∀ v, v ∈ (s'.txs c).rsetBuffers → v ∉ (s'.txs c).wsetBuffers
  c_wset_new : ∀ v, (s'.txs c).amIIrrevocable = false → v ∈ (s'.txs c).wsetBuffers →
    v ∉ (s.txs c).wsetBuffers →
    v ∈ (s'.txs c).locksHeld ∧ (s'.vars v).mostRecentLockOwner = some c
  varPtr_eq : ∀ v, (s'.vars v).varPtr = (s.vars v).varPtr
  readers : ∀ v i x, (s'.vars v).readers i = some x →
    (s.vars v).readers i = some x ∨ (i = th ∧ x = c)
  mrlo : ∀ v, (s'.vars v).mostRecentLockOwner = (s.vars v).mostRecentLockOwner ∨
    ((s'.vars v).mostRecentLockOwner = some c ∧ (s.vars v).lock = false ∧
      v ∈ (s'.txs c).wsetBuffers)
  lock : ∀ v, (s'.vars v).lock = (s.vars v).lock ∨
    ((s.vars v).lock = false ∧ v ∈ (s'.txs c).locksHeld ∧ v ∉ (s.txs c).locksHeld)

/-- Footprint of a call of thread `th` that ends its transaction `c` (commit or abort). -/
structure Dies (th c : Nat) (s s' : State) : Prop where
  cur : s.currentTransaction th = some c
  cur_eq : s'.currentTransaction = Function.update s.currentTransaction th none
  dead : (s'.txs c).alive = false
  nextTx_eq : s'.nextTx = s.nextTx
  nextBuf_le : s.nextBuf ≤ s'.nextBuf
  others : ∀ y, y ≠ c → Touched (s.txs y) (s'.txs y)
  varPtr : ∀ w, (s'.vars w).varPtr = (s.vars w).varPtr ∨
    (s.txs c).wsetBuffers.lookup w = some (s'.vars w).varPtr
  readers : ∀ v i x, (s'.vars v).readers i = some x →
    (s.vars v).readers i = some x ∨ (i = th ∧ x = c)
  mrlo : ∀ v, (s'.vars v).mostRecentLockOwner = (s.vars v).mostRecentLockOwner ∨
    ((s'.vars v).mostRecentLockOwner = some c ∧ (s.vars v).lock = false)
  lock : ∀ v, (s'.vars v).lock = (s.vars v).lock ∨ v ∈ (s.txs c).locksHeld
  irrLock : s'.irrTransactionLock = s.irrTransactionLock ∨ (s.txs c).amIIrrevocable

/-- The parts of the state no loop over variables touches. -/
structure SameButVars (s s' : State) : Prop where
  txs : s'.txs = s.txs
  heap : s'.heap = s.heap
  nextTx : s'.nextTx = s.nextTx
  nextBuf : s'.nextBuf = s.nextBuf
  irrLock : s'.irrTransactionLock = s.irrTransactionLock
  cur : s'.currentTransaction = s.currentTransaction
  max : s'.maxThreadNum = s.maxThreadNum
  hookN : s'.nonTransAccess = s.nonTransAccess
  hookF : s'.forcingAbortOnIrr = s.forcingAbortOnIrr

/-- Footprint of the statements a call runs before the final `cleanup()` of its
transaction `c`: `s` is the state at the call, `s1` the state in which `cleanup` starts. -/
structure PreDie (th c : Nat) (s s1 : State) : Prop where
  cur : s.currentTransaction th = some c
  cur_eq : s1.currentTransaction = s.currentTransaction
  nextTx_eq : s1.nextTx = s.nextTx
  nextBuf_le : s.nextBuf ≤ s1.nextBuf
  others : ∀ y, y ≠ c → Touched (s.txs y) (s1.txs y)
  c_locks : ∀ v, v ∈ (s1.txs c).locksHeld → v ∈ (s.txs c).locksHeld ∨ (s.vars v).lock = false
  varPtr : ∀ w, (s1.vars w).varPtr = (s.vars w).varPtr ∨
    (s.txs c).wsetBuffers.lookup w = some (s1.vars w).varPtr
  readers : ∀ v i x, (s1.vars v).readers i = some x →
    (s.vars v).readers i = some x ∨ (i = th ∧ x = c)
  mrlo : ∀ v, (s1.vars v).mostRecentLockOwner = (s.vars v).mostRecentLockOwner ∨
    ((s1.vars v).mostRecentLockOwner = some c ∧ (s.vars v).lock = false)
  lock : ∀ v, (s1.vars v).lock = (s.vars v).lock ∨ v ∈ (s1.txs c).locksHeld ∨
    v ∈ (s.txs c).locksHeld
  irrLock : s1.irrTransactionLock = s.irrTransactionLock ∨ (s.txs c).amIIrrevocable

/-- Footprint of `killReaders`: only transaction objects change, and only by being killed. -/
structure KillStep (s s' : State) : Prop where
  vars : s'.vars = s.vars
  heap : s'.heap = s.heap
  nextTx : s'.nextTx = s.nextTx
  nextBuf : s'.nextBuf = s.nextBuf
  irrLock : s'.irrTransactionLock = s.irrTransactionLock
  cur : s'.currentTransaction = s.currentTransaction
  max : s'.maxThreadNum = s.maxThreadNum
  hookN : s'.nonTransAccess = s.nonTransAccess
  hookF : s'.forcingAbortOnIrr = s.forcingAbortOnIrr
  touched : ∀ y, Touched (s.txs y) (s'.txs y)

/-! ## Concrete runs -/

/-- A freshly started program with the default hooks; every variable starts at 100. -/
def start : State := defaultState (fun _ => 100)

/-- Thread 0 has begun a transaction and assigned 5 to variable 0. -/
def wroteFive : State := (exec 0 (.assign 0 5) (exec 0 .beginT start).2).2

/-- The cell existed in state `s`: a cell of a variable, or one already taken from `new T`. -/
def Old (s : State) (b : Buf) : Prop := ∀ n, b = Buf.alloc n → n < s.nextBuf

/-- Footprint of everything but a successful commit and an assignment: no variable is
repointed and no existing cell is written. -/
structure Quiet (s s' : State) : Prop where
  nextBuf_le : s.nextBuf ≤ s'.nextBuf
  heap : ∀ b, Old s b → s'.heap b = s.heap b
  varPtr : ∀ w, (s'.vars w).varPtr = (s.vars w).varPtr

/-- Runs the calls in order, each by the given thread, and returns the final state. -/
def run : List (Nat × Op) → State → State
  | [], s => s
  | c :: cs, s => run cs (exec c.1 c.2 s).2

/-- The user statement `v.rw() = val`, the one call that writes a cell. -/
def Op.isAssign : Op → Bool
  | .assign _ _ => true
  | _ => false

/-- No call of the run is a `commitT` that returns normally; every call is made by a thread
below `maxThreadNum`, and an assignment is made inside a transaction unless the hook for
non-transactional access throws (outside a transaction, with a hook that returns, `rw` hands
out the cell of the variable itself). -/
def NoCommit : List (Nat × Op) → State → Prop
  | [], _ => True
  | c :: cs, s =>
    c.1 < s.maxThreadNum ∧
    (c.2.isAssign = true → s.currentTransaction c.1 ≠ none ∨ s.nonTransAccess ≠ none) ∧
    ¬ (c.2 = Op.commitT ∧ (exec c.1 c.2 s).1 = .ok ()) ∧
    NoCommit cs (exec c.1 c.2 s).2

/-- Whether a run is free of successful commits can be computed. -/
instance decNoCommit : (calls : List (Nat × Op)) → (s : State) → Decidable (NoCommit calls s)
  | [], _ => isTrue trivial
  | c :: cs, s =>
    let _ := decNoCommit cs (exec c.1 c.2 s).2
    show Decidable (c.1 < s.maxThreadNum ∧
      (c.2.isAssign = true → s.currentTransaction c.1 ≠ none ∨ s.nonTransAccess ≠ none) ∧
      ¬ (c.2 = Op.commitT ∧ (exec c.1 c.2 s).1 = .ok ()) ∧
      NoCommit cs (exec c.1 c.2 s).2) from inferInstance

/-- A run without a successful commit: thread 0 writes variable 0 and is killed by the
irrevocable transaction of thread 1, its `commitT` fails; it starts again, writes
variable 2 and calls `abortT`. -/
def abortingRun : List (Nat × Op) :=
  [(0, .beginT), (0, .assign 0 5), (1, .beginT), (1, .irrT), (1, .ro 0), (0, .commitT),
   (0, .beginT), (0, .assign 2 1), (0, .abortT)]

/-- Thread 0 holds the write lock of variable 0 (state `wroteFive`); thread 1 has begun a
transaction and promoted it to irrevocable. -/
def rivals : State := (exec 1 .irrT (exec 1 .beginT wroteFive).2).2

/-- How a failed call of thread `th` leaves its transaction `c`: marked aborted, destroyed,
every variable lock it held at the call released, and the slot of the thread empty. -/
structure Ended (th c : Nat) (s s' : State) : Prop where
  aborted : (s'.txs c).aborted = true
  dead : (s'.txs c).alive = false
  unlocked : ∀ v, v ∈ (s.txs c).locksHeld → (s'.vars v).lock = false
  slot : s'.currentTransaction th = none

/-- Thread 0 holds the write lock of variable 0 (state `wroteFive`); thread 1 has begun a
transaction. -/
def contender : State := (exec 1 .beginT wroteFive).2

/-- No lock is left behind by transaction `c`: a variable locked in `s'` was locked in `s`
already, and not by `c`. -/
def LocksReleased (c : Nat) (s s' : State) : Prop :=
  ∀ w, (s'.vars w).lock = true → (s.vars w).lock = true ∧ w ∉ (s.txs c).locksHeld

/-- The configuration of the runtime, which no call changes: `maxThreadNum` and the hooks. -/
def State.config (s : State) : Nat × Option Exc × Option Exc :=
  (s.maxThreadNum, s.nonTransAccess, s.forcingAbortOnIrr)

/-- Every call of thread `th` that needs a transaction is rejected in state `s`, which it
leaves as it is: `abortT`, `irrT` and `commitT` throw `InvalidUseException`, and `ro` and
`rw` throw what the hook `nonTransAccess` throws. -/
def Rejected (th : Nat) (s : State) : Prop :=
  abortT th s = (.error .InvalidUseException, s) ∧
  irrT th s = (.error .InvalidUseException, s) ∧
  commitT th s = (.error .InvalidUseException, s) ∧
  ∀ v e, s.nonTransAccess = some e →
    ro th v s = (.error e, s) ∧ rw th v s = (.error e, s)

/-- The reader registrations: slot `i` of the `readers` array of variable `v`. -/
def State.readerSlots (s : State) : Nat → Nat → Option Nat := fun v i => (s.vars v).readers i

/-- Transaction `a` stays the current transaction of thread `ta` before and after every call
of the run. -/
def Active (ta a : Nat) : List (Nat × Op) → State → Prop
  | [], s => s.currentTransaction ta = some a
  | c :: cs, s => s.currentTransaction ta = some a ∧ Active ta a cs (exec c.1 c.2 s).2

/-- Thread 0 has begun a transaction and read variable 0; thread 1 has begun a transaction
and assigned 7 to variable 0. -/
def poised : State := run [(0, .beginT), (0, .ro 0), (1, .beginT), (1, .assign 0 7)] start

/-- Thread `tb` promotes its transaction with `irrT` and then assigns `val` to variable `v`;
the state after the two calls. -/
def promoteAndWrite (tb v : Nat) (val : Int) (s : State) : State :=
  (assign tb v val (irrT tb s).2).2

/-! ## Flags and locks between calls -/

/-- The `dirty` and `dirtyIrr` flags of all variables. -/
def State.dirtySlots (s : State) : Nat → Bool × Bool :=
  fun v => ((s.vars v).dirty, (s.vars v).dirtyIrr)

/-- No `dirty` and no `dirtyIrr` flag is raised. -/
def Clean (s : State) : Prop := ∀ v, (s.vars v).dirty = false ∧ (s.vars v).dirtyIrr = false

/-- No `usedByIrr` flag is raised between the two states. -/
def UsedLe (s s' : State) : Prop := ∀ v, (s'.vars v).usedByIrr = true → (s.vars v).usedByIrr = true

/-- What holds between two calls besides `Inv`: every transaction object belongs to a thread,
every held lock, raised `usedByIrr` flag and the held `irrTransactionLock` has an owner, no
`dirty` flag is raised, and a committed transaction holds both its locks and is not marked
aborted. -/
structure Tidy (s : State) : Prop where
  owner : ∀ x, (s.txs x).alive → ∃ t, s.currentTransaction t = some x
  lock_owner : ∀ v, (s.vars v).lock → ∃ x, (s.txs x).alive ∧ v ∈ (s.txs x).locksHeld
  used_owner : ∀ v, (s.vars v).usedByIrr → ∃ x, (s.txs x).alive ∧ (s.txs x).amIIrrevocable ∧
    (v ∈ (s.txs x).rsetBuffers ∨ v ∈ (s.txs x).wsetBuffers)
  flag_owner : s.irrTransactionLock → ∃ x, (s.txs x).alive ∧ (s.txs x).amIIrrevocable
  held_sets : ∀ x v, (s.txs x).alive → v ∈ (s.txs x).locksHeld →
    v ∈ (s.txs x).wsetBuffers ∨ ((s.txs x).amIIrrevocable ∧ v ∈ (s.txs x).rsetBuffers)
  clean : Clean s
  fate : ∀ x, (s.txs x).comitted →
    (s.txs x).cleanReadsetLock ∧ (s.txs x).commitLock ∧ (s.txs x).aborted = false

/-- What a call of a thread with current transaction `c` does to flags and locks, beyond the
footprints `Lives` and `Dies`. -/
structure Extra (c : Nat) (s s' : State) : Prop where
  used_le : ∀ v, (s'.vars v).usedByIrr → (s.vars v).usedByIrr ∨
    ((s'.txs c).alive ∧ (s'.txs c).amIIrrevocable ∧
      (v ∈ (s'.txs c).rsetBuffers ∨ v ∈ (s'.txs c).wsetBuffers))
  used_gone : (s'.txs c).alive = false → (s.txs c).amIIrrevocable →
    ∀ v, v ∈ (s.txs c).rsetBuffers ∨ v ∈ (s.txs c).wsetBuffers → (s'.vars v).usedByIrr = false
  sets_mono : (s'.txs c).alive → ∀ v, v ∈ (s.txs c).rsetBuffers ∨ v ∈ (s.txs c).wsetBuffers →
    v ∈ (s'.txs c).rsetBuffers ∨ v ∈ (s'.txs c).wsetBuffers
  flag_le : s'.irrTransactionLock → s.irrTransactionLock ∨
    ((s'.txs c).alive ∧ (s'.txs c).amIIrrevocable)
  flag_gone : (s'.txs c).alive = false → (s.txs c).amIIrrevocable →
    s'.irrTransactionLock = false
  unlocked : (s'.txs c).alive = false → ∀ v, v ∈ (s.txs c).locksHeld → (s'.vars v).lock = false
  held : (s'.txs c).alive → ∀ v, v ∈ (s'.txs c).locksHeld → v ∈ (s.txs c).locksHeld ∨
    v ∈ (s'.txs c).wsetBuffers ∨ ((s'.txs c).amIIrrevocable ∧ v ∈ (s'.txs c).rsetBuffers)
  fate : (s'.txs c).alive = false → (s'.txs c).comitted →
    (s'.txs c).cleanReadsetLock ∧ (s'.txs c).commitLock ∧ (s'.txs c).aborted = false

/-! ## States and programs for the claims on promotion, abort and single-threaded runs -/

/-- A freshly started program in which the hook `forcingAbortOnIrr` was replaced by a
function that returns. -/
def lenient : State := initState 32 (fun _ => 100) (some .InvalidUseException) none

/-- Thread 0 begins a transaction, reads variable 0, promotes the transaction and assigns 3
to variable 1. -/
def promotion : List (Nat × Op) := [(0, .beginT), (0, .ro 0), (0, .irrT), (0, .assign 1 3)]

/-- The state after `promotion` with the default hooks. -/
def pledged : State := run promotion start

/-- The state after `promotion` with a returning forced-abort hook. -/
def released : State := run promotion lenient

/-- Thread 1 begins a transaction, promotes it and reads variable 0. -/
def irrRead : State := run [(1, .beginT), (1, .irrT), (1, .ro 0)] start

/-- Thread 0 has read variable 0 in a revocable transaction; then thread 1 begins a
transaction, promotes it and reads variable 0 as well. -/
def shadowed : State :=
  run [(0, .beginT), (0, .ro 0), (1, .beginT), (1, .irrT), (1, .ro 0)] start

/-- Thread 1 runs an irrevocable transaction that has read variable 0; thread 0 has begun a
revocable transaction. -/
def bystander : State := (exec 0 .beginT irrRead).2

/-- Thread 0 has committed the transaction that assigned 5 to variable 0. -/
def settled : State := (exec 0 .commitT wroteFive).2

/-! ## Single-threaded runs -/

/-- The calls of one transaction of the workload of `speed.cpp` (`runTransaction`): `beginT`,
then `irrT` if the transaction is to be irrevocable, then the accesses, then `commitT`. -/
def transactionCalls (irrevocable : Bool) (accesses : List Op) : List Op :=
  .beginT :: ((if irrevocable then [.irrT] else []) ++ (accesses ++ [.commitT]))

/-- Transactions run one after another. -/
def workload : List (Bool × List Op) → List Op
  | [] => []
  | p :: ps => transactionCalls p.1 p.2 ++ workload ps

/-- The accesses of a transaction body: `ro`, `rw` and assignments through `rw`. -/
def Op.isAccess : Op → Bool
  | .ro _ => true
  | .rw _ => true
  | .assign _ _ => true
  | _ => false

/-- Thread `th` makes the calls one after another and stops at the first call that throws;
the boolean tells whether every call returned normally. -/
def runAll (th : Nat) : List Op → State → Bool × State
  | [], s => (true, s)
  | op :: ops, s =>
    if (exec th op s).1 = .ok () then runAll th ops (exec th op s).2
    else (false, (exec th op s).2)

/-- No thread has a transaction installed. -/
def Idle (s : State) : Prop := ∀ t, s.currentTransaction t = none

/-- Thread `th` runs transaction `c`, which is not marked aborted, and no other thread has a
transaction installed. -/
structure Running (th c : Nat) (s : State) : Prop where
  inv : Inv s
  tidy : Tidy s
  alone : ∀ t, t ≠ th → s.currentTransaction t = none
  cur : s.currentTransaction th = some c
  sound : (s.txs c).aborted = false

/-! ## States for the claims on quiescence and on hijacked buffers -/

/-- Thread 0 has written variable 0 and holds its lock; thread 1 begins a transaction,
promotes it and assigns 7 to variable 0, which marks the transaction of thread 0 aborted and
leaves the lock with it. -/
def seized : State :=
  run [(0, .beginT), (0, .assign 0 5), (1, .beginT), (1, .irrT), (1, .assign 0 7)] start

/-- After `seized` thread 1 commits and then the `commitT` of thread 0 fails. -/
def aftermath : State := run [(1, .commitT), (0, .commitT)] seized

/-- In state `rivals` (thread 0 has written 5 to its buffer of variable 0, thread 1 runs an
irrevocable transaction) the transaction of thread 0 is inside `commit`: it has set `dirty`
on its write set and taken `cleanReadsetLock` and `commitLock`, and has not published yet. -/
def committing : State :=
  (storeDirty true (rivals.txs 0).wsetBuffers.keys rivals).modTx 0 fun t =>
    { t with cleanReadsetLock := true, commitLock := true }

/-- Thread 1 assigns 9 to variable 0 in state `committing` and is inside `commit` as well:
it has set `dirtyIrr` on its write set. -/
def hijacking : State :=
  storeDirtyIrr true ((assign 1 0 9 committing).2.txs 1).wsetBuffers.keys
    (assign 1 0 9 committing).2

/-! ## The order of the lookups in ro -/

/-- The read operation as the specification words it (section 4.2): the write set is looked
up first, then the read set; the steps after the two lookups are those of `roFuel`. -/
def roSpecFuel : Nat → Nat → Nat → State → Res Buf
  | 0, _, _, s => (.error .FuelExhausted, s)
  | fuel + 1, th, v, s =>
    match s.currentTransaction th with
    | none =>
      match s.nonTransAccess with
      | some e => (.error e, s)
      | none => (.ok (s.vars v).varPtr, s)
    | some ctb =>
      match (s.txs ctb).wsetBuffers.lookup v with
      | some buffer => (.ok buffer, s)
      | none =>
        match (s.txs ctb).rsetBuffers.lookup v with
        | some buffer => (.ok buffer, s)
        | none =>
          if (s.txs ctb).amIIrrevocable then
            match irrAcquire ctb v true s with
            | (.error e, s1) => (.error e, s1)
            | (.ok _, s1) => roSpecFuel fuel th v s1
          else
            let s1 := s.modVar v fun x =>
              { x with readers := Function.update x.readers th (some ctb) }
            if (s1.vars v).dirty || (s1.vars v).dirtyIrr then
              abortThrow th ctb .ReadFailedException s1
            else
              let buffer := Buf.alloc s1.nextBuf
              let s2 := s1.newT (s1.heap (s1.vars v).varPtr)
              if (s2.txs ctb).aborted then abortThrow th ctb .ReadFailedException s2
              else (.ok buffer, setRset ctb v buffer s2)

/-- The read operation with the lookups in the order of the specification. -/
def roSpec (th v : Nat) (s : State) : Res Buf := roSpecFuel 2 th v s

/-- A state in which the transaction of thread 0 has variable 0 in its read set and in its
write set, bound to different buffers; no run of the program reaches it. -/
def overlapping : State :=
  setWset 0 0 (Buf.alloc 7) (exec 0 (.ro 0) (exec 0 .beginT start).2).2

/-! ## States inside the calls of other threads -/

/-- Every authoritative pointer is a cell of the program: the cell the variable was
constructed with, or a cell already obtained from `new T`. -/
def Allocated (s : State) : Prop := ∀ w n, (s.vars w).varPtr = Buf.alloc n → n < s.nextBuf

/-- In state `wroteFive` a committing thread has just won `cleanReadsetLock` of the
transaction of thread 0 in `killReaders` and has not stored `aborted` yet. -/
def raced : State := wroteFive.modTx 0 fun t => { t with cleanReadsetLock := true }

/-- In state `wroteFive` an irrevocable transaction has just won `commitLock` of the
transaction of thread 0 in `irrAcquire` and has not stored `aborted` yet. -/
def outbid : State := wroteFive.modTx 0 fun t => { t with commitLock := true }

/-- A run that starts with the hook for non-transactional access replaced by a function that
returns: thread 0 reads variable 0 outside a transaction, then writes variable 0 in a
transaction and calls `abortT`. -/
def lenientRun : List (Nat × Op) :=
  [(0, .ro 0), (0, .beginT), (0, .assign 0 5), (0, .abortT)]

/-- A freshly started program whose hook for non-transactional access returns. -/
def permissive : State := initState 32 (fun _ => 100) none (some .InvalidUseException)

/-- What the assertion of `Variable::irrAcquire` (variable.h line 398) relies on, for the
variable `v`: when the transaction recorded in `mostRecentLockOwner` is still alive, holds its
`commitLock` and is neither aborted nor committed, `v` is in its write set. `Variable::rw`
stores `mostRecentLockOwner` and enters the variable in the write set in one call, and a
revocable transaction takes its own `commitLock` only in `commit`, after its last `rw`. -/
def Owned (v : Nat) (s : State) : Prop :=
  ∀ x ∈ s.lockWeak (s.vars v).mostRecentLockOwner,
    (s.txs x).commitLock = true → (s.txs x).aborted = false → (s.txs x).comitted = false →
      (s.txs x).wsetBuffers.lookup v ≠ none

/-- Whether the assertion of `irrAcquire` is safe for a variable can be computed. -/
instance decOwned (v : Nat) (s : State) : Decidable (Owned v s) :=
  inferInstanceAs (Decidable (∀ x ∈ s.lockWeak (s.vars v).mostRecentLockOwner,
    (s.txs x).commitLock = true → (s.txs x).aborted = false → (s.txs x).comitted = false →
      (s.txs x).wsetBuffers.lookup v ≠ none))

/-- The irrevocable transaction `c` of thread `th` as `Transaction::irr` leaves it, in a
state in which the other threads may be inside calls: no other thread has `c` installed, the
object was created by an earlier `beginT` and is alive, it holds `cleanReadsetLock` and
`commitLock`, and it is neither marked aborted nor committed. -/
structure Promoted (th c : Nat) (s : State) : Prop where
  own : ∀ u, u ≠ th → s.currentTransaction u ≠ some c
  born : c < s.nextTx
  alive : (s.txs c).alive = true
  crl : (s.txs c).cleanReadsetLock = true
  cl : (s.txs c).commitLock = true
  aborted : (s.txs c).aborted = false
  comitted : (s.txs c).comitted = false

/-- The lock discipline of the flags of one transaction object: a committed transaction is
not marked aborted, and a committed or irrevocable transaction holds both of its own locks,
`cleanReadsetLock` and `commitLock`. -/
def Transaction.Sealed (t : Transaction) : Prop :=
  (t.comitted = true → t.aborted = false) ∧
  (t.comitted = true ∨ t.amIIrrevocable = true →
    t.cleanReadsetLock = true ∧ t.commitLock = true)

/-- The lock discipline of one transaction object can be computed. -/
instance decSealed (t : Transaction) : Decidable t.Sealed :=
  inferInstanceAs (Decidable ((t.comitted = true → t.aborted = false) ∧
    (t.comitted = true ∨ t.amIIrrevocable = true →
      t.cleanReadsetLock = true ∧ t.commitLock = true)))

/-- Every transaction object of the state respects the lock discipline of its flags. -/
def Sealed (s : State) : Prop := ∀ x, (s.txs x).Sealed

/-- Thread 2 begins a transaction in state `committing`, in which the transaction of
thread 0 is inside `commit` and has set `dirty` on variable 0. -/
def latecomer : State := (exec 2 .beginT committing).2

/-- In state `wroteFive` thread 0 is inside `rw` of variable 1: it has taken the lock and
stored `mostRecentLockOwner`, and meanwhile an irrevocable transaction has set `usedByIrr` in
`irrAcquire`. -/
def overtaken : State :=
  wroteFive.modVar 1 fun x =>
    { x with lock := true, previousLockOwner := x.mostRecentLockOwner,
             mostRecentLockOwner := some 0, usedByIrr := true }

/-- In state `wroteFive` thread 0 is inside `rw` of variable 1: it has taken the lock and
stored `mostRecentLockOwner`, and meanwhile an irrevocable transaction that asked for
variable 0 has won its `commitLock` and marked it aborted in `irrAcquire`. -/
def struck : State :=
  (wroteFive.modVar 1 fun x =>
    { x with lock := true, previousLockOwner := x.mostRecentLockOwner,
             mostRecentLockOwner := some 0 }).modTx 0 fun t =>
    { t with commitLock := true, aborted := true }

/-- What a step other than a successful commit may do to the flags of one transaction
object: the lock discipline is kept and `comitted` is not changed. -/
def Transaction.Keeps (t t' : Transaction) : Prop :=
  (t.Sealed → t'.Sealed) ∧ t'.comitted = t.comitted

/-- Footprint of a step on the flags of all transaction objects. -/
def Keeps (s s' : State) : Prop := ∀ x, (s.txs x).Keeps (s'.txs x)

/-! # Theorems -/

/-! ## Projections of the elementary state updates -/

section projections
variable (s : State)

@[simp] theorem modVar_txs (v f) : (s.modVar v f).txs = s.txs := rfl
@[simp] theorem modVar_heap (v f) : (s.modVar v f).heap = s.heap := rfl
@[simp] theorem modVar_nextTx (v f) : (s.modVar v f).nextTx = s.nextTx := rfl
@[simp] theorem modVar_nextBuf (v f) : (s.modVar v f).nextBuf = s.nextBuf := rfl
@[simp] theorem modVar_irrLock (v f) :
    (s.modVar v f).irrTransactionLock = s.irrTransactionLock := rfl
@[simp] theorem modVar_cur (v f) : (s.modVar v f).currentTransaction = s.currentTransaction := rfl
@[simp] theorem modVar_max (v f) : (s.modVar v f).maxThreadNum = s.maxThreadNum := rfl
@[simp] theorem modVar_hookN (v f) : (s.modVar v f).nonTransAccess = s.nonTransAccess := rfl
@[simp] theorem modVar_hookF (v f) : (s.modVar v f).forcingAbortOnIrr = s.forcingAbortOnIrr := rfl

theorem modVar_vars (v f w) :
    (s.modVar v f).vars w = if w = v then f (s.vars v) else s.vars w := by
  simp only [State.modVar, Function.update_apply]

@[simp] theorem modVar_vars_same (v f) : (s.modVar v f).vars v = f (s.vars v) := by
  simp [modVar_vars]

@[simp] theorem modVar_vars_ne (v f w) (h : w ≠ v) : (s.modVar v f).vars w = s.vars w := by
  simp [modVar_vars, h]

@[simp] theorem modTx_vars (x f) : (s.modTx x f).vars = s.vars := rfl
@[simp] theorem modTx_heap (x f) : (s.modTx x f).heap = s.heap := rfl
@[simp] theorem modTx_nextTx (x f) : (s.modTx x f).nextTx = s.nextTx := rfl
@[simp] theorem modTx_nextBuf (x f) : (s.modTx x f).nextBuf = s.nextBuf := rfl
@[simp] theorem modTx_irrLock (x f) :
    (s.modTx x f).irrTransactionLock = s.irrTransactionLock := rfl
@[simp] theorem modTx_cur (x f) : (s.modTx x f).currentTransaction = s.currentTransaction := rfl
@[simp] theorem modTx_max (x f) : (s.modTx x f).maxThreadNum = s.maxThreadNum := rfl
@[simp] theorem modTx_hookN (x f) : (s.modTx x f).nonTransAccess = s.nonTransAccess := rfl
@[simp] theorem modTx_hookF (x f) : (s.modTx x f).forcingAbortOnIrr = s.forcingAbortOnIrr := rfl

theorem modTx_txs (x f y) :
    (s.modTx x f).txs y = if y = x then f (s.txs x) else s.txs y := by
  simp only [State.modTx, Function.update_apply]

@[simp] theorem modTx_txs_same (x f) : (s.modTx x f).txs x = f (s.txs x) := by
  simp [modTx_txs]

@[simp] theorem modTx_txs_ne (x f y) (h : y ≠ x) : (s.modTx x f).txs y = s.txs y := by
  simp [modTx_txs, h]

@[simp] theorem newT_vars (val) : (s.newT val).vars = s.vars := rfl
@[simp] theorem newT_txs (val) : (s.newT val).txs = s.txs := rfl
@[simp] theorem newT_nextTx (val) : (s.newT val).nextTx = s.nextTx := rfl
@[simp] theorem newT_nextBuf (val) : (s.newT val).nextBuf = s.nextBuf + 1 := rfl
@[simp] theorem newT_irrLock (val) : (s.newT val).irrTransactionLock = s.irrTransactionLock := rfl
@[simp] theorem newT_cur (val) : (s.newT val).currentTransaction = s.currentTransaction := rfl
@[simp] theorem newT_max (val) : (s.newT val).maxThreadNum = s.maxThreadNum := rfl
@[simp] theorem newT_hookN (val) : (s.newT val).nonTransAccess = s.nonTransAccess := rfl
@[simp] theorem newT_hookF (val) : (s.newT val).forcingAbortOnIrr = s.forcingAbortOnIrr := rfl

theorem newT_heap (val b) :
    (s.newT val).heap b = if b = Buf.alloc s.nextBuf then val else s.heap b := by
  simp only [State.newT, Function.update_apply]

end projections

theorem mapVars_nil (g s) : mapVars g [] s = s := rfl

theorem mapVars_cons (g v vs s) : mapVars g (v :: vs) s = mapVars g vs (s.modVar v g) := rfl

theorem mapVars_frame (g : Variable → Variable) (vs : List Nat) (s : State) :
    (mapVars g vs s).txs = s.txs ∧ (mapVars g vs s).heap = s.heap ∧
    (mapVars g vs s).nextTx = s.nextTx ∧ (mapVars g vs s).nextBuf = s.nextBuf ∧
    (mapVars g vs s).irrTransactionLock = s.irrTransactionLock ∧
    (mapVars g vs s).currentTransaction = s.currentTransaction ∧
    (mapVars g vs s).maxThreadNum = s.maxThreadNum ∧
    (mapVars g vs s).nonTransAccess = s.nonTransAccess ∧
    (mapVars g vs s).forcingAbortOnIrr = s.forcingAbortOnIrr := by
  induction vs generalizing s with
  | nil => simp [mapVars_nil]
  | cons v vs ih => rw [mapVars_cons]; simpa using ih (s.modVar v g)

theorem mapVars_vars (g : Variable → Variable) (hg : ∀ x, g (g x) = g x) (vs : List Nat)
    (s : State) (w : Nat) :
    (mapVars g vs s).vars w = if w ∈ vs then g (s.vars w) else s.vars w := by
  induction vs generalizing s with
  | nil => simp [mapVars_nil]
  | cons v vs ih =>
    rw [mapVars_cons, ih]
    by_cases hw : w = v
    · subst hw; simp [hg]
    · simp [hw]

/-! ## The invariant of the states between calls -/

theorem Touched.same (t : Transaction) : Touched t t :=
  ⟨rfl, rfl, rfl, rfl, rfl, rfl, rfl, id, id, id, Or.inl, Or.inl, Or.inl, Or.inl⟩

theorem Touched.andThen {a b c : Transaction} (h1 : Touched a b) (h2 : Touched b c) :
    Touched a c := by
  constructor
  · rw [h2.rset, h1.rset]
  · rw [h2.wset, h1.wset]
  · rw [h2.hij, h1.hij]
  · rw [h2.locks, h1.locks]
  · rw [h2.alive, h1.alive]
  · rw [h2.comitted, h1.comitted]
  · rw [h2.irr, h1.irr]
  · exact fun h => h2.crl (h1.crl h)
  · exact fun h => h2.cl (h1.cl h)
  · exact fun h => h2.ab (h1.ab h)
  · intro h
    rcases h2.kill h with h | h | h
    · exact h1.kill h
    · right; left
      cases hh : a.cleanReadsetLock
      · rfl
      · rw [h1.crl hh] at h; exact absurd h (by simp)
    · right; right
      cases hh : a.commitLock
      · rfl
      · rw [h1.cl hh] at h; exact absurd h (by simp)
  · intro h
    rcases h2.crl_ab h with h | h
    · rcases h1.crl_ab h with h | h
      · exact Or.inl h
      · exact Or.inr (h2.ab h)
    · exact Or.inr h
  · intro h
    rcases h2.cl_ab h with h | h
    · rcases h1.cl_ab h with h | h
      · exact Or.inl h
      · exact Or.inr (h2.ab h)
    · exact Or.inr h
  · intro h
    rcases h2.ab_lock h with h | h | h
    · rcases h1.ab_lock h with h | h | h
      · exact Or.inl h
      · exact Or.inr (Or.inl (h2.crl h))
      · exact Or.inr (Or.inr (h2.cl h))
    · exact Or.inr (Or.inl h)
    · exact Or.inr (Or.inr h)

theorem Touched.owns {t t' : Transaction} (h : Touched t t') (b : Buf) : t'.owns b ↔ t.owns b := by
  unfold Transaction.owns; rw [h.rset, h.wset]

theorem Lives.keepsInv {th c : Nat} {s s' : State} (hi : Inv s) (h : Lives th c s s') : Inv s' := by
  have hca : (s.txs c).alive := hi.cur_alive _ _ h.cur
  have alive_eq : ∀ x, (s'.txs x).alive = (s.txs x).alive := by
    intro x
    by_cases hx : x = c
    · subst hx; exact h.c_alive
    · exact (h.others x hx).alive
  have owns_old : ∀ x b, (s'.txs x).alive → (s'.txs x).owns b →
      ((s.txs x).owns b) ∨ (x = c ∧ Fresh s s' b) := by
    intro x b _ hb
    by_cases hx : x = c
    · subst hx
      rcases h.c_owns b hb with h1 | h1
      · exact Or.inl h1
      · exact Or.inr ⟨rfl, h1⟩
    · exact Or.inl (((h.others x hx).owns b).1 hb)
  have irr_old : ∀ x, x ≠ c → (s'.txs x).amIIrrevocable = (s.txs x).amIIrrevocable :=
    fun x hx => (h.others x hx).irr
  constructor
  · intro x hx
    rw [alive_eq] at hx; rw [h.nextTx_eq]; exact hi.alive_lt x hx
  · intro t x hx
    rw [h.cur_eq] at hx; rw [alive_eq]; exact hi.cur_alive t x hx
  · intro t u x h1 h2
    rw [h.cur_eq] at h1 h2; exact hi.cur_inj t u x h1 h2
  · intro v i x hx
    rw [h.nextTx_eq]
    rcases h.readers v i x hx with h1 | ⟨_, h1⟩
    · exact hi.readers_lt v i x h1
    · subst h1; exact hi.alive_lt _ hca
  · intro v i x hx ha
    rw [h.cur_eq]
    rcases h.readers v i x hx with h1 | ⟨h1, h2⟩
    · rw [alive_eq] at ha; exact hi.readers_cur v i x h1 ha
    · subst h1; subst h2; exact h.cur
  · intro x hx
    rw [alive_eq] at hx
    by_cases hxc : x = c
    · subst hxc; rw [h.c_comitted]; exact hi.not_comitted _ hx
    · rw [(h.others x hxc).comitted]; exact hi.not_comitted _ hx
  · intro x hx hirr
    rw [alive_eq] at hx
    by_cases hxc : x = c
    · subst hxc
      cases hold : (s.txs x).amIIrrevocable
      · obtain ⟨_, h2, h3, h4, h5⟩ := h.c_irr_new hirr hold
        exact ⟨h4, h5, h3, h2⟩
      · obtain ⟨h1, h2, h3, h4⟩ := hi.irr_locks x hx hold
        exact ⟨h.c_crl h1, h.c_cl h2, by rw [h.c_aborted]; exact h3, h.irrLock_mono h4⟩
    · have ht := h.others x hxc
      rw [ht.irr] at hirr
      obtain ⟨h1, h2, h3, h4⟩ := hi.irr_locks x hx hirr
      refine ⟨ht.crl h1, ht.cl h2, ?_, h.irrLock_mono h4⟩
      cases hab : (s'.txs x).aborted
      · rfl
      · rcases ht.kill hab with h5 | h5 | h5
        · rw [h3] at h5; exact absurd h5 (by simp)
        · rw [h1] at h5; exact absurd h5 (by simp)
        · rw [h2] at h5; exact absurd h5 (by simp)
  · intro x y hx hy hxi hyi
    rw [alive_eq] at hx hy
    have key : ∀ z, (s.txs z).alive → (s'.txs z).amIIrrevocable →
        (s.txs z).amIIrrevocable ∨ (z = c ∧ s.irrTransactionLock = false) := by
      intro z _ hzi
      by_cases hzc : z = c
      · subst hzc
        cases hold : (s.txs z).amIIrrevocable
        · exact Or.inr ⟨rfl, (h.c_irr_new hzi hold).1⟩
        · exact Or.inl rfl
      · rw [irr_old z hzc] at hzi; exact Or.inl hzi
    rcases key x hx hxi with h1 | ⟨h1, h2⟩
    · rcases key y hy hyi with h3 | ⟨h3, h4⟩
      · exact hi.irr_unique x y hx hy h1 h3
      · have := (hi.irr_locks x hx h1).2.2.2
        rw [h4] at this; exact absurd this (by simp)
    · rcases key y hy hyi with h3 | ⟨h3, _⟩
      · have := (hi.irr_locks y hy h3).2.2.2
        rw [h2] at this; exact absurd this (by simp)
      · rw [h1, h3]
  · intro v x hx
    rw [h.nextTx_eq]
    rcases h.mrlo v with h1 | ⟨h1, _⟩
    · rw [h1] at hx; exact hi.mrlo_lt v x hx
    · rw [h1] at hx; cases hx; exact hi.alive_lt _ hca
  · intro v x hx ha
    rw [alive_eq] at ha
    rcases h.mrlo v with h1 | ⟨h1, _, h3⟩
    · rw [h1] at hx
      have := hi.mrlo_wset v x hx ha
      by_cases hxc : x = c
      · subst hxc; exact h.c_wset_mono v this
      · rw [(h.others x hxc).wset]; exact this
    · rw [h1] at hx; cases hx; exact h3
  · intro x hx hcl
    rw [alive_eq] at hx
    by_cases hxc : x = c
    · subst hxc
      rcases h.c_cl_new hcl with h1 | h1
      · rcases hi.cl_dead x hx h1 with h2 | h2
        · left; rw [h.c_aborted]; exact h2
        · right; exact h.c_irr h2
      · exact Or.inr h1
    · have ht := h.others x hxc
      rcases ht.cl_ab hcl with h1 | h1
      · rcases hi.cl_dead x hx h1 with h2 | h2
        · exact Or.inl (ht.ab h2)
        · right; rw [ht.irr]; exact h2
      · exact Or.inl h1
  · intro x hx hcl
    rw [alive_eq] at hx
    by_cases hxc : x = c
    · subst hxc
      rcases h.c_crl_new hcl with h1 | h1
      · rcases hi.crl_dead x hx h1 with h2 | h2
        · left; rw [h.c_aborted]; exact h2
        · right; exact h.c_irr h2
      · exact Or.inr h1
    · have ht := h.others x hxc
      rcases ht.crl_ab hcl with h1 | h1
      · rcases hi.crl_dead x hx h1 with h2 | h2
        · exact Or.inl (ht.ab h2)
        · right; rw [ht.irr]; exact h2
      · exact Or.inl h1
  · intro x y v hx hy hvx hvy
    rw [alive_eq] at hx hy
    have key : ∀ z, (s.txs z).alive → v ∈ (s'.txs z).locksHeld →
        v ∈ (s.txs z).locksHeld ∨ (z = c ∧ (s.vars v).lock = false) := by
      intro z _ hz
      by_cases hzc : z = c
      · subst hzc
        by_cases hold : v ∈ (s.txs z).locksHeld
        · exact Or.inl hold
        · exact Or.inr ⟨rfl, (h.c_locks_new v hz hold).1⟩
      · rw [(h.others z hzc).locks] at hz; exact Or.inl hz
    rcases key x hx hvx with h1 | ⟨h1, h2⟩
    · rcases key y hy hvy with h3 | ⟨h3, h4⟩
      · exact hi.lock_excl x y v hx hy h1 h3
      · have := hi.held_locked x v hx h1
        rw [h4] at this; exact absurd this (by simp)
    · rcases key y hy hvy with h3 | ⟨h3, _⟩
      · have := hi.held_locked y v hy h3
        rw [h2] at this; exact absurd this (by simp)
      · rw [h1, h3]
  · intro x v hx hv
    rw [alive_eq] at hx
    have old : ∀ z, (s.txs z).alive → v ∈ (s.txs z).locksHeld → (s'.vars v).lock := by
      intro z hz hvz
      have := hi.held_locked z v hz hvz
      rcases h.lock v with h1 | ⟨h1, _⟩
      · rw [h1]; exact this
      · rw [h1] at this; exact absurd this (by simp)
    by_cases hxc : x = c
    · subst hxc
      by_cases hold : v ∈ (s.txs x).locksHeld
      · exact old x hx hold
      · exact (h.c_locks_new v hv hold).2
    · rw [(h.others x hxc).locks] at hv; exact old x hx hv
  · intro x v hx hirr hv
    rw [alive_eq] at hx
    have old : ∀ z, (s.txs z).alive → (s.txs z).amIIrrevocable = false →
        v ∈ (s.txs z).wsetBuffers → (s'.vars v).mostRecentLockOwner = some z := by
      intro z hz hzi hvz
      obtain ⟨h1, h2⟩ := hi.wset_held z v hz hzi hvz
      rcases h.mrlo v with h3 | ⟨_, h4, _⟩
      · rw [h3]; exact h2
      · have := hi.held_locked z v hz h1
        rw [h4] at this; exact absurd this (by simp)
    by_cases hxc : x = c
    · subst hxc
      have hirr0 : (s.txs x).amIIrrevocable = false := by
        cases hh : (s.txs x).amIIrrevocable
        · rfl
        · rw [h.c_irr hh] at hirr; exact absurd hirr (by simp)
      by_cases hold : v ∈ (s.txs x).wsetBuffers
      · exact ⟨h.c_locks v (hi.wset_held x v hx hirr0 hold).1, old x hx hirr0 hold⟩
      · exact h.c_wset_new v hirr hv hold
    · have ht := h.others x hxc
      rw [ht.irr] at hirr; rw [ht.wset] at hv; rw [ht.locks]
      exact ⟨(hi.wset_held x v hx hirr hv).1, old x hx hirr hv⟩
  · intro x hx
    rw [alive_eq] at hx
    by_cases hxc : x = c
    · subst hxc; rw [h.c_hij]; exact hi.hij_empty x hx
    · rw [(h.others x hxc).hij]; exact hi.hij_empty x hx
  · intro w n hw
    rw [h.varPtr_eq] at hw
    exact lt_of_lt_of_le (hi.var_lt w n hw) h.nextBuf_le
  · intro x b hx hb
    rcases owns_old x b hx hb with h1 | ⟨_, n, h2, _, h3⟩
    · rw [alive_eq] at hx
      obtain ⟨n, h2, h3⟩ := hi.buf_lt x b hx h1
      exact ⟨n, h2, lt_of_lt_of_le h3 h.nextBuf_le⟩
    · exact ⟨n, h2, h3⟩
  · intro x b w hx hb
    rw [h.varPtr_eq]
    rcases owns_old x b hx hb with h1 | ⟨_, n, h2, h3, _⟩
    · rw [alive_eq] at hx; exact hi.buf_not_auth x b w hx h1
    · intro hw
      rw [h2] at hw
      have := hi.var_lt w n hw
      omega
  · intro x y b hx hy hbx hby
    rcases owns_old x b hx hbx with h1 | ⟨h1, n, h2, h3, _⟩
    · rcases owns_old y b hy hby with h4 | ⟨h4, n, h5, h6, _⟩
      · rw [alive_eq] at hx hy; exact hi.buf_disj x y b hx hy h1 h4
      · rw [alive_eq] at hx
        obtain ⟨m, h7, h8⟩ := hi.buf_lt x b hx h1
        rw [h5] at h7; cases h7; omega
    · rcases owns_old y b hy hby with h4 | ⟨h4, _⟩
      · rw [alive_eq] at hy
        obtain ⟨m, h7, h8⟩ := hi.buf_lt y b hy h4
        rw [h2] at h7; cases h7; omega
      · rw [h1, h4]
  · intro x v hx hv
    rw [alive_eq] at hx
    by_cases hxc : x = c
    · subst hxc; exact h.c_disj v hv
    · have ht := h.others x hxc
      rw [ht.rset] at hv; rw [ht.wset]; exact hi.sets_disj x v hx hv
  · intro x hx hab
    rw [alive_eq] at hx
    by_cases hxc : x = c
    · subst hxc
      rw [h.c_aborted] at hab
      rcases hi.ab_locked x hx hab with h1 | h1
      · exact Or.inl (h.c_crl h1)
      · exact Or.inr (h.c_cl h1)
    · have ht := h.others x hxc
      rcases ht.ab_lock hab with h1 | h1
      · rcases hi.ab_locked x hx h1 with h2 | h2
        · exact Or.inl (ht.crl h2)
        · exact Or.inr (ht.cl h2)
      · exact h1

theorem Dies.restoresInv {th c : Nat} {s s' : State} (hi : Inv s) (h : Dies th c s s') : Inv s' := by
  have hca : (s.txs c).alive := hi.cur_alive _ _ h.cur
  have alive_old : ∀ x, (s'.txs x).alive → x ≠ c ∧ (s.txs x).alive := by
    intro x hx
    by_cases hxc : x = c
    · subst hxc; rw [h.dead] at hx; exact absurd hx (by simp)
    · rw [(h.others x hxc).alive] at hx; exact ⟨hxc, hx⟩
  have cur_old : ∀ t x, s'.currentTransaction t = some x →
      t ≠ th ∧ s.currentTransaction t = some x := by
    intro t x hx
    rw [h.cur_eq] at hx
    by_cases ht : t = th
    · subst ht; simp at hx
    · rw [Function.update_noteq ht] at hx; exact ⟨ht, hx⟩
  have lock_old : ∀ z v, z ≠ c → (s.txs z).alive → v ∈ (s.txs z).locksHeld →
      (s'.vars v).lock = (s.vars v).lock := by
    intro z v hz hza hv
    rcases h.lock v with h1 | h1
    · exact h1
    · exact absurd (hi.lock_excl z c v hza hca hv h1) hz
  constructor
  · intro x hx
    rw [h.nextTx_eq]; exact hi.alive_lt x (alive_old x hx).2
  · intro t x hx
    obtain ⟨ht, hx⟩ := cur_old t x hx
    have hxc : x ≠ c := by
      intro hxc; subst hxc; exact ht (hi.cur_inj t th x hx h.cur)
    rw [(h.others x hxc).alive]; exact hi.cur_alive t x hx
  · intro t u x h1 h2
    exact hi.cur_inj t u x (cur_old t x h1).2 (cur_old u x h2).2
  · intro v i x hx
    rw [h.nextTx_eq]
    rcases h.readers v i x hx with h1 | ⟨_, h1⟩
    · exact hi.readers_lt v i x h1
    · subst h1; exact hi.alive_lt _ hca
  · intro v i x hx ha
    obtain ⟨hxc, ha⟩ := alive_old x ha
    rcases h.readers v i x hx with h1 | ⟨_, h2⟩
    · have := hi.readers_cur v i x h1 ha
      rw [h.cur_eq]
      by_cases hit : i = th
      · subst hit; rw [h.cur] at this; cases this; exact absurd rfl hxc
      · rw [Function.update_noteq hit]; exact this
    · exact absurd h2 hxc
  · intro x hx
    obtain ⟨hxc, hx⟩ := alive_old x hx
    rw [(h.others x hxc).comitted]; exact hi.not_comitted _ hx
  · intro x hx hirr
    obtain ⟨hxc, hx⟩ := alive_old x hx
    have ht := h.others x hxc
    rw [ht.irr] at hirr
    obtain ⟨h1, h2, h3, h4⟩ := hi.irr_locks x hx hirr
    refine ⟨ht.crl h1, ht.cl h2, ?_, ?_⟩
    · cases hab : (s'.txs x).aborted
      · rfl
      · rcases ht.kill hab with h5 | h5 | h5
        · rw [h3] at h5; exact absurd h5 (by simp)
        · rw [h1] at h5; exact absurd h5 (by simp)
        · rw [h2] at h5; exact absurd h5 (by simp)
    · rcases h.irrLock with h5 | h5
      · rw [h5]; exact h4
      · exact absurd (hi.irr_unique x c hx hca hirr h5) hxc
  · intro x y hx hy hxi hyi
    obtain ⟨hxc, hx⟩ := alive_old x hx
    obtain ⟨hyc, hy⟩ := alive_old y hy
    rw [(h.others x hxc).irr] at hxi
    rw [(h.others y hyc).irr] at hyi
    exact hi.irr_unique x y hx hy hxi hyi
  · intro v x hx
    rw [h.nextTx_eq]
    rcases h.mrlo v with h1 | ⟨h1, _⟩
    · rw [h1] at hx; exact hi.mrlo_lt v x hx
    · rw [h1] at hx; cases hx; exact hi.alive_lt _ hca
  · intro v x hx ha
    obtain ⟨hxc, ha⟩ := alive_old x ha
    rcases h.mrlo v with h1 | ⟨h1, _⟩
    · rw [h1] at hx
      rw [(h.others x hxc).wset]; exact hi.mrlo_wset v x hx ha
    · rw [h1] at hx; cases hx; exact absurd rfl hxc
  · intro x hx hcl
    obtain ⟨hxc, hx⟩ := alive_old x hx
    have ht := h.others x hxc
    rcases ht.cl_ab hcl with h1 | h1
    · rcases hi.cl_dead x hx h1 with h2 | h2
      · exact Or.inl (ht.ab h2)
      · right; rw [ht.irr]; exact h2
    · exact Or.inl h1
  · intro x hx hcl
    obtain ⟨hxc, hx⟩ := alive_old x hx
    have ht := h.others x hxc
    rcases ht.crl_ab hcl with h1 | h1
    · rcases hi.crl_dead x hx h1 with h2 | h2
      · exact Or.inl (ht.ab h2)
      · right; rw [ht.irr]; exact h2
    · exact Or.inl h1
  · intro x y v hx hy hvx hvy
    obtain ⟨hxc, hx⟩ := alive_old x hx
    obtain ⟨hyc, hy⟩ := alive_old y hy
    rw [(h.others x hxc).locks] at hvx
    rw [(h.others y hyc).locks] at hvy
    exact hi.lock_excl x y v hx hy hvx hvy
  · intro x v hx hv
    obtain ⟨hxc, hx⟩ := alive_old x hx
    rw [(h.others x hxc).locks] at hv
    rw [lock_old x v hxc hx hv]; exact hi.held_locked x v hx hv
  · intro x v hx hirr hv
    obtain ⟨hxc, hx⟩ := alive_old x hx
    have ht := h.others x hxc
    rw [ht.irr] at hirr; rw [ht.wset] at hv; rw [ht.locks]
    obtain ⟨h1, h2⟩ := hi.wset_held x v hx hirr hv
    refine ⟨h1, ?_⟩
    rcases h.mrlo v with h3 | ⟨_, h4⟩
    · rw [h3]; exact h2
    · have := hi.held_locked x v hx h1
      rw [h4] at this; exact absurd this (by simp)
  · intro x hx
    obtain ⟨hxc, hx⟩ := alive_old x hx
    rw [(h.others x hxc).hij]; exact hi.hij_empty x hx
  · intro w n hw
    rcases h.varPtr w with h1 | h1
    · rw [h1] at hw
      exact lt_of_lt_of_le (hi.var_lt w n hw) h.nextBuf_le
    · rw [hw] at h1
      obtain ⟨m, h2, h3⟩ := hi.buf_lt c _ hca ⟨w, Or.inr h1⟩
      have := h.nextBuf_le
      cases h2; omega
  · intro x b hx hb
    obtain ⟨hxc, hx⟩ := alive_old x hx
    rw [(h.others x hxc).owns] at hb
    obtain ⟨n, h2, h3⟩ := hi.buf_lt x b hx hb
    exact ⟨n, h2, lt_of_lt_of_le h3 h.nextBuf_le⟩
  · intro x b w hx hb
    obtain ⟨hxc, hx⟩ := alive_old x hx
    rw [(h.others x hxc).owns] at hb
    rcases h.varPtr w with h1 | h1
    · rw [h1]; exact hi.buf_not_auth x b w hx hb
    · intro hw
      rw [hw] at h1
      exact hxc (hi.buf_disj x c b hx hca hb ⟨w, Or.inr h1⟩)
  · intro x y b hx hy hbx hby
    obtain ⟨hxc, hx⟩ := alive_old x hx
    obtain ⟨hyc, hy⟩ := alive_old y hy
    rw [(h.others x hxc).owns] at hbx
    rw [(h.others y hyc).owns] at hby
    exact hi.buf_disj x y b hx hy hbx hby
  · intro x v hx hv
    obtain ⟨hxc, hx⟩ := alive_old x hx
    have ht := h.others x hxc
    rw [ht.rset] at hv; rw [ht.wset]; exact hi.sets_disj x v hx hv
  · intro x hx hab
    obtain ⟨hxc, hx⟩ := alive_old x hx
    have ht := h.others x hxc
    rcases ht.ab_lock hab with h1 | h1
    · rcases hi.ab_locked x hx h1 with h2 | h2
      · exact Or.inl (ht.crl h2)
      · exact Or.inr (ht.cl h2)
    · exact h1

theorem initState_inv (n : Nat) (vals : Nat → Int) (h1 h2 : Option Exc) :
    Inv (initState n vals h1 h2) := by
  constructor <;> simp [initState, Transaction.owns]

theorem beginT_inv {th : Nat} {s : State} (hi : Inv s) : Inv (beginT th s).2 := by
  unfold beginT
  cases hc : s.currentTransaction th with
  | some c => simpa using hi
  | none =>
    have tx_new : ∀ x, (Function.update s.txs s.nextTx ({ alive := true } : Transaction)) x =
        if x = s.nextTx then ({ alive := true } : Transaction) else s.txs x := by
      intro x; simp [Function.update_apply]
    have alive_cases : ∀ x,
        (Function.update s.txs s.nextTx ({ alive := true } : Transaction) x).alive →
        x = s.nextTx ∨ (x ≠ s.nextTx ∧ (s.txs x).alive) := by
      intro x hx
      by_cases hxn : x = s.nextTx
      · exact Or.inl hxn
      · rw [tx_new, if_neg hxn] at hx; exact Or.inr ⟨hxn, hx⟩
    have cur_cases : ∀ t x, Function.update s.currentTransaction th (some s.nextTx) t = some x →
        (t = th ∧ x = s.nextTx) ∨ (t ≠ th ∧ s.currentTransaction t = some x ∧ x ≠ s.nextTx) := by
      intro t x hx
      by_cases ht : t = th
      · subst ht; simp at hx; exact Or.inl ⟨rfl, hx.symm⟩
      · rw [Function.update_noteq ht] at hx
        refine Or.inr ⟨ht, hx, ?_⟩
        have := hi.alive_lt x (hi.cur_alive t x hx)
        omega
    constructor <;> simp only []
    · intro x hx
      rcases alive_cases x hx with h1 | ⟨_, h1⟩
      · omega
      · have := hi.alive_lt x h1; omega
    · intro t x hx
      rcases cur_cases t x hx with ⟨_, h1⟩ | ⟨_, h1, h2⟩
      · subst h1; simp
      · rw [tx_new, if_neg h2]; exact hi.cur_alive t x h1
    · intro t u x h1 h2
      rcases cur_cases t x h1 with ⟨h3, h4⟩ | ⟨_, h3, h4⟩
      · rcases cur_cases u x h2 with ⟨h5, _⟩ | ⟨_, _, h5⟩
        · rw [h3, h5]
        · exact absurd h4 h5
      · rcases cur_cases u x h2 with ⟨_, h5⟩ | ⟨_, h5, _⟩
        · exact absurd h5 h4
        · exact hi.cur_inj t u x h3 h5
    · intro v i x hx
      have := hi.readers_lt v i x hx; omega
    · intro v i x hx ha
      have hlt := hi.readers_lt v i x hx
      rcases alive_cases x ha with h1 | ⟨_, h1⟩
      · omega
      · have := hi.readers_cur v i x hx h1
        by_cases hit : i = th
        · subst hit; rw [hc] at this; cases this
        · rw [Function.update_noteq hit]; exact this
    · intro x hx
      rcases alive_cases x hx with h1 | ⟨h0, h1⟩
      · subst h1; simp
      · rw [tx_new, if_neg h0]; exact hi.not_comitted x h1
    · intro x hx hirr
      rcases alive_cases x hx with h1 | ⟨h0, h1⟩
      · subst h1; simp at hirr
      · rw [tx_new, if_neg h0] at hirr ⊢; exact hi.irr_locks x h1 hirr
    · intro x y hx hy hxi hyi
      rcases alive_cases x hx with h1 | ⟨h0, h1⟩
      · subst h1; simp at hxi
      · rcases alive_cases y hy with h2 | ⟨h3, h2⟩
        · subst h2; simp at hyi
        · rw [tx_new, if_neg h0] at hxi; rw [tx_new, if_neg h3] at hyi
          exact hi.irr_unique x y h1 h2 hxi hyi
    · intro v x hx
      have := hi.mrlo_lt v x hx; omega
    · intro v x hx ha
      have hlt := hi.mrlo_lt v x hx
      rcases alive_cases x ha with h1 | ⟨h0, h1⟩
      · omega
      · rw [tx_new, if_neg h0]; exact hi.mrlo_wset v x hx h1
    · intro x hx hcl
      rcases alive_cases x hx with h1 | ⟨h0, h1⟩
      · subst h1; simp at hcl
      · rw [tx_new, if_neg h0] at hcl ⊢; exact hi.cl_dead x h1 hcl
    · intro x hx hcl
      rcases alive_cases x hx with h1 | ⟨h0, h1⟩
      · subst h1; simp at hcl
      · rw [tx_new, if_neg h0] at hcl ⊢; exact hi.crl_dead x h1 hcl
    · intro x y v hx hy hvx hvy
      rcases alive_cases x hx with h1 | ⟨h0, h1⟩
      · subst h1; simp at hvx
      · rcases alive_cases y hy with h2 | ⟨h3, h2⟩
        · subst h2; simp at hvy
        · rw [tx_new, if_neg h0] at hvx; rw [tx_new, if_neg h3] at hvy
          exact hi.lock_excl x y v h1 h2 hvx hvy
    · intro x v hx hv
      rcases alive_cases x hx with h1 | ⟨h0, h1⟩
      · subst h1; simp at hv
      · rw [tx_new, if_neg h0] at hv; exact hi.held_locked x v h1 hv
    · intro x v hx hirr hv
      rcases alive_cases x hx with h1 | ⟨h0, h1⟩
      · subst h1; simp at hv
      · rw [tx_new, if_neg h0] at hirr hv ⊢; exact hi.wset_held x v h1 hirr hv
    · intro x hx
      rcases alive_cases x hx with h1 | ⟨h0, h1⟩
      · subst h1; simp
      · rw [tx_new, if_neg h0]; exact hi.hij_empty x h1
    · exact hi.var_lt
    · intro x b hx hb
      rcases alive_cases x hx with h1 | ⟨h0, h1⟩
      · subst h1; simp [Transaction.owns] at hb
      · rw [tx_new, if_neg h0] at hb; exact hi.buf_lt x b h1 hb
    · intro x b w hx hb
      rcases alive_cases x hx with h1 | ⟨h0, h1⟩
      · subst h1; simp [Transaction.owns] at hb
      · rw [tx_new, if_neg h0] at hb; exact hi.buf_not_auth x b w h1 hb
    · intro x y b hx hy hbx hby
      rcases alive_cases x hx with h1 | ⟨h0, h1⟩
      · subst h1; simp [Transaction.owns] at hbx
      · rcases alive_cases y hy with h2 | ⟨h3, h2⟩
        · subst h2; simp [Transaction.owns] at hby
        · rw [tx_new, if_neg h0] at hbx; rw [tx_new, if_neg h3] at hby
          exact hi.buf_disj x y b h1 h2 hbx hby
    · intro x v hx hv
      rcases alive_cases x hx with h1 | ⟨h0, h1⟩
      · subst h1; simp at hv
      · rw [tx_new, if_neg h0] at hv ⊢; exact hi.sets_disj x v h1 hv
    · intro x hx hab
      rcases alive_cases x hx with h1 | ⟨h0, h1⟩
      · subst h1; simp at hab
      · rw [tx_new, if_neg h0] at hab ⊢; exact hi.ab_locked x h1 hab

/-! ## Closed forms of the loops and of cleanup -/

theorem unlockAll_eq (ms s) : unlockAll ms s = mapVars (fun x => { x with lock := false }) ms s := rfl

theorem storeUsedByIrr_eq (b vs s) :
    storeUsedByIrr b vs s = mapVars (fun x => { x with usedByIrr := b }) vs s := rfl

theorem storeDirty_eq (b vs s) :
    storeDirty b vs s = mapVars (fun x => { x with dirty := b }) vs s := rfl

theorem storeDirtyIrr_eq (b vs s) :
    storeDirtyIrr b vs s = mapVars (fun x => { x with dirtyIrr := b }) vs s := rfl

@[simp] theorem mapVars_txs (g vs s) : (mapVars g vs s).txs = s.txs := (mapVars_frame g vs s).1
@[simp] theorem mapVars_heap (g vs s) : (mapVars g vs s).heap = s.heap := (mapVars_frame g vs s).2.1
@[simp] theorem mapVars_nextTx (g vs s) : (mapVars g vs s).nextTx = s.nextTx :=
  (mapVars_frame g vs s).2.2.1
@[simp] theorem mapVars_nextBuf (g vs s) : (mapVars g vs s).nextBuf = s.nextBuf :=
  (mapVars_frame g vs s).2.2.2.1
@[simp] theorem mapVars_irrLock (g vs s) :
    (mapVars g vs s).irrTransactionLock = s.irrTransactionLock := (mapVars_frame g vs s).2.2.2.2.1
@[simp] theorem mapVars_cur (g vs s) :
    (mapVars g vs s).currentTransaction = s.currentTransaction :=
  (mapVars_frame g vs s).2.2.2.2.2.1
@[simp] theorem mapVars_max (g vs s) : (mapVars g vs s).maxThreadNum = s.maxThreadNum :=
  (mapVars_frame g vs s).2.2.2.2.2.2.1
@[simp] theorem mapVars_hookN (g vs s) : (mapVars g vs s).nonTransAccess = s.nonTransAccess :=
  (mapVars_frame g vs s).2.2.2.2.2.2.2.1
@[simp] theorem mapVars_hookF (g vs s) :
    (mapVars g vs s).forcingAbortOnIrr = s.forcingAbortOnIrr :=
  (mapVars_frame g vs s).2.2.2.2.2.2.2.2

theorem unlockAll_vars (ms : List Nat) (s : State) (w : Nat) :
    (unlockAll ms s).vars w = if w ∈ ms then { s.vars w with lock := false } else s.vars w := by
  exact mapVars_vars (fun x => { x with lock := false }) (fun _ => rfl) ms s w

theorem storeUsedByIrr_vars (b : Bool) (vs : List Nat) (s : State) (w : Nat) :
    (storeUsedByIrr b vs s).vars w =
      if w ∈ vs then { s.vars w with usedByIrr := b } else s.vars w := by
  exact mapVars_vars (fun x => { x with usedByIrr := b }) (fun _ => rfl) vs s w

theorem storeDirty_vars (b : Bool) (vs : List Nat) (s : State) (w : Nat) :
    (storeDirty b vs s).vars w = if w ∈ vs then { s.vars w with dirty := b } else s.vars w := by
  exact mapVars_vars (fun x => { x with dirty := b }) (fun _ => rfl) vs s w

theorem storeDirtyIrr_vars (b : Bool) (vs : List Nat) (s : State) (w : Nat) :
    (storeDirtyIrr b vs s).vars w =
      if w ∈ vs then { s.vars w with dirtyIrr := b } else s.vars w := by
  exact mapVars_vars (fun x => { x with dirtyIrr := b }) (fun _ => rfl) vs s w

@[simp] theorem unlockAll_txs (ms) (s : State) :
    (unlockAll ms s).txs = s.txs := by
  rw [unlockAll_eq]; simp

@[simp] theorem unlockAll_heap (ms) (s : State) :
    (unlockAll ms s).heap = s.heap := by
  rw [unlockAll_eq]; simp

@[simp] theorem unlockAll_nextTx (ms) (s : State) :
    (unlockAll ms s).nextTx = s.nextTx := by
  rw [unlockAll_eq]; simp

@[simp] theorem unlockAll_nextBuf (ms) (s : State) :
    (unlockAll ms s).nextBuf = s.nextBuf := by
  rw [unlockAll_eq]; simp

@[simp] theorem unlockAll_irrLock (ms) (s : State) :
    (unlockAll ms s).irrTransactionLock = s.irrTransactionLock := by
  rw [unlockAll_eq]; simp

@[simp] theorem unlockAll_cur (ms) (s : State) :
    (unlockAll ms s).currentTransaction = s.currentTransaction := by
  rw [unlockAll_eq]; simp

@[simp] theorem unlockAll_max (ms) (s : State) :
    (unlockAll ms s).maxThreadNum = s.maxThreadNum := by
  rw [unlockAll_eq]; simp

@[simp] theorem unlockAll_hookN (ms) (s : State) :
    (unlockAll ms s).nonTransAccess = s.nonTransAccess := by
  rw [unlockAll_eq]; simp

@[simp] theorem unlockAll_hookF (ms) (s : State) :
    (unlockAll ms s).forcingAbortOnIrr = s.forcingAbortOnIrr := by
  rw [unlockAll_eq]; simp

@[simp] theorem storeUsedByIrr_txs (b vs) (s : State) :
    (storeUsedByIrr b vs s).txs = s.txs := by
  rw [storeUsedByIrr_eq]; simp

@[simp] theorem storeUsedByIrr_heap (b vs) (s : State) :
    (storeUsedByIrr b vs s).heap = s.heap := by
  rw [storeUsedByIrr_eq]; simp

@[simp] theorem storeUsedByIrr_nextTx (b vs) (s : State) :
    (storeUsedByIrr b vs s).nextTx = s.nextTx := by
  rw [storeUsedByIrr_eq]; simp

@[simp] theorem storeUsedByIrr_nextBuf (b vs) (s : State) :
    (storeUsedByIrr b vs s).nextBuf = s.nextBuf := by
  rw [storeUsedByIrr_eq]; simp

@[simp] theorem storeUsedByIrr_irrLock (b vs) (s : State) :
    (storeUsedByIrr b vs s).irrTransactionLock = s.irrTransactionLock := by
  rw [storeUsedByIrr_eq]; simp

@[simp] theorem storeUsedByIrr_cur (b vs) (s : State) :
    (storeUsedByIrr b vs s).currentTransaction = s.currentTransaction := by
  rw [storeUsedByIrr_eq]; simp

@[simp] theorem storeUsedByIrr_max (b vs) (s : State) :
    (storeUsedByIrr b vs s).maxThreadNum = s.maxThreadNum := by
  rw [storeUsedByIrr_eq]; simp

@[simp] theorem storeUsedByIrr_hookN (b vs) (s : State) :
    (storeUsedByIrr b vs s).nonTransAccess = s.nonTransAccess := by
  rw [storeUsedByIrr_eq]; simp

@[simp] theorem storeUsedByIrr_hookF (b vs) (s : State) :
    (storeUsedByIrr b vs s).forcingAbortOnIrr = s.forcingAbortOnIrr := by
  rw [storeUsedByIrr_eq]; simp

@[simp] theorem storeDirty_txs (b vs) (s : State) :
    (storeDirty b vs s).txs = s.txs := by
  rw [storeDirty_eq]; simp

@[simp] theorem storeDirty_heap (b vs) (s : State) :
    (storeDirty b vs s).heap = s.heap := by
  rw [storeDirty_eq]; simp

@[simp] theorem storeDirty_nextTx (b vs) (s : State) :
    (storeDirty b vs s).nextTx = s.nextTx := by
  rw [storeDirty_eq]; simp

@[simp] theorem storeDirty_nextBuf (b vs) (s : State) :
    (storeDirty b vs s).nextBuf = s.nextBuf := by
  rw [storeDirty_eq]; simp

@[simp] theorem storeDirty_irrLock (b vs) (s : State) :
    (storeDirty b vs s).irrTransactionLock = s.irrTransactionLock := by
  rw [storeDirty_eq]; simp

@[simp] theorem storeDirty_cur (b vs) (s : State) :
    (storeDirty b vs s).currentTransaction = s.currentTransaction := by
  rw [storeDirty_eq]; simp

@[simp] theorem storeDirty_max (b vs) (s : State) :
    (storeDirty b vs s).maxThreadNum = s.maxThreadNum := by
  rw [storeDirty_eq]; simp

@[simp] theorem storeDirty_hookN (b vs) (s : State) :
    (storeDirty b vs s).nonTransAccess = s.nonTransAccess := by
  rw [storeDirty_eq]; simp

@[simp] theorem storeDirty_hookF (b vs) (s : State) :
    (storeDirty b vs s).forcingAbortOnIrr = s.forcingAbortOnIrr := by
  rw [storeDirty_eq]; simp

@[simp] theorem storeDirtyIrr_txs (b vs) (s : State) :
    (storeDirtyIrr b vs s).txs = s.txs := by
  rw [storeDirtyIrr_eq]; simp

@[simp] theorem storeDirtyIrr_heap (b vs) (s : State) :
    (storeDirtyIrr b vs s).heap = s.heap := by
  rw [storeDirtyIrr_eq]; simp

@[simp] theorem storeDirtyIrr_nextTx (b vs) (s : State) :
    (storeDirtyIrr b vs s).nextTx = s.nextTx := by
  rw [storeDirtyIrr_eq]; simp

@[simp] theorem storeDirtyIrr_nextBuf (b vs) (s : State) :
    (storeDirtyIrr b vs s).nextBuf = s.nextBuf := by
  rw [storeDirtyIrr_eq]; simp

@[simp] theorem storeDirtyIrr_irrLock (b vs) (s : State) :
    (storeDirtyIrr b vs s).irrTransactionLock = s.irrTransactionLock := by
  rw [storeDirtyIrr_eq]; simp

@[simp] theorem storeDirtyIrr_cur (b vs) (s : State) :
    (storeDirtyIrr b vs s).currentTransaction = s.currentTransaction := by
  rw [storeDirtyIrr_eq]; simp

@[simp] theorem storeDirtyIrr_max (b vs) (s : State) :
    (storeDirtyIrr b vs s).maxThreadNum = s.maxThreadNum := by
  rw [storeDirtyIrr_eq]; simp

@[simp] theorem storeDirtyIrr_hookN (b vs) (s : State) :
    (storeDirtyIrr b vs s).nonTransAccess = s.nonTransAccess := by
  rw [storeDirtyIrr_eq]; simp

@[simp] theorem storeDirtyIrr_hookF (b vs) (s : State) :
    (storeDirtyIrr b vs s).forcingAbortOnIrr = s.forcingAbortOnIrr := by
  rw [storeDirtyIrr_eq]; simp

/-- The state after `cleanup`, when `ctb` is the current transaction of `th`. -/
theorem cleanup_txs {th c : Nat} {s : State} (hc : s.currentTransaction th = some c) (y : Nat) :
    (cleanup th c s).txs y =
      if y = c then { s.txs c with locksHeld := [], alive := false } else s.txs y := by
  simp only [cleanup, resetCurrent, unlockAll_eq, modTx_cur, mapVars_cur, hc]
  by_cases hy : y = c
  · subst hy; simp [modTx_txs]
  · simp [modTx_txs, hy]

theorem cleanup_vars {th c : Nat} {s : State} (hc : s.currentTransaction th = some c) (w : Nat) :
    (cleanup th c s).vars w =
      if w ∈ (s.txs c).locksHeld then { s.vars w with lock := false } else s.vars w := by
  simp only [cleanup, resetCurrent, modTx_cur, unlockAll_eq, mapVars_cur, hc]
  simp [← unlockAll_eq, unlockAll_vars]

theorem cleanup_cur {th c : Nat} {s : State} (hc : s.currentTransaction th = some c) :
    (cleanup th c s).currentTransaction = Function.update s.currentTransaction th none := by
  simp only [cleanup, resetCurrent, modTx_cur, unlockAll_eq, mapVars_cur, hc]

theorem cleanup_rest {th c : Nat} {s : State} (hc : s.currentTransaction th = some c) :
    (cleanup th c s).heap = s.heap ∧ (cleanup th c s).nextTx = s.nextTx ∧
    (cleanup th c s).nextBuf = s.nextBuf ∧
    (cleanup th c s).irrTransactionLock = s.irrTransactionLock ∧
    (cleanup th c s).maxThreadNum = s.maxThreadNum ∧
    (cleanup th c s).nonTransAccess = s.nonTransAccess ∧
    (cleanup th c s).forcingAbortOnIrr = s.forcingAbortOnIrr := by
  simp only [cleanup, resetCurrent, modTx_cur, unlockAll_eq, mapVars_cur, hc]
  simp

/-! ## Footprint of the failing paths -/

/-- The state after `abort` of a transaction that is neither committed nor irrevocable. -/
theorem abort_revocable {th c : Nat} {s : State} (h1 : (s.txs c).comitted = false)
    (h2 : (s.txs c).amIIrrevocable = false) :
    abort th c s = (.ok (), cleanup th c (s.modTx c fun t => { t with aborted := true })) := by
  simp [abort, h1, h2]

theorem abortThrow_revocable {α : Type} {th c : Nat} {s : State} (e : Exc)
    (h1 : (s.txs c).comitted = false) (h2 : (s.txs c).amIIrrevocable = false) :
    (abortThrow th c e s : Res α) =
      (.error e, cleanup th c (s.modTx c fun t => { t with aborted := true })) := by
  simp [abortThrow, abort_revocable h1 h2]

theorem PreDie.dies {th c : Nat} {s s1 : State} (h : PreDie th c s s1) :
    Dies th c s (cleanup th c s1) := by
  have hc1 : s1.currentTransaction th = some c := by rw [h.cur_eq]; exact h.cur
  have hv := fun w => cleanup_vars hc1 w
  have ht := fun y => cleanup_txs hc1 y
  obtain ⟨-, r2, r3, r4, -⟩ := cleanup_rest hc1
  constructor
  · exact h.cur
  · rw [cleanup_cur hc1, h.cur_eq]
  · rw [ht]; simp
  · rw [r2]; exact h.nextTx_eq
  · rw [r3]; exact h.nextBuf_le
  · intro y hy
    rw [ht, if_neg hy]; exact h.others y hy
  · intro w
    have : ((cleanup th c s1).vars w).varPtr = (s1.vars w).varPtr := by
      rw [hv]; split <;> rfl
    rw [this]; exact h.varPtr w
  · intro v i x hx
    rw [hv] at hx
    apply h.readers v i x
    split at hx <;> simpa using hx
  · intro v
    have : ((cleanup th c s1).vars v).mostRecentLockOwner = (s1.vars v).mostRecentLockOwner := by
      rw [hv]; split <;> rfl
    rw [this]; exact h.mrlo v
  · intro v
    rw [hv]
    by_cases hm : v ∈ (s1.txs c).locksHeld
    · rw [if_pos hm]
      rcases h.c_locks v hm with h3 | h3
      · exact Or.inr h3
      · left; simp [h3]
    · rw [if_neg hm]
      rcases h.lock v with h3 | h3 | h3
      · exact Or.inl h3
      · exact absurd h3 hm
      · exact Or.inr h3
  · rw [r4]; exact h.irrLock

theorem PreDie.start {th c : Nat} {s : State} (hc : s.currentTransaction th = some c) :
    PreDie th c s s where
  cur := hc
  cur_eq := rfl
  nextTx_eq := rfl
  nextBuf_le := le_refl _
  others := fun _ _ => Touched.same _
  c_locks := fun _ hv => Or.inl hv
  varPtr := fun _ => Or.inl rfl
  readers := fun _ _ _ hx => Or.inl hx
  mrlo := fun _ => Or.inl rfl
  lock := fun _ => Or.inl rfl
  irrLock := Or.inl rfl

/-- Changing fields of the dying transaction other than `locksHeld` keeps the footprint. -/
theorem PreDie.modSelf {th c : Nat} {s s1 : State} (h : PreDie th c s s1)
    (f : Transaction → Transaction) (hf : ∀ t, (f t).locksHeld = t.locksHeld) :
    PreDie th c s (s1.modTx c f) where
  cur := h.cur
  cur_eq := h.cur_eq
  nextTx_eq := h.nextTx_eq
  nextBuf_le := h.nextBuf_le
  others := fun y hy => by rw [modTx_txs_ne _ _ _ _ hy]; exact h.others y hy
  c_locks := fun v hv => by rw [modTx_txs_same, hf] at hv; exact h.c_locks v hv
  varPtr := h.varPtr
  readers := h.readers
  mrlo := h.mrlo
  lock := fun v => by rw [modTx_txs_same, hf]; exact h.lock v
  irrLock := h.irrLock

/-- Every failing path: the statements before `abort()` with footprint `PreDie`, then
`abort(); throw e`. -/
theorem PreDie.abortThrow {α : Type} {th c : Nat} {s s1 : State} (e : Exc)
    (h : PreDie th c s s1) (h1 : (s1.txs c).comitted = false)
    (h2 : (s1.txs c).amIIrrevocable = false) :
    (abortThrow th c e s1 : Res α).1 = .error e ∧
      Dies th c s (abortThrow th c e s1 : Res α).2 := by
  rw [abortThrow_revocable e h1 h2]
  exact ⟨rfl, (h.modSelf (fun t => { t with aborted := true }) (fun _ => rfl)).dies⟩

theorem Lives.still {th c : Nat} {s : State} (hi : Inv s) (hc : s.currentTransaction th = some c) :
    Lives th c s s where
  cur := hc
  cur_eq := rfl
  nextTx_eq := rfl
  nextBuf_le := le_refl _
  others := fun _ _ => Touched.same _
  c_alive := rfl
  c_comitted := rfl
  c_aborted := rfl
  c_hij := rfl
  c_irr := id
  c_irr_new := fun h1 h2 => by rw [h2] at h1; exact absurd h1 (by simp)
  c_crl := id
  c_cl := id
  c_crl_new := Or.inl
  c_cl_new := Or.inl
  irrLock_mono := id
  c_locks := fun _ => id
  c_locks_new := fun _ h1 h2 => absurd h1 h2
  c_owns := fun _ => Or.inl
  c_wset_mono := fun _ => id
  c_disj := fun v => hi.sets_disj c v (hi.cur_alive th c hc)
  c_wset_new := fun _ _ h1 h2 => absurd h1 h2
  varPtr_eq := fun _ => rfl
  readers := fun _ _ _ => Or.inl
  mrlo := fun _ => Or.inl rfl
  lock := fun _ => Or.inl rfl

theorem Lives.andAlso {th c : Nat} {s s1 s2 : State} (h1 : Lives th c s s1)
    (h2 : Lives th c s1 s2) : Lives th c s s2 := by
  have lock_false : ∀ v, (s1.vars v).lock = false → (s.vars v).lock = false := by
    intro v hv
    rcases h1.lock v with h | ⟨h, _⟩
    · rw [← h]; exact hv
    · exact h
  constructor
  · exact h1.cur
  · rw [h2.cur_eq, h1.cur_eq]
  · rw [h2.nextTx_eq, h1.nextTx_eq]
  · exact le_trans h1.nextBuf_le h2.nextBuf_le
  · exact fun y hy => (h1.others y hy).andThen (h2.others y hy)
  · rw [h2.c_alive, h1.c_alive]
  · rw [h2.c_comitted, h1.c_comitted]
  · rw [h2.c_aborted, h1.c_aborted]
  · rw [h2.c_hij, h1.c_hij]
  · exact fun h => h2.c_irr (h1.c_irr h)
  · intro hi2 hi0
    cases hi1 : (s1.txs c).amIIrrevocable
    · obtain ⟨a, b, c1, d, e⟩ := h2.c_irr_new hi2 hi1
      refine ⟨?_, b, c1, d, e⟩
      cases hl : s.irrTransactionLock
      · rfl
      · rw [h1.irrLock_mono hl] at a; exact absurd a (by simp)
    · obtain ⟨a, b, c1, d, e⟩ := h1.c_irr_new hi1 hi0
      exact ⟨a, h2.irrLock_mono b, by rw [h2.c_aborted]; exact c1, h2.c_crl d, h2.c_cl e⟩
  · exact fun h => h2.c_crl (h1.c_crl h)
  · exact fun h => h2.c_cl (h1.c_cl h)
  · intro h
    rcases h2.c_crl_new h with h3 | h3
    · rcases h1.c_crl_new h3 with h4 | h4
      · exact Or.inl h4
      · exact Or.inr (h2.c_irr h4)
    · exact Or.inr h3
  · intro h
    rcases h2.c_cl_new h with h3 | h3
    · rcases h1.c_cl_new h3 with h4 | h4
      · exact Or.inl h4
      · exact Or.inr (h2.c_irr h4)
    · exact Or.inr h3
  · exact fun h => h2.irrLock_mono (h1.irrLock_mono h)
  · exact fun v h => h2.c_locks v (h1.c_locks v h)
  · intro v hv2 hv0
    by_cases hv1 : v ∈ (s1.txs c).locksHeld
    · obtain ⟨a, b⟩ := h1.c_locks_new v hv1 hv0
      refine ⟨a, ?_⟩
      rcases h2.lock v with h | ⟨h, _, h3⟩
      · rw [h]; exact b
      · exact absurd hv1 h3
    · obtain ⟨a, b⟩ := h2.c_locks_new v hv2 hv1
      exact ⟨lock_false v a, b⟩
  · intro b hb
    rcases h2.c_owns b hb with h | ⟨n, h3, h4, h5⟩
    · rcases h1.c_owns b h with h | ⟨n, h3, h4, h5⟩
      · exact Or.inl h
      · exact Or.inr ⟨n, h3, h4, lt_of_lt_of_le h5 h2.nextBuf_le⟩
    · exact Or.inr ⟨n, h3, le_trans h1.nextBuf_le h4, h5⟩
  · exact fun v h => h2.c_wset_mono v (h1.c_wset_mono v h)
  · exact h2.c_disj
  · intro v hi2 hv2 hv0
    have hi1 : (s1.txs c).amIIrrevocable = false := by
      cases hh : (s1.txs c).amIIrrevocable
      · rfl
      · rw [h2.c_irr hh] at hi2; exact absurd hi2 (by simp)
    by_cases hv1 : v ∈ (s1.txs c).wsetBuffers
    · obtain ⟨a, b⟩ := h1.c_wset_new v hi1 hv1 hv0
      refine ⟨h2.c_locks v a, ?_⟩
      rcases h2.mrlo v with h | ⟨h, _⟩
      · rw [h]; exact b
      · exact h
    · exact h2.c_wset_new v hi2 hv2 hv1
  · exact fun v => by rw [h2.varPtr_eq, h1.varPtr_eq]
  · intro v i x hx
    rcases h2.readers v i x hx with h | h
    · exact h1.readers v i x h
    · exact Or.inr h
  · intro v
    rcases h2.mrlo v with h | ⟨h, h3, h4⟩
    · rw [h]
      rcases h1.mrlo v with h5 | ⟨h5, h6, h7⟩
      · exact Or.inl h5
      · exact Or.inr ⟨h5, h6, h2.c_wset_mono v h7⟩
    · exact Or.inr ⟨h, lock_false v h3, h4⟩
  · intro v
    rcases h2.lock v with h | ⟨h, h3, h4⟩
    · rw [h]
      rcases h1.lock v with h5 | ⟨h5, h6, h7⟩
      · exact Or.inl h5
      · exact Or.inr ⟨h5, h2.c_locks v h6, h7⟩
    · refine Or.inr ⟨lock_false v h, h3, fun h5 => h4 (h1.c_locks v h5)⟩

/-! ## Elementary steps of a call whose transaction goes on -/

/-- A store to a variable that leaves `varPtr`, `lock` and `mostRecentLockOwner` alone and
at most registers the caller as a reader. -/
theorem Lives.varTweak {th c : Nat} {s : State} (hi : Inv s)
    (hc : s.currentTransaction th = some c) (v : Nat) (g : Variable → Variable)
    (g1 : ∀ x, (g x).varPtr = x.varPtr)
    (g2 : ∀ x i y, (g x).readers i = some y → x.readers i = some y ∨ (i = th ∧ y = c))
    (g3 : ∀ x, (g x).mostRecentLockOwner = x.mostRecentLockOwner)
    (g4 : ∀ x, (g x).lock = x.lock) : Lives th c s (s.modVar v g) := by
  have hv : ∀ w, ((s.modVar v g).vars w).varPtr = (s.vars w).varPtr ∧
      (∀ i y, ((s.modVar v g).vars w).readers i = some y →
        (s.vars w).readers i = some y ∨ (i = th ∧ y = c)) ∧
      ((s.modVar v g).vars w).mostRecentLockOwner = (s.vars w).mostRecentLockOwner ∧
      ((s.modVar v g).vars w).lock = (s.vars w).lock := by
    intro w
    rw [modVar_vars]; split
    · subst_vars; exact ⟨g1 _, g2 _, g3 _, g4 _⟩
    · exact ⟨rfl, fun _ _ => Or.inl, rfl, rfl⟩
  have h0 := Lives.still hi hc
  constructor
  case varPtr_eq => exact fun w => (hv w).1
  case readers => exact fun w i x hx => (hv w).2.1 i x hx
  case mrlo => intro w; rw [(hv w).2.2.1]; exact Or.inl rfl
  case lock => intro w; rw [(hv w).2.2.2]; exact Or.inl rfl
  case c_locks_new => exact fun _ h1 h2 => absurd h1 h2
  case c_wset_new => exact fun _ _ h1 h2 => absurd h1 h2
  all_goals first
    | exact hc
    | rfl
    | exact le_refl _
    | exact fun _ _ => Touched.same _
    | exact id
    | exact fun _ => id
    | exact Or.inl
    | exact fun _ => Or.inl
    | exact h0.c_irr_new
    | exact h0.c_disj

/-- A change of the sets of the calling transaction only, possibly with an allocation. -/
theorem Lives.ofSelf {th c : Nat} {s s' : State} (hc : s.currentTransaction th = some c)
    (hvars : s'.vars = s.vars) (hcur : s'.currentTransaction = s.currentTransaction)
    (hnt : s'.nextTx = s.nextTx) (hnb : s.nextBuf ≤ s'.nextBuf)
    (hil : s'.irrTransactionLock = s.irrTransactionLock)
    (hothers : ∀ y, y ≠ c → s'.txs y = s.txs y)
    (f1 : (s'.txs c).alive = (s.txs c).alive) (f2 : (s'.txs c).comitted = (s.txs c).comitted)
    (f3 : (s'.txs c).aborted = (s.txs c).aborted)
    (f4 : (s'.txs c).hijackedWsetBuffers = (s.txs c).hijackedWsetBuffers)
    (f5 : (s'.txs c).amIIrrevocable = (s.txs c).amIIrrevocable)
    (f6 : (s'.txs c).cleanReadsetLock = (s.txs c).cleanReadsetLock)
    (f7 : (s'.txs c).commitLock = (s.txs c).commitLock)
    (f8 : (s'.txs c).locksHeld = (s.txs c).locksHeld)
    (howns : ∀ b, (s'.txs c).owns b → (s.txs c).owns b ∨ Fresh s s' b)
    (hmono : ∀ v, v ∈ (s.txs c).wsetBuffers → v ∈ (s'.txs c).wsetBuffers)
    (hdisj : ∀ v, v ∈ (s'.txs c).rsetBuffers → v ∉ (s'.txs c).wsetBuffers)
    (hnew : (s.txs c).amIIrrevocable = false →
      ∀ v, v ∈ (s'.txs c).wsetBuffers → v ∈ (s.txs c).wsetBuffers) :
    Lives th c s s' := by
  constructor
  case others => intro y hy; rw [hothers y hy]; exact Touched.same _
  case c_irr_new => intro h1 h2; rw [f5, h2] at h1; exact absurd h1 (by simp)
  case c_locks_new => intro v h1 h2; rw [f8] at h1; exact absurd h1 h2
  case c_wset_new => intro v h1 h2 h3; rw [f5] at h1; exact absurd (hnew h1 v h2) h3
  case c_irr => rw [f5]; exact id
  case c_crl => rw [f6]; exact id
  case c_cl => rw [f7]; exact id
  case c_crl_new => rw [f6]; exact Or.inl
  case c_cl_new => rw [f7]; exact Or.inl
  case c_locks => rw [f8]; exact fun _ => id
  case irrLock_mono => rw [hil]; exact id
  case varPtr_eq => rw [hvars]; exact fun _ => rfl
  case readers => rw [hvars]; exact fun _ _ _ => Or.inl
  case mrlo => rw [hvars]; exact fun _ => Or.inl rfl
  case lock => rw [hvars]; exact fun _ => Or.inl rfl
  all_goals assumption

/-- An irrevocable transaction takes the commit lock of a lock owner and marks it aborted. -/
theorem Lives.kill {th c : Nat} {s : State} (hi : Inv s)
    (hc : s.currentTransaction th = some c) (y : Nat) (hy : y ≠ c)
    (hcl : (s.txs y).commitLock = false) :
    Lives th c s (s.modTx y fun t => { t with commitLock := true, aborted := true }) := by
  have h0 := Lives.still hi hc
  have hself : ((s.modTx y fun t => { t with commitLock := true, aborted := true }).txs c) =
      s.txs c := modTx_txs_ne _ _ _ _ (Ne.symm hy)
  constructor
  case others =>
    intro z hz
    by_cases hzy : z = y
    · subst hzy
      rw [modTx_txs_same]
      constructor <;> simp [hcl]
    · rw [modTx_txs_ne _ _ _ _ hzy]; exact Touched.same _
  all_goals try rw [hself]
  case c_locks_new => exact fun _ h1 h2 => absurd h1 h2
  case c_wset_new => exact fun _ _ h1 h2 => absurd h1 h2
  all_goals first
    | exact hc
    | rfl
    | exact le_refl _
    | exact id
    | exact fun _ => id
    | exact Or.inl
    | exact fun _ => Or.inl
    | exact fun _ _ _ => Or.inl
    | exact fun _ => Or.inl rfl
    | exact fun _ => rfl
    | exact h0.c_irr_new
    | exact h0.c_disj

/-- The calling transaction takes the free lock of a variable (`irrAcquire`). -/
theorem Lives.takeLock {th c : Nat} {s : State} (hi : Inv s)
    (hc : s.currentTransaction th = some c) (v : Nat) (hl : (s.vars v).lock = false)
    (g : Variable → Variable) (g0 : ∀ x, (g x).lock = true)
    (g1 : ∀ x, (g x).varPtr = x.varPtr) (g2 : ∀ x, (g x).readers = x.readers)
    (g3 : ∀ x, (g x).mostRecentLockOwner = x.mostRecentLockOwner) :
    Lives th c s ((s.modVar v g).modTx c fun t => { t with locksHeld := t.locksHeld.insert v }) := by
  have h0 := Lives.still hi hc
  have hnot : v ∉ (s.txs c).locksHeld := by
    intro h
    have := hi.held_locked c v (hi.cur_alive th c hc) h
    rw [hl] at this; exact absurd this (by simp)
  have hv : ∀ w, w ≠ v → (s.modVar v g).vars w = s.vars w := fun w hw => modVar_vars_ne _ _ _ _ hw
  constructor
  case others => intro y hy; rw [modTx_txs_ne _ _ _ _ hy]; exact Touched.same _
  case c_locks => intro w hw; simp [hw]
  case c_locks_new =>
    intro w h1 h2
    simp only [modTx_txs_same, modVar_txs, List.mem_insert_iff] at h1
    rcases h1 with h1 | h1
    · subst h1; simp [hl, g0]
    · exact absurd h1 h2
  case c_wset_new => intro w _ h1 h2; simp at h1; exact absurd h1 h2
  case varPtr_eq =>
    intro w; by_cases hw : w = v
    · subst hw; simp [g1]
    · simp [hv w hw]
  case readers =>
    intro w i x hx; left
    by_cases hw : w = v
    · subst hw; simpa [g2] using hx
    · simpa [hv w hw] using hx
  case mrlo =>
    intro w; left
    by_cases hw : w = v
    · subst hw; simp [g3]
    · simp [hv w hw]
  case lock =>
    intro w
    by_cases hw : w = v
    · subst hw; right; simp [hl, hnot]
    · left; simp [hv w hw]
  case c_owns => intro b hb; left; simpa [Transaction.owns] using hb
  case c_disj => intro w hw; simp at hw ⊢; exact h0.c_disj w hw
  case c_irr_new => intro h1 h2; simp at h1; rw [h2] at h1; exact absurd h1 (by simp)
  all_goals first
    | exact hc
    | rfl
    | exact le_refl _
    | (simp; done)
    | (intro h; simpa using h)
    | (intro h; left; simpa using h)

theorem lockWeak_some {s : State} {w : Option Nat} {y : Nat} (h : s.lockWeak w = some y) :
    w = some y ∧ (s.txs y).alive := by
  unfold State.lockWeak at h
  cases w with
  | none => simp at h
  | some x =>
    simp only at h
    split at h
    · cases h; exact ⟨rfl, by assumption⟩
    · simp at h

/-- The tail of `irrAcquire`: a fresh copy enters the read set or the write set. -/
theorem irrAcquireCopy_lives {th c v : Nat} {ro : Bool} {s : State}
    (hc : s.currentTransaction th = some c) (hirr : (s.txs c).amIIrrevocable)
    (hd : ∀ w, w ∈ (s.txs c).rsetBuffers → w ∉ (s.txs c).wsetBuffers)
    (hw : v ∉ (s.txs c).wsetBuffers) (hr : ro = false → v ∉ (s.txs c).rsetBuffers) :
    Lives th c s (irrAcquireCopy c v ro s) ∧
    (if ro then (irrAcquireCopy c v ro s).txs c |>.rsetBuffers.lookup v
      else (irrAcquireCopy c v ro s).txs c |>.wsetBuffers.lookup v) = some (Buf.alloc s.nextBuf) ∧
    (irrAcquireCopy c v ro s).heap (Buf.alloc s.nextBuf) = s.value v := by
  cases ro with
  | true =>
    simp only [irrAcquireCopy, if_true, setRset]
    refine ⟨?_, by simp, by simp [newT_heap, State.value]⟩
    apply Lives.ofSelf hc
    case hothers => intro y hy; simp [hy]
    case howns =>
      intro b ⟨w, hb⟩
      simp only [modTx_txs_same, newT_txs] at hb
      by_cases hwv : w = v
      · subst hwv
        rcases hb with hb | hb
        · right; simp at hb; exact ⟨s.nextBuf, hb.symm, le_refl _, by simp⟩
        · left; exact ⟨w, Or.inr hb⟩
      · left; rw [AList.lookup_insert_ne hwv] at hb; exact ⟨w, hb⟩
    case hdisj =>
      intro w hw1
      simp only [modTx_txs_same, newT_txs, AList.mem_insert] at hw1 ⊢
      rcases hw1 with hw1 | hw1
      · subst hw1; exact hw
      · exact hd w hw1
    case hnew => intro h; rw [h] at hirr; exact absurd hirr (by simp)
    all_goals simp
  | false =>
    simp only [irrAcquireCopy, setWset, Bool.false_eq_true, if_false]
    refine ⟨?_, by simp, by simp [newT_heap, State.value]⟩
    apply Lives.ofSelf hc
    case hothers => intro y hy; simp [hy]
    case howns =>
      intro b ⟨w, hb⟩
      simp only [modTx_txs_same, newT_txs] at hb
      by_cases hwv : w = v
      · subst hwv
        rcases hb with hb | hb
        · left; exact ⟨w, Or.inl hb⟩
        · right; simp at hb; exact ⟨s.nextBuf, hb.symm, le_refl _, by simp⟩
      · left; rw [AList.lookup_insert_ne hwv] at hb; exact ⟨w, hb⟩
    case hmono => intro w hw1; simp [hw1]
    case hdisj =>
      intro w hw1
      simp only [modTx_txs_same, newT_txs, AList.mem_insert] at hw1 ⊢
      intro h
      rcases h with h | h
      · subst h; exact hr rfl hw1
      · exact hd w hw1 h
    case hnew => intro h; rw [h] at hirr; exact absurd hirr (by simp)
    all_goals simp


/-- In a state between calls `irrAcquire` of an irrevocable transaction returns: no assertion
fails, the buffer of the lock owner is never hijacked, and the variable enters the read set
(`wantReadOnly`) or the write set with a fresh buffer. -/
theorem irrAcquire_lives {th c v : Nat} {ro : Bool} {s : State} (hi : Inv s)
    (hc : s.currentTransaction th = some c) (hirr : (s.txs c).amIIrrevocable)
    (hw : v ∉ (s.txs c).wsetBuffers) (hr : ro = false → v ∉ (s.txs c).rsetBuffers) :
    (irrAcquire c v ro s).1 = .ok () ∧ Lives th c s (irrAcquire c v ro s).2 ∧
    (if ro then (irrAcquire c v ro s).2.txs c |>.rsetBuffers.lookup v
      else (irrAcquire c v ro s).2.txs c |>.wsetBuffers.lookup v) = some (Buf.alloc s.nextBuf) ∧
    (irrAcquire c v ro s).2.heap (Buf.alloc s.nextBuf) = s.value v := by
  have hca := hi.cur_alive th c hc
  have hd := fun w => hi.sets_disj c w hca
  -- the store to `usedByIrr`
  have l1 : Lives th c s (s.modVar v fun x => { x with usedByIrr := true }) :=
    Lives.varTweak hi hc v _ (fun _ => rfl) (fun _ _ _ => Or.inl) (fun _ => rfl) (fun _ => rfl)
  have hi1 := l1.keepsInv hi
  have copy : ∀ s1 : State, Lives th c s s1 →
      ((s1.txs c).rsetBuffers = (s.txs c).rsetBuffers ∧
        (s1.txs c).wsetBuffers = (s.txs c).wsetBuffers ∧
        (s1.txs c).amIIrrevocable = (s.txs c).amIIrrevocable) →
      (s1.nextBuf = s.nextBuf ∧ s1.value v = s.value v) →
      Lives th c s (irrAcquireCopy c v ro s1) ∧
      (if ro then (irrAcquireCopy c v ro s1).txs c |>.rsetBuffers.lookup v
        else (irrAcquireCopy c v ro s1).txs c |>.wsetBuffers.lookup v)
          = some (Buf.alloc s.nextBuf) ∧
      (irrAcquireCopy c v ro s1).heap (Buf.alloc s.nextBuf) = s.value v := by
    intro s1 hl he hn
    have hc1 : s1.currentTransaction th = some c := by rw [hl.cur_eq]; exact hc
    have := @irrAcquireCopy_lives th c v ro s1 hc1 (by rw [he.2.2]; exact hirr)
      (by rw [he.1, he.2.1]; exact hd) (by rw [he.2.1]; exact hw) (by rw [he.1]; exact hr)
    rw [hn.1, hn.2] at this
    exact ⟨hl.andAlso this.1, this.2⟩
  unfold irrAcquire
  simp only [modVar_vars_same, modVar_txs]
  cases hl : (s.vars v).lock with
  | false =>
    simp only [Bool.not_false, if_true]
    refine ⟨trivial, ?_⟩
    have l2 := Lives.takeLock hi1 hc v (by simp [hl]) (fun x => { x with lock := true })
      (fun _ => rfl) (fun _ => rfl) (fun _ => rfl) (fun _ => rfl)
    apply copy _ (l1.andAlso l2)
    · simp
    · simp [State.value]
  | true =>
    simp only [Bool.not_true, Bool.false_eq_true, if_false]
    cases ho : (s.modVar v fun x => { x with usedByIrr := true }).lockWeak
        (s.vars v).mostRecentLockOwner with
    | none =>
      dsimp only
      exact ⟨rfl, copy _ l1 (by simp) (by simp [State.value])⟩
    | some y =>
      obtain ⟨hm, hya⟩ := lockWeak_some ho
      simp only [modVar_txs] at hya
      dsimp only
      cases hcl : (s.txs y).commitLock with
      | false =>
        simp only [Bool.not_false, if_true]
        refine ⟨trivial, ?_⟩
        have hyc : y ≠ c := by
          intro h; subst h
          rw [(hi.irr_locks y hca hirr).2.1] at hcl; exact absurd hcl (by simp)
        have l2 := Lives.kill hi1 hc y hyc (by simpa using hcl)
        apply copy _ (l1.andAlso l2)
        · simp [modTx_txs_ne _ _ _ _ (Ne.symm hyc)]
        · simp [State.value]
      | true =>
        simp only [Bool.not_true, Bool.false_eq_true, if_false]
        by_cases hfin : ((s.txs y).aborted || (s.txs y).comitted) = true
        · rw [if_pos hfin]
          exact ⟨rfl, copy _ l1 (by simp) (by simp [State.value])⟩
        · exfalso
          simp only [Bool.or_eq_true, not_or, Bool.not_eq_true] at hfin
          rcases hi.cl_dead y hya hcl with h | h
          · rw [hfin.1] at h; exact absurd h (by simp)
          · have := hi.irr_unique y c hya hca h hirr
            subst this
            exact hw (hi.mrlo_wset v y hm hya)

/-! ## The calls ro and rw -/

/-- A footprint in which of the transactions only the caller changed, its held locks apart. -/
theorem PreDie.simple {th c : Nat} {s s1 : State} (hc : s.currentTransaction th = some c)
    (hcur : s1.currentTransaction = s.currentTransaction)
    (hnt : s1.nextTx = s.nextTx) (hnb : s.nextBuf ≤ s1.nextBuf)
    (hil : s1.irrTransactionLock = s.irrTransactionLock)
    (hothers : ∀ y, y ≠ c → s1.txs y = s.txs y)
    (hlocks : (s1.txs c).locksHeld = (s.txs c).locksHeld)
    (h1 : ∀ w, (s1.vars w).varPtr = (s.vars w).varPtr)
    (h2 : ∀ w i x, (s1.vars w).readers i = some x →
      (s.vars w).readers i = some x ∨ (i = th ∧ x = c))
    (h3 : ∀ w, (s1.vars w).mostRecentLockOwner = (s.vars w).mostRecentLockOwner ∨
      ((s1.vars w).mostRecentLockOwner = some c ∧ (s.vars w).lock = false))
    (h4 : ∀ w, (s1.vars w).lock = (s.vars w).lock) : PreDie th c s s1 where
  cur := hc
  cur_eq := hcur
  nextTx_eq := hnt
  nextBuf_le := hnb
  others := fun y hy => by rw [hothers y hy]; exact Touched.same _
  c_locks := fun v hv => by rw [hlocks] at hv; exact Or.inl hv
  varPtr := fun w => Or.inl (h1 w)
  readers := h2
  mrlo := h3
  lock := fun w => Or.inl (h4 w)
  irrLock := Or.inl hil

/-- What a call does to the state, as far as the invariant is concerned. -/
theorem roFuel_hit {th v c : Nat} {s : State} {b : Buf} (n : Nat)
    (hc : s.currentTransaction th = some c)
    (h : (s.txs c).rsetBuffers.lookup v = some b ∨
      ((s.txs c).rsetBuffers.lookup v = none ∧ (s.txs c).wsetBuffers.lookup v = some b)) :
    roFuel (n + 1) th v s = (.ok b, s) := by
  unfold roFuel
  rcases h with h | ⟨h1, h2⟩
  · simp [hc, h]
  · simp [hc, h1, h2]

/-- A fresh buffer enters the read set. -/
theorem Lives.addRead {th c v : Nat} {s : State} (hc : s.currentTransaction th = some c)
    (hd : ∀ w, w ∈ (s.txs c).rsetBuffers → w ∉ (s.txs c).wsetBuffers)
    (hw : v ∉ (s.txs c).wsetBuffers) (val : Int) :
    Lives th c s (setRset c v (Buf.alloc s.nextBuf) (s.newT val)) := by
  simp only [setRset]
  apply Lives.ofSelf hc
  case hothers => intro y hy; simp [hy]
  case howns =>
    intro b ⟨w, hb⟩
    simp only [modTx_txs_same, newT_txs] at hb
    by_cases hwv : w = v
    · subst hwv
      rcases hb with hb | hb
      · right; simp at hb; exact ⟨s.nextBuf, hb.symm, le_refl _, by simp⟩
      · left; exact ⟨w, Or.inr hb⟩
    · left; rw [AList.lookup_insert_ne hwv] at hb; exact ⟨w, hb⟩
  case hdisj =>
    intro w hw1
    simp only [modTx_txs_same, newT_txs, AList.mem_insert] at hw1 ⊢
    rcases hw1 with hw1 | hw1
    · subst hw1; exact hw
    · exact hd w hw1
  case hnew => intro _ w hw1; simpa using hw1
  all_goals simp

theorem ro_cases {th v : Nat} {s : State} (hi : Inv s) :
    (∃ c b, s.currentTransaction th = some c ∧
      ((s.txs c).rsetBuffers.lookup v = some b ∨
        ((s.txs c).rsetBuffers.lookup v = none ∧ (s.txs c).wsetBuffers.lookup v = some b)) ∧
      ro th v s = (.ok b, s)) ∨
    (s.currentTransaction th = none ∧ s.nonTransAccess = none ∧
      ro th v s = (.ok (s.vars v).varPtr, s)) ∨
    (∃ e, s.currentTransaction th = none ∧ s.nonTransAccess = some e ∧
      ro th v s = (.error e, s)) ∨
    (∃ c b, (ro th v s).1 = .ok b ∧ Lives th c s (ro th v s).2 ∧
      v ∉ (s.txs c).rsetBuffers ∧ v ∉ (s.txs c).wsetBuffers ∧
      (ro th v s).2.heap b = s.value v ∧
      ((ro th v s).2.txs c).rsetBuffers.lookup v = some b) ∨
    (∃ c, (ro th v s).1 = .error .ReadFailedException ∧ Dies th c s (ro th v s).2 ∧
      (s.txs c).amIIrrevocable = false) := by
  unfold ro
  cases hc : s.currentTransaction th with
  | none =>
    cases hh : s.nonTransAccess with
    | none => exact Or.inr (Or.inl ⟨rfl, rfl, by unfold roFuel; simp [hc, hh]⟩)
    | some e => exact Or.inr (Or.inr (Or.inl ⟨e, rfl, rfl, by unfold roFuel; simp [hc, hh]⟩))
  | some c =>
    have hca := hi.cur_alive th c hc
    cases hr : (s.txs c).rsetBuffers.lookup v with
    | some b => exact Or.inl ⟨c, b, rfl, Or.inl hr, roFuel_hit 1 hc (Or.inl hr)⟩
    | none =>
      cases hw : (s.txs c).wsetBuffers.lookup v with
      | some b => exact Or.inl ⟨c, b, rfl, Or.inr ⟨hr, hw⟩, roFuel_hit 1 hc (Or.inr ⟨hr, hw⟩)⟩
      | none =>
        have hr' : v ∉ (s.txs c).rsetBuffers := AList.lookup_eq_none.1 hr
        have hw' : v ∉ (s.txs c).wsetBuffers := AList.lookup_eq_none.1 hw
        right; right; right
        cases hirr : (s.txs c).amIIrrevocable with
        | true =>
          left
          obtain ⟨h1, h2, h3, h4⟩ := @irrAcquire_lives th c v true s hi hc hirr hw'
            (fun h => by simp at h)
          rw [roFuel]
          simp only [hc, hr, hw, hirr, if_true]
          revert h1 h2 h3 h4
          generalize irrAcquire c v true s = r
          obtain ⟨r1, s1⟩ := r
          intro h1 h2 h3 h4
          simp only at h1 h2 h3 h4
          subst h1
          simp only [if_true] at h3
          have hc1 : s1.currentTransaction th = some c := by rw [h2.cur_eq]; exact hc
          simp only [roFuel_hit 0 hc1 (Or.inl h3)]
          exact ⟨c, _, rfl, h2, hr', hw', h4, h3⟩
        | false =>
          rw [roFuel]
          simp only [hc, hr, hw, hirr, Bool.false_eq_true, if_false, modVar_vars_same]
          have hcom := hi.not_comitted c hca
          by_cases hd : ((s.vars v).dirty || (s.vars v).dirtyIrr) = true
          · right
            rw [if_pos hd]
            have hp : PreDie th c s (s.modVar v fun x =>
                { x with readers := Function.update x.readers th (some c) }) := by
              apply PreDie.simple hc <;> try simp only [modVar_cur, modVar_nextTx, modVar_nextBuf, modVar_irrLock, modVar_txs, newT_cur, newT_nextTx, newT_nextBuf, newT_irrLock, newT_txs, le_refl, Nat.le_succ, implies_true]
              · intro w; rw [modVar_vars]; split <;> simp [*]
              · intro w i x; rw [modVar_vars]; split
                · subst_vars
                  simp only [Function.update_apply]
                  split
                  · intro h; cases h; subst_vars; exact Or.inr ⟨rfl, rfl⟩
                  · exact Or.inl
                · exact Or.inl
              · intro w; left; rw [modVar_vars]; split <;> simp [*]
              · intro w; rw [modVar_vars]; split <;> simp [*]
            have := @PreDie.abortThrow Buf th c s _ .ReadFailedException hp
              (by simpa using hcom) (by simpa using hirr)
            exact ⟨c, this.1, this.2, hirr⟩
          · rw [if_neg hd]
            simp only [newT_txs, modVar_txs]
            have hv1 : ∀ w i x, ((s.modVar v fun x =>
                { x with readers := Function.update x.readers th (some c) }).vars w).readers i
                  = some x → (s.vars w).readers i = some x ∨ (i = th ∧ x = c) := by
              intro w i x; rw [modVar_vars]; split
              · subst_vars
                simp only [Function.update_apply]
                split
                · intro h; cases h; subst_vars; exact Or.inr ⟨rfl, rfl⟩
                · exact Or.inl
              · exact Or.inl
            by_cases hab : (s.txs c).aborted = true
            · right
              rw [if_pos hab]
              have hp : PreDie th c s ((s.modVar v fun x =>
                  { x with readers := Function.update x.readers th (some c) }).newT
                    (s.heap (s.vars v).varPtr)) := by
                apply PreDie.simple hc <;> try simp only [modVar_cur, modVar_nextTx, modVar_nextBuf, modVar_irrLock, modVar_txs, newT_cur, newT_nextTx, newT_nextBuf, newT_irrLock, newT_txs, le_refl, Nat.le_succ, implies_true]
                · intro w; simp only [newT_vars]; rw [modVar_vars]; split <;> simp [*]
                · exact hv1
                · intro w; left; simp only [newT_vars]; rw [modVar_vars]; split <;> simp [*]
                · intro w; simp only [newT_vars]; rw [modVar_vars]; split <;> simp [*]
              have := @PreDie.abortThrow Buf th c s _ .ReadFailedException hp
                (by simpa using hcom) (by simpa using hirr)
              exact ⟨c, this.1, this.2, hirr⟩
            · left
              rw [if_neg hab]
              refine ⟨c, _, rfl, ?_, hr', hw', by simp [setRset, newT_heap, State.value],
                by simp [setRset]⟩
              have l1 : Lives th c s (s.modVar v fun x =>
                  { x with readers := Function.update x.readers th (some c) }) := by
                apply Lives.varTweak hi hc <;> try (simp; done)
                intro x i y
                simp only [Function.update_apply]
                split
                · intro h; cases h; subst_vars; exact Or.inr ⟨rfl, rfl⟩
                · exact Or.inl
              exact l1.andAlso (Lives.addRead (by simpa using hc)
                (by simpa using fun w => hi.sets_disj c w hca) (by simpa using hw') _)

theorem mem_iff_lookup {m : BufMap} {v : Nat} : v ∈ m ↔ ∃ b, m.lookup v = some b := by
  rw [← AList.lookup_isSome, Option.isSome_iff_exists]

/-- A revocable transaction takes the free lock of `v` and puts `v` into its write set, with
a new buffer or with the buffer it had read. -/
theorem Lives.rwRevocable {th c v : Nat} {s s' : State} {b : Buf} (hi : Inv s)
    (hc : s.currentTransaction th = some c) (hl : (s.vars v).lock = false)
    (hvars : ∀ w, w ≠ v → s'.vars w = s.vars w)
    (hv1 : (s'.vars v).lock = true) (hv2 : (s'.vars v).mostRecentLockOwner = some c)
    (hv3 : (s'.vars v).varPtr = (s.vars v).varPtr)
    (hv4 : (s'.vars v).readers = (s.vars v).readers)
    (hcur : s'.currentTransaction = s.currentTransaction)
    (hnt : s'.nextTx = s.nextTx) (hnb : s.nextBuf ≤ s'.nextBuf)
    (hil : s'.irrTransactionLock = s.irrTransactionLock)
    (hothers : ∀ y, y ≠ c → s'.txs y = s.txs y)
    (f1 : (s'.txs c).alive = (s.txs c).alive) (f2 : (s'.txs c).comitted = (s.txs c).comitted)
    (f3 : (s'.txs c).aborted = (s.txs c).aborted)
    (f4 : (s'.txs c).hijackedWsetBuffers = (s.txs c).hijackedWsetBuffers)
    (f5 : (s'.txs c).amIIrrevocable = (s.txs c).amIIrrevocable)
    (f6 : (s'.txs c).cleanReadsetLock = (s.txs c).cleanReadsetLock)
    (f7 : (s'.txs c).commitLock = (s.txs c).commitLock)
    (f8 : (s'.txs c).locksHeld = (s.txs c).locksHeld.insert v)
    (hr : ∀ w, (s'.txs c).rsetBuffers.lookup w =
      if w = v then none else (s.txs c).rsetBuffers.lookup w)
    (hw : ∀ w, (s'.txs c).wsetBuffers.lookup w =
      if w = v then some b else (s.txs c).wsetBuffers.lookup w)
    (hb : (s.txs c).owns b ∨ Fresh s s' b) : Lives th c s s' := by
  have hca := hi.cur_alive th c hc
  have hnot : v ∉ (s.txs c).locksHeld := by
    intro h
    have := hi.held_locked c v hca h
    rw [hl] at this; exact absurd this (by simp)
  have hvw : v ∈ (s'.txs c).wsetBuffers := mem_iff_lookup.2 ⟨b, by rw [hw]; simp⟩
  constructor
  case others => intro y hy; rw [hothers y hy]; exact Touched.same _
  case c_irr_new => intro h1 h2; rw [f5, h2] at h1; exact absurd h1 (by simp)
  case c_locks => intro w hw; rw [f8]; simp [hw]
  case c_locks_new =>
    intro w h1 h2
    rw [f8, List.mem_insert_iff] at h1
    rcases h1 with h1 | h1
    · subst h1; exact ⟨hl, hv1⟩
    · exact absurd h1 h2
  case c_owns =>
    intro b' ⟨w, h⟩
    rw [hr, hw] at h
    by_cases hwv : w = v
    · subst hwv
      simp only [if_true] at h
      rcases h with h | h
      · cases h
      · cases h; exact hb
    · simp only [if_neg hwv] at h; exact Or.inl ⟨w, h⟩
  case c_wset_mono =>
    intro w h
    rw [mem_iff_lookup] at h ⊢
    obtain ⟨b', h⟩ := h
    rw [hw]
    by_cases hwv : w = v
    · exact ⟨b, by simp [hwv]⟩
    · exact ⟨b', by simp [hwv, h]⟩
  case c_disj =>
    intro w h1 h2
    rw [mem_iff_lookup] at h1 h2
    obtain ⟨b1, h1⟩ := h1
    obtain ⟨b2, h2⟩ := h2
    rw [hr] at h1; rw [hw] at h2
    by_cases hwv : w = v
    · simp [hwv] at h1
    · simp only [if_neg hwv] at h1 h2
      exact hi.sets_disj c w hca (mem_iff_lookup.2 ⟨_, h1⟩) (mem_iff_lookup.2 ⟨_, h2⟩)
  case c_wset_new =>
    intro w _ h1 h2
    by_cases hwv : w = v
    · subst hwv; rw [f8]; exact ⟨by simp, hv2⟩
    · exfalso; apply h2
      rw [mem_iff_lookup] at h1 ⊢
      obtain ⟨b1, h1⟩ := h1
      rw [hw, if_neg hwv] at h1; exact ⟨_, h1⟩
  case varPtr_eq =>
    intro w; by_cases hwv : w = v
    · subst hwv; exact hv3
    · rw [hvars w hwv]
  case readers =>
    intro w i x hx; left
    by_cases hwv : w = v
    · subst hwv; rw [hv4] at hx; exact hx
    · rw [hvars w hwv] at hx; exact hx
  case mrlo =>
    intro w; by_cases hwv : w = v
    · subst hwv; exact Or.inr ⟨hv2, hl, hvw⟩
    · rw [hvars w hwv]; exact Or.inl rfl
  case lock =>
    intro w; by_cases hwv : w = v
    · subst hwv; right; rw [f8]; exact ⟨hl, by simp, hnot⟩
    · rw [hvars w hwv]; exact Or.inl rfl
  case c_irr => rw [f5]; exact id
  case c_crl => rw [f6]; exact id
  case c_cl => rw [f7]; exact id
  case c_crl_new => rw [f6]; exact Or.inl
  case c_cl_new => rw [f7]; exact Or.inl
  case irrLock_mono => rw [hil]; exact id
  all_goals assumption

/-- An irrevocable transaction moves the buffer it had read to its write set (`rwIrr`). -/
theorem Lives.steal {th c v : Nat} {s : State} {b : Buf} (hi : Inv s)
    (hc : s.currentTransaction th = some c) (hirr : (s.txs c).amIIrrevocable)
    (hr : (s.txs c).rsetBuffers.lookup v = some b) :
    Lives th c s (setWset c v b (unsetRset c v s)) := by
  have hca := hi.cur_alive th c hc
  simp only [setWset, unsetRset]
  apply Lives.ofSelf hc
  case hothers => intro y hy; simp [hy]
  case howns =>
    intro b' ⟨w, h⟩
    simp only [modTx_txs_same, modTx_txs] at h
    by_cases hwv : w = v
    · subst hwv
      rcases h with h | h
      · simp at h
      · simp at h; subst h; exact Or.inl ⟨w, Or.inl hr⟩
    · simp only [if_true, AList.lookup_erase_ne hwv, AList.lookup_insert_ne hwv] at h
      exact Or.inl ⟨w, h⟩
  case hmono => intro w h; simp [h]
  case hdisj =>
    intro w h1
    simp only [modTx_txs_same, AList.mem_erase, AList.mem_insert] at h1 ⊢
    intro h2
    rcases h2 with h2 | h2
    · exact h1.1 h2
    · exact hi.sets_disj c w hca h1.2 h2
  case hnew => intro h; rw [h] at hirr; exact absurd hirr (by simp)
  all_goals simp

theorem rwFuel_hit {th v c : Nat} {s : State} {b : Buf} (n : Nat)
    (hc : s.currentTransaction th = some c) (h : (s.txs c).wsetBuffers.lookup v = some b) :
    rwFuel (n + 1) th v s = (.ok b, s) := by
  unfold rwFuel
  simp [hc, h]

/-- The failing tail of a first `rw` of a revocable transaction: the lock was taken, the
owner recorded, and the lock is given back before `abort()`. -/
theorem rw_fail_preDie {th c v : Nat} {s s1 : State} (hc : s.currentTransaction th = some c)
    (hl : (s.vars v).lock = false)
    (hvars : s1.vars = (s.modVar v fun x =>
      { x with lock := true, previousLockOwner := x.mostRecentLockOwner,
               mostRecentLockOwner := some c }).vars)
    (hcur : s1.currentTransaction = s.currentTransaction)
    (hnt : s1.nextTx = s.nextTx) (hnb : s.nextBuf ≤ s1.nextBuf)
    (hil : s1.irrTransactionLock = s.irrTransactionLock)
    (hothers : ∀ y, y ≠ c → s1.txs y = s.txs y)
    (hlocks : (s1.txs c).locksHeld = (s.txs c).locksHeld) :
    PreDie th c s (s1.modVar v fun x => { x with lock := false }) := by
  have hvx : ∀ w,
      ((s1.modVar v fun x => { x with lock := false }).vars w).varPtr = (s.vars w).varPtr ∧
      ((s1.modVar v fun x => { x with lock := false }).vars w).readers = (s.vars w).readers ∧
      ((s1.modVar v fun x => { x with lock := false }).vars w).lock = (s.vars w).lock ∧
      (((s1.modVar v fun x => { x with lock := false }).vars w).mostRecentLockOwner
          = (s.vars w).mostRecentLockOwner ∨
        (((s1.modVar v fun x => { x with lock := false }).vars w).mostRecentLockOwner
          = some c ∧ (s.vars w).lock = false)) := by
    intro w
    by_cases hwv : w = v
    · subst hwv; simp [hvars, hl]
    · simp [modVar_vars, hwv, hvars]
  apply PreDie.simple hc
  case h1 => exact fun w => (hvx w).1
  case h2 => intro w i x hx; rw [(hvx w).2.1] at hx; exact Or.inl hx
  case h3 => exact fun w => (hvx w).2.2.2
  case h4 => exact fun w => (hvx w).2.2.1
  all_goals simpa

/-- The successful tail of a first `rw` of a revocable transaction that had read `v`. -/
theorem rw_steal_lives {th c v : Nat} {s : State} {rb : Buf} (hi : Inv s)
    (hc : s.currentTransaction th = some c) (hl : (s.vars v).lock = false)
    (hr : (s.txs c).rsetBuffers.lookup v = some rb) :
    Lives th c s ((setWset c v rb (unsetRset c v (s.modVar v fun x =>
      { x with lock := true, previousLockOwner := x.mostRecentLockOwner,
               mostRecentLockOwner := some c }))).modTx c fun t =>
      { t with locksHeld := t.locksHeld.insert v }) := by
  apply Lives.rwRevocable hi hc hl (b := rb)
  case hvars => intro w hwv; simp [setWset, unsetRset, modVar_vars, hwv]
  case hothers => intro y hy; simp [setWset, unsetRset, hy]
  case hr =>
    intro w; by_cases hwv : w = v
    · subst hwv; simp [setWset, unsetRset]
    · simp [setWset, unsetRset, hwv]
  case hw =>
    intro w; by_cases hwv : w = v
    · subst hwv; simp [setWset, unsetRset]
    · simp [setWset, unsetRset, hwv]
  case hb => exact Or.inl ⟨v, Or.inl hr⟩
  all_goals simp [setWset, unsetRset]

/-- The successful tail of a first `rw` of a revocable transaction that had not read `v`. -/
theorem rw_fresh_lives {th c v : Nat} {s : State} (hi : Inv s)
    (hc : s.currentTransaction th = some c) (hl : (s.vars v).lock = false)
    (hr : (s.txs c).rsetBuffers.lookup v = none) (val : Int) :
    Lives th c s ((setWset c v (Buf.alloc s.nextBuf) ((s.modVar v fun x =>
      { x with lock := true, previousLockOwner := x.mostRecentLockOwner,
               mostRecentLockOwner := some c }).newT val)).modTx c fun t =>
      { t with locksHeld := t.locksHeld.insert v }) := by
  apply Lives.rwRevocable hi hc hl (b := Buf.alloc s.nextBuf)
  case hvars => intro w hwv; simp [setWset, modVar_vars, hwv]
  case hothers => intro y hy; simp [setWset, hy]
  case hr =>
    intro w; by_cases hwv : w = v
    · subst hwv; simp [setWset, hr]
    · simp [setWset, hwv]
  case hw =>
    intro w; by_cases hwv : w = v
    · subst hwv; simp [setWset]
    · simp [setWset, hwv]
  case hb => exact Or.inr ⟨s.nextBuf, rfl, le_refl _, by simp [setWset]⟩
  all_goals simp [setWset]

theorem rw_cases {th v : Nat} {s : State} (hi : Inv s) :
    (∃ c b, s.currentTransaction th = some c ∧ (s.txs c).wsetBuffers.lookup v = some b ∧
      rw th v s = (.ok b, s)) ∨
    (s.currentTransaction th = none ∧ s.nonTransAccess = none ∧
      rw th v s = (.ok (s.vars v).varPtr, s)) ∨
    (∃ e, s.currentTransaction th = none ∧ s.nonTransAccess = some e ∧
      rw th v s = (.error e, s)) ∨
    (∃ c b, (rw th v s).1 = .ok b ∧ Lives th c s (rw th v s).2 ∧
      ((rw th v s).2.txs c).wsetBuffers.lookup v = some b ∧
      v ∉ (s.txs c).wsetBuffers) ∨
    (∃ c, (rw th v s).1 = .error .WriteFailedException ∧ Dies th c s (rw th v s).2 ∧
      (s.txs c).amIIrrevocable = false) := by
  unfold rw
  cases hc : s.currentTransaction th with
  | none =>
    cases hh : s.nonTransAccess with
    | none => exact Or.inr (Or.inl ⟨rfl, rfl, by unfold rwFuel; simp [hc, hh]⟩)
    | some e => exact Or.inr (Or.inr (Or.inl ⟨e, rfl, rfl, by unfold rwFuel; simp [hc, hh]⟩))
  | some c =>
    have hca := hi.cur_alive th c hc
    cases hw : (s.txs c).wsetBuffers.lookup v with
    | some b => exact Or.inl ⟨c, b, rfl, hw, rwFuel_hit 1 hc hw⟩
    | none =>
      have hw' : v ∉ (s.txs c).wsetBuffers := AList.lookup_eq_none.1 hw
      right; right; right
      cases hirr : (s.txs c).amIIrrevocable with
      | true =>
        left
        rw [rwFuel]
        simp only [hc, hw, hirr, if_true]
        cases hr : (s.txs c).rsetBuffers.lookup v with
        | some rb =>
          dsimp only
          have l1 := Lives.steal hi hc hirr hr
          have hc1 : (setWset c v rb (unsetRset c v s)).currentTransaction th = some c := by
            rw [l1.cur_eq]; exact hc
          have hw1 : ((setWset c v rb (unsetRset c v s)).txs c).wsetBuffers.lookup v = some rb := by
            simp [setWset]
          rw [rwFuel_hit 0 hc1 hw1]
          exact ⟨c, rb, rfl, l1, hw1, hw'⟩
        | none =>
          dsimp only
          have hr' : v ∉ (s.txs c).rsetBuffers := AList.lookup_eq_none.1 hr
          obtain ⟨h1, h2, h3, -⟩ := @irrAcquire_lives th c v false s hi hc hirr hw'
            (fun _ => hr')
          revert h1 h2 h3
          generalize irrAcquire c v false s = r
          obtain ⟨r1, s1⟩ := r
          intro h1 h2 h3
          simp only at h1 h2 h3
          subst h1
          simp only [Bool.false_eq_true, if_false] at h3
          have hc1 : s1.currentTransaction th = some c := by rw [h2.cur_eq]; exact hc
          simp only [rwFuel_hit 0 hc1 h3]
          exact ⟨c, _, rfl, h2, h3, hw'⟩
      | false =>
        have hcom := hi.not_comitted c hca
        rw [rwFuel]
        simp only [rwLocked, hc, hw, hirr, Bool.false_eq_true, if_false, modVar_vars_same]
        have fail0 := @PreDie.abortThrow Buf th c s s .WriteFailedException (PreDie.start hc)
          hcom hirr
        by_cases hu : (s.vars v).usedByIrr = true
        · right; rw [if_pos hu]; exact ⟨c, fail0.1, fail0.2, hirr⟩
        · rw [if_neg hu]
          by_cases hl : (s.vars v).lock = true
          · right; rw [if_pos hl]; exact ⟨c, fail0.1, fail0.2, hirr⟩
          · rw [if_neg hl, if_neg hu]
            simp only [Bool.not_eq_true] at hl hu
            simp only [modVar_txs]
            cases hr : (s.txs c).rsetBuffers.lookup v with
            | some rb =>
              dsimp only
              simp only [unsetRset, modTx_txs_same, modVar_txs]
              by_cases hab : (s.txs c).aborted = true
              · right
                rw [if_pos hab]
                have hp : PreDie th c s (((s.modVar v fun x =>
                    { x with lock := true, previousLockOwner := x.mostRecentLockOwner,
                             mostRecentLockOwner := some c }).modTx c fun t =>
                    { t with rsetBuffers := t.rsetBuffers.erase v }).modVar v fun x =>
                    { x with lock := false }) :=
                  rw_fail_preDie hc hl rfl rfl rfl (le_refl _) rfl
                    (fun y hy => by simp [hy]) (by simp)
                have := @PreDie.abortThrow Buf th c s _ .WriteFailedException hp
                  (by simpa using hcom) (by simpa using hirr)
                exact ⟨c, this.1, this.2, hirr⟩
              · left
                rw [if_neg hab]
                exact ⟨c, rb, rfl, rw_steal_lives hi hc hl hr, by simp [setWset], hw'⟩
            | none =>
              dsimp only
              simp only [newT_txs, modVar_txs, modVar_vars_same, modVar_heap, modVar_nextBuf]
              by_cases hab : (s.txs c).aborted = true
              · right
                rw [if_pos hab]
                have hp : PreDie th c s (((s.modVar v fun x =>
                    { x with lock := true, previousLockOwner := x.mostRecentLockOwner,
                             mostRecentLockOwner := some c }).newT
                      (s.heap (s.vars v).varPtr)).modVar v fun x =>
                    { x with lock := false }) :=
                  rw_fail_preDie hc hl rfl rfl rfl (Nat.le_succ _) rfl
                    (fun y hy => by simp) (by simp)
                have := @PreDie.abortThrow Buf th c s _ .WriteFailedException hp
                  (by simpa using hcom) (by simpa using hirr)
                exact ⟨c, this.1, this.2, hirr⟩
              · left
                rw [if_neg hab]
                exact ⟨c, Buf.alloc s.nextBuf, rfl, rw_fresh_lives hi hc hl hr _,
                  by simp [setWset], hw'⟩

/-! ## Footprint of killReaders -/

theorem KillStep.idle (s : State) : KillStep s s :=
  ⟨rfl, rfl, rfl, rfl, rfl, rfl, rfl, rfl, rfl, fun _ => Touched.same _⟩

theorem KillStep.seq {a b c : State} (h1 : KillStep a b) (h2 : KillStep b c) : KillStep a c :=
  ⟨h2.vars.trans h1.vars, h2.heap.trans h1.heap, h2.nextTx.trans h1.nextTx,
    h2.nextBuf.trans h1.nextBuf, h2.irrLock.trans h1.irrLock, h2.cur.trans h1.cur,
    h2.max.trans h1.max, h2.hookN.trans h1.hookN, h2.hookF.trans h1.hookF,
    fun y => (h1.touched y).andThen (h2.touched y)⟩

theorem killReader_step (th v i : Nat) (s : State) : KillStep s (killReader th v i s) := by
  unfold killReader
  split
  · exact KillStep.idle s
  · split
    · exact KillStep.idle s
    · rename_i r hr
      split
      · exact KillStep.idle s
      · rename_i hcrl
        refine ⟨rfl, rfl, rfl, rfl, rfl, rfl, rfl, rfl, rfl, ?_⟩
        intro y
        by_cases hy : y = r
        · subst hy
          rw [modTx_txs_same]
          constructor <;> simp [hcrl]
        · rw [modTx_txs_ne _ _ _ _ hy]; exact Touched.same _

/-- The reader slots other than the one of the caller decide who is touched. -/
theorem killReader_untouched {th v i y : Nat} {s : State}
    (h : (s.vars v).readers i = some y → i = th) :
    (killReader th v i s).txs y = s.txs y := by
  unfold killReader
  split
  · rfl
  · rename_i hi
    split
    · rfl
    · rename_i r hr
      have hr' := (lockWeak_some hr).1
      split
      · rfl
      · by_cases hy : y = r
        · subst hy; exact absurd (h hr') hi
        · rw [modTx_txs_ne _ _ _ _ hy]

theorem killReader_kills {th v i a : Nat} {s : State} (hi : i ≠ th)
    (hr : (s.vars v).readers i = some a) (ha : (s.txs a).alive) :
    ((killReader th v i s).txs a).cleanReadsetLock ∧
      ((s.txs a).cleanReadsetLock = false → ((killReader th v i s).txs a).aborted) := by
  unfold killReader
  rw [if_neg hi]
  have : s.lockWeak ((s.vars v).readers i) = some a := by
    simp [State.lockWeak, hr, ha]
  rw [this]
  dsimp only
  cases hc : (s.txs a).cleanReadsetLock
  · simp
  · simp [hc]

theorem foldl_killStep {α : Type} (f : State → α → State) (hf : ∀ s a, KillStep s (f s a))
    (l : List α) (s : State) : KillStep s (l.foldl f s) := by
  induction l generalizing s with
  | nil => exact KillStep.idle s
  | cons a l ih => exact (hf s a).seq (ih (f s a))

theorem Variable.killReaders_kill (th v : Nat) (s : State) :
    KillStep s (Variable.killReaders th v s) :=
  foldl_killStep _ (fun st i => killReader_step th v i st) _ s

theorem killReaders_step (th c : Nat) (s : State) : KillStep s (killReaders th c s) :=
  foldl_killStep _ (fun st v => Variable.killReaders_kill th v st) _ s

/-- A transaction registered as a reader only in the slot of the committing thread (or
nowhere) is not touched by `killReaders`. -/
theorem killReaders_untouched {th c y : Nat} {s : State}
    (h : ∀ v i, (s.vars v).readers i = some y → i = th) :
    (killReaders th c s).txs y = s.txs y := by
  have hv : ∀ (s1 : State) (v : Nat), s1.vars = s.vars →
      (Variable.killReaders th v s1).txs y = s1.txs y := by
    intro s1 v hs1
    unfold Variable.killReaders
    have : ∀ (l : List Nat) (s2 : State), s2.vars = s.vars →
        (l.foldl (fun st i => killReader th v i st) s2).txs y = s2.txs y := by
      intro l
      induction l with
      | nil => intro _ _; rfl
      | cons i l ih =>
        intro s2 hs2
        rw [List.foldl_cons, ih _ ((killReader_step th v i s2).vars.trans hs2)]
        exact killReader_untouched (by rw [hs2]; exact h v i)
    exact this _ s1 hs1
  unfold killReaders
  have : ∀ (l : List Nat) (s1 : State), s1.vars = s.vars →
      (l.foldl (fun st v => Variable.killReaders th v st) s1).txs y = s1.txs y := by
    intro l
    induction l with
    | nil => intro _ _; rfl
    | cons v l ih =>
      intro s1 hs1
      rw [List.foldl_cons, ih _ ((Variable.killReaders_kill th v s1).vars.trans hs1)]
      exact hv s1 v hs1
  exact this _ s rfl

/-! ## Closed form of the publishing loops -/

/-- The publishing loop of a revocable commit, over a list of entries with distinct keys. -/
theorem foldl_performWrite (l : List (Σ _ : Nat, Buf)) (hl : l.NodupKeys) (s : State) :
    let s' := l.foldl (fun st e => performWrite e.1 e.2 st) s
    s'.txs = s.txs ∧ s'.heap = s.heap ∧ s'.nextTx = s.nextTx ∧ s'.nextBuf = s.nextBuf ∧
    s'.irrTransactionLock = s.irrTransactionLock ∧
    s'.currentTransaction = s.currentTransaction ∧ s'.maxThreadNum = s.maxThreadNum ∧
    s'.nonTransAccess = s.nonTransAccess ∧ s'.forcingAbortOnIrr = s.forcingAbortOnIrr ∧
    ∀ w, s'.vars w = match l.dlookup w with
      | some b => { s.vars w with varPtr := b, dirty := false }
      | none => s.vars w := by
  induction l generalizing s with
  | nil => simp
  | cons e l ih =>
    obtain ⟨k, b⟩ := e
    rw [List.nodupKeys_cons] at hl
    have := ih hl.2 (performWrite k b s)
    simp only [List.foldl_cons]
    obtain ⟨h1, h2, h3, h4, h5, h6, h7, h8, h9, h10⟩ := this
    refine ⟨h1, h2, h3, h4, h5, h6, h7, h8, h9, ?_⟩
    intro w
    rw [h10]
    by_cases hw : w = k
    · subst hw
      rw [List.dlookup_cons_eq]
      have : l.dlookup w = none := List.dlookup_eq_none.2 hl.1
      rw [this]
      simp [performWrite]
    · rw [List.dlookup_cons_ne _ _ hw]
      simp only [performWrite, modVar_vars_ne _ _ _ _ hw]

/-- The publishing loop of an irrevocable commit that has hijacked nothing. -/
theorem foldl_performWriteAsIrr (c : Nat) (l : List (Σ _ : Nat, Buf)) (hl : l.NodupKeys)
    (s : State) (hh : (s.txs c).hijackedWsetBuffers = ∅) :
    let s' := l.foldl (fun st e => performWriteAsIrr c e.1 e.2 st) s
    s'.txs = s.txs ∧ s'.heap = s.heap ∧ s'.nextTx = s.nextTx ∧ s'.nextBuf = s.nextBuf ∧
    s'.irrTransactionLock = s.irrTransactionLock ∧
    s'.currentTransaction = s.currentTransaction ∧ s'.maxThreadNum = s.maxThreadNum ∧
    s'.nonTransAccess = s.nonTransAccess ∧ s'.forcingAbortOnIrr = s.forcingAbortOnIrr ∧
    ∀ w, s'.vars w = match l.dlookup w with
      | some b => { s.vars w with varPtr := b, dirtyIrr := false }
      | none => s.vars w := by
  induction l generalizing s with
  | nil => simp
  | cons e l ih =>
    obtain ⟨k, b⟩ := e
    rw [List.nodupKeys_cons] at hl
    have hstep : performWriteAsIrr c k b s =
        s.modVar k fun x => { x with varPtr := b, dirtyIrr := false } := by
      simp [performWriteAsIrr, hh]
    have := ih hl.2 (performWriteAsIrr c k b s) (by rw [hstep]; simpa using hh)
    simp only [List.foldl_cons]
    obtain ⟨h1, h2, h3, h4, h5, h6, h7, h8, h9, h10⟩ := this
    rw [hstep] at h1 h2 h3 h4 h5 h6 h7 h8 h9 h10 ⊢
    refine ⟨h1, h2, h3, h4, h5, h6, h7, h8, h9, ?_⟩
    intro w
    rw [h10]
    by_cases hw : w = k
    · subst hw
      rw [List.dlookup_cons_eq]
      have : l.dlookup w = none := List.dlookup_eq_none.2 hl.1
      rw [this]
      simp
    · rw [List.dlookup_cons_ne _ _ hw]
      simp only [modVar_vars_ne _ _ _ _ hw]

/-! ## Specification of acquireReadset -/

theorem acquireRead_spec (v : Nat) (s : State) :
    SameButVars s (acquireRead v s).2 ∧
    (acquireRead v s).1 = !(s.vars v).lock ∧
    (∀ w, ((acquireRead v s).2.vars w).varPtr = (s.vars w).varPtr ∧
      ((acquireRead v s).2.vars w).readers = (s.vars w).readers ∧
      ((acquireRead v s).2.vars w).mostRecentLockOwner = (s.vars w).mostRecentLockOwner ∧
      ((acquireRead v s).2.vars w).lock = (decide (w = v) || (s.vars w).lock)) := by
  unfold acquireRead
  simp only [modVar_vars_same]
  cases hl : (s.vars v).lock
  · simp only [Bool.false_eq_true, if_false]
    refine ⟨⟨rfl, rfl, rfl, rfl, rfl, rfl, rfl, rfl, rfl⟩, rfl, ?_⟩
    intro w
    by_cases hw : w = v
    · subst hw; simp
    · simp [modVar_vars, hw]
  · simp only [if_true]
    refine ⟨⟨rfl, rfl, rfl, rfl, rfl, rfl, rfl, rfl, rfl⟩, rfl, ?_⟩
    intro w
    by_cases hw : w = v
    · subst hw; simp [hl]
    · simp [modVar_vars, hw]

theorem SameButVars.comp {a b c : State} (h1 : SameButVars a b) (h2 : SameButVars b c) :
    SameButVars a c :=
  ⟨h2.txs.trans h1.txs, h2.heap.trans h1.heap, h2.nextTx.trans h1.nextTx,
    h2.nextBuf.trans h1.nextBuf, h2.irrLock.trans h1.irrLock, h2.cur.trans h1.cur,
    h2.max.trans h1.max, h2.hookN.trans h1.hookN, h2.hookF.trans h1.hookF⟩

theorem acquireReadsetLoop_spec (rest acquired used : List Nat) (s : State) :
    SameButVars s (acquireReadsetLoop rest acquired used s).2 ∧
    (∀ w, ((acquireReadsetLoop rest acquired used s).2.vars w).varPtr = (s.vars w).varPtr ∧
      ((acquireReadsetLoop rest acquired used s).2.vars w).readers = (s.vars w).readers ∧
      ((acquireReadsetLoop rest acquired used s).2.vars w).mostRecentLockOwner =
        (s.vars w).mostRecentLockOwner) ∧
    ((acquireReadsetLoop rest acquired used s).1 = none →
      ∀ w, ((acquireReadsetLoop rest acquired used s).2.vars w).lock =
        if w ∈ acquired then false else (s.vars w).lock) ∧
    (∀ acq, (acquireReadsetLoop rest acquired used s).1 = some acq →
      acq = acquired ++ rest ∧ (∀ k ∈ rest, (s.vars k).lock = false) ∧
      ∀ w, ((acquireReadsetLoop rest acquired used s).2.vars w).lock =
        (decide (w ∈ rest) || (s.vars w).lock)) := by
  induction rest generalizing acquired used s with
  | nil =>
    unfold acquireReadsetLoop
    refine ⟨⟨rfl, rfl, rfl, rfl, rfl, rfl, rfl, rfl, rfl⟩, fun _ => ⟨rfl, rfl, rfl⟩, ?_, ?_⟩
    · intro h; cases h
    · intro acq h; cases h; simp
  | cons var rest ih =>
    obtain ⟨a1, a2, a3⟩ := acquireRead_spec var s
    rw [acquireReadsetLoop]
    cases hl : (s.vars var).lock with
    | false =>
      rw [hl] at a2
      simp only [Bool.not_false] at a2
      rw [a2]
      simp only [if_true]
      obtain ⟨b1, b2, b3, b4⟩ := ih (acquired ++ [var]) (used ++ [var]) (acquireRead var s).2
      refine ⟨a1.comp b1, ?_, ?_, ?_⟩
      · intro w
        obtain ⟨c1, c2, c3⟩ := b2 w
        obtain ⟨d1, d2, d3, -⟩ := a3 w
        exact ⟨c1.trans d1, c2.trans d2, c3.trans d3⟩
      · intro h w
        rw [b3 h w, (a3 w).2.2.2]
        by_cases hw : w = var
        · subst hw; simp [hl]
        · simp [hw]
      · intro acq h
        obtain ⟨e1, e2, e3⟩ := b4 acq h
        refine ⟨by rw [e1]; simp, ?_, ?_⟩
        · intro k hk
          rcases List.mem_cons.1 hk with hk | hk
          · rw [hk]; exact hl
          · have := e2 k hk
            rw [(a3 k).2.2.2] at this
            simp only [Bool.or_eq_false_iff] at this
            exact this.2
        · intro w
          rw [e3 w, (a3 w).2.2.2]
          by_cases hw : w = var
          · subst hw; simp
          · simp [hw]
    | true =>
      rw [hl] at a2
      simp only [Bool.not_true] at a2
      rw [a2]
      simp only [Bool.false_eq_true, if_false]
      refine ⟨⟨by simp [a1.txs], by simp [a1.heap], by simp [a1.nextTx], by simp [a1.nextBuf],
        by simp [a1.irrLock], by simp [a1.cur], by simp [a1.max], by simp [a1.hookN],
        by simp [a1.hookF]⟩, ?_, ?_, ?_⟩
      · intro w
        obtain ⟨d1, d2, d3, -⟩ := a3 w
        rw [unlockAll_vars, storeUsedByIrr_vars]
        split <;> split <;> simp [d1, d2, d3]
      · intro _ w
        rw [unlockAll_vars, storeUsedByIrr_vars]
        split
        · rfl
        · split <;> simp [(a3 w).2.2.2, hl] <;> intro h <;> subst h <;> exact hl
      · intro acq h; cases h

/-! ## The call commitT -/

/-- The state `publish` leaves, for a transaction that has hijacked nothing. -/
theorem publish_spec {c : Nat} {s : State} (hh : (s.txs c).hijackedWsetBuffers = ∅) :
    (publish c s).txs = s.txs ∧ (publish c s).heap = s.heap ∧
    (publish c s).nextTx = s.nextTx ∧ (publish c s).nextBuf = s.nextBuf ∧
    (publish c s).irrTransactionLock = s.irrTransactionLock ∧
    (publish c s).currentTransaction = s.currentTransaction ∧
    (publish c s).maxThreadNum = s.maxThreadNum ∧
    (publish c s).nonTransAccess = s.nonTransAccess ∧
    (publish c s).forcingAbortOnIrr = s.forcingAbortOnIrr ∧
    ∀ w, ((publish c s).vars w).varPtr =
        ((s.txs c).wsetBuffers.lookup w).getD (s.vars w).varPtr ∧
      ((publish c s).vars w).readers = (s.vars w).readers ∧
      ((publish c s).vars w).mostRecentLockOwner = (s.vars w).mostRecentLockOwner ∧
      ((publish c s).vars w).lock = (s.vars w).lock ∧
      ((publish c s).vars w).usedByIrr = (s.vars w).usedByIrr := by
  unfold publish
  split
  · obtain ⟨h1, h2, h3, h4, h5, h6, h7, h8, h9, h10⟩ :=
      foldl_performWriteAsIrr c (s.txs c).wsetBuffers.entries (s.txs c).wsetBuffers.nodupKeys s hh
    refine ⟨h1, h2, h3, h4, h5, h6, h7, h8, h9, ?_⟩
    intro w
    rw [h10]
    show _ ∧ _ ∧ _ ∧ _ ∧ _
    unfold AList.lookup
    cases (s.txs c).wsetBuffers.entries.dlookup w <;> simp
  · obtain ⟨h1, h2, h3, h4, h5, h6, h7, h8, h9, h10⟩ :=
      foldl_performWrite (s.txs c).wsetBuffers.entries (s.txs c).wsetBuffers.nodupKeys s
    refine ⟨h1, h2, h3, h4, h5, h6, h7, h8, h9, ?_⟩
    intro w
    rw [h10]
    show _ ∧ _ ∧ _ ∧ _ ∧ _
    unfold AList.lookup
    cases (s.txs c).wsetBuffers.entries.dlookup w <;> simp

/-- The state in which `commitFinish` calls `cleanup`, from the state `p` after `publish`. -/
theorem commitFinish_eq (th c : Nat) (s : State) :
    ∃ s6, commitFinish th c s = cleanup th c s6 ∧
      s6.currentTransaction = (publish c s).currentTransaction ∧
      s6.nextTx = (publish c s).nextTx ∧
      s6.nextBuf = (publish c s).nextBuf ∧ s6.heap = (publish c s).heap ∧
      (s6.irrTransactionLock = (publish c s).irrTransactionLock ∨
        (((publish c s).txs c).amIIrrevocable ∧ s6.irrTransactionLock = false)) ∧
      (∀ y, y ≠ c → s6.txs y = (publish c s).txs y) ∧
      (s6.txs c).locksHeld = [] ∧ (s6.txs c).comitted = true ∧
      (∀ w, (s6.vars w).varPtr = ((publish c s).vars w).varPtr ∧
        (s6.vars w).readers = ((publish c s).vars w).readers ∧
        (s6.vars w).mostRecentLockOwner = ((publish c s).vars w).mostRecentLockOwner ∧
        (s6.vars w).lock = (if w ∈ ((publish c s).txs c).locksHeld then false
          else ((publish c s).vars w).lock)) := by
  refine ⟨_, rfl, ?_⟩
  generalize publish c s = p
  by_cases hirr : (p.txs c).amIIrrevocable = true
  · simp only [hirr, if_true, modTx_txs_same, storeUsedByIrr_txs, unlockAll_txs, modTx_cur,
      unlockAll_cur, storeUsedByIrr_cur, modTx_nextTx, unlockAll_nextTx, storeUsedByIrr_nextTx,
      modTx_nextBuf, unlockAll_nextBuf, storeUsedByIrr_nextBuf, modTx_heap, unlockAll_heap,
      storeUsedByIrr_heap, modTx_vars, true_and, and_true]
    refine ⟨Or.inr trivial, fun y hy => by simp [modTx_txs, hy], ?_⟩
    intro w
    rw [unlockAll_vars]
    simp only [modTx_vars, storeUsedByIrr_vars]
    split <;> split <;> split <;> simp
  · simp only [hirr, if_false, modTx_txs_same, unlockAll_txs, modTx_cur,
      unlockAll_cur, modTx_nextTx, unlockAll_nextTx,
      modTx_nextBuf, unlockAll_nextBuf, modTx_heap, unlockAll_heap,
      modTx_vars, true_and, and_true, Bool.false_eq_true, false_and, or_false, modTx_irrLock,
      unlockAll_irrLock]
    refine ⟨fun y hy => by simp [modTx_txs, hy], ?_⟩
    intro w
    rw [unlockAll_vars]
    simp only [modTx_vars]
    split <;> simp


/-- The committing tail runs in a state `s4` that differs from the state `s` of the call by
dirty flags, killed readers and the two own locks; it ends the transaction. -/
theorem commitFinish_dies {th c : Nat} {s s4 : State} (hi : Inv s)
    (hc : s.currentTransaction th = some c)
    (hcur : s4.currentTransaction = s.currentTransaction) (hnt : s4.nextTx = s.nextTx)
    (hnb : s4.nextBuf = s.nextBuf) (hil : s4.irrTransactionLock = s.irrTransactionLock)
    (hothers : ∀ y, y ≠ c → Touched (s.txs y) (s4.txs y))
    (hw : (s4.txs c).wsetBuffers = (s.txs c).wsetBuffers)
    (hlh : (s4.txs c).locksHeld = (s.txs c).locksHeld)
    (hh : (s4.txs c).hijackedWsetBuffers = (s.txs c).hijackedWsetBuffers)
    (hirr : (s4.txs c).amIIrrevocable = (s.txs c).amIIrrevocable)
    (hv : ∀ w, (s4.vars w).varPtr = (s.vars w).varPtr ∧
      (s4.vars w).readers = (s.vars w).readers ∧
      (s4.vars w).mostRecentLockOwner = (s.vars w).mostRecentLockOwner ∧
      (s4.vars w).lock = (s.vars w).lock) :
    Dies th c s (commitFinish th c s4) := by
  have hca := hi.cur_alive th c hc
  have hh4 : (s4.txs c).hijackedWsetBuffers = ∅ := by rw [hh]; exact hi.hij_empty c hca
  obtain ⟨p1, -, p3, p4, p5, p6, -, -, -, p10⟩ := publish_spec hh4
  obtain ⟨s6, e0, e1, e2, e3, -, e5, e6, e7, -, e9⟩ := commitFinish_eq th c s4
  rw [e0]
  apply PreDie.dies
  refine
    { cur := hc
      cur_eq := by rw [e1, p6, hcur]
      nextTx_eq := by rw [e2, p3, hnt]
      nextBuf_le := by rw [e3, p4, hnb]
      others := fun y hy => by rw [e6 y hy, p1]; exact hothers y hy
      c_locks := fun v h => by rw [e7] at h; cases h
      varPtr := ?_
      readers := ?_
      mrlo := ?_
      lock := ?_
      irrLock := ?_ }
  · intro w
    rw [(e9 w).1, (p10 w).1, hw]
    cases hl : (s.txs c).wsetBuffers.lookup w with
    | none => left; simpa using (hv w).1
    | some b => right; simp
  · intro w i x hx
    rw [(e9 w).2.1, (p10 w).2.1, (hv w).2.1] at hx; exact Or.inl hx
  · intro w
    rw [(e9 w).2.2.1, (p10 w).2.2.1, (hv w).2.2.1]; exact Or.inl rfl
  · intro w
    rw [(e9 w).2.2.2, p1, hlh]
    split
    · exact Or.inr (Or.inr (by assumption))
    · left; rw [(p10 w).2.2.2.1, (hv w).2.2.2]
  · rcases e5 with h | ⟨h, _⟩
    · left; rw [h, p5, hil]
    · right; rw [p1, hirr] at h; exact h

/-- In a state between calls the committing transaction is registered as a reader at most in
the slot of its own thread, so its own `killReaders` passes it by. -/
theorem killReaders_self {th c : Nat} {s s1 : State} (hi : Inv s)
    (hc : s.currentTransaction th = some c) (hv : ∀ w, (s1.vars w).readers = (s.vars w).readers) :
    (killReaders th c s1).txs c = s1.txs c := by
  apply killReaders_untouched
  intro v i h
  rw [hv] at h
  exact hi.cur_inj i th c (hi.readers_cur v i c h (hi.cur_alive th c hc)) hc

theorem commitT_cases {th : Nat} {s : State} (hi : Inv s) :
    (s.currentTransaction th = none ∧ commitT th s = (.error .InvalidUseException, s)) ∨
    (∃ c, (commitT th s).1 = .ok () ∧ Dies th c s (commitT th s).2 ∧
      (s.txs c).aborted = false) ∨
    (∃ c, (commitT th s).1 = .error .CommitFailedException ∧ Dies th c s (commitT th s).2 ∧
      (s.txs c).amIIrrevocable = false) := by
  unfold commitT
  cases hc : s.currentTransaction th with
  | none => exact Or.inl ⟨rfl, rfl⟩
  | some c =>
    right
    dsimp only
    have hca := hi.cur_alive th c hc
    have hcom := hi.not_comitted c hca
    unfold commit
    rw [hcom]
    simp only [Bool.false_eq_true, if_false]
    by_cases hab : (s.txs c).aborted = true
    · right
      rw [if_pos hab]
      cases hirr : (s.txs c).amIIrrevocable with
      | true =>
        have := (hi.irr_locks c hca hirr).2.2.1
        rw [hab] at this; exact absurd this (by simp)
      | false =>
        simp only [Bool.false_eq_true, if_false]
        have := @PreDie.abortThrow Unit th c s s .CommitFailedException (PreDie.start hc)
          hcom hirr
        exact ⟨c, this.1, this.2, hirr⟩
    · rw [if_neg hab]
      simp only [Bool.not_eq_true] at hab
      -- the state after the dirty flags are raised
      obtain ⟨sd, hsd, d1, d2, d3, d4, d5, d6⟩ : ∃ sd, sd =
          (if (s.txs c).amIIrrevocable = true
            then storeDirtyIrr true (s.txs c).wsetBuffers.keys s
            else storeDirty true (s.txs c).wsetBuffers.keys s) ∧
          sd.txs = s.txs ∧ sd.currentTransaction = s.currentTransaction ∧
          sd.nextTx = s.nextTx ∧ sd.nextBuf = s.nextBuf ∧
          sd.irrTransactionLock = s.irrTransactionLock ∧
          (∀ w, (sd.vars w).varPtr = (s.vars w).varPtr ∧
            (sd.vars w).readers = (s.vars w).readers ∧
            (sd.vars w).mostRecentLockOwner = (s.vars w).mostRecentLockOwner ∧
            (sd.vars w).lock = (s.vars w).lock) := by
        refine ⟨_, rfl, ?_⟩
        split
        · refine ⟨by simp, by simp, by simp, by simp, by simp, fun w => ?_⟩
          rw [storeDirtyIrr_vars]; split <;> simp
        · refine ⟨by simp, by simp, by simp, by simp, by simp, fun w => ?_⟩
          rw [storeDirty_vars]; split <;> simp
      rw [← hsd]
      -- the state after the readers are killed
      obtain ⟨s2, hs2, m1, m2, m3, m4, m5, m6, m7⟩ : ∃ s2, s2 = killReaders th c sd ∧
          s2.currentTransaction = s.currentTransaction ∧ s2.nextTx = s.nextTx ∧
          s2.nextBuf = s.nextBuf ∧ s2.irrTransactionLock = s.irrTransactionLock ∧
          (∀ y, Touched (s.txs y) (s2.txs y)) ∧ s2.txs c = s.txs c ∧
          (∀ w, (s2.vars w).varPtr = (s.vars w).varPtr ∧
            (s2.vars w).readers = (s.vars w).readers ∧
            (s2.vars w).mostRecentLockOwner = (s.vars w).mostRecentLockOwner ∧
            (s2.vars w).lock = (s.vars w).lock) := by
        refine ⟨_, rfl, ?_⟩
        have hk := killReaders_step th c sd
        refine ⟨?_, ?_, ?_, ?_, ?_, ?_, ?_⟩
        · rw [hk.cur, d2]
        · rw [hk.nextTx, d3]
        · rw [hk.nextBuf, d4]
        · rw [hk.irrLock, d5]
        · intro y
          have := hk.touched y
          rw [d1] at this; exact this
        · rw [killReaders_self hi hc (fun w => (d6 w).2.1), d1]
        · intro w; rw [hk.vars]; exact d6 w
      rw [← hs2]
      cases hirr : (s.txs c).amIIrrevocable with
      | true =>
        left
        rw [m6, hirr, if_pos rfl]
        refine ⟨c, rfl, ?_, hab⟩
        exact commitFinish_dies hi hc m1 m2 m3 m4 (fun y _ => m5 y) (by rw [m6]) (by rw [m6])
          (by rw [m6]) (by rw [m6]) m7
      | false =>
        rw [m6, hirr]
        simp only [Bool.false_eq_true, if_false, modTx_txs_same, m6]
        have hp : ∀ (f : Transaction → Transaction), (∀ t, (f t).locksHeld = t.locksHeld) →
            (∀ t, (f t).comitted = t.comitted) → (∀ t, (f t).amIIrrevocable = t.amIIrrevocable) →
            ∀ keys, (abortThrow th c .CommitFailedException
              (storeDirty false keys (s2.modTx c f)) : Res Unit).1 =
                .error .CommitFailedException ∧
              Dies th c s (abortThrow th c .CommitFailedException
                (storeDirty false keys (s2.modTx c f)) : Res Unit).2 := by
          intro f f1 f2 f3 keys
          apply PreDie.abortThrow
          · refine
              { cur := hc
                cur_eq := by simpa using m1
                nextTx_eq := by simpa using m2
                nextBuf_le := by simp [m3]
                others := fun y hy => by simpa [modTx_txs_ne _ _ _ _ hy] using m5 y
                c_locks := fun v h => by
                  simp only [storeDirty_txs, modTx_txs_same, f1, m6] at h; exact Or.inl h
                varPtr := fun w => ?_
                readers := fun w i x hx => ?_
                mrlo := fun w => ?_
                lock := fun w => ?_
                irrLock := by simp [m4] }
            · left; rw [storeDirty_vars]; split <;> simp [(m7 w).1]
            · left; rw [storeDirty_vars] at hx
              split at hx <;> simpa [(m7 w).2.1] using hx
            · left; rw [storeDirty_vars]; split <;> simp [(m7 w).2.2.1]
            · left; rw [storeDirty_vars]; split <;> simp [(m7 w).2.2.2]
          · simp [f2, m6, hcom]
          · simp [f3, m6, hirr]
        by_cases hcrl : (s.txs c).cleanReadsetLock = true
        · right
          rw [if_pos hcrl]
          have := hp id (fun _ => rfl) (fun _ => rfl) (fun _ => rfl)
            (s.txs c).wsetBuffers.keys
          have he : s2.modTx c id = s2 := by
            simp [State.modTx]
          rw [he] at this
          exact ⟨c, this.1, this.2, hirr⟩
        · rw [if_neg hcrl]
          by_cases hcl : (s.txs c).commitLock = true
          · right
            rw [if_pos hcl]
            have := hp (fun t => { t with cleanReadsetLock := true }) (fun _ => rfl)
              (fun _ => rfl) (fun _ => rfl)
              (s.txs c).wsetBuffers.keys
            exact ⟨c, this.1, this.2, hirr⟩
          · left
            rw [if_neg hcl]
            refine ⟨c, rfl, ?_, hab⟩
            exact commitFinish_dies hi hc m1 m2 m3 m4
              (fun y hy => by simpa [modTx_txs_ne _ _ _ _ hy] using m5 y)
              (by simp [m6]) (by simp [m6]) (by simp [m6]) (by simp [m6]) m7

/-! ## The calls abortT and irrT -/

theorem abortT_cases {th : Nat} {s : State} (hi : Inv s) :
    (∃ e, abortT th s = (.error e, s)) ∨
    (∃ c, (abortT th s).1 = .ok () ∧ Dies th c s (abortT th s).2) := by
  unfold abortT
  cases hc : s.currentTransaction th with
  | none => exact Or.inl ⟨_, rfl⟩
  | some c =>
    dsimp only
    have hca := hi.cur_alive th c hc
    have hcom := hi.not_comitted c hca
    cases hirr : (s.txs c).amIIrrevocable with
    | false =>
      right
      rw [abort_revocable hcom hirr]
      exact ⟨c, rfl, ((PreDie.start hc).modSelf (fun t => { t with aborted := true })
        (fun _ => rfl)).dies⟩
    | true =>
      unfold abort
      rw [hcom, hirr]
      simp only [Bool.false_eq_true, if_false, if_true]
      cases hh : s.forcingAbortOnIrr with
      | some e => exact Or.inl ⟨e, rfl⟩
      | none =>
        right
        refine ⟨c, rfl, ?_⟩
        apply PreDie.dies
        refine
          { cur := hc
            cur_eq := by simp
            nextTx_eq := by simp
            nextBuf_le := by simp
            others := fun y hy => by simp [modTx_txs_ne _ _ _ _ hy]; exact Touched.same _
            c_locks := fun v h => by simp at h; exact Or.inl h
            varPtr := fun w => ?_
            readers := fun w i x hx => ?_
            mrlo := fun w => ?_
            lock := fun w => ?_
            irrLock := Or.inr hirr }
        · left; simp only [modTx_vars]
          rw [storeUsedByIrr_vars, storeUsedByIrr_vars]; split <;> split <;> simp
        · left; simp only [modTx_vars] at hx
          rw [storeUsedByIrr_vars, storeUsedByIrr_vars] at hx
          split at hx <;> split at hx <;> simpa using hx
        · left; simp only [modTx_vars]
          rw [storeUsedByIrr_vars, storeUsedByIrr_vars]; split <;> split <;> simp
        · left; simp only [modTx_vars]
          rw [storeUsedByIrr_vars, storeUsedByIrr_vars]; split <;> split <;> simp

theorem mem_foldl_insert (acq l0 : List Nat) (v : Nat) :
    v ∈ acq.foldl (fun l m => l.insert m) l0 ↔ v ∈ acq ∨ v ∈ l0 := by
  induction acq generalizing l0 with
  | nil => simp
  | cons a acq ih =>
    rw [List.foldl_cons, ih, List.mem_insert_iff, List.mem_cons]
    tauto

theorem acquireReadset_spec (c : Nat) (s : State) :
    (acquireReadset c s).2.currentTransaction = s.currentTransaction ∧
    (acquireReadset c s).2.nextTx = s.nextTx ∧ (acquireReadset c s).2.nextBuf = s.nextBuf ∧
    (acquireReadset c s).2.heap = s.heap ∧
    (acquireReadset c s).2.irrTransactionLock = s.irrTransactionLock ∧
    (∀ y, y ≠ c → (acquireReadset c s).2.txs y = s.txs y) ∧
    (∀ w, ((acquireReadset c s).2.vars w).varPtr = (s.vars w).varPtr ∧
      ((acquireReadset c s).2.vars w).readers = (s.vars w).readers ∧
      ((acquireReadset c s).2.vars w).mostRecentLockOwner = (s.vars w).mostRecentLockOwner) ∧
    ((acquireReadset c s).1 = false →
      (acquireReadset c s).2.txs c = s.txs c ∧
      ∀ w, ((acquireReadset c s).2.vars w).lock = (s.vars w).lock) ∧
    ((acquireReadset c s).1 = true →
      (∃ lh, (acquireReadset c s).2.txs c = { s.txs c with locksHeld := lh } ∧
        ∀ v, v ∈ lh ↔ v ∈ (s.txs c).rsetBuffers.keys ∨ v ∈ (s.txs c).locksHeld) ∧
      (∀ k, k ∈ (s.txs c).rsetBuffers.keys → (s.vars k).lock = false) ∧
      ∀ w, ((acquireReadset c s).2.vars w).lock =
        (decide (w ∈ (s.txs c).rsetBuffers.keys) || (s.vars w).lock)) := by
  obtain ⟨a1, a2, a3, a4⟩ := acquireReadsetLoop_spec (s.txs c).rsetBuffers.keys [] [] s
  unfold acquireReadset
  revert a1 a2 a3 a4
  generalize acquireReadsetLoop (s.txs c).rsetBuffers.keys [] [] s = r
  obtain ⟨r1, r2⟩ := r
  intro a1 a2 a3 a4
  simp only at a1 a2 a3 a4
  cases r1 with
  | none =>
    dsimp only
    refine ⟨a1.cur, a1.nextTx, a1.nextBuf, a1.heap, a1.irrLock, fun y _ => by rw [a1.txs],
      a2, ?_, ?_⟩
    · intro _
      refine ⟨by rw [a1.txs], fun w => ?_⟩
      have := a3 rfl w
      simpa using this
    · intro h; cases h
  | some acq =>
    dsimp only
    obtain ⟨b1, b2, b3⟩ := a4 acq rfl
    simp only [List.nil_append] at b1
    refine ⟨by simp [a1.cur], by simp [a1.nextTx], by simp [a1.nextBuf], by simp [a1.heap],
      by simp [a1.irrLock], fun y hy => by simp [modTx_txs_ne _ _ _ _ hy, a1.txs],
      fun w => by simpa using a2 w, ?_, ?_⟩
    · intro h; cases h
    · intro _
      refine ⟨⟨_, by rw [modTx_txs_same, a1.txs], ?_⟩, b2, fun w => by simpa using b3 w⟩
      intro v
      rw [mem_foldl_insert, b1]

/-- The successful promotion: the locks of the read set are taken, then the two own locks. -/
theorem irr_success_lives {th c : Nat} {s s' : State} (hi : Inv s)
    (hc : s.currentTransaction th = some c) (hil : s.irrTransactionLock = false)
    (hcrl : (s.txs c).cleanReadsetLock = false) (hcl : (s.txs c).commitLock = false)
    (hcur : s'.currentTransaction = s.currentTransaction)
    (hnt : s'.nextTx = s.nextTx) (hnb : s'.nextBuf = s.nextBuf)
    (hil' : s'.irrTransactionLock = true)
    (hothers : ∀ y, y ≠ c → s'.txs y = s.txs y)
    (f1 : (s'.txs c).alive = (s.txs c).alive) (f2 : (s'.txs c).comitted = (s.txs c).comitted)
    (f3 : (s'.txs c).aborted = (s.txs c).aborted)
    (f4 : (s'.txs c).hijackedWsetBuffers = (s.txs c).hijackedWsetBuffers)
    (f5 : (s'.txs c).amIIrrevocable = true)
    (f6 : (s'.txs c).cleanReadsetLock = true) (f7 : (s'.txs c).commitLock = true)
    (f8 : ∀ v, v ∈ (s'.txs c).locksHeld ↔
      v ∈ (s.txs c).rsetBuffers.keys ∨ v ∈ (s.txs c).locksHeld)
    (f9 : (s'.txs c).rsetBuffers = (s.txs c).rsetBuffers)
    (f10 : (s'.txs c).wsetBuffers = (s.txs c).wsetBuffers)
    (hk : ∀ k, k ∈ (s.txs c).rsetBuffers.keys → (s.vars k).lock = false)
    (hv : ∀ w, (s'.vars w).varPtr = (s.vars w).varPtr ∧
      (s'.vars w).readers = (s.vars w).readers ∧
      (s'.vars w).mostRecentLockOwner = (s.vars w).mostRecentLockOwner ∧
      (s'.vars w).lock = (decide (w ∈ (s.txs c).rsetBuffers.keys) || (s.vars w).lock)) :
    Lives th c s s' := by
  have hca := hi.cur_alive th c hc
  have hab : (s.txs c).aborted = false := by
    cases h : (s.txs c).aborted
    · rfl
    · rcases hi.ab_locked c hca h with h1 | h1
      · rw [hcrl] at h1; exact absurd h1 (by simp)
      · rw [hcl] at h1; exact absurd h1 (by simp)
  have hnotheld : ∀ k, k ∈ (s.txs c).rsetBuffers.keys → k ∉ (s.txs c).locksHeld := by
    intro k hk1 hk2
    have := hi.held_locked c k hca hk2
    rw [hk k hk1] at this; exact absurd this (by simp)
  constructor
  case others => intro y hy; rw [hothers y hy]; exact Touched.same _
  case c_irr_new => intro _ _; exact ⟨hil, hil', by rw [f3]; exact hab, f6, f7⟩
  case c_irr => intro _; exact f5
  case c_crl => intro _; exact f6
  case c_cl => intro _; exact f7
  case c_crl_new => intro _; exact Or.inr f5
  case c_cl_new => intro _; exact Or.inr f5
  case irrLock_mono => intro _; exact hil'
  case c_locks => intro v h; exact (f8 v).2 (Or.inr h)
  case c_locks_new =>
    intro v h1 h2
    rcases (f8 v).1 h1 with h | h
    · exact ⟨hk v h, by rw [(hv v).2.2.2]; simp [h]⟩
    · exact absurd h h2
  case c_owns => intro b h; left; unfold Transaction.owns at h ⊢; rw [f9, f10] at h; exact h
  case c_wset_mono => rw [f10]; exact fun _ => id
  case c_disj => rw [f9, f10]; exact fun v => hi.sets_disj c v hca
  case c_wset_new => intro v h; rw [f5] at h; exact absurd h (by simp)
  case varPtr_eq => exact fun w => (hv w).1
  case readers => intro w i x hx; rw [(hv w).2.1] at hx; exact Or.inl hx
  case mrlo => intro w; rw [(hv w).2.2.1]; exact Or.inl rfl
  case lock =>
    intro w
    rw [(hv w).2.2.2]
    by_cases hw : w ∈ (s.txs c).rsetBuffers.keys
    · right; exact ⟨hk w hw, (f8 w).2 (Or.inl hw), hnotheld w hw⟩
    · left; simp [hw]
  case nextBuf_le => rw [hnb]
  all_goals assumption

theorem irrT_cases {th : Nat} {s : State} (hi : Inv s) :
    (s.currentTransaction th = none ∧ irrT th s = (.error .InvalidUseException, s)) ∨
    (∃ c, s.currentTransaction th = some c ∧ (s.txs c).amIIrrevocable ∧
      irrT th s = (.ok (), s)) ∨
    (∃ c, (irrT th s).1 = .ok () ∧ Lives th c s (irrT th s).2 ∧
      (s.txs c).amIIrrevocable = false ∧ ((irrT th s).2.txs c).amIIrrevocable = true ∧
      s.irrTransactionLock = false) ∨
    (∃ c, (irrT th s).1 = .error .IrrevocTransException ∧ Dies th c s (irrT th s).2 ∧
      (s.txs c).amIIrrevocable = false) := by
  unfold irrT
  cases hc : s.currentTransaction th with
  | none => exact Or.inl ⟨rfl, rfl⟩
  | some c =>
    right
    dsimp only
    have hca := hi.cur_alive th c hc
    have hcom := hi.not_comitted c hca
    unfold irr
    cases hirr : (s.txs c).amIIrrevocable with
    | true => exact Or.inl ⟨c, rfl, hirr, by simp [hirr]⟩
    | false =>
      right
      simp only [Bool.false_eq_true, if_false]
      cases hil : s.irrTransactionLock with
      | true =>
        right
        simp only [if_true]
        have := @PreDie.abortThrow Unit th c s s .IrrevocTransException (PreDie.start hc)
          hcom hirr
        exact ⟨c, this.1, this.2, hirr⟩
      | false =>
        simp only [Bool.false_eq_true, if_false]
        obtain ⟨a1, a2, a3, -, a5, a6, a7, a8, a9⟩ :=
          acquireReadset_spec c { s with irrTransactionLock := true }
        revert a1 a2 a3 a5 a6 a7 a8 a9
        generalize acquireReadset c { s with irrTransactionLock := true } = r
        obtain ⟨r1, r2⟩ := r
        intro a1 a2 a3 a5 a6 a7 a8 a9
        simp only at a1 a2 a3 a5 a6 a7 a8 a9
        cases r1 with
        | false =>
          right
          simp only [Bool.not_false, if_true]
          obtain ⟨b1, b2⟩ := a8 rfl
          have hp : PreDie th c s { r2 with irrTransactionLock := false } :=
            { cur := hc
              cur_eq := a1
              nextTx_eq := a2
              nextBuf_le := by simp [a3]
              others := fun y hy => by simp [a6 y hy]; exact Touched.same _
              c_locks := fun v h => by simp [b1] at h; exact Or.inl h
              varPtr := fun w => Or.inl (a7 w).1
              readers := fun w i x hx => by
                simp only [(a7 w).2.1] at hx; exact Or.inl hx
              mrlo := fun w => Or.inl (a7 w).2.2
              lock := fun w => Or.inl (b2 w)
              irrLock := Or.inl (by simp [hil]) }
          have := @PreDie.abortThrow Unit th c s _ .IrrevocTransException hp
            (by simp [b1, hcom]) (by simp [b1, hirr])
          exact ⟨c, this.1, this.2, hirr⟩
        | true =>
          simp only [Bool.not_true, Bool.false_eq_true, if_false, modTx_txs_same]
          obtain ⟨⟨lh, b1, b2⟩, b3, b4⟩ := a9 rfl
          rw [b1]
          dsimp only
          by_cases hf : ((s.txs c).cleanReadsetLock || (s.txs c).commitLock) = true
          · right
            rw [if_pos hf]
            have hp : ∀ s4 : State, s4.vars = r2.vars →
                s4.currentTransaction = r2.currentTransaction → s4.nextTx = r2.nextTx →
                s4.nextBuf = r2.nextBuf → (∀ y, y ≠ c → s4.txs y = r2.txs y) →
                (s4.txs c).locksHeld = lh → (s4.txs c).comitted = (s.txs c).comitted →
                (s4.txs c).amIIrrevocable = (s.txs c).amIIrrevocable →
                ∀ keys, (abortThrow th c .IrrevocTransException
                  { storeUsedByIrr false keys s4 with irrTransactionLock := false } : Res Unit).1
                    = .error .IrrevocTransException ∧
                  Dies th c s (abortThrow th c .IrrevocTransException
                  { storeUsedByIrr false keys s4 with irrTransactionLock := false } : Res Unit).2
                := by
              intro s4 e1 e2 e3 e4 e5 e6 e7 e8 keys
              have hvv : ∀ w, ((storeUsedByIrr false keys s4).vars w).varPtr = (s.vars w).varPtr ∧
                  ((storeUsedByIrr false keys s4).vars w).readers = (s.vars w).readers ∧
                  ((storeUsedByIrr false keys s4).vars w).mostRecentLockOwner =
                    (s.vars w).mostRecentLockOwner ∧
                  ((storeUsedByIrr false keys s4).vars w).lock =
                    (decide (w ∈ (s.txs c).rsetBuffers.keys) || (s.vars w).lock) := by
                intro w
                rw [storeUsedByIrr_vars, e1]
                split <;> exact ⟨(a7 w).1, (a7 w).2.1, (a7 w).2.2, b4 w⟩
              apply PreDie.abortThrow
              · exact
                  { cur := hc
                    cur_eq := by simp [e2, a1]
                    nextTx_eq := by simp [e3, a2]
                    nextBuf_le := by simp [e4, a3]
                    others := fun y hy => by simp [e5 y hy, a6 y hy]; exact Touched.same _
                    c_locks := fun v h => by
                      simp only [storeUsedByIrr_txs, e6] at h
                      rcases (b2 v).1 h with h | h
                      · exact Or.inr (b3 v h)
                      · exact Or.inl h
                    varPtr := fun w => Or.inl (hvv w).1
                    readers := fun w i x hx => by
                      simp only [(hvv w).2.1] at hx; exact Or.inl hx
                    mrlo := fun w => Or.inl (hvv w).2.2.1
                    lock := fun w => by
                      simp only [(hvv w).2.2.2, storeUsedByIrr_txs, e6]
                      by_cases hw : w ∈ (s.txs c).rsetBuffers.keys
                      · exact Or.inr (Or.inl ((b2 w).2 (Or.inl hw)))
                      · left; simp [hw]
                    irrLock := Or.inl (by simp [hil]) }
              · simp [e7, hcom]
              · simp [e8, hirr]
            cases hcrl : (s.txs c).cleanReadsetLock with
            | true =>
              simp only [if_true]
              have := hp (r2.modTx c fun t => { t with cleanReadsetLock := true }) rfl rfl rfl rfl
                (fun y hy => by simp [modTx_txs, hy]) (by simp [b1]) (by simp [b1])
                (by simp [b1]) (s.txs c).rsetBuffers.keys
              simp only [modTx_txs_same, b1] at this ⊢
              exact ⟨c, this.1, this.2, hirr⟩
            | false =>
              simp only [Bool.false_eq_true, if_false]
              have := hp ((r2.modTx c fun t => { t with cleanReadsetLock := true }).modTx c
                  fun t => { t with commitLock := true }) rfl rfl rfl rfl
                (fun y hy => by simp [modTx_txs, hy]) (by simp [b1]) (by simp [b1])
                (by simp [b1]) (s.txs c).rsetBuffers.keys
              simp only [modTx_txs_same, b1] at this ⊢
              exact ⟨c, this.1, this.2, hirr⟩
          · left
            rw [if_neg hf]
            simp only [Bool.or_eq_true, not_or, Bool.not_eq_true] at hf
            rw [hf.1]
            simp only [Bool.false_eq_true, if_false]
            have hl : Lives th c s (((r2.modTx c fun t => { t with cleanReadsetLock := true }).modTx
                c fun t => { t with commitLock := true }).modTx c fun t =>
                  { t with amIIrrevocable := true }) := by
              apply irr_success_lives hi hc hil hf.1 hf.2
              case f8 => intro v; simp [b1, b2]
              case hk => exact b3
              case hv =>
                intro w
                simp only [modTx_vars]
                exact ⟨(a7 w).1, (a7 w).2.1, (a7 w).2.2, b4 w⟩
              case hothers => intro y hy; simp [modTx_txs, hy, a6 y hy]
              all_goals simp [a1, a2, a3, a5, b1]
            exact ⟨c, trivial, hl, hirr, by simp, trivial⟩

/-! ## The invariant holds in every reachable state -/

/-- The invariant does not read the contents of the heap. -/
theorem Inv.heap {s : State} (hi : Inv s) (h : Buf → Int) : Inv { s with heap := h } := by
  obtain ⟨a1, a2, a3, a4, a5, a6, a7, a8, a9, a10, a11, a12, a13, a14, a15, a16, a17, a18, a19,
    a20, a21, a22⟩ := hi
  exact ⟨a1, a2, a3, a4, a5, a6, a7, a8, a9, a10, a11, a12, a13, a14, a15, a16, a17, a18, a19,
    a20, a21, a22⟩

theorem ro_inv {th v : Nat} {s : State} (hi : Inv s) : Inv (ro th v s).2 := by
  rcases @ro_cases th v s hi with
    ⟨c, b, -, -, h⟩ | ⟨-, -, h⟩ | ⟨e, -, -, h⟩ | ⟨c, b, -, h, -⟩ | ⟨c, -, h, -⟩
  · rw [h]; exact hi
  · rw [h]; exact hi
  · rw [h]; exact hi
  · exact h.keepsInv hi
  · exact h.restoresInv hi

theorem rw_inv {th v : Nat} {s : State} (hi : Inv s) : Inv (rw th v s).2 := by
  rcases @rw_cases th v s hi with
    ⟨c, b, -, -, h⟩ | ⟨-, -, h⟩ | ⟨e, -, -, h⟩ | ⟨c, b, -, h, -⟩ | ⟨c, -, h, -⟩
  · rw [h]; exact hi
  · rw [h]; exact hi
  · rw [h]; exact hi
  · exact h.keepsInv hi
  · exact h.restoresInv hi

theorem assign_state (th v : Nat) (val : Int) (s : State) :
    (assign th v val s).2 = (rw th v s).2 ∨
    ∃ b, (rw th v s).1 = .ok b ∧ (assign th v val s).1 = .ok () ∧
      (assign th v val s).2 =
        { (rw th v s).2 with heap := Function.update (rw th v s).2.heap b val } := by
  unfold assign
  generalize rw th v s = r
  obtain ⟨r1, r2⟩ := r
  cases r1 with
  | error e => exact Or.inl rfl
  | ok b => exact Or.inr ⟨b, rfl, rfl, rfl⟩

theorem exec_inv {s : State} (hi : Inv s) (th : Nat) (op : Op) : Inv (exec th op s).2 := by
  cases op with
  | beginT => exact beginT_inv hi
  | abortT =>
    rcases @abortT_cases th s hi with ⟨e, h⟩ | ⟨c, -, h⟩
    · simp only [exec, h]; exact hi
    · exact h.restoresInv hi
  | irrT =>
    rcases @irrT_cases th s hi with ⟨-, h⟩ | ⟨c, -, -, h⟩ | ⟨c, -, h, -⟩ | ⟨c, -, h, -⟩
    · simp only [exec, h]; exact hi
    · simp only [exec, h]; exact hi
    · exact h.keepsInv hi
    · exact h.restoresInv hi
  | commitT =>
    rcases @commitT_cases th s hi with ⟨-, h⟩ | ⟨c, -, h, -⟩ | ⟨c, -, h, -⟩
    · simp only [exec, h]; exact hi
    · exact h.restoresInv hi
    · exact h.restoresInv hi
  | ro v => exact ro_inv hi
  | rw v => exact rw_inv hi
  | assign v val =>
    rcases assign_state th v val s with h | ⟨b, -, -, h⟩
    · simp only [exec, h]; exact rw_inv hi
    · simp only [exec, h]; exact (rw_inv hi).heap _

/-- Every state between two calls satisfies the invariant. -/
theorem reachable_inv {s : State} (h : Reachable s) : Inv s := by
  induction h with
  | init n vals h1 h2 => exact initState_inv n vals h1 h2
  | step s th op _ _ ih => exact exec_inv ih th op

/-! ## C1: a successful revocable commit publishes the write set -/

/-- What `commitFinish` leaves behind, for a transaction that has hijacked nothing and is the
current transaction of the committing thread. -/
theorem commitFinish_spec {th c : Nat} {s : State} (hc : s.currentTransaction th = some c)
    (hh : (s.txs c).hijackedWsetBuffers = ∅) :
    (commitFinish th c s).heap = s.heap ∧
    (∀ w, ((commitFinish th c s).vars w).varPtr =
      ((s.txs c).wsetBuffers.lookup w).getD (s.vars w).varPtr) ∧
    ((commitFinish th c s).txs c).comitted = true ∧
    (commitFinish th c s).currentTransaction th = none := by
  obtain ⟨p1, p2, -, -, -, p6, -, -, -, p10⟩ := publish_spec hh
  obtain ⟨s6, e0, e1, -, -, e4, -, -, -, e8, e9⟩ := commitFinish_eq th c s
  have hc6 : s6.currentTransaction th = some c := by rw [e1, p6]; exact hc
  obtain ⟨r1, -⟩ := cleanup_rest hc6
  rw [e0]
  refine ⟨by rw [r1, e4, p2], ?_, ?_, ?_⟩
  · intro w
    rw [cleanup_vars hc6, ← (p10 w).1, ← (e9 w).1]
    split <;> rfl
  · rw [cleanup_txs hc6]; simp [e8]
  · rw [cleanup_cur hc6]; simp


/-- The state in which a revocable commit that wins both own locks starts its tail. -/
theorem commit_revocable_ok {th c : Nat} {s : State}
    (hcom : (s.txs c).comitted = false) (hirr : (s.txs c).amIIrrevocable = false)
    (hab : (s.txs c).aborted = false)
    (hself : (killReaders th c (storeDirty true (s.txs c).wsetBuffers.keys s)).txs c = s.txs c)
    (hcrl : (s.txs c).cleanReadsetLock = false) (hcl : (s.txs c).commitLock = false) :
    commit th c s = (.ok (), commitFinish th c
      (((killReaders th c (storeDirty true (s.txs c).wsetBuffers.keys s)).modTx c fun t =>
        { t with cleanReadsetLock := true }).modTx c fun t => { t with commitLock := true })) := by
  unfold commit
  simp [hcom, hirr, hab, hself, hcrl, hcl]

/-- C1: in a state between calls, `commitT` of a revocable transaction that is not marked
aborted and whose `cleanReadsetLock` and `commitLock` are free returns normally; afterwards
the authoritative value of every variable of its write set is the value its write buffer
held, every other variable keeps its authoritative value, the transaction is marked
committed and the slot of the thread is empty. -/
theorem commitT_publishes_write_set {s : State} {th c : Nat} (hr : Reachable s)
    (hc : s.currentTransaction th = some c)
    (hirr : (s.txs c).amIIrrevocable = false) (hab : (s.txs c).aborted = false)
    (hcrl : (s.txs c).cleanReadsetLock = false) (hcl : (s.txs c).commitLock = false) :
    (commitT th s).1 = .ok () ∧
    (∀ v b, (s.txs c).wsetBuffers.lookup v = some b → (commitT th s).2.value v = s.heap b) ∧
    (∀ v, v ∉ (s.txs c).wsetBuffers → (commitT th s).2.value v = s.value v) ∧
    ((commitT th s).2.txs c).comitted = true ∧
    (commitT th s).2.currentTransaction th = none := by
  have hi := reachable_inv hr
  have hca := hi.cur_alive th c hc
  have hself : (killReaders th c (storeDirty true (s.txs c).wsetBuffers.keys s)).txs c
      = s.txs c := by
    rw [killReaders_self hi hc]
    · simp
    · intro w; rw [storeDirty_vars]; split <;> rfl
  have hk := killReaders_step th c (storeDirty true (s.txs c).wsetBuffers.keys s)
  have e : commitT th s = commit th c s := by simp [commitT, hc]
  rw [e, commit_revocable_ok (hi.not_comitted c hca) hirr hab hself hcrl hcl]
  obtain ⟨g1, g2, g3, g4⟩ := @commitFinish_spec th c
    (((killReaders th c (storeDirty true (s.txs c).wsetBuffers.keys s)).modTx c fun t =>
        { t with cleanReadsetLock := true }).modTx c fun t => { t with commitLock := true })
    (by simp [hk.cur, hc]) (by simp [hself, hi.hij_empty c hca])
  simp only [modTx_txs_same, modTx_heap, modTx_vars, hself, hk.heap, hk.vars,
    storeDirty_heap] at g1 g2
  have hvp : ∀ w, ((storeDirty true (s.txs c).wsetBuffers.keys s).vars w).varPtr
      = (s.vars w).varPtr := by
    intro w; rw [storeDirty_vars]; split <;> rfl
  refine ⟨rfl, ?_, ?_, g3, g4⟩
  · intro v b hb
    simp only [State.value, g1, g2, hb, Option.getD_some]
  · intro v hv
    simp only [State.value, g1, g2, AList.lookup_eq_none.2 hv, Option.getD_none, hvp]

theorem wroteFive_reachable : Reachable wroteFive :=
  Reachable.step _ 0 (.assign 0 5)
    (Reachable.step _ 0 .beginT (Reachable.init 32 _ _ _) (by decide)) (by decide)

theorem commitT_publishes_write_set_witness :
    Reachable wroteFive ∧ wroteFive.currentTransaction 0 = some 0 ∧
    (wroteFive.txs 0).amIIrrevocable = false ∧ (wroteFive.txs 0).aborted = false ∧
    (wroteFive.txs 0).cleanReadsetLock = false ∧ (wroteFive.txs 0).commitLock = false ∧
    (commitT 0 wroteFive).1 = .ok () ∧ (commitT 0 wroteFive).2.value 0 = 5 ∧
    (commitT 0 wroteFive).2.value 1 = 100 ∧
    ((commitT 0 wroteFive).2.txs 0).comitted = true ∧
    (commitT 0 wroteFive).2.currentTransaction 0 = none :=
  have h := @commitT_publishes_write_set wroteFive 0 0 wroteFive_reachable (by decide)
    (by decide) (by decide) (by decide) (by decide)
  ⟨wroteFive_reachable, by decide, by decide, by decide, by decide, by decide, h.1,
    (h.2.1 0 (Buf.alloc 0) (by decide)).trans (by decide),
    (h.2.2.1 1 (by decide)).trans (by decide), h.2.2.2.1, h.2.2.2.2⟩

/-! ## Calls other than a successful commit leave the authoritative cells alone -/

theorem quiet_refl (s : State) : Quiet s s := ⟨le_refl _, fun _ _ => rfl, fun _ => rfl⟩

theorem quiet_trans {a b c : State} (h1 : Quiet a b) (h2 : Quiet b c) : Quiet a c where
  nextBuf_le := le_trans h1.nextBuf_le h2.nextBuf_le
  heap := fun x hx => by
    rw [h2.heap x (fun n hn => lt_of_lt_of_le (hx n hn) h1.nextBuf_le), h1.heap x hx]
  varPtr := fun w => by rw [h2.varPtr, h1.varPtr]

/-- A state with the same heap, allocation counter and `varPtr` fields. -/
theorem quiet_of_eq {s s' : State} (h1 : s'.nextBuf = s.nextBuf) (h2 : s'.heap = s.heap)
    (h3 : ∀ w, (s'.vars w).varPtr = (s.vars w).varPtr) : Quiet s s' :=
  ⟨by rw [h1], fun _ _ => by rw [h2], h3⟩

theorem quiet_modVar (s : State) (v : Nat) (g : Variable → Variable)
    (hg : ∀ x, (g x).varPtr = x.varPtr) : Quiet s (s.modVar v g) :=
  quiet_of_eq rfl rfl (fun w => by rw [modVar_vars]; split <;> simp [hg, *])

theorem quiet_modTx (s : State) (x : Nat) (f : Transaction → Transaction) :
    Quiet s (s.modTx x f) := quiet_of_eq rfl rfl (fun _ => rfl)

theorem quiet_newT (s : State) (val : Int) : Quiet s (s.newT val) where
  nextBuf_le := Nat.le_succ _
  heap := fun b hb => by
    rw [newT_heap, if_neg]
    intro h
    exact absurd (hb _ h) (lt_irrefl _)
  varPtr := fun _ => rfl

theorem quiet_mapVars (g : Variable → Variable) (hg : ∀ x, (g x).varPtr = x.varPtr)
    (vs : List Nat) (s : State) : Quiet s (mapVars g vs s) := by
  induction vs generalizing s with
  | nil => exact quiet_refl s
  | cons v vs ih => exact quiet_trans (quiet_modVar s v g hg) (ih _)

theorem quiet_unlockAll (ms : List Nat) (s : State) : Quiet s (unlockAll ms s) :=
  quiet_mapVars (fun x => { x with lock := false }) (fun _ => rfl) ms s

theorem quiet_storeUsedByIrr (b : Bool) (vs : List Nat) (s : State) :
    Quiet s (storeUsedByIrr b vs s) :=
  quiet_mapVars (fun x => { x with usedByIrr := b }) (fun _ => rfl) vs s

theorem quiet_storeDirty (b : Bool) (vs : List Nat) (s : State) :
    Quiet s (storeDirty b vs s) :=
  quiet_mapVars (fun x => { x with dirty := b }) (fun _ => rfl) vs s

theorem quiet_storeDirtyIrr (b : Bool) (vs : List Nat) (s : State) :
    Quiet s (storeDirtyIrr b vs s) :=
  quiet_mapVars (fun x => { x with dirtyIrr := b }) (fun _ => rfl) vs s

theorem quiet_resetCurrent (th : Nat) (s : State) : Quiet s (resetCurrent th s) := by
  unfold resetCurrent
  split
  · exact quiet_refl s
  · exact quiet_of_eq rfl rfl (fun _ => rfl)

theorem quiet_cleanup (th c : Nat) (s : State) : Quiet s (cleanup th c s) :=
  quiet_trans (quiet_trans (quiet_unlockAll _ s) (quiet_modTx _ _ _)) (quiet_resetCurrent _ _)

theorem quiet_abort (th c : Nat) (s : State) : Quiet s (abort th c s).2 := by
  unfold abort
  split
  · exact quiet_refl s
  · split
    · split
      · exact quiet_refl s
      · refine quiet_trans ?_ (quiet_cleanup _ _ _)
        refine quiet_of_eq (by simp) (by simp) (fun w => ?_)
        simp only [modTx_vars]
        rw [storeUsedByIrr_vars, storeUsedByIrr_vars]
        split <;> split <;> rfl
    · exact quiet_trans (quiet_modTx _ _ _) (quiet_cleanup _ _ _)

theorem quiet_abortThrow {α : Type} (th c : Nat) (e : Exc) (s : State) :
    Quiet s (abortThrow th c e s : Res α).2 := by
  unfold abortThrow
  split <;> exact quiet_abort th c s

theorem quiet_killReaders (th c : Nat) (s : State) : Quiet s (killReaders th c s) :=
  have h := killReaders_step th c s
  quiet_of_eq h.nextBuf h.heap (fun w => by rw [h.vars])

theorem quiet_acquireReadset (c : Nat) (s : State) : Quiet s (acquireReadset c s).2 := by
  obtain ⟨-, -, a3, a4, -, -, a7, -⟩ := acquireReadset_spec c s
  exact quiet_of_eq a3 a4 (fun w => (a7 w).1)

theorem quiet_irr (th c : Nat) (s : State) : Quiet s (irr th c s).2 := by
  unfold irr
  have h1 : Quiet s { s with irrTransactionLock := true } :=
    quiet_of_eq rfl rfl (fun _ => rfl)
  have h2 := quiet_trans h1 (quiet_acquireReadset c { s with irrTransactionLock := true })
  have h3 : ∀ s4 : State, Quiet s4 { s4 with irrTransactionLock := false } := fun s4 =>
    quiet_of_eq rfl rfl (fun _ => rfl)
  split
  · exact quiet_refl s
  · split
    · exact quiet_abortThrow _ _ _ _
    · dsimp only
      split
      · refine quiet_trans ?_ (quiet_abortThrow _ _ _ _)
        exact quiet_trans h2 (h3 _)
      · split
        · refine quiet_trans ?_ (quiet_abortThrow _ _ _ _)
          refine quiet_trans ?_ (h3 _)
          refine quiet_trans ?_ (quiet_storeUsedByIrr _ _ _)
          split
          · exact quiet_trans h2 (quiet_modTx _ _ _)
          · refine quiet_trans ?_ (quiet_modTx _ _ _)
            exact quiet_trans h2 (quiet_modTx _ _ _)
        · dsimp only
          refine quiet_trans ?_ (quiet_modTx _ _ _)
          split
          · exact quiet_trans h2 (quiet_modTx _ _ _)
          · refine quiet_trans ?_ (quiet_modTx _ _ _)
            exact quiet_trans h2 (quiet_modTx _ _ _)

theorem quiet_irrAcquireCopy (c v : Nat) (ro : Bool) (s : State) :
    Quiet s (irrAcquireCopy c v ro s) := by
  unfold irrAcquireCopy
  dsimp only
  split
  · exact quiet_trans (quiet_newT _ _) (quiet_modTx _ _ _)
  · exact quiet_trans (quiet_newT _ _) (quiet_modTx _ _ _)

theorem quiet_irrAcquire (c v : Nat) (ro : Bool) (s : State) :
    Quiet s (irrAcquire c v ro s).2 := by
  unfold irrAcquire
  have h1 : Quiet s (s.modVar v fun x => { x with usedByIrr := true }) :=
    quiet_modVar _ _ _ (fun _ => rfl)
  dsimp only
  split
  · dsimp only
    refine quiet_trans ?_ (quiet_irrAcquireCopy _ _ _ _)
    refine quiet_trans ?_ (quiet_modTx _ _ _)
    refine quiet_trans h1 ?_
    exact quiet_modVar _ _ _ (fun _ => rfl)
  · split
    · exact quiet_trans h1 (quiet_irrAcquireCopy _ _ _ _)
    · split
      · dsimp only
        refine quiet_trans ?_ (quiet_irrAcquireCopy _ _ _ _)
        exact quiet_trans h1 (quiet_modTx _ _ _)
      · split
        · exact quiet_trans h1 (quiet_irrAcquireCopy _ _ _ _)
        · split
          · exact h1
          · dsimp only [setWset]
            refine quiet_trans ?_ (quiet_modTx _ _ _)
            refine quiet_trans ?_ (quiet_newT _ _)
            exact quiet_trans h1 (quiet_modTx _ _ _)

theorem quiet_roFuel (n th v : Nat) (s : State) : Quiet s (roFuel n th v s).2 := by
  induction n generalizing s with
  | zero => unfold roFuel; exact quiet_refl s
  | succ n ih =>
    unfold roFuel
    split
    · split <;> exact quiet_refl s
    · split
      · exact quiet_refl s
      · split
        · exact quiet_refl s
        · split
          · have key : ∀ c, Quiet s (match irrAcquire c v true s with
                | (.error e, s1) => ((.error e, s1) : Res Buf)
                | (.ok _, s1) => roFuel n th v s1).2 := by
              intro c
              have h := quiet_irrAcquire c v true s
              revert h
              generalize irrAcquire c v true s = r
              obtain ⟨r1, r2⟩ := r
              intro h
              cases r1 with
              | error e => exact h
              | ok u => exact quiet_trans h (ih r2)
            exact key _
          · have h1 : ∀ c, Quiet s (s.modVar v fun x =>
                { x with readers := Function.update x.readers th (some c) }) :=
              fun c => quiet_modVar _ _ _ (fun _ => rfl)
            dsimp only
            split
            · exact quiet_trans (h1 _) (quiet_abortThrow _ _ _ _)
            · split
              · refine quiet_trans ?_ (quiet_abortThrow _ _ _ _)
                exact quiet_trans (h1 _) (quiet_newT _ _)
              · dsimp only [setRset]
                refine quiet_trans ?_ (quiet_modTx _ _ _)
                exact quiet_trans (h1 _) (quiet_newT _ _)

theorem quiet_rwFuel (n th v : Nat) (s : State) : Quiet s (rwFuel n th v s).2 := by
  induction n generalizing s with
  | zero => unfold rwFuel; exact quiet_refl s
  | succ n ih =>
    unfold rwFuel
    split
    · split <;> exact quiet_refl s
    · split
      · exact quiet_refl s
      · split
        · split
          · refine quiet_trans ?_ (ih _)
            dsimp only [setWset, unsetRset]
            refine quiet_trans ?_ (quiet_modTx _ _ _)
            exact quiet_modTx _ _ _
          · have key : ∀ c, Quiet s (match irrAcquire c v false s with
                | (.error e, s1) => ((.error e, s1) : Res Buf)
                | (.ok _, s1) => rwFuel n th v s1).2 := by
              intro c
              have h := quiet_irrAcquire c v false s
              revert h
              generalize irrAcquire c v false s = r
              obtain ⟨r1, r2⟩ := r
              intro h
              cases r1 with
              | error e => exact h
              | ok u => exact quiet_trans h (ih r2)
            exact key _
        · split
          · exact quiet_abortThrow _ _ _ _
          · split
            · exact quiet_abortThrow _ _ _ _
            · have h1 : ∀ c, Quiet s (s.modVar v fun x =>
                  { x with lock := true, previousLockOwner := x.mostRecentLockOwner,
                           mostRecentLockOwner := some c }) :=
                fun c => quiet_modVar _ _ _ (fun _ => rfl)
              unfold rwLocked; dsimp only
              split
              · refine quiet_trans ?_ (quiet_abortThrow _ _ _ _)
                refine quiet_trans ?_ (quiet_modVar _ _ _ (fun _ => rfl))
                exact h1 _
              · have h2 : ∀ c, Quiet s (match ((s.modVar v fun x =>
                      { x with lock := true, previousLockOwner := x.mostRecentLockOwner,
                               mostRecentLockOwner := some c }).txs c).rsetBuffers.lookup v with
                    | some readBuffer => (readBuffer, unsetRset c v (s.modVar v fun x =>
                      { x with lock := true, previousLockOwner := x.mostRecentLockOwner,
                               mostRecentLockOwner := some c }))
                    | none => (Buf.alloc (s.modVar v fun x =>
                      { x with lock := true, previousLockOwner := x.mostRecentLockOwner,
                               mostRecentLockOwner := some c }).nextBuf,
                        (s.modVar v fun x =>
                      { x with lock := true, previousLockOwner := x.mostRecentLockOwner,
                               mostRecentLockOwner := some c }).newT
                          (((s.modVar v fun x =>
                      { x with lock := true, previousLockOwner := x.mostRecentLockOwner,
                               mostRecentLockOwner := some c })).heap
                            (((s.modVar v fun x =>
                      { x with lock := true, previousLockOwner := x.mostRecentLockOwner,
                               mostRecentLockOwner := some c })).vars v).varPtr))).2 := by
                  intro c
                  split
                  · dsimp only [unsetRset]
                    exact quiet_trans (h1 c) (quiet_modTx _ _ _)
                  · exact quiet_trans (h1 c) (quiet_newT _ _)
                split
                · refine quiet_trans ?_ (quiet_abortThrow _ _ _ _)
                  refine quiet_trans ?_ (quiet_modVar _ _ _ (fun _ => rfl))
                  exact h2 _
                · dsimp only [setWset]
                  refine quiet_trans ?_ (quiet_modTx _ _ _)
                  refine quiet_trans ?_ (quiet_modTx _ _ _)
                  exact h2 _

theorem quiet_commit (th c : Nat) (s : State) (h : (commit th c s).1 ≠ .ok ()) :
    Quiet s (commit th c s).2 := by
  unfold commit at h ⊢
  have hk : ∀ s1, Quiet s s1 → Quiet s (killReaders th c s1) :=
    fun s1 h1 => quiet_trans h1 (quiet_killReaders th c s1)
  have hd : Quiet s (if (s.txs c).amIIrrevocable = true
      then storeDirtyIrr true (s.txs c).wsetBuffers.keys s
      else storeDirty true (s.txs c).wsetBuffers.keys s) := by
    split
    · exact quiet_storeDirtyIrr _ _ _
    · exact quiet_storeDirty _ _ _
  by_cases c1 : (s.txs c).comitted = true
  · rw [if_pos c1]; exact quiet_refl s
  · rw [if_neg c1] at h ⊢
    by_cases c2 : (s.txs c).aborted = true
    · rw [if_pos c2]
      split
      · exact quiet_refl s
      · exact quiet_abortThrow _ _ _ _
    · rw [if_neg c2] at h ⊢
      dsimp only at h ⊢
      have hq2 := hk _ hd
      revert hq2 h
      generalize killReaders th c (if (s.txs c).amIIrrevocable = true
        then storeDirtyIrr true (s.txs c).wsetBuffers.keys s
        else storeDirty true (s.txs c).wsetBuffers.keys s) = s2
      intro h hq2
      by_cases c3 : (s2.txs c).amIIrrevocable = true
      · rw [if_pos c3] at h; exact absurd rfl h
      · rw [if_neg c3] at h ⊢
        by_cases c4 : (s2.txs c).cleanReadsetLock = true
        · rw [if_pos c4]
          refine quiet_trans ?_ (quiet_abortThrow _ _ _ _)
          exact quiet_trans hq2 (quiet_storeDirty _ _ _)
        · rw [if_neg c4] at h ⊢
          by_cases c5 : ((s2.modTx c fun t => { t with cleanReadsetLock := true }).txs
              c).commitLock = true
          · rw [if_pos c5]
            refine quiet_trans ?_ (quiet_abortThrow _ _ _ _)
            refine quiet_trans ?_ (quiet_storeDirty _ _ _)
            exact quiet_trans hq2 (quiet_modTx _ _ _)
          · rw [if_neg c5] at h; exact absurd rfl h

theorem quiet_beginT (th : Nat) (s : State) : Quiet s (beginT th s).2 := by
  unfold beginT
  split
  · exact quiet_refl s
  · exact quiet_of_eq rfl rfl (fun _ => rfl)

/-- A quiet call keeps every authoritative value. -/
theorem Quiet.value {s s' : State} (h : Quiet s s') (hi : Inv s) (w : Nat) :
    s'.value w = s.value w := by
  unfold State.value
  rw [h.varPtr, h.heap]
  exact fun n hn => hi.var_lt w n hn

/-- The buffer an `rw` inside a transaction returns is not the cell of any variable. -/
theorem rw_buffer_private {th v : Nat} {s : State} {b : Buf} (hi : Inv s)
    (hin : s.currentTransaction th ≠ none ∨ s.nonTransAccess ≠ none)
    (hb : (rw th v s).1 = .ok b) (w : Nat) : ((rw th v s).2.vars w).varPtr ≠ b := by
  rcases @rw_cases th v s hi with
    ⟨c, b1, h1, h2, h3⟩ | ⟨h1, h2, h3⟩ | ⟨e, -, -, h3⟩ | ⟨c, b1, h1, h2, h3, -⟩ | ⟨c, h1, -⟩
  · rw [h3] at hb ⊢
    cases hb
    exact hi.buf_not_auth c b w (hi.cur_alive th c h1) ⟨v, Or.inr h2⟩
  · rcases hin with h | h
    · exact absurd h1 h
    · exact absurd h2 h
  · rw [h3] at hb; cases hb
  · rw [h1] at hb
    cases hb
    have hi1 := h2.keepsInv hi
    have hc1 : (rw th v s).2.currentTransaction th = some c := by rw [h2.cur_eq]; exact h2.cur
    exact hi1.buf_not_auth c b w (hi1.cur_alive th c hc1) ⟨v, Or.inr h3⟩
  · rw [h1] at hb; cases hb

theorem exec_values {s : State} (hi : Inv s) (th : Nat) (op : Op)
    (hin : s.currentTransaction th ≠ none ∨ s.nonTransAccess ≠ none)
    (hno : ¬ (op = Op.commitT ∧ (exec th op s).1 = .ok ())) (w : Nat) :
    (exec th op s).2.value w = s.value w := by
  cases op with
  | beginT => exact (quiet_beginT th s).value hi w
  | abortT =>
    simp only [exec, abortT]
    split
    · rfl
    · exact (quiet_abort _ _ _).value hi w
  | irrT =>
    simp only [exec, irrT]
    split
    · rfl
    · exact (quiet_irr _ _ _).value hi w
  | commitT =>
    simp only [exec, commitT, true_and] at hno ⊢
    split
    · rfl
    · rename_i c hc
      rw [hc] at hno
      exact (quiet_commit th c s hno).value hi w
  | ro v => exact (quiet_roFuel 2 th v s).value hi w
  | rw v => exact (quiet_rwFuel 2 th v s).value hi w
  | assign v val =>
    have hq := (quiet_rwFuel 2 th v s).value hi
    rcases assign_state th v val s with h | ⟨b, h1, -, h2⟩
    · simp only [exec, h]; exact hq w
    · simp only [exec, h2]
      rw [← hq w]
      unfold State.value
      simp only
      rw [Function.update_noteq (rw_buffer_private hi hin h1 w)]
      rfl

/-! ## C2: no effect without a successful commit -/

theorem start_reachable : Reachable start := Reachable.init 32 _ _ _

/-! ## The footprint of a call on the other threads -/

/-- Writing the heap does not change a footprint. -/
theorem Lives.withHeap {th c : Nat} {s s' : State} (h : Lives th c s s') (hp : Buf → Int) :
    Lives th c s { s' with heap := hp } := by
  obtain ⟨a1, a2, a3, a4, a5, a6, a7, a8, a9, a10, a11, a12, a13, a14, a15, a16, a17, a18, a19,
    a20, a21, a22, a23, a24, a25, a26⟩ := h
  exact ⟨a1, a2, a3, a4, a5, a6, a7, a8, a9, a10, a11, a12, a13, a14, a15, a16, a17, a18, a19,
    a20, a21, a22, a23, a24, a25, a26⟩

theorem Dies.sameButHeap {th c : Nat} {s s' : State} (h : Dies th c s s') (hp : Buf → Int) :
    Dies th c s { s' with heap := hp } := by
  obtain ⟨a1, a2, a3, a4, a5, a6, a7, a8, a9, a10, a11⟩ := h
  exact ⟨a1, a2, a3, a4, a5, a6, a7, a8, a9, a10, a11⟩

/-- The footprint of any call: nothing but the heap changes, or the transaction of the caller
goes on, or it ends, or it begins. -/
theorem exec_eff {s : State} (hi : Inv s) (th : Nat) (op : Op) :
    (∃ hp, (exec th op s).2 = { s with heap := hp }) ∨
    (∃ c, Lives th c s (exec th op s).2) ∨
    (∃ c, Dies th c s (exec th op s).2) ∨
    (s.currentTransaction th = none ∧ (exec th op s).2 = (beginT th s).2) := by
  have same : ∀ s' : State, s' = s → ∃ hp, s' = { s with heap := hp } :=
    fun s' h => ⟨s.heap, by rw [h]⟩
  cases op with
  | beginT =>
    cases hc : s.currentTransaction th with
    | none => exact Or.inr (Or.inr (Or.inr ⟨rfl, rfl⟩))
    | some c => exact Or.inl (same _ (by simp [exec, beginT, hc]))
  | abortT =>
    rcases @abortT_cases th s hi with ⟨e, h⟩ | ⟨c, -, h⟩
    · exact Or.inl (same _ (by simp [exec, h]))
    · exact Or.inr (Or.inr (Or.inl ⟨c, h⟩))
  | irrT =>
    rcases @irrT_cases th s hi with ⟨-, h⟩ | ⟨c, -, -, h⟩ | ⟨c, -, h, -⟩ | ⟨c, -, h, -⟩
    · exact Or.inl (same _ (by simp [exec, h]))
    · exact Or.inl (same _ (by simp [exec, h]))
    · exact Or.inr (Or.inl ⟨c, h⟩)
    · exact Or.inr (Or.inr (Or.inl ⟨c, h⟩))
  | commitT =>
    rcases @commitT_cases th s hi with ⟨-, h⟩ | ⟨c, -, h, -⟩ | ⟨c, -, h, -⟩
    · exact Or.inl (same _ (by simp [exec, h]))
    · exact Or.inr (Or.inr (Or.inl ⟨c, h⟩))
    · exact Or.inr (Or.inr (Or.inl ⟨c, h⟩))
  | ro v =>
    rcases @ro_cases th v s hi with
      ⟨c, b, -, -, h⟩ | ⟨-, -, h⟩ | ⟨e, -, -, h⟩ | ⟨c, b, -, h, -⟩ | ⟨c, -, h, -⟩
    · exact Or.inl (same _ (by simp [exec, h]))
    · exact Or.inl (same _ (by simp [exec, h]))
    · exact Or.inl (same _ (by simp [exec, h]))
    · exact Or.inr (Or.inl ⟨c, h⟩)
    · exact Or.inr (Or.inr (Or.inl ⟨c, h⟩))
  | rw v =>
    rcases @rw_cases th v s hi with
      ⟨c, b, -, -, h⟩ | ⟨-, -, h⟩ | ⟨e, -, -, h⟩ | ⟨c, b, -, h, -⟩ | ⟨c, -, h, -⟩
    · exact Or.inl (same _ (by simp [exec, h]))
    · exact Or.inl (same _ (by simp [exec, h]))
    · exact Or.inl (same _ (by simp [exec, h]))
    · exact Or.inr (Or.inl ⟨c, h⟩)
    · exact Or.inr (Or.inr (Or.inl ⟨c, h⟩))
  | assign v val =>
    have key : ∀ s1 : State, ((∃ hp, s1 = { s with heap := hp }) ∨ (∃ c, Lives th c s s1) ∨
        (∃ c, Dies th c s s1)) → ∀ hp, ((∃ hp', ({ s1 with heap := hp } : State)
          = { s with heap := hp' }) ∨
        (∃ c, Lives th c s { s1 with heap := hp }) ∨ (∃ c, Dies th c s { s1 with heap := hp }) ∨
        (s.currentTransaction th = none ∧ ({ s1 with heap := hp } : State) = (beginT th s).2)) := by
      intro s1 h hp
      rcases h with ⟨hp', h⟩ | ⟨c, h⟩ | ⟨c, h⟩
      · exact Or.inl ⟨hp, by rw [h]⟩
      · exact Or.inr (Or.inl ⟨c, h.withHeap hp⟩)
      · exact Or.inr (Or.inr (Or.inl ⟨c, h.sameButHeap hp⟩))
    have hrw : (∃ hp, (rw th v s).2 = { s with heap := hp }) ∨ (∃ c, Lives th c s (rw th v s).2) ∨
        (∃ c, Dies th c s (rw th v s).2) := by
      rcases @rw_cases th v s hi with
        ⟨c, b, -, -, h⟩ | ⟨-, -, h⟩ | ⟨e, -, -, h⟩ | ⟨c, b, -, h, -⟩ | ⟨c, -, h, -⟩
      · exact Or.inl (same _ (by simp [h]))
      · exact Or.inl (same _ (by simp [h]))
      · exact Or.inl (same _ (by simp [h]))
      · exact Or.inr (Or.inl ⟨c, h⟩)
      · exact Or.inr (Or.inr ⟨c, h⟩)
    rcases assign_state th v val s with h | ⟨b, -, -, h⟩
    · simp only [exec, h]
      rcases hrw with h1 | h1 | h1
      · exact Or.inl h1
      · exact Or.inr (Or.inl h1)
      · exact Or.inr (Or.inr (Or.inl h1))
    · simp only [exec, h]
      exact key _ hrw _

/-- A call of one thread leaves the slot of another thread as it is, and at most kills the
transaction installed there. -/
theorem exec_other {s : State} (hi : Inv s) (th : Nat) (op : Op) {u y : Nat} (hu : u ≠ th)
    (hcu : s.currentTransaction u = some y) :
    (exec th op s).2.currentTransaction u = some y ∧
      Touched (s.txs y) ((exec th op s).2.txs y) := by
  have hya := hi.cur_alive u y hcu
  rcases exec_eff hi th op with ⟨hp, h⟩ | ⟨c, h⟩ | ⟨c, h⟩ | ⟨hc, h⟩
  · rw [h]; exact ⟨hcu, Touched.same _⟩
  · have hyc : y ≠ c := fun e => hu (hi.cur_inj u th y hcu (e ▸ h.cur))
    exact ⟨by rw [h.cur_eq]; exact hcu, h.others y hyc⟩
  · have hyc : y ≠ c := fun e => hu (hi.cur_inj u th y hcu (e ▸ h.cur))
    exact ⟨by rw [h.cur_eq, Function.update_noteq hu]; exact hcu, h.others y hyc⟩
  · rw [h]
    have hlt := hi.alive_lt y hya
    simp only [beginT, hc]
    refine ⟨by rw [Function.update_noteq hu]; exact hcu, ?_⟩
    rw [Function.update_noteq (by omega)]
    exact Touched.same _

/-! ## C3: an irrevocable transaction never fails -/

theorem rivals_reachable : Reachable rivals :=
  Reachable.step _ 1 .irrT
    (Reachable.step _ 1 .beginT wroteFive_reachable (by decide)) (by decide)

/-! ## C4: at most one irrevocable transaction -/

/-- The irrevocable transaction releases `irrTransactionLock` in the last part of `commit`. -/
theorem commitFinish_releases {th c : Nat} {s : State} (hc : s.currentTransaction th = some c)
    (hh : (s.txs c).hijackedWsetBuffers = ∅) (hirr : (s.txs c).amIIrrevocable = true) :
    (commitFinish th c s).irrTransactionLock = false := by
  obtain ⟨p1, -, -, -, -, p6, -⟩ := publish_spec hh
  have hp : ((publish c s).txs c).amIIrrevocable = true := by rw [p1]; exact hirr
  have hcp : (publish c s).currentTransaction th = some c := by rw [p6]; exact hc
  unfold commitFinish
  revert hp hcp
  generalize publish c s = p
  intro hp hcp
  dsimp only
  rw [(cleanup_rest _).2.2.2.1]
  · simp [hp]
  · simp [hp, hcp]

/-- Committing the irrevocable transaction releases `irrTransactionLock`. -/
theorem commitT_releases {th c : Nat} {s : State} (hi : Inv s)
    (hc : s.currentTransaction th = some c) (hirr : (s.txs c).amIIrrevocable = true) :
    (commitT th s).2.irrTransactionLock = false := by
  have hca := hi.cur_alive th c hc
  obtain ⟨-, -, k3, -⟩ := hi.irr_locks c hca hirr
  have ks := killReaders_step th c (storeDirtyIrr true (s.txs c).wsetBuffers.keys s)
  have h2 : ((killReaders th c (storeDirtyIrr true (s.txs c).wsetBuffers.keys s)).txs c).amIIrrevocable
      = true := by
    rw [(ks.touched c).irr]; simpa using hirr
  unfold commitT
  rw [hc]
  dsimp only
  unfold commit
  rw [if_neg (by rw [hi.not_comitted c hca]; simp), if_neg (by rw [k3]; simp)]
  simp only [hirr, if_true]
  rw [if_pos h2]
  apply commitFinish_releases
  · rw [ks.cur]; simpa using hc
  · rw [(ks.touched c).hij]; simpa using hi.hij_empty c hca
  · exact h2

/-- When the hook `forcingAbortOnIrr` returns, aborting the irrevocable transaction releases
`irrTransactionLock`. -/
theorem abortT_releases {th c : Nat} {s : State} (hi : Inv s)
    (hc : s.currentTransaction th = some c) (hirr : (s.txs c).amIIrrevocable = true)
    (hk : s.forcingAbortOnIrr = none) :
    (abortT th s).1 = .ok () ∧ (abortT th s).2.irrTransactionLock = false := by
  have hca := hi.cur_alive th c hc
  unfold abortT
  rw [hc]
  dsimp only
  unfold abort
  rw [if_neg (by rw [hi.not_comitted c hca]; simp), if_pos hirr, hk]
  dsimp only
  refine ⟨rfl, ?_⟩
  rw [(cleanup_rest _).2.2.2.1]
  simpa using hc

/-- C4: in every state between calls, at most one transaction object in existence has
`amIIrrevocable` set; such a transaction is neither committed nor marked aborted and
`irrTransactionLock` is held. A promotion by `irrT` found the lock free and leaves it held;
no call of another thread releases the lock or ends the irrevocable transaction; its own
`commitT` releases the lock, and so does its `abortT` when the hook `forcingAbortOnIrr`
returns. -/
theorem one_irrevocable {s : State} (hr : Reachable s) :
    (∀ x y, (s.txs x).alive → (s.txs y).alive → (s.txs x).amIIrrevocable →
      (s.txs y).amIIrrevocable → x = y) ∧
    (∀ x, (s.txs x).alive → (s.txs x).amIIrrevocable →
      s.irrTransactionLock = true ∧ (s.txs x).comitted = false ∧ (s.txs x).aborted = false) ∧
    (∀ th c, s.currentTransaction th = some c → (s.txs c).amIIrrevocable = false →
      ((irrT th s).2.txs c).alive → ((irrT th s).2.txs c).amIIrrevocable →
      s.irrTransactionLock = false ∧ (irrT th s).2.irrTransactionLock = true) ∧
    (∀ th c, s.currentTransaction th = some c → (s.txs c).amIIrrevocable →
      (∀ u op, u ≠ th → (exec u op s).2.irrTransactionLock = true ∧
        ((exec u op s).2.txs c).alive ∧ ((exec u op s).2.txs c).amIIrrevocable ∧
        (exec u op s).2.currentTransaction th = some c) ∧
      (∀ v, (ro th v s).2.irrTransactionLock = true) ∧
      (∀ v, (rw th v s).2.irrTransactionLock = true) ∧
      (commitT th s).2.irrTransactionLock = false ∧
      (s.forcingAbortOnIrr = none → (abortT th s).2.irrTransactionLock = false)) := by
  have hi := reachable_inv hr
  refine ⟨hi.irr_unique, ?_, ?_, ?_⟩
  · intro x ha hx
    obtain ⟨-, -, k3, k4⟩ := hi.irr_locks x ha hx
    exact ⟨k4, hi.not_comitted x ha, k3⟩
  · intro th c hc hirr ha hx
    have same : ∀ c', s.currentTransaction th = some c' → c' = c := by
      intro c' h; rw [hc] at h; cases h; rfl
    rcases @irrT_cases th s hi with ⟨h, -⟩ | ⟨c', h, h2, -⟩ | ⟨c', -, h2, -, -, h5⟩ | ⟨c', -, h2, -⟩
    · rw [hc] at h; cases h
    · have := same c' h; subst this
      rw [hirr] at h2; cases h2
    · have := same c' h2.cur; subst this
      exact ⟨h5, (h2.c_irr_new hx hirr).2.1⟩
    · have := same c' h2.cur; subst this
      rw [h2.dead] at ha; cases ha
  · intro th c hc hirr
    have hca := hi.cur_alive th c hc
    have hlock := (hi.irr_locks c hca hirr).2.2.2
    have hirr' : (s.txs c).amIIrrevocable = true := hirr
    have notfalse : (s.txs c).amIIrrevocable = false → False := by
      intro h; rw [h] at hirr; exact absurd hirr (by simp)
    have same : ∀ c', s.currentTransaction th = some c' → c' = c := by
      intro c' h; rw [hc] at h; cases h; rfl
    refine ⟨?_, ?_, ?_, commitT_releases hi hc hirr', fun hk => (abortT_releases hi hc hirr' hk).2⟩
    · intro u op hu
      obtain ⟨h1, h2⟩ := exec_other hi u op (Ne.symm hu) hc
      have ha : ((exec u op s).2.txs c).alive := by rw [h2.alive]; exact hca
      have hx : ((exec u op s).2.txs c).amIIrrevocable := by rw [h2.irr]; exact hirr
      have hi' := exec_inv hi u op
      exact ⟨(hi'.irr_locks c ha hx).2.2.2, ha, hx, h1⟩
    · intro v
      rcases @ro_cases th v s hi with
        ⟨c', b, -, -, h⟩ | ⟨h, -, -⟩ | ⟨e, h, -, -⟩ | ⟨c', b, -, h2, -⟩ | ⟨c', -, h2, h3⟩
      · rw [h]; exact hlock
      · rw [hc] at h; cases h
      · rw [hc] at h; cases h
      · exact h2.irrLock_mono hlock
      · have := same c' h2.cur; subst this
        exact (notfalse h3).elim
    · intro v
      rcases @rw_cases th v s hi with
        ⟨c', b, -, -, h⟩ | ⟨h, -, -⟩ | ⟨e, h, -, -⟩ | ⟨c', b, -, h2, -⟩ | ⟨c', -, h2, h3⟩
      · rw [h]; exact hlock
      · rw [hc] at h; cases h
      · rw [hc] at h; cases h
      · exact h2.irrLock_mono hlock
      · have := same c' h2.cur; subst this
        exact (notfalse h3).elim

theorem one_irrevocable_witness :
    Reachable rivals ∧ (rivals.txs 1).alive = true ∧ (rivals.txs 1).amIIrrevocable = true ∧
    (rivals.txs 0).alive = true ∧ (rivals.txs 0).amIIrrevocable = false ∧
    rivals.irrTransactionLock = true ∧ (commitT 1 rivals).2.irrTransactionLock = false :=
  have h := @one_irrevocable rivals rivals_reachable
  ⟨rivals_reachable, by decide, by decide, by decide, by decide,
    (h.2.1 1 (by decide) (by decide)).1, (h.2.2.2 1 1 (by decide) (by decide)).2.2.2.1⟩

/-! ## How a failed call leaves its transaction -/

/-- The pair `abort(); throw e;` run by a revocable transaction that still has the locks it
held at the call. -/
theorem abortThrow_ended {α : Type} {th c : Nat} {s s1 : State} (e : Exc)
    (hc : s1.currentTransaction th = some c) (h1 : (s1.txs c).comitted = false)
    (h2 : (s1.txs c).amIIrrevocable = false)
    (hl : ∀ v, v ∈ (s.txs c).locksHeld → v ∈ (s1.txs c).locksHeld) :
    (abortThrow th c e s1 : Res α).1 = .error e ∧
      Ended th c s (abortThrow th c e s1 : Res α).2 := by
  rw [abortThrow_revocable e h1 h2]
  have hc' : (s1.modTx c fun t => { t with aborted := true }).currentTransaction th = some c := hc
  refine ⟨rfl, ?_, ?_, ?_, ?_⟩
  · rw [cleanup_txs hc']; simp
  · rw [cleanup_txs hc']; simp
  · intro v hv
    rw [cleanup_vars hc']
    simp [hl v hv]
  · rw [cleanup_cur hc']; simp

theorem ro_failed {th c v : Nat} {s : State} (hi : Inv s)
    (hc : s.currentTransaction th = some c) (hirr : (s.txs c).amIIrrevocable = false) :
    (∃ b, (ro th v s).1 = .ok b) ∨
    ((ro th v s).1 = .error .ReadFailedException ∧ Ended th c s (ro th v s).2) := by
  have hcom := hi.not_comitted c (hi.cur_alive th c hc)
  unfold ro roFuel
  simp only [hc]
  cases hr : (s.txs c).rsetBuffers.lookup v with
  | some b => exact Or.inl ⟨b, rfl⟩
  | none =>
    cases hw : (s.txs c).wsetBuffers.lookup v with
    | some b => exact Or.inl ⟨b, rfl⟩
    | none =>
      simp only [hirr, Bool.false_eq_true, if_false]
      split
      · exact Or.inr (abortThrow_ended _ hc hcom hirr (fun _ h => h))
      · split
        · exact Or.inr (abortThrow_ended _ hc hcom hirr (fun _ h => h))
        · exact Or.inl ⟨_, rfl⟩

theorem rw_failed {th c v : Nat} {s : State} (hi : Inv s)
    (hc : s.currentTransaction th = some c) (hirr : (s.txs c).amIIrrevocable = false) :
    (∃ b, (rw th v s).1 = .ok b) ∨
    ((rw th v s).1 = .error .WriteFailedException ∧ Ended th c s (rw th v s).2) := by
  have hcom := hi.not_comitted c (hi.cur_alive th c hc)
  unfold rw rwFuel rwLocked
  simp only [hc]
  cases hw : (s.txs c).wsetBuffers.lookup v with
  | some b => exact Or.inl ⟨b, rfl⟩
  | none =>
    simp only [hirr, Bool.false_eq_true, if_false]
    split
    · exact Or.inr (abortThrow_ended _ hc hcom hirr (fun _ h => h))
    · split
      · exact Or.inr (abortThrow_ended _ hc hcom hirr (fun _ h => h))
      · split
        · exact Or.inr (abortThrow_ended _ hc hcom hirr (fun _ h => h))
        · cases hr : (s.txs c).rsetBuffers.lookup v with
          | some rb =>
            simp only [modVar_txs, hr]
            split
            · refine Or.inr (abortThrow_ended _ hc ?_ ?_ ?_)
              · simpa [unsetRset] using hcom
              · simpa [unsetRset] using hirr
              · intro w h; simpa [unsetRset] using h
            · exact Or.inl ⟨_, rfl⟩
          | none =>
            simp only [modVar_txs, hr]
            split
            · exact Or.inr (abortThrow_ended _ hc hcom hirr (fun _ h => h))
            · exact Or.inl ⟨_, rfl⟩



theorem irrT_failed {th c : Nat} {s : State} (hi : Inv s)
    (hc : s.currentTransaction th = some c) (hirr : (s.txs c).amIIrrevocable = false) :
    (irrT th s).1 = .ok () ∨
    ((irrT th s).1 = .error .IrrevocTransException ∧ Ended th c s (irrT th s).2) := by
  have hcom := hi.not_comitted c (hi.cur_alive th c hc)
  unfold irrT
  rw [hc]
  dsimp only
  unfold irr
  simp only [hirr, Bool.false_eq_true, if_false]
  split
  · exact Or.inr (abortThrow_ended _ hc hcom hirr (fun _ h => h))
  · obtain ⟨a1, -, -, -, -, -, -, a8, a9⟩ :=
      acquireReadset_spec c { s with irrTransactionLock := true }
    revert a1 a8 a9
    generalize acquireReadset c { s with irrTransactionLock := true } = r
    obtain ⟨r1, r2⟩ := r
    intro a1 a8 a9
    simp only at a1 a8 a9
    cases r1 with
    | false =>
      obtain ⟨b1, -⟩ := a8 rfl
      simp only [Bool.not_false, if_true]
      refine Or.inr (abortThrow_ended _ ?_ ?_ ?_ ?_)
      · show r2.currentTransaction th = some c
        rw [a1]; exact hc
      · show (r2.txs c).comitted = false
        rw [b1]; exact hcom
      · show (r2.txs c).amIIrrevocable = false
        rw [b1]; exact hirr
      · intro w h
        show w ∈ (r2.txs c).locksHeld
        rw [b1]; exact h
    | true =>
      obtain ⟨⟨lh, b1, b2⟩, -⟩ := a9 rfl
      simp only [Bool.not_true, Bool.false_eq_true, if_false]
      split
      · refine Or.inr (abortThrow_ended _ ?_ ?_ ?_ ?_)
        · show (storeUsedByIrr false _ _).currentTransaction th = some c
          rw [storeUsedByIrr_cur]
          split
          · show r2.currentTransaction th = some c
            rw [a1]; exact hc
          · show r2.currentTransaction th = some c
            rw [a1]; exact hc
        · show ((storeUsedByIrr false _ _).txs c).comitted = false
          rw [storeUsedByIrr_txs]
          split <;> simp [b1, hcom]
        · show ((storeUsedByIrr false _ _).txs c).amIIrrevocable = false
          rw [storeUsedByIrr_txs]
          split <;> simp [b1, hirr]
        · intro w h
          show w ∈ ((storeUsedByIrr false _ _).txs c).locksHeld
          rw [storeUsedByIrr_txs]
          split <;> simp [b1, (b2 w).2 (Or.inr h)]
      · exact Or.inl rfl

theorem commitT_failed {th c : Nat} {s : State} (hi : Inv s)
    (hc : s.currentTransaction th = some c) (hirr : (s.txs c).amIIrrevocable = false) :
    (commitT th s).1 = .ok () ∨
    ((commitT th s).1 = .error .CommitFailedException ∧ Ended th c s (commitT th s).2) := by
  have hcom := hi.not_comitted c (hi.cur_alive th c hc)
  have ks := killReaders_step th c (storeDirty true (s.txs c).wsetBuffers.keys s)
  have kc := ks.touched c
  have k1 : (killReaders th c (storeDirty true (s.txs c).wsetBuffers.keys s)).currentTransaction th
      = some c := by rw [ks.cur]; simpa using hc
  have k2 : ((killReaders th c (storeDirty true (s.txs c).wsetBuffers.keys s)).txs c).comitted
      = false := by rw [kc.comitted]; simpa using hcom
  have k3 : ((killReaders th c (storeDirty true (s.txs c).wsetBuffers.keys s)).txs c).amIIrrevocable
      = false := by rw [kc.irr]; simpa using hirr
  have k4 : ∀ w, w ∈ (s.txs c).locksHeld →
      w ∈ ((killReaders th c (storeDirty true (s.txs c).wsetBuffers.keys s)).txs c).locksHeld := by
    intro w h; rw [kc.locks]; simpa using h
  unfold commitT
  rw [hc]
  dsimp only
  unfold commit
  simp only [hcom, hirr, Bool.false_eq_true, if_false]
  split
  · exact Or.inr (abortThrow_ended _ hc hcom hirr (fun _ h => h))
  · revert k1 k2 k3 k4
    generalize killReaders th c (storeDirty true (s.txs c).wsetBuffers.keys s) = s2
    intro k1 k2 k3 k4
    simp only [k3, Bool.false_eq_true, if_false]
    split
    · refine Or.inr (abortThrow_ended _ ?_ ?_ ?_ ?_)
      · rw [storeDirty_cur]; exact k1
      · rw [storeDirty_txs]; exact k2
      · rw [storeDirty_txs]; exact k3
      · intro w h; rw [storeDirty_txs]; exact k4 w h
    · split
      · refine Or.inr (abortThrow_ended _ ?_ ?_ ?_ ?_)
        · rw [storeDirty_cur]; exact k1
        · rw [storeDirty_txs]; simpa using k2
        · rw [storeDirty_txs]; simpa using k3
        · intro w h; rw [storeDirty_txs]; simpa using k4 w h
      · exact Or.inl rfl

/-! ## C5: a failed call ends the transaction -/

theorem beginT_after {th c : Nat} {s s' : State} (h : Ended th c s s') :
    (beginT th s').1 = .ok () := by
  unfold beginT
  rw [h.slot]

theorem Dies.released {th c : Nat} {s s' : State} (hd : Dies th c s s') (he : Ended th c s s') :
    LocksReleased c s s' := by
  intro w hw
  by_cases hm : w ∈ (s.txs c).locksHeld
  · rw [he.unlocked w hm] at hw; cases hw
  · rcases hd.lock w with h | h
    · rw [h] at hw; exact ⟨hw, hm⟩
    · exact absurd h hm

theorem contender_reachable : Reachable contender :=
  Reachable.step _ 1 .beginT wroteFive_reachable (by decide)

/-! ## The configuration is never changed -/

@[simp] theorem modVar_config (s : State) (v f) : (s.modVar v f).config = s.config := rfl
@[simp] theorem modTx_config (s : State) (x f) : (s.modTx x f).config = s.config := rfl
@[simp] theorem newT_config (s : State) (val) : (s.newT val).config = s.config := rfl

@[simp] theorem mapVars_config (g vs) (s : State) : (mapVars g vs s).config = s.config := by
  simp [State.config]

@[simp] theorem unlockAll_config (ms) (s : State) : (unlockAll ms s).config = s.config := by
  rw [unlockAll_eq]; simp

@[simp] theorem storeUsedByIrr_config (b vs) (s : State) :
    (storeUsedByIrr b vs s).config = s.config := by
  rw [storeUsedByIrr_eq]; simp

@[simp] theorem storeDirty_config (b vs) (s : State) : (storeDirty b vs s).config = s.config := by
  rw [storeDirty_eq]; simp

@[simp] theorem storeDirtyIrr_config (b vs) (s : State) :
    (storeDirtyIrr b vs s).config = s.config := by
  rw [storeDirtyIrr_eq]; simp

@[simp] theorem irrLock_config (s : State) (b : Bool) :
    ({ s with irrTransactionLock := b } : State).config = s.config := rfl

@[simp] theorem heap_config (s : State) (h : Buf → Int) :
    ({ s with heap := h } : State).config = s.config := rfl

@[simp] theorem resetCurrent_config (th) (s : State) : (resetCurrent th s).config = s.config := by
  unfold resetCurrent
  split <;> rfl

@[simp] theorem cleanup_config (th c) (s : State) : (cleanup th c s).config = s.config := by
  simp [cleanup]

@[simp] theorem abort_config (th c) (s : State) : (abort th c s).2.config = s.config := by
  unfold abort
  split
  · rfl
  · split
    · split
      · rfl
      · dsimp only
        rw [cleanup_config]
        simp [State.config]
    · simp

@[simp] theorem abortThrow_config {α : Type} (th c e) (s : State) :
    (abortThrow th c e s : Res α).2.config = s.config := by
  unfold abortThrow
  split <;> simp

@[simp] theorem killReaders_config (th c) (s : State) : (killReaders th c s).config = s.config := by
  have h := killReaders_step th c s
  simp [State.config, h.max, h.hookN, h.hookF]

@[simp] theorem acquireReadset_config (c) (s : State) :
    (acquireReadset c s).2.config = s.config := by
  obtain ⟨a, -⟩ := acquireReadsetLoop_spec (s.txs c).rsetBuffers.keys [] [] s
  unfold acquireReadset
  revert a
  generalize acquireReadsetLoop (s.txs c).rsetBuffers.keys [] [] s = r
  obtain ⟨r1, r2⟩ := r
  intro a
  have a' : SameButVars s r2 := a
  have : r2.config = s.config := by simp [State.config, a'.max, a'.hookN, a'.hookF]
  cases r1 <;> simpa using this

@[simp] theorem irr_config (th c) (s : State) : (irr th c s).2.config = s.config := by
  unfold irr
  split
  · rfl
  · split
    · simp
    · dsimp only
      split
      · simp
      · split
        · simp only [abortThrow_config, irrLock_config, storeUsedByIrr_config]
          split <;> simp
        · simp only [modTx_config]
          split <;> simp

@[simp] theorem irrAcquireCopy_config (c v b) (s : State) :
    (irrAcquireCopy c v b s).config = s.config := by
  unfold irrAcquireCopy
  dsimp only
  split <;> simp [setRset, setWset]

@[simp] theorem irrAcquire_config (c v b) (s : State) :
    (irrAcquire c v b s).2.config = s.config := by
  unfold irrAcquire
  dsimp only
  split
  · simp
  · split
    · simp
    · split
      · simp
      · split
        · simp
        · split
          · simp
          · simp [setWset]

@[simp] theorem roFuel_config (n th v) (s : State) : (roFuel n th v s).2.config = s.config := by
  induction n generalizing s with
  | zero => unfold roFuel; rfl
  | succ n ih =>
    unfold roFuel
    split
    · split <;> rfl
    · split
      · rfl
      · split
        · rfl
        · split
          · have key : ∀ c, (match irrAcquire c v true s with
                | (.error e, s1) => ((.error e, s1) : Res Buf)
                | (.ok _, s1) => roFuel n th v s1).2.config = s.config := by
              intro c
              have h := irrAcquire_config c v true s
              revert h
              generalize irrAcquire c v true s = r
              obtain ⟨r1, r2⟩ := r
              intro h
              cases r1 with
              | error e => exact h
              | ok u => exact (ih r2).trans h
            exact key _
          · dsimp only
            split
            · simp
            · split
              · simp
              · simp [setRset]

@[simp] theorem rwFuel_config (n th v) (s : State) : (rwFuel n th v s).2.config = s.config := by
  induction n generalizing s with
  | zero => unfold rwFuel; rfl
  | succ n ih =>
    unfold rwFuel
    split
    · split <;> rfl
    · split
      · rfl
      · split
        · split
          · rw [ih]; simp [setWset, unsetRset]
          · have key : ∀ c, (match irrAcquire c v false s with
                | (.error e, s1) => ((.error e, s1) : Res Buf)
                | (.ok _, s1) => rwFuel n th v s1).2.config = s.config := by
              intro c
              have h := irrAcquire_config c v false s
              revert h
              generalize irrAcquire c v false s = r
              obtain ⟨r1, r2⟩ := r
              intro h
              cases r1 with
              | error e => exact h
              | ok u => exact (ih r2).trans h
            exact key _
        · split
          · simp
          · split
            · simp
            · unfold rwLocked; dsimp only
              split
              · simp
              · split
                · simp only [abortThrow_config, modVar_config]
                  split <;> simp [unsetRset]
                · simp only [modTx_config, setWset]
                  split <;> simp [unsetRset]

theorem foldl_config {β : Type} (f : State → β → State) (hf : ∀ s b, (f s b).config = s.config)
    (l : List β) (s : State) : (l.foldl f s).config = s.config := by
  induction l generalizing s with
  | nil => rfl
  | cons a l ih => rw [List.foldl_cons, ih, hf]

@[simp] theorem publish_config (c) (s : State) : (publish c s).config = s.config := by
  unfold publish
  split
  · apply foldl_config
    intro s1 e
    unfold performWriteAsIrr
    split <;> simp
  · apply foldl_config
    intro s1 e
    simp [performWrite]

@[simp] theorem commitFinish_config (th c) (s : State) :
    (commitFinish th c s).config = s.config := by
  have hp := publish_config c s
  simp only [State.config, Prod.mk.injEq] at hp
  unfold commitFinish
  dsimp only
  rw [cleanup_config]
  split <;> split <;> simp [State.config, hp]

@[simp] theorem commit_config (th c) (s : State) : (commit th c s).2.config = s.config := by
  unfold commit
  dsimp only
  repeat' split
  all_goals first | rfl | simp

theorem beginT_config (th) (s : State) : (beginT th s).2.config = s.config := by
  unfold beginT
  split <;> rfl

/-- No call changes `maxThreadNum` or the hooks. -/
theorem exec_config (th : Nat) (op : Op) (s : State) : (exec th op s).2.config = s.config := by
  cases op with
  | beginT => exact beginT_config th s
  | abortT => simp only [exec, abortT]; split <;> simp
  | irrT => simp only [exec, irrT]; split <;> simp
  | commitT => simp only [exec, commitT]; split <;> simp
  | ro v => exact roFuel_config 2 th v s
  | rw v => exact rwFuel_config 2 th v s
  | assign v val =>
    show (assign th v val s).2.config = s.config
    rcases assign_state th v val s with h | ⟨b, -, -, h⟩
    · rw [h]; exact rwFuel_config 2 th v s
    · rw [h]; exact rwFuel_config 2 th v s

/-! ## C6: calls out of sequence are rejected -/

theorem rejected_of_none {th : Nat} {s : State} (hc : s.currentTransaction th = none) :
    Rejected th s := by
  refine ⟨by simp [abortT, hc], by simp [irrT, hc], by simp [commitT, hc], ?_⟩
  intro v e he
  constructor
  · unfold ro roFuel; simp [hc, he]
  · unfold rw rwFuel; simp [hc, he]

theorem config_hook {s s' : State} (h : s'.config = s.config) :
    s'.nonTransAccess = s.nonTransAccess := by
  simp only [State.config, Prod.mk.injEq] at h
  exact h.2.1

/-- C6: in every state between calls, `beginT` throws `InvalidUseException` exactly when
the thread has a current transaction, and then changes nothing; otherwise it returns
normally and installs a transaction object that did not exist, with all flags and locks
clear and empty read, write, hijacked and lock sets, leaving every other transaction
object alone. Without a current transaction `abortT`, `irrT` and `commitT` throw
`InvalidUseException` and `ro`, `rw` throw what the hook throws, all leaving the state
unchanged. This is the situation after an `abortT` that returned normally and after any
`commitT`; neither changes the hook. An `abortT` that throws (no transaction, or
an irrevocable one whose hook `forcingAbortOnIrr` throws) changes nothing. -/
theorem sequencing_errors {s : State} (hr : Reachable s) (th : Nat) :
    ((beginT th s).1 = .error .InvalidUseException ↔ s.currentTransaction th ≠ none) ∧
    (s.currentTransaction th ≠ none → beginT th s = (.error .InvalidUseException, s)) ∧
    (s.currentTransaction th = none →
      (beginT th s).1 = .ok () ∧
      ∃ x, (beginT th s).2.currentTransaction th = some x ∧ (s.txs x).alive = false ∧
        ((beginT th s).2.txs x).alive = true ∧
        ((beginT th s).2.txs x).comitted = false ∧ ((beginT th s).2.txs x).aborted = false ∧
        ((beginT th s).2.txs x).amIIrrevocable = false ∧
        ((beginT th s).2.txs x).cleanReadsetLock = false ∧
        ((beginT th s).2.txs x).commitLock = false ∧
        ((beginT th s).2.txs x).rsetBuffers = ∅ ∧ ((beginT th s).2.txs x).wsetBuffers = ∅ ∧
        ((beginT th s).2.txs x).hijackedWsetBuffers = ∅ ∧
        ((beginT th s).2.txs x).locksHeld = [] ∧
        (∀ y, y ≠ x → (beginT th s).2.txs y = s.txs y) ∧
        (∀ u, u ≠ th → (beginT th s).2.currentTransaction u = s.currentTransaction u) ∧
        (beginT th s).2.vars = s.vars ∧ (beginT th s).2.heap = s.heap) ∧
    (s.currentTransaction th = none → Rejected th s) ∧
    (∀ e, (abortT th s).1 = .error e →
      (abortT th s).2 = s ∧ (e = .InvalidUseException ∨ s.forcingAbortOnIrr = some e)) ∧
    ((abortT th s).1 = .ok () →
      (abortT th s).2.currentTransaction th = none ∧ Rejected th (abortT th s).2 ∧
      (abortT th s).2.nonTransAccess = s.nonTransAccess) ∧
    ((commitT th s).2.currentTransaction th = none ∧ Rejected th (commitT th s).2 ∧
      (commitT th s).2.nonTransAccess = s.nonTransAccess) := by
  have hi := reachable_inv hr
  refine ⟨?_, ?_, ?_, rejected_of_none, ?_, ?_, ?_⟩
  · cases hc : s.currentTransaction th <;> simp [beginT, hc]
  · intro h
    cases hc : s.currentTransaction th with
    | none => exact absurd hc h
    | some c => simp [beginT, hc]
  · intro hc
    have hfresh : (s.txs s.nextTx).alive = false := by
      cases h : (s.txs s.nextTx).alive
      · rfl
      · exact absurd (hi.alive_lt _ h) (lt_irrefl _)
    unfold beginT
    rw [hc]
    refine ⟨rfl, s.nextTx, by simp, hfresh, by simp, by simp, by simp, by simp, by simp,
      by simp, by simp, by simp, by simp, by simp, ?_, ?_, rfl, rfl⟩
    · intro y hy; simp [hy]
    · intro u hu; simp [hu]
  · intro e he
    unfold abortT at he ⊢
    cases hc : s.currentTransaction th with
    | none =>
      rw [hc] at he
      cases he
      exact ⟨rfl, Or.inl rfl⟩
    | some c =>
      rw [hc] at he
      dsimp only at he ⊢
      unfold abort at he ⊢
      rw [if_neg (by rw [hi.not_comitted c (hi.cur_alive th c hc)]; simp)] at he ⊢
      by_cases hirr : (s.txs c).amIIrrevocable = true
      · rw [if_pos hirr] at he ⊢
        cases hk : s.forcingAbortOnIrr with
        | none => rw [hk] at he; cases he
        | some e1 =>
          rw [hk] at he
          cases he
          exact ⟨rfl, Or.inr rfl⟩
      · rw [if_neg hirr] at he
        cases he
  · intro hok
    have hnone : (abortT th s).2.currentTransaction th = none := by
      rcases @abortT_cases th s hi with ⟨e, h⟩ | ⟨c, -, h⟩
      · rw [h] at hok; cases hok
      · rw [h.cur_eq]; simp
    exact ⟨hnone, rejected_of_none hnone, config_hook (exec_config th .abortT s)⟩
  · have hnone : (commitT th s).2.currentTransaction th = none := by
      rcases @commitT_cases th s hi with ⟨h1, h2⟩ | ⟨c, -, h, -⟩ | ⟨c, -, h, -⟩
      · rw [h2]; exact h1
      · rw [h.cur_eq]; simp
      · rw [h.cur_eq]; simp
    exact ⟨hnone, rejected_of_none hnone, config_hook (exec_config th .commitT s)⟩

theorem sequencing_errors_witness :
    Reachable wroteFive ∧ wroteFive.currentTransaction 0 = some 0 ∧
    beginT 0 wroteFive = (.error .InvalidUseException, wroteFive) ∧
    (abortT 0 wroteFive).1 = .ok () ∧
    (ro 0 0 (abortT 0 wroteFive).2).1 = .error .InvalidUseException ∧
    (irrT 0 (commitT 0 wroteFive).2).1 = .error .InvalidUseException :=
  have h := @sequencing_errors wroteFive wroteFive_reachable 0
  ⟨wroteFive_reachable, by decide, h.2.1 (by decide),
    by decide,
    congrArg Prod.fst (((h.2.2.2.2.2.1 (by decide)).2.1.2.2.2 0 .InvalidUseException
      (by decide)).1),
    congrArg Prod.fst h.2.2.2.2.2.2.2.1.2.1⟩

/-! ## Buffers are private -/

theorem abortThrow_not_ok {α : Type} (th c : Nat) (e : Exc) (s : State) (a : α) :
    (abortThrow th c e s : Res α).1 ≠ .ok a := by
  unfold abortThrow
  split <;> simp

/-- A commit that succeeds writes no cell: it only repoints variables. -/
theorem commit_ok_heap {th c : Nat} {s : State} (hc : s.currentTransaction th = some c)
    (hh : (s.txs c).hijackedWsetBuffers = ∅) (hok : (commit th c s).1 = .ok ()) :
    (commit th c s).2.heap = s.heap := by
  unfold commit at hok ⊢
  have hd : ∀ s1 : State, s1 = (if (s.txs c).amIIrrevocable = true
      then storeDirtyIrr true (s.txs c).wsetBuffers.keys s
      else storeDirty true (s.txs c).wsetBuffers.keys s) →
      s1.heap = s.heap ∧ s1.currentTransaction = s.currentTransaction ∧ s1.txs = s.txs := by
    intro s1 h
    rw [h]
    split <;> simp
  by_cases c1 : (s.txs c).comitted = true
  · rw [if_pos c1] at hok; cases hok
  · rw [if_neg c1] at hok ⊢
    by_cases c2 : (s.txs c).aborted = true
    · rw [if_pos c2] at hok
      split at hok
      · cases hok
      · exact absurd hok (abortThrow_not_ok _ _ _ _ _)
    · rw [if_neg c2] at hok ⊢
      dsimp only at hok ⊢
      obtain ⟨d1, d2, d3⟩ := hd _ rfl
      have ks := killReaders_step th c (if (s.txs c).amIIrrevocable = true
        then storeDirtyIrr true (s.txs c).wsetBuffers.keys s
        else storeDirty true (s.txs c).wsetBuffers.keys s)
      have k1 := ks.heap.trans d1
      have k2 := ks.cur.trans d2
      have k3 := (ks.touched c).hij
      rw [d3, hh] at k3
      revert k1 k2 k3 hok
      generalize killReaders th c (if (s.txs c).amIIrrevocable = true
        then storeDirtyIrr true (s.txs c).wsetBuffers.keys s
        else storeDirty true (s.txs c).wsetBuffers.keys s) = s2
      intro hok k1 k2 k3
      have hc2 : s2.currentTransaction th = some c := by rw [k2]; exact hc
      by_cases c3 : (s2.txs c).amIIrrevocable = true
      · rw [if_pos c3]
        rw [(commitFinish_spec hc2 k3).1, k1]
      · rw [if_neg c3] at hok ⊢
        by_cases c4 : (s2.txs c).cleanReadsetLock = true
        · rw [if_pos c4] at hok
          exact absurd hok (abortThrow_not_ok _ _ _ _ _)
        · rw [if_neg c4] at hok ⊢
          by_cases c5 : ((s2.modTx c fun t => { t with cleanReadsetLock := true }).txs
              c).commitLock = true
          · rw [if_pos c5] at hok
            exact absurd hok (abortThrow_not_ok _ _ _ _ _)
          · rw [if_neg c5]
            rw [(commitFinish_spec (by simpa using hc2) (by simpa using k3)).1]
            simpa using k1

/-- A call of one thread writes no buffer of the transaction of another thread. -/
theorem exec_other_heap {s : State} (hi : Inv s) (th : Nat) (op : Op) {u y : Nat} {b : Buf}
    (hu : u ≠ th) (hcu : s.currentTransaction u = some y) (hb : (s.txs y).owns b) :
    (exec th op s).2.heap b = s.heap b := by
  have hya := hi.cur_alive u y hcu
  have hold : Old s b := by
    intro n hn
    obtain ⟨m, h1, h2⟩ := hi.buf_lt y b hya hb
    rw [h1] at hn; cases hn; exact h2
  cases op with
  | beginT => exact (quiet_beginT th s).heap b hold
  | abortT =>
    simp only [exec, abortT]
    split
    · rfl
    · exact (quiet_abort _ _ _).heap b hold
  | irrT =>
    simp only [exec, irrT]
    split
    · rfl
    · exact (quiet_irr _ _ _).heap b hold
  | commitT =>
    simp only [exec, commitT]
    split
    · rfl
    · rename_i c hc
      by_cases hok : (commit th c s).1 = .ok ()
      · rw [commit_ok_heap hc (hi.hij_empty c (hi.cur_alive th c hc)) hok]
      · exact (quiet_commit th c s hok).heap b hold
  | ro v => exact (quiet_roFuel 2 th v s).heap b hold
  | rw v => exact (quiet_rwFuel 2 th v s).heap b hold
  | assign v val =>
    have hq : (rw th v s).2.heap b = s.heap b := (quiet_rwFuel 2 th v s).heap b hold
    show (assign th v val s).2.heap b = s.heap b
    rcases assign_state th v val s with h | ⟨b', h1, -, h⟩
    · rw [h]; exact hq
    · rw [h]
      show Function.update (rw th v s).2.heap b' val b = s.heap b
      have hne : b ≠ b' := by
        intro hbb
        subst hbb
        obtain ⟨e1, e2⟩ := exec_other hi th (.rw v) hu hcu
        have e1' : (rw th v s).2.currentTransaction u = some y := e1
        have e2' : Touched (s.txs y) ((rw th v s).2.txs y) := e2
        have hi' : Inv (rw th v s).2 := rw_inv hi
        have hya' : ((rw th v s).2.txs y).alive := by rw [e2'.alive]; exact hya
        have hb' : ((rw th v s).2.txs y).owns b := by
          obtain ⟨w, hw⟩ := hb
          exact ⟨w, by rw [e2'.rset, e2'.wset]; exact hw⟩
        rcases @rw_cases th v s hi with
          ⟨c, b1, g1, g2, g3⟩ | ⟨g1, g2, g3⟩ | ⟨e, -, -, g3⟩ | ⟨c, b1, g1, g2, g3, -⟩ | ⟨c, g1, -⟩
        · rw [g3] at h1; cases h1
          have := hi.buf_disj y c b hya (hi.cur_alive th c g1) hb ⟨v, Or.inr g2⟩
          subst this
          exact hu (hi.cur_inj u th y hcu g1)
        · rw [g3] at h1; cases h1
          exact hi.buf_not_auth y _ v hya hb rfl
        · rw [g3] at h1; cases h1
        · rw [g1] at h1; cases h1
          have hcc : (rw th v s).2.currentTransaction th = some c := by
            rw [g2.cur_eq]; exact g2.cur
          have := hi'.buf_disj y c b hya' (hi'.cur_alive th c hcc) hb' ⟨v, Or.inr g3⟩
          subst this
          exact hu (hi'.cur_inj u th y e1' hcc)
        · rw [g1] at h1; cases h1
      rw [Function.update_noteq hne]
      exact hq

/-! ## C7: a transaction sees its own buffers -/

/-- Calls of other threads keep the transaction of thread `th` installed, leave its sets
alone and write none of its buffers. -/
theorem run_others {th c : Nat} (calls : List (Nat × Op)) {s : State} (hi : Inv s)
    (hc : s.currentTransaction th = some c) (ho : ∀ call ∈ calls, call.1 ≠ th) :
    Inv (run calls s) ∧ (run calls s).currentTransaction th = some c ∧
    Touched (s.txs c) ((run calls s).txs c) ∧
    ∀ b, (s.txs c).owns b → (run calls s).heap b = s.heap b := by
  induction calls generalizing s with
  | nil => exact ⟨hi, hc, Touched.same _, fun _ _ => rfl⟩
  | cons call calls ih =>
    have hne : th ≠ call.1 := fun h => ho call (List.mem_cons_self _ _) h.symm
    obtain ⟨e1, e2⟩ := exec_other hi call.1 call.2 hne hc
    obtain ⟨i1, i2, i3, i4⟩ := ih (exec_inv hi call.1 call.2) e1
      (fun x hx => ho x (List.mem_cons_of_mem _ hx))
    refine ⟨i1, i2, e2.andThen i3, ?_⟩
    intro b hb
    have hb' : ((exec call.1 call.2 s).2.txs c).owns b := by
      obtain ⟨w, hw⟩ := hb
      exact ⟨w, by rw [e2.rset, e2.wset]; exact hw⟩
    show (run calls (exec call.1 call.2 s).2).heap b = s.heap b
    rw [i4 b hb', exec_other_heap hi call.1 call.2 hne hc hb]

/-- An access to a variable of the write set returns the write buffer and changes nothing. -/
theorem wset_hit {th c v : Nat} {s : State} {b : Buf} (hi : Inv s)
    (hc : s.currentTransaction th = some c) (hw : (s.txs c).wsetBuffers.lookup v = some b) :
    ro th v s = (.ok b, s) ∧ rw th v s = (.ok b, s) := by
  have hr : (s.txs c).rsetBuffers.lookup v = none := by
    cases h : (s.txs c).rsetBuffers.lookup v with
    | none => rfl
    | some b1 =>
      exact absurd (mem_iff_lookup.2 ⟨b, hw⟩)
        (hi.sets_disj c v (hi.cur_alive th c hc) (mem_iff_lookup.2 ⟨b1, h⟩))
  exact ⟨roFuel_hit 1 hc (Or.inr ⟨hr, hw⟩), rwFuel_hit 1 hc hw⟩



/-- C7: for the current transaction `c` of thread `th` in a state between calls and a
variable `v`: a first `ro` of `v` that returns hands out a buffer holding the authoritative
value of `v`, and the same buffer is returned by `ro` again; when `v` is in the write set,
`ro` and `rw` return the write buffer, when it is in the read set, `ro` returns the read
buffer, in both cases without changing the state at all; after an assignment through `rw`
both return a buffer holding the assigned value; and after any calls of other threads
(commits included) they still return the same buffer with the same content. In a fresh
program the first `ro` of a transaction yields the value the variable was constructed
with. -/
theorem own_buffer {s : State} {th c : Nat} (hr : Reachable s)
    (hc : s.currentTransaction th = some c) (v : Nat) :
    (v ∉ (s.txs c).rsetBuffers → v ∉ (s.txs c).wsetBuffers →
      ∀ b, (ro th v s).1 = .ok b →
        (ro th v s).2.heap b = s.value v ∧
        ro th v (ro th v s).2 = (.ok b, (ro th v s).2)) ∧
    (∀ b, (s.txs c).wsetBuffers.lookup v = some b →
      ro th v s = (.ok b, s) ∧ rw th v s = (.ok b, s)) ∧
    (∀ b, (s.txs c).rsetBuffers.lookup v = some b → ro th v s = (.ok b, s)) ∧
    (∀ val, (assign th v val s).1 = .ok () →
      ∃ b, (assign th v val s).2.heap b = val ∧
        ro th v (assign th v val s).2 = (.ok b, (assign th v val s).2) ∧
        rw th v (assign th v val s).2 = (.ok b, (assign th v val s).2)) ∧
    (∀ calls : List (Nat × Op), (∀ call ∈ calls, call.1 ≠ th) → ∀ b,
      ((s.txs c).rsetBuffers.lookup v = some b →
        ro th v (run calls s) = (.ok b, run calls s) ∧ (run calls s).heap b = s.heap b) ∧
      ((s.txs c).wsetBuffers.lookup v = some b →
        ro th v (run calls s) = (.ok b, run calls s) ∧
        rw th v (run calls s) = (.ok b, run calls s) ∧ (run calls s).heap b = s.heap b)) ∧
    (∀ (n : Nat) (vals : Nat → Int) (h1 h2 : Option Exc) (u w : Nat),
      ∃ b, (ro u w (beginT u (initState n vals h1 h2)).2).1 = .ok b ∧
        (ro u w (beginT u (initState n vals h1 h2)).2).2.heap b = vals w) := by
  have hi := reachable_inv hr
  have same : ∀ c', s.currentTransaction th = some c' → c' = c := by
    intro c' h; rw [hc] at h; cases h; rfl
  refine ⟨?_, fun b hw => wset_hit hi hc hw, fun b h => roFuel_hit 1 hc (Or.inl h), ?_, ?_, ?_⟩
  · intro hr' hw' b hb
    rcases @ro_cases th v s hi with
      ⟨c', b1, g1, g2, -⟩ | ⟨g, -, -⟩ | ⟨e, g, -, -⟩ | ⟨c', b1, g1, g2, -, -, g5, g6⟩ | ⟨c', g1, -⟩
    · have := same c' g1; subst this
      rcases g2 with g2 | ⟨-, g2⟩
      · exact absurd (mem_iff_lookup.2 ⟨b1, g2⟩) hr'
      · exact absurd (mem_iff_lookup.2 ⟨b1, g2⟩) hw'
    · rw [hc] at g; cases g
    · rw [hc] at g; cases g
    · have := same c' g2.cur; subst this
      rw [g1] at hb; cases hb
      have hc1 : (ro th v s).2.currentTransaction th = some c' := by rw [g2.cur_eq]; exact hc
      exact ⟨g5, roFuel_hit 1 hc1 (Or.inl g6)⟩
    · rw [g1] at hb; cases hb
  · intro val hok
    have key : ∀ (s1 : State) (b : Buf) (h : Buf → Int), Inv s1 →
        s1.currentTransaction th = some c → (s1.txs c).wsetBuffers.lookup v = some b →
        ro th v { s1 with heap := h } = (.ok b, { s1 with heap := h }) ∧
        rw th v { s1 with heap := h } = (.ok b, { s1 with heap := h }) :=
      fun s1 b h i1 c1 w1 => @wset_hit th c v { s1 with heap := h } b (i1.heap h) c1 w1
    rcases @rw_cases th v s hi with
      ⟨c', b, g1, g2, g3⟩ | ⟨g, -, -⟩ | ⟨e, g, -, -⟩ | ⟨c', b, g1, g2, g3, -⟩ | ⟨c', g1, -⟩
    · have := same c' g1; subst this
      have ha : assign th v val s = (.ok (), { s with heap := Function.update s.heap b val }) := by
        simp [assign, g3]
      rw [ha]
      exact ⟨b, by simp, key s b _ hi hc g2⟩
    · rw [hc] at g; cases g
    · rw [hc] at g; cases g
    · have := same c' g2.cur; subst this
      have hc1 : (rw th v s).2.currentTransaction th = some c' := by rw [g2.cur_eq]; exact hc
      have hi1 : Inv (rw th v s).2 := rw_inv hi
      revert g1 g3 hc1 hi1 hok
      unfold assign
      generalize rw th v s = r
      obtain ⟨r1, r2⟩ := r
      intro hok g1 g3 hc1 hi1
      simp only at g1 g3 hc1 hi1
      subst g1
      exact ⟨b, by simp, key r2 b _ hi1 hc1 g3⟩
    · exfalso
      revert g1 hok
      unfold assign
      generalize rw th v s = r
      obtain ⟨r1, r2⟩ := r
      intro hok g1
      simp only at g1
      subst g1
      cases hok
  · intro calls ho b
    obtain ⟨i1, i2, i3, i4⟩ := run_others calls hi hc ho
    constructor
    · intro h
      have h' : ((run calls s).txs c).rsetBuffers.lookup v = some b := by rw [i3.rset]; exact h
      exact ⟨roFuel_hit 1 i2 (Or.inl h'), i4 b ⟨v, Or.inl h⟩⟩
    · intro h
      have h' : ((run calls s).txs c).wsetBuffers.lookup v = some b := by rw [i3.wset]; exact h
      obtain ⟨a1, a2⟩ := wset_hit i1 i2 h'
      exact ⟨a1, a2, i4 b ⟨v, Or.inr h⟩⟩
  · intro n vals h1 h2 u w
    refine ⟨Buf.alloc 0, ?_, ?_⟩
    · simp [ro, roFuel, beginT, initState, setRset, State.modVar, State.newT, State.modTx,
        abortThrow]
    · simp [ro, roFuel, beginT, initState, setRset, State.modVar, State.newT, State.modTx,
        abortThrow]

theorem own_buffer_witness :
    Reachable wroteFive ∧ wroteFive.currentTransaction 0 = some 0 ∧
    (wroteFive.txs 0).wsetBuffers.lookup 0 = some (Buf.alloc 0) ∧
    wroteFive.heap (Buf.alloc 0) = 5 ∧ wroteFive.value 0 = 100 ∧
    (ro 0 0 wroteFive).1 = .ok (Buf.alloc 0) ∧ (rw 0 0 wroteFive).1 = .ok (Buf.alloc 0) ∧
    (ro 0 0 wroteFive).2.heap (Buf.alloc 0) = 5 :=
  have h := (@own_buffer wroteFive 0 0 wroteFive_reachable (by decide) 0).2.1 (Buf.alloc 0)
    (by decide)
  ⟨wroteFive_reachable, by decide, by decide, by decide, by decide,
    congrArg Prod.fst h.1, congrArg Prod.fst h.2,
    (congrArg (fun r => r.2.heap (Buf.alloc 0)) h.1).trans (by decide)⟩

/-! ## Reader registrations -/

@[simp] theorem modVar_readerSlots (s : State) (v : Nat) (g : Variable → Variable)
    (hg : (g (s.vars v)).readers = (s.vars v).readers) :
    (s.modVar v g).readerSlots = s.readerSlots := by
  funext w i
  simp only [State.readerSlots, modVar_vars]
  split
  · subst_vars; rw [hg]
  · rfl

theorem readerSlots_congr {s s' : State} (h : s'.vars = s.vars) :
    s'.readerSlots = s.readerSlots := by
  unfold State.readerSlots
  rw [h]

@[simp] theorem modTx_readerSlots (s : State) (x f) :
    (s.modTx x f).readerSlots = s.readerSlots := rfl

@[simp] theorem newT_readerSlots (s : State) (val) :
    (s.newT val).readerSlots = s.readerSlots := rfl

theorem mapVars_readerSlots (g : Variable → Variable) (hg : ∀ x, (g x).readers = x.readers)
    (vs : List Nat) (s : State) : (mapVars g vs s).readerSlots = s.readerSlots := by
  induction vs generalizing s with
  | nil => rfl
  | cons v vs ih => rw [mapVars_cons, ih, modVar_readerSlots _ _ _ (hg _)]

@[simp] theorem unlockAll_readerSlots (ms) (s : State) :
    (unlockAll ms s).readerSlots = s.readerSlots :=
  mapVars_readerSlots (fun x => { x with lock := false }) (fun _ => rfl) ms s

@[simp] theorem storeUsedByIrr_readerSlots (b vs) (s : State) :
    (storeUsedByIrr b vs s).readerSlots = s.readerSlots :=
  mapVars_readerSlots (fun x => { x with usedByIrr := b }) (fun _ => rfl) vs s

@[simp] theorem storeDirty_readerSlots (b vs) (s : State) :
    (storeDirty b vs s).readerSlots = s.readerSlots :=
  mapVars_readerSlots (fun x => { x with dirty := b }) (fun _ => rfl) vs s

@[simp] theorem storeDirtyIrr_readerSlots (b vs) (s : State) :
    (storeDirtyIrr b vs s).readerSlots = s.readerSlots :=
  mapVars_readerSlots (fun x => { x with dirtyIrr := b }) (fun _ => rfl) vs s

@[simp] theorem irrLock_readerSlots (s : State) (b : Bool) :
    ({ s with irrTransactionLock := b } : State).readerSlots = s.readerSlots := rfl

@[simp] theorem heap_readerSlots (s : State) (h : Buf → Int) :
    ({ s with heap := h } : State).readerSlots = s.readerSlots := rfl

@[simp] theorem resetCurrent_readerSlots (th) (s : State) :
    (resetCurrent th s).readerSlots = s.readerSlots := by
  unfold resetCurrent
  split <;> rfl

@[simp] theorem cleanup_readerSlots (th c) (s : State) :
    (cleanup th c s).readerSlots = s.readerSlots := by
  simp [cleanup]

@[simp] theorem abort_readerSlots (th c) (s : State) :
    (abort th c s).2.readerSlots = s.readerSlots := by
  unfold abort
  split
  · rfl
  · split
    · split
      · rfl
      · dsimp only
        rw [cleanup_readerSlots]
        funext w i
        simp only [State.readerSlots, modTx_vars]
        rw [storeUsedByIrr_vars, storeUsedByIrr_vars]
        split <;> split <;> rfl
    · simp

@[simp] theorem abortThrow_readerSlots {α : Type} (th c e) (s : State) :
    (abortThrow th c e s : Res α).2.readerSlots = s.readerSlots := by
  unfold abortThrow
  split <;> simp

@[simp] theorem killReaders_readerSlots (th c) (s : State) :
    (killReaders th c s).readerSlots = s.readerSlots := by
  have h := killReaders_step th c s
  unfold State.readerSlots
  rw [h.vars]

@[simp] theorem acquireReadset_readerSlots (c) (s : State) :
    (acquireReadset c s).2.readerSlots = s.readerSlots := by
  obtain ⟨-, -, -, -, -, -, a7, -⟩ := acquireReadset_spec c s
  funext w i
  simp only [State.readerSlots, (a7 w).2.1]

@[simp] theorem irr_readerSlots (th c) (s : State) :
    (irr th c s).2.readerSlots = s.readerSlots := by
  unfold irr
  split
  · rfl
  · split
    · simp
    · dsimp only
      split
      · simp
      · split
        · simp only [abortThrow_readerSlots, irrLock_readerSlots, storeUsedByIrr_readerSlots]
          split <;> simp
        · simp only [modTx_readerSlots]
          split <;> simp

@[simp] theorem irrAcquireCopy_readerSlots (c v b) (s : State) :
    (irrAcquireCopy c v b s).readerSlots = s.readerSlots := by
  unfold irrAcquireCopy
  dsimp only
  split <;> simp [setRset, setWset]

@[simp] theorem irrAcquire_readerSlots (c v b) (s : State) :
    (irrAcquire c v b s).2.readerSlots = s.readerSlots := by
  unfold irrAcquire
  dsimp only
  split
  · simp
  · split
    · simp
    · split
      · simp
      · split
        · simp
        · split
          · simp
          · simp [setWset]

@[simp] theorem rwFuel_readerSlots (n th v) (s : State) :
    (rwFuel n th v s).2.readerSlots = s.readerSlots := by
  induction n generalizing s with
  | zero => unfold rwFuel; rfl
  | succ n ih =>
    unfold rwFuel
    split
    · split <;> rfl
    · split
      · rfl
      · split
        · split
          · rw [ih]; simp [setWset, unsetRset]
          · have key : ∀ c, (match irrAcquire c v false s with
                | (.error e, s1) => ((.error e, s1) : Res Buf)
                | (.ok _, s1) => rwFuel n th v s1).2.readerSlots = s.readerSlots := by
              intro c
              have h := irrAcquire_readerSlots c v false s
              revert h
              generalize irrAcquire c v false s = r
              obtain ⟨r1, r2⟩ := r
              intro h
              cases r1 with
              | error e => exact h
              | ok u => exact (ih r2).trans h
            exact key _
        · split
          · simp
          · split
            · simp
            · unfold rwLocked; dsimp only
              split
              · simp
              · split
                · simp only [abortThrow_readerSlots]
                  split <;> simp [unsetRset]
                · simp only [modTx_readerSlots, setWset]
                  split <;> simp [unsetRset]

theorem foldl_readerSlots {β : Type} (f : State → β → State)
    (hf : ∀ s b, (f s b).readerSlots = s.readerSlots)
    (l : List β) (s : State) : (l.foldl f s).readerSlots = s.readerSlots := by
  induction l generalizing s with
  | nil => rfl
  | cons a l ih => rw [List.foldl_cons, ih, hf]

@[simp] theorem publish_readerSlots (c) (s : State) :
    (publish c s).readerSlots = s.readerSlots := by
  unfold publish
  split
  · apply foldl_readerSlots
    intro s1 e
    unfold performWriteAsIrr
    split
    · rw [modVar_readerSlots _ _ _ rfl]; rfl
    · simp
  · apply foldl_readerSlots
    intro s1 e
    simp [performWrite]

@[simp] theorem commitFinish_readerSlots (th c) (s : State) :
    (commitFinish th c s).readerSlots = s.readerSlots := by
  obtain ⟨s6, e0, -, -, -, -, -, -, -, -, e9⟩ := commitFinish_eq th c s
  rw [e0, cleanup_readerSlots, ← publish_readerSlots c s]
  funext w i
  simp only [State.readerSlots]
  rw [(e9 w).2.1]

@[simp] theorem commit_readerSlots (th c) (s : State) :
    (commit th c s).2.readerSlots = s.readerSlots := by
  unfold commit
  dsimp only
  repeat' split
  all_goals first | rfl | simp

theorem beginT_readerSlots (th) (s : State) : (beginT th s).2.readerSlots = s.readerSlots := by
  unfold beginT
  split <;> rfl

@[simp] theorem irrAcquireCopy_cur (c v b) (s : State) :
    (irrAcquireCopy c v b s).currentTransaction = s.currentTransaction := by
  unfold irrAcquireCopy
  dsimp only
  split <;> rfl

theorem irrAcquire_cur (c v b) (s : State) :
    (irrAcquire c v b s).2.currentTransaction = s.currentTransaction := by
  unfold irrAcquire
  dsimp only
  split
  · simp
  · split
    · simp
    · split
      · simp
      · split
        · simp
        · split
          · simp
          · simp [setWset]

/-- A call of `ro` writes at most the slot of the calling thread, with its current
transaction. -/
theorem roFuel_readerSlots (n th v : Nat) (s : State) (w i : Nat) :
    (roFuel n th v s).2.readerSlots w i = s.readerSlots w i ∨
    (i = th ∧ (roFuel n th v s).2.readerSlots w i = s.currentTransaction th) := by
  induction n generalizing s with
  | zero => unfold roFuel; exact Or.inl rfl
  | succ n ih =>
    have same : ∀ s' : State, s'.readerSlots = s.readerSlots →
        s'.readerSlots w i = s.readerSlots w i ∨
          (i = th ∧ s'.readerSlots w i = s.currentTransaction th) :=
      fun s' h => Or.inl (by rw [h])
    have tweak : ∀ (s' : State) (c : Nat), s.currentTransaction th = some c →
        s'.readerSlots = (s.modVar v fun x =>
          { x with readers := Function.update x.readers th (some c) }).readerSlots →
        s'.readerSlots w i = s.readerSlots w i ∨
          (i = th ∧ s'.readerSlots w i = s.currentTransaction th) := by
      intro s' c hc h
      rw [h, hc]
      simp only [State.readerSlots, modVar_vars]
      split
      · subst_vars
        simp only [Function.update_apply]
        split
        · exact Or.inr ⟨by assumption, rfl⟩
        · exact Or.inl rfl
      · exact Or.inl rfl
    unfold roFuel
    split
    · split <;> exact same _ rfl
    · rename_i c hc
      split
      · exact same _ rfl
      · split
        · exact same _ rfl
        · split
          · have h := irrAcquire_readerSlots c v true s
            have h' := irrAcquire_cur c v true s
            revert h h'
            generalize irrAcquire c v true s = r
            obtain ⟨r1, r2⟩ := r
            intro h h'
            cases r1 with
            | error e => exact same _ h
            | ok u =>
              show (roFuel n th v r2).2.readerSlots w i = s.readerSlots w i ∨
                (i = th ∧ (roFuel n th v r2).2.readerSlots w i = s.currentTransaction th)
              have h1 : r2.readerSlots = s.readerSlots := h
              have h2 : r2.currentTransaction = s.currentTransaction := h'
              rw [← h1, ← h2]
              exact ih r2
          · dsimp only
            split
            · exact tweak _ c hc (by simp)
            · split
              · exact tweak _ c hc (by simp)
              · exact tweak _ c hc (by simp [setRset])

/-- A call writes at most the reader slots of the calling thread, with its current
transaction. -/
theorem exec_readerSlots (th : Nat) (op : Op) (s : State) (w i : Nat) :
    (exec th op s).2.readerSlots w i = s.readerSlots w i ∨
    (i = th ∧ (exec th op s).2.readerSlots w i = s.currentTransaction th) := by
  have same : ∀ s' : State, s'.readerSlots = s.readerSlots →
      s'.readerSlots w i = s.readerSlots w i ∨
        (i = th ∧ s'.readerSlots w i = s.currentTransaction th) :=
    fun s' h => Or.inl (by rw [h])
  cases op with
  | beginT => exact same _ (beginT_readerSlots th s)
  | abortT => apply same; simp only [exec, abortT]; split <;> simp
  | irrT => apply same; simp only [exec, irrT]; split <;> simp
  | commitT => apply same; simp only [exec, commitT]; split <;> simp
  | ro v => exact roFuel_readerSlots 2 th v s w i
  | rw v => exact same _ (rwFuel_readerSlots 2 th v s)
  | assign v val =>
    apply same
    show (assign th v val s).2.readerSlots = s.readerSlots
    rcases assign_state th v val s with h | ⟨b, -, -, h⟩
    · rw [h]; exact rwFuel_readerSlots 2 th v s
    · rw [h]; exact rwFuel_readerSlots 2 th v s

/-- While a transaction stays the current one of its thread, its registration as a reader
of a variable stays in the slot of the thread. -/
theorem run_registered {ta a v : Nat} (calls : List (Nat × Op)) {s : State}
    (hact : Active ta a calls s) (hreg : (s.vars v).readers ta = some a) :
    (run calls s).currentTransaction ta = some a ∧
      ((run calls s).vars v).readers ta = some a := by
  induction calls generalizing s with
  | nil => exact ⟨hact, hreg⟩
  | cons call calls ih =>
    obtain ⟨h1, h2⟩ := hact
    apply ih h2
    rcases exec_readerSlots call.1 call.2 s v ta with h | ⟨h3, h4⟩
    · exact h.trans hreg
    · rw [← h3, h1] at h4
      rw [← h3]
      exact h4

/-! ## Readers of a written variable are poisoned -/

/-- A property of the state that kill steps preserve and that the step for one element of
the list establishes holds after the whole loop. -/
theorem foldl_kill_reaches {α : Type} (f : State → α → State)
    (hf : ∀ s a, KillStep s (f s a)) (P : State → Prop)
    (hP : ∀ s s', KillStep s s' → P s → P s') (l : List α) (x : α) (hx : x ∈ l) (s : State)
    (hs : ∀ s', KillStep s s' → P (f s' x)) : P (l.foldl f s) := by
  induction l generalizing s with
  | nil => cases hx
  | cons y l ih =>
    rw [List.foldl_cons]
    rcases List.mem_cons.1 hx with h | h
    · subst h
      exact hP _ _ (foldl_killStep f hf l _) (hs s (KillStep.idle s))
    · exact ih h (f s y) (fun s' h' => hs s' ((hf s y).seq h'))

/-- The loop `killReaders` of a committing transaction takes the `cleanReadsetLock` of every
transaction registered as a reader of a variable of its write set by another thread. -/
theorem killReaders_poisons {th c v i a : Nat} {s : State}
    (hv : v ∈ (s.txs c).wsetBuffers) (hi : i ≠ th) (him : i < s.maxThreadNum)
    (hr : (s.vars v).readers i = some a) (ha : (s.txs a).alive) :
    ((killReaders th c s).txs a).cleanReadsetLock = true := by
  have hP : ∀ s1 s2 : State, KillStep s1 s2 → (s1.txs a).cleanReadsetLock = true →
      (s2.txs a).cleanReadsetLock = true := fun s1 s2 h h1 => (h.touched a).crl h1
  unfold killReaders
  apply foldl_kill_reaches _ (fun st w => Variable.killReaders_kill th w st)
    (fun st => (st.txs a).cleanReadsetLock = true) hP _ v (AList.mem_keys.1 hv)
  intro s1 h1
  unfold Variable.killReaders
  apply foldl_kill_reaches _ (fun st j => killReader_step th v j st)
    (fun st => (st.txs a).cleanReadsetLock = true) hP _ i
    (List.mem_range.2 (by rw [h1.max]; exact him))
  intro s2 h2
  have h12 := h1.seq h2
  refine (killReader_kills hi ?_ ?_).1
  · rw [h12.vars]; exact hr
  · rw [(h12.touched a).alive]; exact ha

/-- The last part of `commit` leaves the other transaction objects alone. -/
theorem commitFinish_others {th c y : Nat} {s : State}
    (hc : s.currentTransaction th = some c) (hh : (s.txs c).hijackedWsetBuffers = ∅)
    (hy : y ≠ c) : (commitFinish th c s).txs y = s.txs y := by
  obtain ⟨p1, -, -, -, -, p6, -⟩ := publish_spec hh
  obtain ⟨s6, e0, e1, -, -, -, -, e6, -⟩ := commitFinish_eq th c s
  have hc6 : s6.currentTransaction th = some c := by rw [e1, p6]; exact hc
  rw [e0, cleanup_txs hc6, if_neg hy, e6 y hy, p1]

/-- A commit that succeeds poisons every reader of a variable it writes. -/
theorem commit_poisons {s : State} {ta tb a b v : Nat} (hi : Inv s)
    (hta : ta < s.maxThreadNum) (hne : ta ≠ tb)
    (hca : s.currentTransaction ta = some a) (hcb : s.currentTransaction tb = some b)
    (hread : (s.vars v).readers ta = some a) (hw : v ∈ (s.txs b).wsetBuffers)
    (hok : (commit tb b s).1 = .ok ()) :
    ((commit tb b s).2.txs a).cleanReadsetLock = true := by
  have haa := hi.cur_alive ta a hca
  have hba := hi.cur_alive tb b hcb
  have hab : a ≠ b := fun h => hne (hi.cur_inj ta tb a hca (by rw [h]; exact hcb))
  have hd : ∀ s1 : State, s1 = (if (s.txs b).amIIrrevocable = true
      then storeDirtyIrr true (s.txs b).wsetBuffers.keys s
      else storeDirty true (s.txs b).wsetBuffers.keys s) →
      s1.readerSlots = s.readerSlots ∧ s1.currentTransaction = s.currentTransaction ∧
      s1.txs = s.txs ∧ s1.maxThreadNum = s.maxThreadNum := by
    intro s1 h
    rw [h]
    split <;> simp
  unfold commit at hok ⊢
  by_cases c1 : (s.txs b).comitted = true
  · rw [if_pos c1] at hok; cases hok
  · rw [if_neg c1] at hok ⊢
    by_cases c2 : (s.txs b).aborted = true
    · rw [if_pos c2] at hok
      split at hok
      · cases hok
      · exact absurd hok (abortThrow_not_ok _ _ _ _ _)
    · rw [if_neg c2] at hok ⊢
      dsimp only at hok ⊢
      obtain ⟨d1, d2, d3, d4⟩ := hd _ rfl
      have ks := killReaders_step tb b (if (s.txs b).amIIrrevocable = true
        then storeDirtyIrr true (s.txs b).wsetBuffers.keys s
        else storeDirty true (s.txs b).wsetBuffers.keys s)
      have kp := @killReaders_poisons tb b v ta a _ (by rw [d3]; exact hw) hne
        (by rw [d4]; exact hta)
        (by have := congrFun (congrFun d1 v) ta; exact this.trans hread)
        (by rw [d3]; exact haa)
      have k2 := ks.cur.trans d2
      have k3 := (ks.touched b).hij
      rw [d3, hi.hij_empty b hba] at k3
      revert kp k2 k3 hok
      generalize killReaders tb b (if (s.txs b).amIIrrevocable = true
        then storeDirtyIrr true (s.txs b).wsetBuffers.keys s
        else storeDirty true (s.txs b).wsetBuffers.keys s) = s2
      intro hok kp k2 k3
      have hc2 : s2.currentTransaction tb = some b := by rw [k2]; exact hcb
      by_cases c3 : (s2.txs b).amIIrrevocable = true
      · rw [if_pos c3]
        show ((commitFinish tb b s2).txs a).cleanReadsetLock = true
        rw [commitFinish_others hc2 k3 hab]
        exact kp
      · rw [if_neg c3] at hok ⊢
        by_cases c4 : (s2.txs b).cleanReadsetLock = true
        · rw [if_pos c4] at hok
          exact absurd hok (abortThrow_not_ok _ _ _ _ _)
        · rw [if_neg c4] at hok ⊢
          by_cases c5 : ((s2.modTx b fun t => { t with cleanReadsetLock := true }).txs
              b).commitLock = true
          · rw [if_pos c5] at hok
            exact absurd hok (abortThrow_not_ok _ _ _ _ _)
          · rw [if_neg c5]
            show ((commitFinish tb b _).txs a).cleanReadsetLock = true
            rw [commitFinish_others (by simpa using hc2) (by simpa using k3) hab]
            simpa [modTx_txs, hab] using kp

/-! ## C8: reader poisoning -/

theorem exec_max (th : Nat) (op : Op) (s : State) :
    (exec th op s).2.maxThreadNum = s.maxThreadNum := by
  have h := exec_config th op s
  simp only [State.config, Prod.mk.injEq] at h
  exact h.1

/-- A run of calls by threads below `maxThreadNum` leads from a reachable state to a
reachable state. -/
theorem Reachable.run {s : State} (hr : Reachable s) (calls : List (Nat × Op))
    (h : ∀ call ∈ calls, call.1 < s.maxThreadNum) : Reachable (run calls s) := by
  induction calls generalizing s with
  | nil => exact hr
  | cons call calls ih =>
    apply ih (Reachable.step s call.1 call.2 hr (h call (List.mem_cons_self _ _)))
    intro x hx
    rw [exec_max]
    exact h x (List.mem_cons_of_mem _ hx)

theorem poised_reachable : Reachable poised :=
  Reachable.run start_reachable _ (by decide)

/-- The first `ro` of a variable by a revocable transaction registers the transaction in
the reader slot of its thread. -/
theorem ro_registers {s : State} {ta a v : Nat} {bf : Buf}
    (hca : s.currentTransaction ta = some a) (hrev : (s.txs a).amIIrrevocable = false)
    (h1 : v ∉ (s.txs a).rsetBuffers) (h2 : v ∉ (s.txs a).wsetBuffers)
    (hb : (ro ta v s).1 = .ok bf) : ((ro ta v s).2.vars v).readers ta = some a := by
  have l1 := AList.lookup_eq_none.2 h1
  have l2 := AList.lookup_eq_none.2 h2
  unfold ro roFuel at hb ⊢
  simp only [hca, l1, l2, hrev, Bool.false_eq_true, if_false] at hb ⊢
  split at hb
  · exact absurd hb (abortThrow_not_ok _ _ _ _ _)
  · rename_i hd
    rw [if_neg hd]
    split at hb
    · exact absurd hb (abortThrow_not_ok _ _ _ _ _)
    · rename_i hab
      rw [if_neg hab]
      simp [setRset]

/-- C8: let `a` be the revocable current transaction of thread `ta` in a state between
calls. Its first `ro` of a variable `v` registers it as a reader of `v`, and it stays
registered as long as it is the current transaction of its thread. While it is registered,
a `commitT` of another thread whose transaction has `v` in its write set and that returns
normally takes the `cleanReadsetLock` of `a` and marks `a` aborted, `a` stays installed,
and the next `commitT` of thread `ta`, directly or after any calls of other threads, throws
`CommitFailedException`, whatever `a` has written. -/
theorem reader_poisoned {s : State} {ta a : Nat} (v : Nat) (hr : Reachable s)
    (hta : ta < s.maxThreadNum) (hca : s.currentTransaction ta = some a)
    (hrev : (s.txs a).amIIrrevocable = false) :
    (v ∉ (s.txs a).rsetBuffers → v ∉ (s.txs a).wsetBuffers → ∀ bf,
      (ro ta v s).1 = .ok bf → ((ro ta v s).2.vars v).readers ta = some a) ∧
    ((s.vars v).readers ta = some a → ∀ calls, Active ta a calls s →
      ((run calls s).vars v).readers ta = some a) ∧
    ((s.vars v).readers ta = some a → ∀ tb b, ta ≠ tb → s.currentTransaction tb = some b →
      v ∈ (s.txs b).wsetBuffers → (commitT tb s).1 = .ok () →
      ((commitT tb s).2.txs a).cleanReadsetLock = true ∧
      ((commitT tb s).2.txs a).aborted = true ∧
      (commitT tb s).2.currentTransaction ta = some a ∧
      (commitT ta (commitT tb s).2).1 = .error .CommitFailedException ∧
      ∀ calls : List (Nat × Op), (∀ call ∈ calls, call.1 ≠ ta) →
        (commitT ta (run calls (commitT tb s).2)).1 = .error .CommitFailedException) := by
  have hi := reachable_inv hr
  have haa := hi.cur_alive ta a hca
  refine ⟨fun h1 h2 bf hb => ro_registers hca hrev h1 h2 hb,
    fun hreg calls hact => (run_registered calls hact hreg).2, ?_⟩
  intro hread tb b hne hcb hw hok
  have hab : a ≠ b := fun h => hne (hi.cur_inj ta tb a hca (by rw [h]; exact hcb))
  have hok' : (commit tb b s).1 = .ok () := by
    unfold commitT at hok; rw [hcb] at hok; exact hok
  have hcrl : ((commitT tb s).2.txs a).cleanReadsetLock = true := by
    have := commit_poisons hi hta hne hca hcb hread hw hok'
    unfold commitT; rw [hcb]; exact this
  obtain ⟨e1, e2⟩ := exec_other hi tb .commitT hne hca
  have e1' : (commitT tb s).2.currentTransaction ta = some a := e1
  have e2' : Touched (s.txs a) ((commitT tb s).2.txs a) := e2
  have hi' : Inv (commitT tb s).2 := exec_inv hi tb .commitT
  have hab' : ((commitT tb s).2.txs a).aborted = true := by
    rcases e2'.crl_ab hcrl with h | h
    · rcases hi.crl_dead a haa h with h1 | h1
      · exact e2'.ab h1
      · rw [hrev] at h1; cases h1
    · exact h
  have fails : ∀ s1 : State, Inv s1 → s1.currentTransaction ta = some a →
      (s1.txs a).aborted = true → (commitT ta s1).1 = .error .CommitFailedException := by
    intro s1 i1 c1 a1
    rcases @commitT_cases ta s1 i1 with ⟨h, -⟩ | ⟨c', -, h2, h3⟩ | ⟨c', h, -⟩
    · rw [c1] at h; cases h
    · have hcc := h2.cur
      rw [c1] at hcc; cases hcc
      rw [a1] at h3; cases h3
    · exact h
  refine ⟨hcrl, hab', e1', fails _ hi' e1' hab', ?_⟩
  intro calls ho
  obtain ⟨i1, i2, i3, -⟩ := run_others calls hi' e1' ho
  exact fails _ i1 i2 (i3.ab hab')

theorem reader_poisoned_witness :
    Reachable poised ∧ poised.currentTransaction 0 = some 0 ∧
    (poised.txs 0).amIIrrevocable = false ∧ (poised.txs 0).wsetBuffers.keys = [] ∧
    (poised.vars 0).readers 0 = some 0 ∧ (commitT 1 poised).1 = .ok () ∧
    ((commitT 1 poised).2.txs 0).aborted = true ∧
    (commitT 0 (commitT 1 poised).2).1 = .error .CommitFailedException :=
  have h := (@reader_poisoned poised 0 0 0 poised_reachable (by decide) (by decide)
    (by decide)).2.2 (by decide) 1 1 (by decide) (by decide) (by decide) (by decide)
  ⟨poised_reachable, by decide, by decide, by decide, by decide, by decide, h.2.1, h.2.2.2.1⟩

/-! ## The irrevocable transaction takes over a written variable -/

/-- A promotion that succeeds leaves the read and the write set as they were, and found the
lock of every variable of the read set free. -/
theorem irrT_ok_sets {th c : Nat} {s : State}
    (hc : s.currentTransaction th = some c) (hirr : (s.txs c).amIIrrevocable = false)
    (hok : (irrT th s).1 = .ok ()) :
    ((irrT th s).2.txs c).rsetBuffers = (s.txs c).rsetBuffers ∧
    ((irrT th s).2.txs c).wsetBuffers = (s.txs c).wsetBuffers ∧
    ∀ k, k ∈ (s.txs c).rsetBuffers → (s.vars k).lock = false := by
  unfold irrT at hok ⊢
  rw [hc] at hok ⊢
  dsimp only at hok ⊢
  unfold irr at hok ⊢
  simp only [hirr, Bool.false_eq_true, if_false] at hok ⊢
  split at hok
  · exact absurd hok (abortThrow_not_ok _ _ _ _ _)
  · rename_i hil
    rw [if_neg hil]
    obtain ⟨-, -, -, -, -, -, -, -, a9⟩ :=
      acquireReadset_spec c { s with irrTransactionLock := true }
    revert a9 hok
    generalize acquireReadset c { s with irrTransactionLock := true } = r
    obtain ⟨r1, r2⟩ := r
    intro hok a9
    simp only at a9
    cases r1 with
    | false =>
      simp only [Bool.not_false, if_true] at hok
      exact absurd hok (abortThrow_not_ok _ _ _ _ _)
    | true =>
      obtain ⟨⟨lh, b1, -⟩, b3, -⟩ := a9 rfl
      simp only [Bool.not_true, Bool.false_eq_true, if_false] at hok ⊢
      split at hok
      · exact absurd hok (abortThrow_not_ok _ _ _ _ _)
      · rename_i hf
        rw [if_neg hf]
        refine ⟨?_, ?_, fun k hk => b3 k (AList.mem_keys.1 hk)⟩
        · simp only [modTx_txs_same]
          split <;> simp [b1]
        · simp only [modTx_txs_same]
          split <;> simp [b1]

/-- The first `rw` of a variable by the irrevocable transaction is `irrAcquire` followed by
a hit in the write set. -/
theorem rw_irr_first {th c v : Nat} {s : State} (hi : Inv s)
    (hc : s.currentTransaction th = some c) (hirr : (s.txs c).amIIrrevocable = true)
    (hr : v ∉ (s.txs c).rsetBuffers) (hw : v ∉ (s.txs c).wsetBuffers) :
    rw th v s = (.ok (Buf.alloc s.nextBuf), (irrAcquire c v false s).2) ∧
    ((irrAcquire c v false s).2.txs c).wsetBuffers.lookup v = some (Buf.alloc s.nextBuf) ∧
    (irrAcquire c v false s).2.heap (Buf.alloc s.nextBuf) = s.value v ∧
    Lives th c s (irrAcquire c v false s).2 := by
  obtain ⟨h1, h2, h3, h4⟩ := @irrAcquire_lives th c v false s hi hc hirr hw (fun _ => hr)
  simp only [Bool.false_eq_true, if_false] at h3
  refine ⟨?_, h3, h4, h2⟩
  have hc1 : (irrAcquire c v false s).2.currentTransaction th = some c := by
    rw [h2.cur_eq]; exact hc
  unfold rw
  rw [rwFuel]
  simp only [hc, AList.lookup_eq_none.2 hw, AList.lookup_eq_none.2 hr, hirr, if_true]
  revert h1 h3 hc1
  generalize irrAcquire c v false s = r
  obtain ⟨r1, r2⟩ := r
  intro h1 h3 hc1
  simp only at h1 h3 hc1
  subst h1
  exact rwFuel_hit 0 hc1 h3

/-- When the irrevocable transaction acquires a variable whose lock is held by a revocable
transaction with the variable in its write set, that transaction ends up with its
`commitLock` taken and marked aborted. -/
theorem irrAcquire_kills {c v a : Nat} {ro : Bool} {s : State} (hi : Inv s)
    (ha : (s.txs a).alive) (hrev : (s.txs a).amIIrrevocable = false) (hac : a ≠ c)
    (hw : v ∈ (s.txs a).wsetBuffers) :
    ((irrAcquire c v ro s).2.txs a).commitLock = true ∧
    ((irrAcquire c v ro s).2.txs a).aborted = true := by
  obtain ⟨h1, h2⟩ := hi.wset_held a v ha hrev hw
  have hl : (s.vars v).lock = true := hi.held_locked a v ha h1
  have hcopy : ∀ s1 : State, (irrAcquireCopy c v ro s1).txs a = s1.txs a := by
    intro s1
    unfold irrAcquireCopy
    dsimp only
    split <;> simp [setRset, setWset, modTx_txs, hac]
  unfold irrAcquire
  dsimp only
  rw [if_neg (by simp [hl])]
  have hlw : (s.modVar v fun x => { x with usedByIrr := true }).lockWeak
      ((s.modVar v fun x => { x with usedByIrr := true }).vars v).mostRecentLockOwner
      = some a := by
    simp [State.lockWeak, h2, ha]
  rw [hlw]
  dsimp only
  cases hcl : (s.txs a).commitLock with
  | false =>
    simp only [modVar_txs, hcl, Bool.not_false, if_true]
    rw [hcopy]
    simp
  | true =>
    have hab : (s.txs a).aborted = true := by
      rcases hi.cl_dead a ha hcl with h | h
      · exact h
      · rw [hrev] at h; cases h
    simp only [modVar_txs, hcl, Bool.not_true, Bool.false_eq_true, if_false, hab,
      Bool.true_or, if_true]
    rw [hcopy]
    exact ⟨by simpa using hcl, by simpa using hab⟩

/-! ## C9: the irrevocable transaction wins -/

/-- The commit of a transaction that is marked aborted fails. -/
theorem commitT_aborted_fails {th c : Nat} {s : State} (hi : Inv s)
    (hc : s.currentTransaction th = some c) (hab : (s.txs c).aborted = true) :
    (commitT th s).1 = .error .CommitFailedException := by
  rcases @commitT_cases th s hi with ⟨h, -⟩ | ⟨c', -, h2, h3⟩ | ⟨c', h, -⟩
  · rw [hc] at h; cases h
  · have hcc := h2.cur
    rw [hc] at hcc; cases hcc
    rw [hab] at h3; cases h3
  · exact h

/-- The commit of the irrevocable transaction succeeds and gives a variable of its write
set the value of the write buffer. -/
theorem commitT_irr_value {th c v : Nat} {bf : Buf} {s : State} (hi : Inv s)
    (hc : s.currentTransaction th = some c) (hirr : (s.txs c).amIIrrevocable = true)
    (hw : (s.txs c).wsetBuffers.lookup v = some bf) :
    (commitT th s).1 = .ok () ∧ (commitT th s).2.value v = s.heap bf := by
  have hca := hi.cur_alive th c hc
  obtain ⟨-, -, k3, -⟩ := hi.irr_locks c hca hirr
  have ks := killReaders_step th c (storeDirtyIrr true (s.txs c).wsetBuffers.keys s)
  have kc := ks.touched c
  have h2 : ((killReaders th c (storeDirtyIrr true (s.txs c).wsetBuffers.keys s)).txs c).amIIrrevocable
      = true := by
    rw [kc.irr]; simpa using hirr
  have hc2 : (killReaders th c (storeDirtyIrr true (s.txs c).wsetBuffers.keys s)).currentTransaction th
      = some c := by rw [ks.cur]; simpa using hc
  have hh2 : ((killReaders th c (storeDirtyIrr true (s.txs c).wsetBuffers.keys s)).txs c).hijackedWsetBuffers
      = ∅ := by rw [kc.hij]; simpa using hi.hij_empty c hca
  have hw2 : ((killReaders th c (storeDirtyIrr true (s.txs c).wsetBuffers.keys s)).txs c).wsetBuffers.lookup v
      = some bf := by rw [kc.wset]; simpa using hw
  have hheap : (killReaders th c (storeDirtyIrr true (s.txs c).wsetBuffers.keys s)).heap = s.heap := by
    rw [ks.heap]; simp
  have hform : commit th c s = (.ok (), commitFinish th c
      (killReaders th c (storeDirtyIrr true (s.txs c).wsetBuffers.keys s))) := by
    unfold commit
    rw [if_neg (by rw [hi.not_comitted c hca]; simp), if_neg (by rw [k3]; simp)]
    simp only [hirr, if_true]
    rw [if_pos h2]
  obtain ⟨f1, f2, -⟩ := commitFinish_spec hc2 hh2
  unfold commitT
  rw [hc]
  dsimp only
  rw [hform]
  refine ⟨rfl, ?_⟩
  show (commitFinish th c _).heap ((commitFinish th c _).vars v).varPtr = s.heap bf
  rw [f1, f2 v, hw2, hheap]
  rfl

/-- The scenario in which the irrevocable transaction takes a variable over: revocable `a`
of thread `ta` has `v` in its write set, thread `tb` promotes its revocable transaction `b`
successfully and calls `rw` on `v`. The call is an `irrAcquire` that gives `b` a new buffer
holding the authoritative value and leaves `a` with its `commitLock` taken and marked
aborted. -/
theorem takeover {s : State} {ta tb a b v : Nat} (hi : Inv s) (hne : ta ≠ tb)
    (hca : s.currentTransaction ta = some a) (hcb : s.currentTransaction tb = some b)
    (hreva : (s.txs a).amIIrrevocable = false) (hrevb : (s.txs b).amIIrrevocable = false)
    (hw : v ∈ (s.txs a).wsetBuffers) (hok : (irrT tb s).1 = .ok ()) :
    rw tb v (irrT tb s).2 =
      (.ok (Buf.alloc (irrT tb s).2.nextBuf), (irrAcquire b v false (irrT tb s).2).2) ∧
    Inv (irrAcquire b v false (irrT tb s).2).2 ∧
    (irrAcquire b v false (irrT tb s).2).2.currentTransaction ta = some a ∧
    (irrAcquire b v false (irrT tb s).2).2.currentTransaction tb = some b ∧
    ((irrAcquire b v false (irrT tb s).2).2.txs b).amIIrrevocable = true ∧
    ((irrAcquire b v false (irrT tb s).2).2.txs b).wsetBuffers.lookup v =
      some (Buf.alloc (irrT tb s).2.nextBuf) ∧
    (irrAcquire b v false (irrT tb s).2).2.heap (Buf.alloc (irrT tb s).2.nextBuf) = s.value v ∧
    Touched (s.txs a) ((irrAcquire b v false (irrT tb s).2).2.txs a) ∧
    ((irrAcquire b v false (irrT tb s).2).2.txs a).commitLock = true ∧
    ((irrAcquire b v false (irrT tb s).2).2.txs a).aborted = true ∧
    s.nextBuf ≤ (irrT tb s).2.nextBuf := by
  have haa := hi.cur_alive ta a hca
  have hba := hi.cur_alive tb b hcb
  have hab : a ≠ b := fun h => hne (hi.cur_inj ta tb a hca (by rw [h]; exact hcb))
  obtain ⟨wa1, -⟩ := hi.wset_held a v haa hreva hw
  have hlock : (s.vars v).lock = true := hi.held_locked a v haa wa1
  -- the promotion
  obtain ⟨p1, p2, p3⟩ := irrT_ok_sets hcb hrevb hok
  have hl1 : Lives tb b s (irrT tb s).2 ∧ ((irrT tb s).2.txs b).amIIrrevocable = true := by
    rcases @irrT_cases tb s hi with ⟨h, -⟩ | ⟨c', h, h2, -⟩ | ⟨c', -, h2, -, h4, -⟩ | ⟨c', h, -⟩
    · rw [hcb] at h; cases h
    · rw [hcb] at h; cases h
      rw [hrevb] at h2; cases h2
    · have hcc := h2.cur
      rw [hcb] at hcc; cases hcc
      exact ⟨h2, h4⟩
    · rw [h] at hok; cases hok
  obtain ⟨l1, irr1⟩ := hl1
  have hi1 : Inv (irrT tb s).2 := exec_inv hi tb .irrT
  obtain ⟨ca1, t1⟩ := exec_other hi tb .irrT hne hca
  have ca1' : (irrT tb s).2.currentTransaction ta = some a := ca1
  have t1' : Touched (s.txs a) ((irrT tb s).2.txs a) := t1
  have cb1 : (irrT tb s).2.currentTransaction tb = some b := by rw [l1.cur_eq]; exact hcb
  have hwb : v ∉ (s.txs b).wsetBuffers := by
    intro h
    exact hab (hi.lock_excl a b v haa hba wa1 (hi.wset_held b v hba hrevb h).1)
  have hrb : v ∉ (s.txs b).rsetBuffers := by
    intro h
    rw [p3 v h] at hlock; cases hlock
  -- the write
  obtain ⟨w1, w2, w3, w4⟩ := @rw_irr_first tb b v (irrT tb s).2 hi1 cb1 irr1
    (by rw [p1]; exact hrb) (by rw [p2]; exact hwb)
  obtain ⟨k1, k2⟩ := @irrAcquire_kills b v a false (irrT tb s).2 hi1
    (by rw [t1'.alive]; exact haa) (by rw [t1'.irr]; exact hreva) hab
    (by rw [t1'.wset]; exact hw)
  have hval : (irrT tb s).2.value v = s.value v :=
    exec_values hi tb .irrT (Or.inl (by rw [hcb]; simp)) (fun h => by cases h.1) v
  exact ⟨w1, w4.keepsInv hi1, by rw [w4.cur_eq]; exact ca1', by rw [w4.cur_eq]; exact cb1,
    w4.c_irr irr1, w2, w3.trans hval, t1'.andThen (w4.others a hab), k1, k2, l1.nextBuf_le⟩

/-- C9: in a state between calls let revocable `a`, the current transaction of thread `ta`,
have `v` in its write set, and let thread `tb` hold the revocable transaction `b`, promote
it successfully with `irrT` and then assign `val` to `v`. The `rw` and the assignment of
`tb` return normally. If `ta` calls `commitT` next, it gets `CommitFailedException`, and the
`commitT` of `tb` after it returns normally and leaves `v` with the value `val`. If `tb`
calls `commitT` first, it returns normally and leaves `v` with the value `val`, and the
`commitT` of `ta` after it gets `CommitFailedException` and `v` keeps the value `val`. -/
theorem irrevocable_wins {s : State} {ta tb a b : Nat} (v : Nat) (val : Int)
    (hr : Reachable s) (hne : ta ≠ tb)
    (hca : s.currentTransaction ta = some a) (hcb : s.currentTransaction tb = some b)
    (hreva : (s.txs a).amIIrrevocable = false) (hrevb : (s.txs b).amIIrrevocable = false)
    (hw : v ∈ (s.txs a).wsetBuffers) (hok : (irrT tb s).1 = .ok ()) :
    (∃ bf, (rw tb v (irrT tb s).2).1 = .ok bf) ∧
    (assign tb v val (irrT tb s).2).1 = .ok () ∧
    (commitT ta (promoteAndWrite tb v val s)).1 = .error .CommitFailedException ∧
    (commitT tb (commitT ta (promoteAndWrite tb v val s)).2).1 = .ok () ∧
    (commitT tb (commitT ta (promoteAndWrite tb v val s)).2).2.value v = val ∧
    (commitT tb (promoteAndWrite tb v val s)).1 = .ok () ∧
    (commitT tb (promoteAndWrite tb v val s)).2.value v = val ∧
    (commitT ta (commitT tb (promoteAndWrite tb v val s)).2).1 =
      .error .CommitFailedException ∧
    (commitT ta (commitT tb (promoteAndWrite tb v val s)).2).2.value v = val := by
  have hi := reachable_inv hr
  obtain ⟨w1, hi1', ca1, cb1, irr1, w2, -, t1, -, hkill, -⟩ :=
    takeover hi hne hca hcb hreva hrevb hw hok
  have hassign : assign tb v val (irrT tb s).2 = (.ok (),
      { (irrAcquire b v false (irrT tb s).2).2 with
        heap := Function.update (irrAcquire b v false (irrT tb s).2).2.heap
          (Buf.alloc (irrT tb s).2.nextBuf) val }) := by
    simp [assign, w1]
  have hs2 : promoteAndWrite tb v val s =
      { (irrAcquire b v false (irrT tb s).2).2 with
        heap := Function.update (irrAcquire b v false (irrT tb s).2).2.heap
          (Buf.alloc (irrT tb s).2.nextBuf) val } := by
    unfold promoteAndWrite; rw [hassign]
  have hi2 : Inv (promoteAndWrite tb v val s) := by rw [hs2]; exact hi1'.heap _
  have ca2 : (promoteAndWrite tb v val s).currentTransaction ta = some a := by
    rw [hs2]; exact ca1
  have cb2 : (promoteAndWrite tb v val s).currentTransaction tb = some b := by
    rw [hs2]; exact cb1
  have irr2 : ((promoteAndWrite tb v val s).txs b).amIIrrevocable = true := by
    rw [hs2]; exact irr1
  have ab2 : ((promoteAndWrite tb v val s).txs a).aborted = true := by
    rw [hs2]; exact hkill
  have ws2 : ((promoteAndWrite tb v val s).txs b).wsetBuffers.lookup v =
      some (Buf.alloc (irrT tb s).2.nextBuf) := by
    rw [hs2]; exact w2
  have hp2 : (promoteAndWrite tb v val s).heap (Buf.alloc (irrT tb s).2.nextBuf) = val := by
    rw [hs2]; simp
  refine ⟨⟨_, by rw [w1]⟩, by rw [hassign], commitT_aborted_fails hi2 ca2 ab2, ?_⟩
  -- `ta` first
  obtain ⟨e1, e2⟩ := exec_other hi2 ta .commitT (Ne.symm hne) cb2
  have e1' : (commitT ta (promoteAndWrite tb v val s)).2.currentTransaction tb = some b := e1
  have e2' : Touched ((promoteAndWrite tb v val s).txs b)
      ((commitT ta (promoteAndWrite tb v val s)).2.txs b) := e2
  have e3 : (commitT ta (promoteAndWrite tb v val s)).2.heap (Buf.alloc (irrT tb s).2.nextBuf)
      = val := by
    have := exec_other_heap hi2 ta .commitT (Ne.symm hne) cb2 ⟨v, Or.inr ws2⟩
    exact this.trans hp2
  obtain ⟨f1, f2⟩ := @commitT_irr_value tb b v (Buf.alloc (irrT tb s).2.nextBuf)
    (commitT ta (promoteAndWrite tb v val s)).2 (exec_inv hi2 ta .commitT) e1'
    (by rw [e2'.irr]; exact irr2) (by rw [e2'.wset]; exact ws2)
  -- `tb` first
  obtain ⟨g1, g2⟩ := @commitT_irr_value tb b v (Buf.alloc (irrT tb s).2.nextBuf)
    (promoteAndWrite tb v val s) hi2 cb2 irr2 ws2
  obtain ⟨q1, q2⟩ := exec_other hi2 tb .commitT hne ca2
  have q1' : (commitT tb (promoteAndWrite tb v val s)).2.currentTransaction ta = some a := q1
  have q2' : Touched ((promoteAndWrite tb v val s).txs a)
      ((commitT tb (promoteAndWrite tb v val s)).2.txs a) := q2
  have hi3 : Inv (commitT tb (promoteAndWrite tb v val s)).2 := exec_inv hi2 tb .commitT
  have hfail := commitT_aborted_fails hi3 q1' (q2'.ab ab2)
  have hval := exec_values hi3 ta .commitT (Or.inl (by rw [q1']; simp))
    (fun h => by
      have h2 : (commitT ta (commitT tb (promoteAndWrite tb v val s)).2).1 = .ok () := h.2
      rw [hfail] at h2; cases h2) v
  exact ⟨f1, f2.trans e3, g1, g2.trans hp2, hfail, hval.trans (g2.trans hp2)⟩

theorem irrevocable_wins_witness :
    Reachable contender ∧ contender.currentTransaction 0 = some 0 ∧
    contender.currentTransaction 1 = some 1 ∧ (contender.vars 0).lock = true ∧
    (irrT 1 contender).1 = .ok () ∧
    (commitT 0 (promoteAndWrite 1 0 9 contender)).1 = .error .CommitFailedException ∧
    (commitT 1 (commitT 0 (promoteAndWrite 1 0 9 contender)).2).2.value 0 = 9 ∧
    (commitT 0 (commitT 1 (promoteAndWrite 1 0 9 contender)).2).2.value 0 = 9 :=
  have h := @irrevocable_wins contender 0 1 0 1 0 9 contender_reachable (by decide)
    (by decide) (by decide) (by decide) (by decide) (by decide) (by decide)
  ⟨contender_reachable, by decide, by decide, by decide, by decide, h.2.2.1, h.2.2.2.2.1,
    h.2.2.2.2.2.2.2.2⟩

/-! ## C10: nothing is hijacked when the owner has not started to commit -/

/-- C10, at a concrete input: thread 0 (revocable) has written variable 0 into the buffer
`Buf.alloc 0` and has not called `commitT`; thread 1 promotes its transaction and calls
`rw` on variable 0. The call returns the new buffer `Buf.alloc 1`, and the hijacked set of
the transaction of thread 1 does not bind variable 0 to the buffer of thread 0: it binds
nothing. -/
theorem hijack_counterexample :
    Reachable contender ∧
    contender.currentTransaction 0 = some 0 ∧ (contender.txs 0).amIIrrevocable = false ∧
    (contender.txs 0).wsetBuffers.lookup 0 = some (Buf.alloc 0) ∧
    (contender.txs 0).comitted = false ∧ (contender.txs 0).commitLock = false ∧
    contender.currentTransaction 1 = some 1 ∧ (irrT 1 contender).1 = .ok () ∧
    (rw 1 0 (irrT 1 contender).2).1 = .ok (Buf.alloc 1) ∧
    ¬ ((rw 1 0 (irrT 1 contender).2).2.txs 1).hijackedWsetBuffers.lookup 0
        = some (Buf.alloc 0) ∧
    ((rw 1 0 (irrT 1 contender).2).2.txs 1).hijackedWsetBuffers.lookup 0 = none :=
  ⟨contender_reachable, by decide, by decide, by decide, by decide, by decide, by decide,
    by decide, by decide, by decide, by decide⟩

/-- C10, amended: in a state between calls let revocable `a`, the current transaction of
thread `ta`, have `v` in its write set, and let thread `tb` promote its revocable
transaction `b` successfully with `irrT` and then call `rw` on `v`. The call returns
normally and hijacks nothing: the hijacked set of `b` is empty, the write set of `b` binds
`v` to the returned buffer, which is not the write buffer of `a` and holds the
authoritative value of `v`; the write set of `a` is as it was, and `a` has its `commitLock`
taken and is marked aborted. -/
theorem no_hijack {s : State} {ta tb a b : Nat} (v : Nat)
    (hr : Reachable s) (hne : ta ≠ tb)
    (hca : s.currentTransaction ta = some a) (hcb : s.currentTransaction tb = some b)
    (hreva : (s.txs a).amIIrrevocable = false) (hrevb : (s.txs b).amIIrrevocable = false)
    (hw : v ∈ (s.txs a).wsetBuffers) (hok : (irrT tb s).1 = .ok ()) :
    ∃ bf, (rw tb v (irrT tb s).2).1 = .ok bf ∧
      ((rw tb v (irrT tb s).2).2.txs b).hijackedWsetBuffers = ∅ ∧
      ((rw tb v (irrT tb s).2).2.txs b).wsetBuffers.lookup v = some bf ∧
      (rw tb v (irrT tb s).2).2.heap bf = s.value v ∧
      (s.txs a).wsetBuffers.lookup v ≠ some bf ∧
      ((rw tb v (irrT tb s).2).2.txs a).wsetBuffers = (s.txs a).wsetBuffers ∧
      ((rw tb v (irrT tb s).2).2.txs a).commitLock = true ∧
      ((rw tb v (irrT tb s).2).2.txs a).aborted = true := by
  have hi := reachable_inv hr
  obtain ⟨w1, hi1, -, cb1, -, w2, w3, t1, k1, k2, hnb⟩ :=
    takeover hi hne hca hcb hreva hrevb hw hok
  rw [w1]
  refine ⟨_, rfl, hi1.hij_empty b (hi1.cur_alive tb b cb1), w2, w3, ?_, t1.wset, k1, k2⟩
  intro h
  obtain ⟨n, h1, h2⟩ := hi.buf_lt a _ (hi.cur_alive ta a hca) ⟨v, Or.inr h⟩
  cases h1
  exact absurd (lt_of_lt_of_le h2 hnb) (lt_irrefl _)

theorem no_hijack_witness :
    Reachable contender ∧ contender.currentTransaction 0 = some 0 ∧
    contender.currentTransaction 1 = some 1 ∧ (irrT 1 contender).1 = .ok () ∧
    ∃ bf, (rw 1 0 (irrT 1 contender).2).1 = .ok bf ∧
      ((rw 1 0 (irrT 1 contender).2).2.txs 1).hijackedWsetBuffers = ∅ ∧
      ((rw 1 0 (irrT 1 contender).2).2.txs 0).aborted = true :=
  have h := @no_hijack contender 0 1 0 1 0 contender_reachable (by decide)
    (by decide) (by decide) (by decide) (by decide) (by decide) (by decide)
  ⟨contender_reachable, by decide, by decide, by decide,
    h.elim fun bf hb => ⟨bf, hb.1, hb.2.1, hb.2.2.2.2.2.2.2⟩⟩

/-! ## Flags and locks have owners: the invariant Tidy -/

/-- A transaction object that another call has only touched keeps the fate clause. -/
theorem Touched.fate {t t' : Transaction} (h : Touched t t')
    (hf : t.comitted → t.cleanReadsetLock ∧ t.commitLock ∧ t.aborted = false) :
    t'.comitted → t'.cleanReadsetLock ∧ t'.commitLock ∧ t'.aborted = false := by
  intro hc
  rw [h.comitted] at hc
  obtain ⟨a, b, c⟩ := hf hc
  refine ⟨h.crl a, h.cl b, ?_⟩
  cases hab : t'.aborted
  · rfl
  · rcases h.kill hab with h1 | h1 | h1
    · rw [c] at h1; cases h1
    · rw [a] at h1; cases h1
    · rw [b] at h1; cases h1

/-- The clauses of `Tidy` after a call whose transaction goes on. -/
theorem Lives.keepsTidy {th c : Nat} {s s' : State} (hi : Inv s) (ht : Tidy s)
    (h : Lives th c s s') (he : Extra c s s') (hcl : Clean s') : Tidy s' := by
  have hca : (s.txs c).alive := hi.cur_alive th c h.cur
  have hca' : (s'.txs c).alive := by rw [h.c_alive]; exact hca
  have alive_back : ∀ x, (s'.txs x).alive → (s.txs x).alive := by
    intro x hx
    by_cases hxc : x = c
    · subst hxc; exact hca
    · rw [(h.others x hxc).alive] at hx; exact hx
  have alive_fwd : ∀ x, (s.txs x).alive → (s'.txs x).alive := by
    intro x hx
    by_cases hxc : x = c
    · subst hxc; exact hca'
    · rw [(h.others x hxc).alive]; exact hx
  have irr_fwd : ∀ x, (s.txs x).amIIrrevocable → (s'.txs x).amIIrrevocable := by
    intro x hx
    by_cases hxc : x = c
    · subst hxc; exact h.c_irr hx
    · rw [(h.others x hxc).irr]; exact hx
  have sets_fwd : ∀ x v, v ∈ (s.txs x).rsetBuffers ∨ v ∈ (s.txs x).wsetBuffers →
      v ∈ (s'.txs x).rsetBuffers ∨ v ∈ (s'.txs x).wsetBuffers := by
    intro x v hv
    by_cases hxc : x = c
    · subst hxc; exact he.sets_mono hca' v hv
    · rw [(h.others x hxc).rset, (h.others x hxc).wset]; exact hv
  constructor
  · intro x hx
    obtain ⟨t, ht1⟩ := ht.owner x (alive_back x hx)
    exact ⟨t, by rw [h.cur_eq]; exact ht1⟩
  · intro v hv
    rcases h.lock v with h1 | ⟨-, h2, -⟩
    · rw [h1] at hv
      obtain ⟨x, x1, x2⟩ := ht.lock_owner v hv
      refine ⟨x, alive_fwd x x1, ?_⟩
      by_cases hxc : x = c
      · subst hxc; exact h.c_locks v x2
      · rw [(h.others x hxc).locks]; exact x2
    · exact ⟨c, hca', h2⟩
  · intro v hv
    rcases he.used_le v hv with h1 | ⟨h1, h2, h3⟩
    · obtain ⟨x, x1, x2, x3⟩ := ht.used_owner v h1
      exact ⟨x, alive_fwd x x1, irr_fwd x x2, sets_fwd x v x3⟩
    · exact ⟨c, h1, h2, h3⟩
  · intro hf
    rcases he.flag_le hf with h1 | ⟨h1, h2⟩
    · obtain ⟨x, x1, x2⟩ := ht.flag_owner h1
      exact ⟨x, alive_fwd x x1, irr_fwd x x2⟩
    · exact ⟨c, h1, h2⟩
  · intro x v hx hv
    by_cases hxc : x = c
    · subst hxc
      rcases he.held hx v hv with h1 | h1 | h1
      · rcases ht.held_sets x v hca h1 with h2 | ⟨h2, h3⟩
        · exact Or.inl (h.c_wset_mono v h2)
        · rcases he.sets_mono hx v (Or.inl h3) with h4 | h4
          · exact Or.inr ⟨h.c_irr h2, h4⟩
          · exact Or.inl h4
      · exact Or.inl h1
      · exact Or.inr h1
    · have ho := h.others x hxc
      rw [ho.alive] at hx
      rw [ho.locks] at hv
      rw [ho.wset, ho.rset, ho.irr]
      exact ht.held_sets x v hx hv
  · exact hcl
  · intro x
    by_cases hxc : x = c
    · subst hxc
      intro hcom
      rw [h.c_comitted, hi.not_comitted x hca] at hcom
      cases hcom
    · exact (h.others x hxc).fate (ht.fate x)

/-- The clauses of `Tidy` after a call that ends its transaction. -/
theorem Dies.restoresTidy {th c : Nat} {s s' : State} (hi : Inv s) (ht : Tidy s)
    (h : Dies th c s s') (he : Extra c s s') (hcl : Clean s') : Tidy s' := by
  have hca : (s.txs c).alive := hi.cur_alive th c h.cur
  have ne_c : ∀ x, (s'.txs x).alive → x ≠ c := by
    intro x hx hxc
    subst hxc
    rw [h.dead] at hx; cases hx
  have keep : ∀ x, (s.txs x).alive → x ≠ c → (s'.txs x).alive := by
    intro x hx hxc
    rw [(h.others x hxc).alive]; exact hx
  have gone_used : ∀ v, (s'.vars v).usedByIrr → (s.vars v).usedByIrr := by
    intro v hv
    rcases he.used_le v hv with h1 | ⟨h1, -⟩
    · exact h1
    · rw [h.dead] at h1; cases h1
  constructor
  · intro x hx
    have hxc := ne_c x hx
    rw [(h.others x hxc).alive] at hx
    obtain ⟨t, ht1⟩ := ht.owner x hx
    refine ⟨t, ?_⟩
    rw [h.cur_eq, Function.update_noteq]
    · exact ht1
    · intro hth
      subst hth
      rw [h.cur] at ht1
      cases ht1
      exact hxc rfl
  · intro v hv
    have hnot : v ∉ (s.txs c).locksHeld := by
      intro hm
      rw [he.unlocked h.dead v hm] at hv; cases hv
    rcases h.lock v with h1 | h1
    · rw [h1] at hv
      obtain ⟨x, x1, x2⟩ := ht.lock_owner v hv
      have hxc : x ≠ c := fun hh => hnot (by rw [← hh]; exact x2)
      exact ⟨x, keep x x1 hxc, by rw [(h.others x hxc).locks]; exact x2⟩
    · exact absurd h1 hnot
  · intro v hv
    obtain ⟨x, x1, x2, x3⟩ := ht.used_owner v (gone_used v hv)
    have hxc : x ≠ c := by
      intro hh
      subst hh
      rw [he.used_gone h.dead x2 v x3] at hv; cases hv
    have ho := h.others x hxc
    exact ⟨x, keep x x1 hxc, by rw [ho.irr]; exact x2, by rw [ho.rset, ho.wset]; exact x3⟩
  · intro hf
    rcases he.flag_le hf with h1 | ⟨h1, -⟩
    · obtain ⟨x, x1, x2⟩ := ht.flag_owner h1
      have hxc : x ≠ c := by
        intro hh
        subst hh
        rw [he.flag_gone h.dead x2] at hf; cases hf
      exact ⟨x, keep x x1 hxc, by rw [(h.others x hxc).irr]; exact x2⟩
    · rw [h.dead] at h1; cases h1
  · intro x v hx hv
    have hxc := ne_c x hx
    have ho := h.others x hxc
    rw [ho.alive] at hx
    rw [ho.locks] at hv
    rw [ho.wset, ho.rset, ho.irr]
    exact ht.held_sets x v hx hv
  · exact hcl
  · intro x
    by_cases hxc : x = c
    · subst hxc; exact he.fate h.dead
    · exact (h.others x hxc).fate (ht.fate x)

/-! ## The dirty flags -/

@[simp] theorem modVar_dirtySlots (s : State) (v : Nat) (g : Variable → Variable)
    (hg1 : (g (s.vars v)).dirty = (s.vars v).dirty)
    (hg2 : (g (s.vars v)).dirtyIrr = (s.vars v).dirtyIrr) :
    (s.modVar v g).dirtySlots = s.dirtySlots := by
  funext w
  simp only [State.dirtySlots, modVar_vars]
  split
  · subst_vars; rw [hg1, hg2]
  · rfl

theorem dirtySlots_congr {s s' : State} (h : s'.vars = s.vars) :
    s'.dirtySlots = s.dirtySlots := by
  unfold State.dirtySlots
  rw [h]

@[simp] theorem modTx_dirtySlots (s : State) (x f) :
    (s.modTx x f).dirtySlots = s.dirtySlots := rfl

@[simp] theorem newT_dirtySlots (s : State) (val) :
    (s.newT val).dirtySlots = s.dirtySlots := rfl

theorem mapVars_dirtySlots (g : Variable → Variable) (hg1 : ∀ x, (g x).dirty = x.dirty)
    (hg2 : ∀ x, (g x).dirtyIrr = x.dirtyIrr)
    (vs : List Nat) (s : State) : (mapVars g vs s).dirtySlots = s.dirtySlots := by
  induction vs generalizing s with
  | nil => rfl
  | cons v vs ih => rw [mapVars_cons, ih, modVar_dirtySlots _ _ _ (hg1 _) (hg2 _)]

@[simp] theorem unlockAll_dirtySlots (ms) (s : State) :
    (unlockAll ms s).dirtySlots = s.dirtySlots :=
  mapVars_dirtySlots (fun x => { x with lock := false }) (fun _ => rfl) (fun _ => rfl) ms s

@[simp] theorem storeUsedByIrr_dirtySlots (b vs) (s : State) :
    (storeUsedByIrr b vs s).dirtySlots = s.dirtySlots :=
  mapVars_dirtySlots (fun x => { x with usedByIrr := b }) (fun _ => rfl) (fun _ => rfl) vs s

@[simp] theorem irrLock_dirtySlots (s : State) (b : Bool) :
    ({ s with irrTransactionLock := b } : State).dirtySlots = s.dirtySlots := rfl

@[simp] theorem heap_dirtySlots (s : State) (h : Buf → Int) :
    ({ s with heap := h } : State).dirtySlots = s.dirtySlots := rfl

@[simp] theorem resetCurrent_dirtySlots (th) (s : State) :
    (resetCurrent th s).dirtySlots = s.dirtySlots := by
  unfold resetCurrent
  split <;> rfl

@[simp] theorem cleanup_dirtySlots (th c) (s : State) :
    (cleanup th c s).dirtySlots = s.dirtySlots := by
  simp [cleanup]

@[simp] theorem abort_dirtySlots (th c) (s : State) :
    (abort th c s).2.dirtySlots = s.dirtySlots := by
  unfold abort
  split
  · rfl
  · split
    · split
      · rfl
      · dsimp only
        rw [cleanup_dirtySlots]
        funext w
        simp only [State.dirtySlots, modTx_vars]
        rw [storeUsedByIrr_vars, storeUsedByIrr_vars]
        split <;> split <;> rfl
    · simp

@[simp] theorem abortThrow_dirtySlots {α : Type} (th c e) (s : State) :
    (abortThrow th c e s : Res α).2.dirtySlots = s.dirtySlots := by
  unfold abortThrow
  split <;> simp

@[simp] theorem killReaders_dirtySlots (th c) (s : State) :
    (killReaders th c s).dirtySlots = s.dirtySlots := by
  have h := killReaders_step th c s
  unfold State.dirtySlots
  rw [h.vars]

theorem acquireRead_dirtySlots (v : Nat) (s : State) :
    (acquireRead v s).2.dirtySlots = s.dirtySlots := by
  unfold acquireRead
  dsimp only
  split <;> simp

theorem acquireReadsetLoop_dirtySlots (rest acquired used : List Nat) (s : State) :
    (acquireReadsetLoop rest acquired used s).2.dirtySlots = s.dirtySlots := by
  induction rest generalizing acquired used s with
  | nil => rfl
  | cons var rest ih =>
    rw [acquireReadsetLoop]
    split
    · rw [ih, acquireRead_dirtySlots]
    · simp [acquireRead_dirtySlots]

@[simp] theorem acquireReadset_dirtySlots (c) (s : State) :
    (acquireReadset c s).2.dirtySlots = s.dirtySlots := by
  have a := acquireReadsetLoop_dirtySlots (s.txs c).rsetBuffers.keys [] [] s
  unfold acquireReadset
  revert a
  generalize acquireReadsetLoop (s.txs c).rsetBuffers.keys [] [] s = r
  obtain ⟨r1, r2⟩ := r
  intro a
  have a' : r2.dirtySlots = s.dirtySlots := a
  cases r1 <;> simpa using a'

@[simp] theorem irr_dirtySlots (th c) (s : State) :
    (irr th c s).2.dirtySlots = s.dirtySlots := by
  unfold irr
  split
  · rfl
  · split
    · simp
    · dsimp only
      split
      · simp
      · split
        · simp only [abortThrow_dirtySlots, irrLock_dirtySlots, storeUsedByIrr_dirtySlots]
          split <;> simp
        · simp only [modTx_dirtySlots]
          split <;> simp

@[simp] theorem irrAcquireCopy_dirtySlots (c v b) (s : State) :
    (irrAcquireCopy c v b s).dirtySlots = s.dirtySlots := by
  unfold irrAcquireCopy
  dsimp only
  split <;> simp [setRset, setWset]

@[simp] theorem irrAcquire_dirtySlots (c v b) (s : State) :
    (irrAcquire c v b s).2.dirtySlots = s.dirtySlots := by
  unfold irrAcquire
  dsimp only
  split
  · simp
  · split
    · simp
    · split
      · simp
      · split
        · simp
        · split
          · simp
          · simp [setWset]

@[simp] theorem rwFuel_dirtySlots (n th v) (s : State) :
    (rwFuel n th v s).2.dirtySlots = s.dirtySlots := by
  induction n generalizing s with
  | zero => unfold rwFuel; rfl
  | succ n ih =>
    unfold rwFuel
    split
    · split <;> rfl
    · split
      · rfl
      · split
        · split
          · rw [ih]; simp [setWset, unsetRset]
          · have key : ∀ c, (match irrAcquire c v false s with
                | (.error e, s1) => ((.error e, s1) : Res Buf)
                | (.ok _, s1) => rwFuel n th v s1).2.dirtySlots = s.dirtySlots := by
              intro c
              have h := irrAcquire_dirtySlots c v false s
              revert h
              generalize irrAcquire c v false s = r
              obtain ⟨r1, r2⟩ := r
              intro h
              cases r1 with
              | error e => exact h
              | ok u => exact (ih r2).trans h
            exact key _
        · split
          · simp
          · split
            · simp
            · unfold rwLocked; dsimp only
              split
              · simp
              · split
                · simp only [abortThrow_dirtySlots]
                  split <;> simp [unsetRset]
                · simp only [modTx_dirtySlots, setWset]
                  split <;> simp [unsetRset]


@[simp] theorem roFuel_dirtySlots (n th v) (s : State) :
    (roFuel n th v s).2.dirtySlots = s.dirtySlots := by
  induction n generalizing s with
  | zero => unfold roFuel; rfl
  | succ n ih =>
    unfold roFuel
    split
    · split <;> rfl
    · split
      · rfl
      · split
        · rfl
        · split
          · have key : ∀ c, (match irrAcquire c v true s with
                | (.error e, s1) => ((.error e, s1) : Res Buf)
                | (.ok _, s1) => roFuel n th v s1).2.dirtySlots = s.dirtySlots := by
              intro c
              have h := irrAcquire_dirtySlots c v true s
              revert h
              generalize irrAcquire c v true s = r
              obtain ⟨r1, r2⟩ := r
              intro h
              cases r1 with
              | error e => exact h
              | ok u => exact (ih r2).trans h
            exact key _
          · dsimp only
            split
            · simp
            · split
              · simp
              · simp [setRset]

theorem beginT_dirtySlots (th) (s : State) : (beginT th s).2.dirtySlots = s.dirtySlots := by
  unfold beginT
  split <;> rfl

theorem clean_of_dirtySlots {s s' : State} (h : s'.dirtySlots = s.dirtySlots) (hc : Clean s) :
    Clean s' := by
  intro v
  have := congrFun h v
  simp only [State.dirtySlots, Prod.mk.injEq] at this
  rw [this.1, this.2]
  exact hc v


theorem commitFinish_dirtySlots (th c) (s : State) :
    (commitFinish th c s).dirtySlots = (publish c s).dirtySlots := by
  unfold commitFinish
  dsimp only
  rw [cleanup_dirtySlots]
  generalize publish c s = p
  by_cases hirr : (p.txs c).amIIrrevocable = true
  · rw [if_pos hirr, if_pos (by simpa using hirr)]
    exact (irrLock_dirtySlots _ false).trans (by simp)
  · rw [if_neg hirr, if_neg (by simpa using hirr)]
    simp

theorem publish_clean {c : Nat} {s : State} (hh : (s.txs c).hijackedWsetBuffers = ∅)
    (h : ∀ v, v ∉ (s.txs c).wsetBuffers → (s.vars v).dirty = false ∧ (s.vars v).dirtyIrr = false)
    (h2 : ∀ v, ((s.txs c).amIIrrevocable = true → (s.vars v).dirty = false) ∧
      ((s.txs c).amIIrrevocable = false → (s.vars v).dirtyIrr = false)) :
    Clean (publish c s) := by
  intro v
  unfold publish
  by_cases hirr : (s.txs c).amIIrrevocable = true
  · rw [if_pos hirr]
    have := (foldl_performWriteAsIrr c (s.txs c).wsetBuffers.entries
      (s.txs c).wsetBuffers.nodupKeys s hh).2.2.2.2.2.2.2.2.2 v
    dsimp only at this
    rw [this]
    cases hl : List.dlookup v (s.txs c).wsetBuffers.entries with
    | some b => exact ⟨(h2 v).1 hirr, rfl⟩
    | none =>
      exact h v (by
        rw [← AList.lookup_eq_none]; exact hl)
  · rw [if_neg hirr]
    have hirr' : (s.txs c).amIIrrevocable = false := by simpa using hirr
    have := (foldl_performWrite (s.txs c).wsetBuffers.entries
      (s.txs c).wsetBuffers.nodupKeys s).2.2.2.2.2.2.2.2.2 v
    dsimp only at this
    rw [this]
    cases hl : List.dlookup v (s.txs c).wsetBuffers.entries with
    | some b => exact ⟨rfl, (h2 v).2 hirr'⟩
    | none =>
      exact h v (by
        rw [← AList.lookup_eq_none]; exact hl)


/-- A call of `commit` leaves no `dirty` flag raised. -/
theorem commit_clean {th c : Nat} {s : State} (hi : Inv s)
    (hc : s.currentTransaction th = some c) (hcl : Clean s) : Clean (commit th c s).2 := by
  have hca := hi.cur_alive th c hc
  have hd : ∀ s1 : State, s1 = (if (s.txs c).amIIrrevocable = true
      then storeDirtyIrr true (s.txs c).wsetBuffers.keys s
      else storeDirty true (s.txs c).wsetBuffers.keys s) →
      s1.txs = s.txs ∧
      (∀ w, w ∉ (s.txs c).wsetBuffers →
        (s1.vars w).dirty = false ∧ (s1.vars w).dirtyIrr = false) ∧
      (∀ w, ((s.txs c).amIIrrevocable = true → (s1.vars w).dirty = false) ∧
        ((s.txs c).amIIrrevocable = false → (s1.vars w).dirtyIrr = false)) := by
    intro s1 h
    rw [h]
    split
    · rename_i hirr
      refine ⟨by simp, ?_, ?_⟩
      · intro w hw
        rw [storeDirtyIrr_vars, if_neg (fun h => hw (AList.mem_keys.2 h))]
        exact hcl w
      · intro w
        rw [storeDirtyIrr_vars]
        refine ⟨fun _ => ?_, fun h => by rw [hirr] at h; cases h⟩
        split
        · exact (hcl w).1
        · exact (hcl w).1
    · rename_i hirr
      refine ⟨by simp, ?_, ?_⟩
      · intro w hw
        rw [storeDirty_vars, if_neg (fun h => hw (AList.mem_keys.2 h))]
        exact hcl w
      · intro w
        rw [storeDirty_vars]
        refine ⟨fun h => absurd h hirr, fun _ => ?_⟩
        split
        · exact (hcl w).2
        · exact (hcl w).2
  have fin : ∀ X : State, X.currentTransaction th = some c →
      (X.txs c).hijackedWsetBuffers = ∅ → (X.txs c).wsetBuffers = (s.txs c).wsetBuffers →
      (X.txs c).amIIrrevocable = (s.txs c).amIIrrevocable →
      (∀ w, w ∉ (s.txs c).wsetBuffers →
        (X.vars w).dirty = false ∧ (X.vars w).dirtyIrr = false) →
      (∀ w, ((s.txs c).amIIrrevocable = true → (X.vars w).dirty = false) ∧
        ((s.txs c).amIIrrevocable = false → (X.vars w).dirtyIrr = false)) →
      Clean (commitFinish th c X) := by
    intro X _ x2 x3 x4 x5 x6
    apply clean_of_dirtySlots (s := publish c X) (commitFinish_dirtySlots th c X)
    apply publish_clean x2
    · rw [x3]; exact x5
    · rw [x4]; exact x6
  have rollback : ∀ X : State, (X.txs c).wsetBuffers = (s.txs c).wsetBuffers →
      (s.txs c).amIIrrevocable = false →
      (∀ w, w ∉ (s.txs c).wsetBuffers →
        (X.vars w).dirty = false ∧ (X.vars w).dirtyIrr = false) →
      (∀ w, ((s.txs c).amIIrrevocable = true → (X.vars w).dirty = false) ∧
        ((s.txs c).amIIrrevocable = false → (X.vars w).dirtyIrr = false)) →
      Clean (storeDirty false (X.txs c).wsetBuffers.keys X) := by
    intro X x3 hrev x5 x6 w
    rw [storeDirty_vars, x3]
    split
    · exact ⟨rfl, (x6 w).2 hrev⟩
    · rename_i hw
      exact x5 w (fun h => hw (AList.mem_keys.1 h))
  unfold commit
  by_cases c1 : (s.txs c).comitted = true
  · rw [if_pos c1]; exact hcl
  · rw [if_neg c1]
    by_cases c2 : (s.txs c).aborted = true
    · rw [if_pos c2]
      split
      · exact hcl
      · exact clean_of_dirtySlots (abortThrow_dirtySlots _ _ _ _) hcl
    · rw [if_neg c2]
      dsimp only
      obtain ⟨d1, d2, d3⟩ := hd _ rfl
      have ks := killReaders_step th c (if (s.txs c).amIIrrevocable = true
        then storeDirtyIrr true (s.txs c).wsetBuffers.keys s
        else storeDirty true (s.txs c).wsetBuffers.keys s)
      have kc := ks.touched c
      rw [d1] at kc
      have k1 : (killReaders th c (if (s.txs c).amIIrrevocable = true
        then storeDirtyIrr true (s.txs c).wsetBuffers.keys s
        else storeDirty true (s.txs c).wsetBuffers.keys s)).currentTransaction th = some c := by
        rw [ks.cur]; split <;> simpa using hc
      rw [← ks.vars] at d2 d3
      have k3 := kc.hij.trans (hi.hij_empty c hca)
      have k4 := kc.wset
      have k5 := kc.irr
      revert k1 k3 k4 k5 d2 d3
      generalize killReaders th c (if (s.txs c).amIIrrevocable = true
        then storeDirtyIrr true (s.txs c).wsetBuffers.keys s
        else storeDirty true (s.txs c).wsetBuffers.keys s) = s2
      intro d2 d3 k1 k3 k4 k5
      by_cases c3 : (s2.txs c).amIIrrevocable = true
      · rw [if_pos c3]
        exact fin s2 k1 k3 k4 k5 d2 d3
      · rw [if_neg c3]
        have hrev : (s.txs c).amIIrrevocable = false := by
          rw [← k5]; simpa using c3
        by_cases c4 : (s2.txs c).cleanReadsetLock = true
        · rw [if_pos c4]
          exact clean_of_dirtySlots (abortThrow_dirtySlots _ _ _ _) (rollback s2 k4 hrev d2 d3)
        · rw [if_neg c4]
          by_cases c5 : ((s2.modTx c fun t => { t with cleanReadsetLock := true }).txs
              c).commitLock = true
          · rw [if_pos c5]
            exact clean_of_dirtySlots (abortThrow_dirtySlots _ _ _ _)
              (rollback _ (by simpa using k4) hrev d2 d3)
          · rw [if_neg c5]
            exact fin _ (by simpa using k1) (by simpa using k3) (by simpa using k4)
              (by simpa using k5) d2 d3

/-- No call leaves a `dirty` flag raised. -/
theorem exec_clean {s : State} (hi : Inv s) (hcl : Clean s) (th : Nat) (op : Op) :
    Clean (exec th op s).2 := by
  cases op with
  | beginT => exact clean_of_dirtySlots (beginT_dirtySlots th s) hcl
  | abortT =>
    simp only [exec, abortT]
    split
    · exact hcl
    · exact clean_of_dirtySlots (abort_dirtySlots _ _ _) hcl
  | irrT =>
    simp only [exec, irrT]
    split
    · exact hcl
    · exact clean_of_dirtySlots (irr_dirtySlots _ _ _) hcl
  | commitT =>
    simp only [exec, commitT]
    split
    · exact hcl
    · rename_i c hc
      exact commit_clean hi hc hcl
  | ro v => exact clean_of_dirtySlots (roFuel_dirtySlots 2 th v s) hcl
  | rw v => exact clean_of_dirtySlots (rwFuel_dirtySlots 2 th v s) hcl
  | assign v val =>
    show Clean (assign th v val s).2
    rcases assign_state th v val s with h | ⟨b, -, -, h⟩
    · rw [h]; exact clean_of_dirtySlots (rwFuel_dirtySlots 2 th v s) hcl
    · rw [h]; exact clean_of_dirtySlots (rwFuel_dirtySlots 2 th v s) hcl

/-! ## The extra footprint of ro and rw -/

theorem usedLe_refl (s : State) : UsedLe s s := fun _ h => h

theorem usedLe_trans {a b c : State} (h1 : UsedLe a b) (h2 : UsedLe b c) : UsedLe a c :=
  fun v h => h1 v (h2 v h)

theorem usedLe_of_vars {s s' : State} (h : s'.vars = s.vars) : UsedLe s s' := by
  intro v hv; rw [h] at hv; exact hv

theorem usedLe_modVar (s : State) (v : Nat) (g : Variable → Variable)
    (hg : (g (s.vars v)).usedByIrr = true → (s.vars v).usedByIrr = true) :
    UsedLe s (s.modVar v g) := by
  intro w hw
  rw [modVar_vars] at hw
  split at hw
  · subst_vars; exact hg hw
  · exact hw

theorem usedLe_mapVars (g : Variable → Variable)
    (hg : ∀ x, (g x).usedByIrr = true → x.usedByIrr = true) (vs : List Nat) (s : State) :
    UsedLe s (mapVars g vs s) := by
  induction vs generalizing s with
  | nil => exact usedLe_refl s
  | cons v vs ih => exact usedLe_trans (usedLe_modVar s v g (hg _)) (ih _)

theorem usedLe_cleanup (th c : Nat) (s : State) : UsedLe s (cleanup th c s) := by
  unfold cleanup
  dsimp only
  have h1 : UsedLe s (unlockAll (s.txs c).locksHeld s) :=
    usedLe_mapVars (fun x => { x with lock := false }) (fun _ h => h) _ s
  refine usedLe_trans h1 (usedLe_of_vars ?_)
  unfold resetCurrent
  split <;> rfl

/-- The current transaction, untouched, satisfies the extra footprint. -/
theorem Extra.unchanged {c : Nat} {s : State} (ha : (s.txs c).alive = true) : Extra c s s where
  used_le := fun _ h => Or.inl h
  used_gone := fun h => by rw [ha] at h; cases h
  sets_mono := fun _ _ h => h
  flag_le := Or.inl
  flag_gone := fun h => by rw [ha] at h; cases h
  unlocked := fun h => by rw [ha] at h; cases h
  held := fun _ _ h => Or.inl h
  fate := fun h => by rw [ha] at h; cases h

/-- Only the heap differs: the extra footprint is kept. -/
theorem Extra.sameButHeap2 {c : Nat} {s s' : State} (h : Extra c s s') (hp : Buf → Int) :
    Extra c s { s' with heap := hp } :=
  ⟨h.used_le, h.used_gone, h.sets_mono, h.flag_le, h.flag_gone, h.unlocked, h.held, h.fate⟩

/-- Every failing path of a revocable transaction: the statements before `abort()` raise no
`usedByIrr` flag, do not take `irrTransactionLock` and keep the locks of the transaction
in `locksHeld`; then `abort(); throw e`. -/
theorem Extra.ofAbort {α : Type} {th c : Nat} {s s1 : State} (e : Exc)
    (hc : s1.currentTransaction th = some c) (h1 : (s1.txs c).comitted = false)
    (h2 : (s1.txs c).amIIrrevocable = false) (h3 : (s.txs c).amIIrrevocable = false)
    (hU : UsedLe s s1) (hF : s1.irrTransactionLock = true → s.irrTransactionLock = true)
    (hL : ∀ v, v ∈ (s.txs c).locksHeld → v ∈ (s1.txs c).locksHeld) :
    Extra c s (abortThrow th c e s1 : Res α).2 := by
  rw [abortThrow_revocable e h1 h2]
  have hc' : (s1.modTx c fun t => { t with aborted := true }).currentTransaction th = some c := hc
  have hdead : ((cleanup th c (s1.modTx c fun t => { t with aborted := true })).txs c).alive
      = false := by rw [cleanup_txs hc']; simp
  have hnot : (s.txs c).amIIrrevocable = true → False := by
    intro h; rw [h3] at h; cases h
  constructor
  · intro v hv
    left
    have := usedLe_cleanup th c (s1.modTx c fun t => { t with aborted := true }) v hv
    exact hU v this
  · intro _ h; exact (hnot h).elim
  · intro h; rw [hdead] at h; cases h
  · intro h
    left
    rw [(cleanup_rest hc').2.2.2.1] at h
    exact hF h
  · intro _ h; exact (hnot h).elim
  · intro _ v hv
    rw [cleanup_vars hc']
    simp [hL v hv]
  · intro h; rw [hdead] at h; cases h
  · intro _ h
    rw [cleanup_txs hc'] at h
    simp [h1] at h



theorem irrAcquireCopy_frame (c v : Nat) (ro : Bool) (s : State) :
    (irrAcquireCopy c v ro s).vars = s.vars ∧
    (irrAcquireCopy c v ro s).irrTransactionLock = s.irrTransactionLock ∧
    ((irrAcquireCopy c v ro s).txs c).locksHeld = (s.txs c).locksHeld ∧
    (∀ w, w ∈ (s.txs c).rsetBuffers → w ∈ ((irrAcquireCopy c v ro s).txs c).rsetBuffers) := by
  unfold irrAcquireCopy
  dsimp only
  split
  · refine ⟨rfl, rfl, by simp [setRset], ?_⟩
    intro w hw
    simp only [setRset, modTx_txs_same, newT_txs, AList.mem_insert]
    exact Or.inr hw
  · refine ⟨rfl, rfl, by simp [setWset], ?_⟩
    intro w hw
    simpa [setWset] using hw

/-- What `irrAcquire` does to the flags and to the lock set of the caller, on every path. -/
theorem irrAcquire_frame (c v : Nat) (ro : Bool) (s : State) :
    (∀ w, ((irrAcquire c v ro s).2.vars w).usedByIrr = true →
      (s.vars w).usedByIrr = true ∨ w = v) ∧
    (irrAcquire c v ro s).2.irrTransactionLock = s.irrTransactionLock ∧
    (∀ w, w ∈ ((irrAcquire c v ro s).2.txs c).locksHeld → w ∈ (s.txs c).locksHeld ∨ w = v) ∧
    (∀ w, w ∈ (s.txs c).rsetBuffers → w ∈ ((irrAcquire c v ro s).2.txs c).rsetBuffers) := by
  have hu : ∀ (s1 : State), (∀ w, w ≠ v → (s1.vars w).usedByIrr = (s.vars w).usedByIrr) →
      ∀ w, (s1.vars w).usedByIrr = true → (s.vars w).usedByIrr = true ∨ w = v := by
    intro s1 h w hw
    by_cases hwv : w = v
    · exact Or.inr hwv
    · rw [h w hwv] at hw; exact Or.inl hw
  have hv1 : ∀ w, w ≠ v → ((s.modVar v fun x => { x with usedByIrr := true }).vars w).usedByIrr
      = (s.vars w).usedByIrr := fun w hw => by rw [modVar_vars_ne _ _ _ _ hw]
  have hv2 : ∀ w, w ≠ v → (((s.modVar v fun x => { x with usedByIrr := true }).modVar v
      fun x => { x with lock := true }).vars w).usedByIrr = (s.vars w).usedByIrr :=
    fun w hw => by rw [modVar_vars_ne _ _ _ _ hw, modVar_vars_ne _ _ _ _ hw]
  have keep : ∀ (y : Nat) (f : Transaction → Transaction) (s1 : State),
      (∀ t, (f t).locksHeld = t.locksHeld) → (∀ t, (f t).rsetBuffers = t.rsetBuffers) →
      ((s1.modTx y f).txs c).locksHeld = (s1.txs c).locksHeld ∧
      ((s1.modTx y f).txs c).rsetBuffers = (s1.txs c).rsetBuffers := by
    intro y f s1 h1 h2
    rw [modTx_txs]
    split
    · subst_vars; exact ⟨h1 _, h2 _⟩
    · exact ⟨rfl, rfl⟩
  unfold irrAcquire
  dsimp only
  split
  · obtain ⟨a1, a2, a3, a4⟩ := irrAcquireCopy_frame c v ro
      (((s.modVar v fun x => { x with usedByIrr := true }).modVar v
        fun x => { x with lock := true }).modTx c
        fun t => { t with locksHeld := t.locksHeld.insert v })
    refine ⟨hu _ (fun w hw => by rw [a1]; exact hv2 w hw), by rw [a2]; rfl, ?_, ?_⟩
    · intro w hw
      rw [a3] at hw
      simp only [modTx_txs_same, modVar_txs, List.mem_insert_iff] at hw
      rcases hw with hw | hw
      · exact Or.inr hw
      · exact Or.inl hw
    · intro w hw
      apply a4
      simpa using hw
  · split
    · obtain ⟨a1, a2, a3, a4⟩ := irrAcquireCopy_frame c v ro
        (s.modVar v fun x => { x with usedByIrr := true })
      exact ⟨hu _ (fun w hw => by rw [a1]; exact hv1 w hw), by rw [a2]; rfl,
        fun w hw => by rw [a3] at hw; exact Or.inl hw, fun w hw => a4 w hw⟩
    · rename_i lockOwner _
      split
      · obtain ⟨a1, a2, a3, a4⟩ := irrAcquireCopy_frame c v ro
          ((s.modVar v fun x => { x with usedByIrr := true }).modTx lockOwner
            fun t => { t with commitLock := true, aborted := true })
        obtain ⟨k1, k2⟩ := keep lockOwner
          (fun t => { t with commitLock := true, aborted := true })
          (s.modVar v fun x => { x with usedByIrr := true }) (fun _ => rfl) (fun _ => rfl)
        refine ⟨hu _ (fun w hw => by rw [a1]; exact hv1 w hw), by rw [a2]; rfl, ?_, ?_⟩
        · intro w hw
          rw [a3, k1] at hw
          exact Or.inl hw
        · intro w hw
          apply a4
          rw [k2]
          exact hw
      · split
        · obtain ⟨a1, a2, a3, a4⟩ := irrAcquireCopy_frame c v ro
            (s.modVar v fun x => { x with usedByIrr := true })
          exact ⟨hu _ (fun w hw => by rw [a1]; exact hv1 w hw), by rw [a2]; rfl,
            fun w hw => by rw [a3] at hw; exact Or.inl hw, fun w hw => a4 w hw⟩
        · split
          · exact ⟨hu _ hv1, rfl, fun w hw => Or.inl hw, fun w hw => hw⟩
          · refine ⟨hu _ (fun w hw => hv1 w hw), rfl, ?_, ?_⟩
            · intro w hw
              left
              simpa [setWset] using hw
            · intro w hw
              simpa [setWset] using hw

theorem irrAcquire_extra {th c v : Nat} {ro : Bool} {s : State} (hi : Inv s)
    (hc : s.currentTransaction th = some c) (hirr : (s.txs c).amIIrrevocable = true)
    (hw : v ∉ (s.txs c).wsetBuffers) (hr : ro = false → v ∉ (s.txs c).rsetBuffers) :
    Extra c s (irrAcquire c v ro s).2 := by
  obtain ⟨-, l, hl, -⟩ := @irrAcquire_lives th c v ro s hi hc hirr hw hr
  obtain ⟨f1, f2, f3, f4⟩ := irrAcquire_frame c v ro s
  have ha' : ((irrAcquire c v ro s).2.txs c).alive = true := by
    rw [l.c_alive]; exact hi.cur_alive th c hc
  have hi' := l.c_irr hirr
  have hv : v ∈ ((irrAcquire c v ro s).2.txs c).rsetBuffers ∨
      v ∈ ((irrAcquire c v ro s).2.txs c).wsetBuffers := by
    cases ro with
    | true =>
      simp only [if_true] at hl
      exact Or.inl (mem_iff_lookup.2 ⟨_, hl⟩)
    | false =>
      simp only [Bool.false_eq_true, if_false] at hl
      exact Or.inr (mem_iff_lookup.2 ⟨_, hl⟩)
  constructor
  · intro w h
    rcases f1 w h with h1 | h1
    · exact Or.inl h1
    · subst h1; exact Or.inr ⟨ha', hi', hv⟩
  · intro h; rw [ha'] at h; cases h
  · intro _ w h
    rcases h with h | h
    · exact Or.inl (f4 w h)
    · exact Or.inr (l.c_wset_mono w h)
  · intro h; rw [f2] at h; exact Or.inl h
  · intro h; rw [ha'] at h; cases h
  · intro h; rw [ha'] at h; cases h
  · intro _ w h
    rcases f3 w h with h1 | h1
    · exact Or.inl h1
    · subst h1
      rcases hv with h2 | h2
      · exact Or.inr (Or.inr ⟨hi', h2⟩)
      · exact Or.inr (Or.inl h2)
  · intro h; rw [ha'] at h; cases h



/-- The extra footprint of a call after which the transaction goes on. -/
theorem Extra.alive {c : Nat} {s s' : State} (ha : (s'.txs c).alive = true)
    (hU : UsedLe s s') (hF : s'.irrTransactionLock = true → s.irrTransactionLock = true)
    (hL : ∀ v, v ∈ (s'.txs c).locksHeld → v ∈ (s.txs c).locksHeld ∨ v ∈ (s'.txs c).wsetBuffers)
    (hS : ∀ v, v ∈ (s.txs c).rsetBuffers ∨ v ∈ (s.txs c).wsetBuffers →
      v ∈ (s'.txs c).rsetBuffers ∨ v ∈ (s'.txs c).wsetBuffers) : Extra c s s' where
  used_le := fun v h => Or.inl (hU v h)
  used_gone := fun h => by rw [ha] at h; cases h
  sets_mono := fun _ => hS
  flag_le := fun h => Or.inl (hF h)
  flag_gone := fun h => by rw [ha] at h; cases h
  unlocked := fun h => by rw [ha] at h; cases h
  held := fun _ v h => by
    rcases hL v h with h1 | h1
    · exact Or.inl h1
    · exact Or.inr (Or.inl h1)
  fate := fun h => by rw [ha] at h; cases h

theorem ro_extra {th c v : Nat} {s : State} (hi : Inv s)
    (hc : s.currentTransaction th = some c) : Extra c s (ro th v s).2 := by
  have hca := hi.cur_alive th c hc
  have hcom := hi.not_comitted c hca
  cases hr : (s.txs c).rsetBuffers.lookup v with
  | some b =>
    have : ro th v s = (.ok b, s) := roFuel_hit 1 hc (Or.inl hr)
    rw [this]; exact Extra.unchanged hca
  | none =>
    cases hw : (s.txs c).wsetBuffers.lookup v with
    | some b =>
      have : ro th v s = (.ok b, s) := roFuel_hit 1 hc (Or.inr ⟨hr, hw⟩)
      rw [this]; exact Extra.unchanged hca
    | none =>
      have hr' : v ∉ (s.txs c).rsetBuffers := AList.lookup_eq_none.1 hr
      have hw' : v ∉ (s.txs c).wsetBuffers := AList.lookup_eq_none.1 hw
      cases hirr : (s.txs c).amIIrrevocable with
      | true =>
        obtain ⟨h1, h2, h3, -⟩ := @irrAcquire_lives th c v true s hi hc hirr hw'
          (fun h => by simp at h)
        have he := @irrAcquire_extra th c v true s hi hc hirr hw' (fun h => by simp at h)
        unfold ro
        rw [roFuel]
        simp only [hc, hr, hw, hirr, if_true]
        revert h1 h2 h3 he
        generalize irrAcquire c v true s = r
        obtain ⟨r1, s1⟩ := r
        intro h1 h2 h3 he
        simp only at h1 h2 h3 he
        subst h1
        simp only [if_true] at h3
        have hc1 : s1.currentTransaction th = some c := by rw [h2.cur_eq]; exact hc
        simp only [roFuel_hit 0 hc1 (Or.inl h3)]
        exact he
      | false =>
        have hU : UsedLe s (s.modVar v fun x =>
            { x with readers := Function.update x.readers th (some c) }) :=
          usedLe_modVar _ _ _ (fun h => h)
        unfold ro roFuel
        simp only [hc, hr, hw, hirr, Bool.false_eq_true, if_false]
        split
        · exact Extra.ofAbort _ hc hcom hirr hirr hU (fun h => h) (fun _ h => h)
        · split
          · exact Extra.ofAbort _ hc hcom hirr hirr
              (usedLe_trans hU (usedLe_of_vars rfl)) (fun h => h) (fun _ h => h)
          · apply Extra.alive
            · simpa [setRset] using hca
            · exact usedLe_trans hU (usedLe_of_vars rfl)
            · exact fun h => h
            · intro w h; left; simpa [setRset] using h
            · intro w h
              simp only [setRset, modTx_txs_same, newT_txs, modVar_txs, AList.mem_insert]
              rcases h with h | h
              · exact Or.inl (Or.inr h)
              · exact Or.inr h

theorem rw_extra {th c v : Nat} {s : State} (hi : Inv s)
    (hc : s.currentTransaction th = some c) : Extra c s (rw th v s).2 := by
  have hca := hi.cur_alive th c hc
  have hcom := hi.not_comitted c hca
  cases hw : (s.txs c).wsetBuffers.lookup v with
  | some b =>
    have : rw th v s = (.ok b, s) := rwFuel_hit 1 hc hw
    rw [this]; exact Extra.unchanged hca
  | none =>
    have hw' : v ∉ (s.txs c).wsetBuffers := AList.lookup_eq_none.1 hw
    cases hirr : (s.txs c).amIIrrevocable with
    | true =>
      cases hr : (s.txs c).rsetBuffers.lookup v with
      | none =>
        have hr' : v ∉ (s.txs c).rsetBuffers := AList.lookup_eq_none.1 hr
        rw [(rw_irr_first hi hc hirr hr' hw').1]
        exact @irrAcquire_extra th c v false s hi hc hirr hw' (fun _ => hr')
      | some rb =>
        have hc1 : (setWset c v rb (unsetRset c v s)).currentTransaction th = some c := hc
        have hl1 : ((setWset c v rb (unsetRset c v s)).txs c).wsetBuffers.lookup v = some rb := by
          simp [setWset, unsetRset]
        have : rw th v s = (.ok rb, setWset c v rb (unsetRset c v s)) := by
          unfold rw
          rw [rwFuel]
          simp only [hc, hw, hirr, if_true, hr]
          exact rwFuel_hit 0 hc1 hl1
        rw [this]
        apply Extra.alive
        · simpa [setWset, unsetRset] using hca
        · exact usedLe_of_vars rfl
        · exact fun h => h
        · intro w h; left; simpa [setWset, unsetRset] using h
        · intro w h
          simp only [setWset, unsetRset, modTx_txs_same, AList.mem_insert, AList.mem_erase]
          by_cases hwv : w = v
          · exact Or.inr (Or.inl hwv)
          · rcases h with h | h
            · exact Or.inl ⟨hwv, h⟩
            · exact Or.inr (Or.inr h)
    | false =>
      have hU : UsedLe s (s.modVar v fun x =>
          { x with lock := true, previousLockOwner := x.mostRecentLockOwner,
                   mostRecentLockOwner := some c }) :=
        usedLe_modVar _ _ _ (fun h => h)
      have hU2 : ∀ s1 : State, UsedLe s s1 →
          UsedLe s (s1.modVar v fun x => { x with lock := false }) :=
        fun s1 h => usedLe_trans h (usedLe_modVar _ _ _ (fun h => h))
      unfold rw rwFuel rwLocked
      simp only [hc, hw, hirr, Bool.false_eq_true, if_false]
      split
      · exact Extra.ofAbort _ hc hcom hirr hirr (usedLe_refl s) (fun h => h) (fun _ h => h)
      · split
        · exact Extra.ofAbort _ hc hcom hirr hirr (usedLe_refl s) (fun h => h) (fun _ h => h)
        · split
          · exact Extra.ofAbort _ hc hcom hirr hirr (hU2 _ hU) (fun h => h) (fun _ h => h)
          · cases hr : (s.txs c).rsetBuffers.lookup v with
            | some rb =>
              simp only [modVar_txs, hr]
              split
              · refine Extra.ofAbort _ hc ?_ ?_ hirr
                  (hU2 _ (usedLe_trans hU (usedLe_of_vars rfl))) (fun h => h) ?_
                · simpa [unsetRset] using hcom
                · simpa [unsetRset] using hirr
                · intro w h; simpa [unsetRset] using h
              · apply Extra.alive
                · simpa [setWset, unsetRset] using hca
                · exact usedLe_trans hU (usedLe_of_vars rfl)
                · exact fun h => h
                · intro w h
                  simp only [setWset, unsetRset, modTx_txs_same, modVar_txs,
                    List.mem_insert_iff, AList.mem_insert] at h ⊢
                  rcases h with h | h
                  · exact Or.inr (Or.inl h)
                  · exact Or.inl h
                · intro w h
                  simp only [setWset, unsetRset, modTx_txs_same, modVar_txs, AList.mem_insert,
                    AList.mem_erase]
                  by_cases hwv : w = v
                  · exact Or.inr (Or.inl hwv)
                  · rcases h with h | h
                    · exact Or.inl ⟨hwv, h⟩
                    · exact Or.inr (Or.inr h)
            | none =>
              simp only [modVar_txs, hr]
              split
              · exact Extra.ofAbort _ hc hcom hirr hirr
                  (hU2 _ (usedLe_trans hU (usedLe_of_vars rfl))) (fun h => h) (fun _ h => h)
              · apply Extra.alive
                · simpa [setWset] using hca
                · exact usedLe_trans hU (usedLe_of_vars rfl)
                · exact fun h => h
                · intro w h
                  simp only [setWset, modTx_txs_same, modVar_txs, newT_txs,
                    List.mem_insert_iff, AList.mem_insert] at h ⊢
                  rcases h with h | h
                  · exact Or.inr (Or.inl h)
                  · exact Or.inl h
                · intro w h
                  simp only [setWset, modTx_txs_same, modVar_txs, newT_txs, AList.mem_insert]
                  rcases h with h | h
                  · exact Or.inl h
                  · exact Or.inr (Or.inr h)

/-! ## The extra footprint of irrT -/

theorem acquireRead_used (v : Nat) (s : State) (w : Nat) :
    ((acquireRead v s).2.vars w).usedByIrr = (decide (w = v) || (s.vars w).usedByIrr) := by
  unfold acquireRead
  dsimp only
  by_cases hw : w = v
  · subst hw; split <;> simp
  · split <;> simp [modVar_vars, hw]

/-- The `usedByIrr` flags after the loop of `acquireReadset`: raised on the whole read set
when the loop succeeds, rolled back when it fails. -/
theorem acquireReadsetLoop_used (rest acquired used : List Nat) (s : State) :
    ((acquireReadsetLoop rest acquired used s).1 = none →
      ∀ w, (w ∈ used → ((acquireReadsetLoop rest acquired used s).2.vars w).usedByIrr = false) ∧
        (((acquireReadsetLoop rest acquired used s).2.vars w).usedByIrr = true →
          (s.vars w).usedByIrr = true)) ∧
    (∀ acq, (acquireReadsetLoop rest acquired used s).1 = some acq →
      ∀ w, ((acquireReadsetLoop rest acquired used s).2.vars w).usedByIrr =
        (decide (w ∈ rest) || (s.vars w).usedByIrr)) := by
  induction rest generalizing acquired used s with
  | nil =>
    unfold acquireReadsetLoop
    exact ⟨fun h => (by cases h), fun _ _ w => by simp⟩
  | cons var rest ih =>
    obtain ⟨-, a2, -⟩ := acquireRead_spec var s
    have a3 := acquireRead_used var s
    rw [acquireReadsetLoop]
    cases hl : (s.vars var).lock with
    | false =>
      rw [hl] at a2
      simp only [Bool.not_false] at a2
      rw [a2]
      simp only [if_true]
      obtain ⟨b1, b2⟩ := ih (acquired ++ [var]) (used ++ [var]) (acquireRead var s).2
      constructor
      · intro h w
        obtain ⟨c1, c2⟩ := b1 h w
        refine ⟨fun hw => c1 (List.mem_append_left _ hw), ?_⟩
        intro hu
        have := c2 hu
        rw [a3] at this
        by_cases hwv : w = var
        · subst hwv
          rw [c1 (by simp)] at hu; cases hu
        · simpa [hwv] using this
      · intro acq h w
        rw [b2 acq h w, a3]
        by_cases hwv : w = var
        · subst hwv; simp
        · simp [hwv]
    | true =>
      rw [hl] at a2
      simp only [Bool.not_true] at a2
      rw [a2]
      simp only [Bool.false_eq_true, if_false]
      refine ⟨fun _ w => ?_, fun acq h => by cases h⟩
      rw [unlockAll_vars, storeUsedByIrr_vars]
      have key : ((if w ∈ used ++ [var] then
          { (acquireRead var s).2.vars w with usedByIrr := false }
          else (acquireRead var s).2.vars w).usedByIrr = true → (s.vars w).usedByIrr = true) ∧
          (w ∈ used → (if w ∈ used ++ [var] then
          { (acquireRead var s).2.vars w with usedByIrr := false }
          else (acquireRead var s).2.vars w).usedByIrr = false) := by
        split
        · exact ⟨fun h => (by cases h), fun _ => rfl⟩
        · rename_i hm
          refine ⟨?_, fun hw => absurd (List.mem_append_left _ hw) hm⟩
          intro h
          rw [a3] at h
          have hwv : w ≠ var := fun hh => hm (by rw [hh]; simp)
          simpa [hwv] using h
      split
      · exact ⟨fun hw => key.2 hw, fun h => key.1 h⟩
      · exact ⟨fun hw => key.2 hw, fun h => key.1 h⟩

theorem acquireReadset_used (c : Nat) (s : State) :
    ((acquireReadset c s).1 = false → UsedLe s (acquireReadset c s).2) ∧
    ((acquireReadset c s).1 = true → ∀ w, ((acquireReadset c s).2.vars w).usedByIrr =
      (decide (w ∈ (s.txs c).rsetBuffers.keys) || (s.vars w).usedByIrr)) := by
  obtain ⟨a1, a2⟩ := acquireReadsetLoop_used (s.txs c).rsetBuffers.keys [] [] s
  unfold acquireReadset
  revert a1 a2
  generalize acquireReadsetLoop (s.txs c).rsetBuffers.keys [] [] s = r
  obtain ⟨r1, r2⟩ := r
  intro a1 a2
  simp only at a1 a2
  cases r1 with
  | none =>
    refine ⟨fun _ w hw => (a1 rfl w).2 hw, fun h => by cases h⟩
  | some acq =>
    refine ⟨fun h => (by cases h), fun _ w => ?_⟩
    simp only [modTx_vars]
    exact a2 acq rfl w

theorem irrT_extra {th c : Nat} {s : State} (hi : Inv s)
    (hc : s.currentTransaction th = some c) : Extra c s (irrT th s).2 := by
  have hca := hi.cur_alive th c hc
  have hcom := hi.not_comitted c hca
  unfold irrT
  rw [hc]
  dsimp only
  unfold irr
  cases hirr : (s.txs c).amIIrrevocable with
  | true =>
    simp only [if_true]
    exact Extra.unchanged hca
  | false =>
    simp only [Bool.false_eq_true, if_false]
    split
    · exact Extra.ofAbort _ hc hcom hirr hirr (usedLe_refl s) (fun h => h) (fun _ h => h)
    · obtain ⟨a1, -, -, -, -, -, -, a8, a9⟩ :=
        acquireReadset_spec c { s with irrTransactionLock := true }
      obtain ⟨u1, u2⟩ := acquireReadset_used c { s with irrTransactionLock := true }
      revert a1 a8 a9 u1 u2
      generalize acquireReadset c { s with irrTransactionLock := true } = r
      obtain ⟨r1, r2⟩ := r
      intro a1 a8 a9 u1 u2
      simp only at a1 a8 a9 u1 u2
      cases r1 with
      | false =>
        obtain ⟨b1, -⟩ := a8 rfl
        simp only [Bool.not_false, if_true]
        refine Extra.ofAbort _ ?_ ?_ ?_ hirr ?_ ?_ ?_
        · show r2.currentTransaction th = some c
          rw [a1]; exact hc
        · show (r2.txs c).comitted = false
          rw [b1]; exact hcom
        · show (r2.txs c).amIIrrevocable = false
          rw [b1]; exact hirr
        · exact fun w hw => u1 rfl w hw
        · intro h; cases h
        · intro w h
          show w ∈ (r2.txs c).locksHeld
          rw [b1]; exact h
      | true =>
        obtain ⟨⟨lh, b1, b2⟩, -, -⟩ := a9 rfl
        have u3 := u2 rfl
        have hkeys : ∀ s4 : State, s4.vars = r2.vars →
            (s4.txs c).rsetBuffers = (s.txs c).rsetBuffers →
            UsedLe s (storeUsedByIrr false (s4.txs c).rsetBuffers.keys s4) := by
          intro s4 e1 e2 w hw
          rw [storeUsedByIrr_vars, e2] at hw
          split at hw
          · cases hw
          · rename_i hm
            rw [e1, u3] at hw
            simpa [hm] using hw
        simp only [Bool.not_true, Bool.false_eq_true, if_false]
        split
        · refine Extra.ofAbort _ ?_ ?_ ?_ hirr ?_ ?_ ?_
          · show (storeUsedByIrr false _ _).currentTransaction th = some c
            rw [storeUsedByIrr_cur]
            split
            · show r2.currentTransaction th = some c
              rw [a1]; exact hc
            · show r2.currentTransaction th = some c
              rw [a1]; exact hc
          · show ((storeUsedByIrr false _ _).txs c).comitted = false
            rw [storeUsedByIrr_txs]
            split <;> simp [b1, hcom]
          · show ((storeUsedByIrr false _ _).txs c).amIIrrevocable = false
            rw [storeUsedByIrr_txs]
            split <;> simp [b1, hirr]
          · show UsedLe s (storeUsedByIrr false _ _)
            split
            · exact hkeys _ rfl (by simp [b1])
            · exact hkeys _ rfl (by simp [b1])
          · intro h; cases h
          · intro w h
            show w ∈ ((storeUsedByIrr false _ _).txs c).locksHeld
            rw [storeUsedByIrr_txs]
            split <;> simp [b1, (b2 w).2 (Or.inr h)]
        · have fin : ∀ s4 : State, s4.vars = r2.vars → s4.txs c = { s.txs c with
              locksHeld := lh, cleanReadsetLock := true, commitLock := true } ∨
              s4.txs c = { s.txs c with locksHeld := lh, cleanReadsetLock := true } →
              Extra c s (s4.modTx c fun t => { t with amIIrrevocable := true }) := by
            intro s4 e1 e2
            have hsets : ((s4.modTx c fun t => { t with amIIrrevocable := true }).txs c).rsetBuffers
                = (s.txs c).rsetBuffers ∧
                ((s4.modTx c fun t => { t with amIIrrevocable := true }).txs c).wsetBuffers
                = (s.txs c).wsetBuffers ∧
                ((s4.modTx c fun t => { t with amIIrrevocable := true }).txs c).locksHeld = lh ∧
                ((s4.modTx c fun t => { t with amIIrrevocable := true }).txs c).alive = true := by
              rcases e2 with e2 | e2 <;> simp [e2, hca]
            obtain ⟨g1, g2, g3, g4⟩ := hsets
            have g5 : ((s4.modTx c fun t => { t with amIIrrevocable := true }).txs
                c).amIIrrevocable = true := by simp
            constructor
            · intro w hw
              simp only [modTx_vars, e1, u3, Bool.or_eq_true, decide_eq_true_eq] at hw
              rcases hw with hw | hw
              · exact Or.inr ⟨g4, g5, Or.inl (by rw [g1]; exact AList.mem_keys.1 hw)⟩
              · exact Or.inl hw
            · intro h; rw [g4] at h; cases h
            · intro _ w h; rw [g1, g2]; exact h
            · intro _; exact Or.inr ⟨g4, g5⟩
            · intro h; rw [g4] at h; cases h
            · intro h; rw [g4] at h; cases h
            · intro _ w h
              rw [g3] at h
              rcases (b2 w).1 h with h1 | h1
              · exact Or.inr (Or.inr ⟨g5, by rw [g1]; exact AList.mem_keys.1 h1⟩)
              · exact Or.inl h1
            · intro h; rw [g4] at h; cases h
          split
          · exact fin _ rfl (Or.inr (by simp [b1]))
          · exact fin _ rfl (Or.inl (by simp [b1]))

/-! ## The extra footprint of commit and abort -/

/-- The object of the committing transaction after the last part of `commit`. -/
theorem commitFinish_self {th c : Nat} {s : State} (hc : s.currentTransaction th = some c)
    (hh : (s.txs c).hijackedWsetBuffers = ∅) :
    (commitFinish th c s).txs c =
      { s.txs c with comitted := true, locksHeld := [], alive := false } := by
  obtain ⟨p1, -, -, -, -, p6, -⟩ := publish_spec hh
  have hcp : (publish c s).currentTransaction th = some c := by rw [p6]; exact hc
  unfold commitFinish
  revert p1 hcp
  generalize publish c s = p
  intro p1 hcp
  dsimp only
  rw [cleanup_txs, if_pos rfl]
  · split <;> split <;> simp [p1]
  · split <;> split <;> simp [hcp]

/-- The `usedByIrr` flags and the locks after the last part of `commit`. -/
theorem commitFinish_flags {th c : Nat} {s : State} (hc : s.currentTransaction th = some c)
    (hh : (s.txs c).hijackedWsetBuffers = ∅) (w : Nat) :
    (((commitFinish th c s).vars w).usedByIrr = true → (s.vars w).usedByIrr = true) ∧
    ((s.txs c).amIIrrevocable = true →
      w ∈ (s.txs c).rsetBuffers ∨ w ∈ (s.txs c).wsetBuffers →
      ((commitFinish th c s).vars w).usedByIrr = false) ∧
    (w ∈ (s.txs c).locksHeld → ((commitFinish th c s).vars w).lock = false) := by
  obtain ⟨p1, -, -, -, -, p6, -, -, -, p10⟩ := publish_spec hh
  have hcp : (publish c s).currentTransaction th = some c := by rw [p6]; exact hc
  have pu := fun w => (p10 w).2.2.2.2
  unfold commitFinish
  revert p1 hcp pu
  generalize publish c s = p
  intro p1 hcp pu
  dsimp only
  have hcur : ∀ X : State, X.currentTransaction = p.currentTransaction →
      X.currentTransaction th = some c := fun X h => by rw [h]; exact hcp
  by_cases hirr : (s.txs c).amIIrrevocable = true
  · have hirr' : (p.txs c).amIIrrevocable = true := by rw [p1]; exact hirr
    simp only [hirr', if_true, modTx_txs_same, storeUsedByIrr_txs, unlockAll_txs]
    rw [cleanup_vars (hcur _ (by simp))]
    simp only [modTx_txs_same, unlockAll_txs, storeUsedByIrr_txs, List.not_mem_nil, if_false,
      modTx_vars]
    rw [unlockAll_vars]
    simp only [modTx_vars, storeUsedByIrr_vars, p1]
    refine ⟨?_, ?_, ?_⟩
    · intro h
      rw [← pu]
      revert h
      split <;> split <;> split <;> simp
    · intro _ hm
      rcases hm with hm | hm
      · have := AList.mem_keys.1 hm
        split <;> split <;> simp [this]
      · have := AList.mem_keys.1 hm
        split <;> simp [this]
    · intro hm
      simp [hm]
  · have hirr' : ¬ (p.txs c).amIIrrevocable = true := by rw [p1]; exact hirr
    simp only [if_neg hirr']
    rw [cleanup_vars (hcur _ (by simp [hirr']))]
    simp only [modTx_txs_same, unlockAll_txs, List.not_mem_nil, if_false, modTx_vars, hirr',
      Bool.false_eq_true]
    rw [unlockAll_vars]
    simp only [modTx_vars, p1]
    refine ⟨?_, fun h => absurd h hirr, ?_⟩
    · intro h
      rw [← pu]
      revert h
      split <;> simp
    · intro hm
      simp [hm]

/-- The last part of `commit`, entered with both own locks held and not marked aborted. -/
theorem commitFinish_extra {th c : Nat} {s X : State} (hc : X.currentTransaction th = some c)
    (hh : (X.txs c).hijackedWsetBuffers = ∅) (hU : UsedLe s X)
    (hF : X.irrTransactionLock = s.irrTransactionLock)
    (x1 : (X.txs c).locksHeld = (s.txs c).locksHeld)
    (x2 : (X.txs c).amIIrrevocable = (s.txs c).amIIrrevocable)
    (x3 : (X.txs c).rsetBuffers = (s.txs c).rsetBuffers)
    (x4 : (X.txs c).wsetBuffers = (s.txs c).wsetBuffers)
    (x5 : (X.txs c).cleanReadsetLock = true) (x6 : (X.txs c).commitLock = true)
    (x7 : (X.txs c).aborted = false) : Extra c s (commitFinish th c X) := by
  have hself := commitFinish_self hc hh
  have hdead : ((commitFinish th c X).txs c).alive = false := by rw [hself]
  have hfl := commitFinish_flags hc hh
  constructor
  · intro w hw
    exact Or.inl (hU w ((hfl w).1 hw))
  · intro _ hirr w hm
    rw [← x2] at hirr
    rw [← x3, ← x4] at hm
    exact (hfl w).2.1 hirr hm
  · intro h; rw [hdead] at h; cases h
  · intro h
    left
    by_cases hirr : (X.txs c).amIIrrevocable = true
    · rw [commitFinish_releases hc hh hirr] at h; cases h
    · obtain ⟨s6, e0, e1, -, -, -, e5, -⟩ := commitFinish_eq th c X
      obtain ⟨p1, -, -, -, p5, p6, -⟩ := publish_spec hh
      have hc6 : s6.currentTransaction th = some c := by rw [e1, p6]; exact hc
      rw [e0, (cleanup_rest hc6).2.2.2.1] at h
      rcases e5 with e5 | e5
      · rw [e5, p5, hF] at h; exact h
      · rw [p1] at e5; exact absurd e5.1 hirr
  · intro _ hirr
    rw [← x2] at hirr
    exact commitFinish_releases hc hh hirr
  · intro _ w hm
    rw [← x1] at hm
    exact (hfl w).2.2 hm
  · intro h; rw [hdead] at h; cases h
  · intro _ _
    rw [hself]
    exact ⟨x5, x6, x7⟩

theorem commitT_extra {th c : Nat} {s : State} (hi : Inv s)
    (hc : s.currentTransaction th = some c) : Extra c s (commitT th s).2 := by
  have hca := hi.cur_alive th c hc
  have hcom := hi.not_comitted c hca
  have hd : ∀ s1 : State, s1 = (if (s.txs c).amIIrrevocable = true
      then storeDirtyIrr true (s.txs c).wsetBuffers.keys s
      else storeDirty true (s.txs c).wsetBuffers.keys s) →
      s1.txs = s.txs ∧ UsedLe s s1 ∧ s1.irrTransactionLock = s.irrTransactionLock ∧
      s1.currentTransaction = s.currentTransaction ∧
      ∀ w, (s1.vars w).readers = (s.vars w).readers := by
    intro s1 h
    rw [h]
    split
    · refine ⟨by simp, usedLe_mapVars (fun x => { x with dirtyIrr := true }) (fun _ h => h) _ s,
        by simp, by simp, ?_⟩
      intro w; rw [storeDirtyIrr_vars]; split <;> rfl
    · refine ⟨by simp, usedLe_mapVars (fun x => { x with dirty := true }) (fun _ h => h) _ s,
        by simp, by simp, ?_⟩
      intro w; rw [storeDirty_vars]; split <;> rfl
  have hsd : ∀ (X : State) (keys : List Nat), UsedLe s X → UsedLe s (storeDirty false keys X) :=
    fun X keys h => usedLe_trans h
      (usedLe_mapVars (fun x => { x with dirty := false }) (fun _ h => h) keys X)
  unfold commitT
  rw [hc]
  dsimp only
  unfold commit
  rw [if_neg (by rw [hcom]; simp)]
  by_cases c2 : (s.txs c).aborted = true
  · rw [if_pos c2]
    split
    · exact Extra.unchanged hca
    · rename_i hirr
      have hirr' : (s.txs c).amIIrrevocable = false := by simpa using hirr
      exact Extra.ofAbort _ hc hcom hirr' hirr' (usedLe_refl s) (fun h => h) (fun _ h => h)
  · rw [if_neg c2]
    dsimp only
    obtain ⟨d1, d2, d3, d4, d5⟩ := hd _ rfl
    have ks := killReaders_step th c (if (s.txs c).amIIrrevocable = true
      then storeDirtyIrr true (s.txs c).wsetBuffers.keys s
      else storeDirty true (s.txs c).wsetBuffers.keys s)
    have kself := @killReaders_self th c s _ hi hc d5
    rw [d1] at kself
    have k1 := ks.cur.trans d4
    have k2 : UsedLe s (killReaders th c (if (s.txs c).amIIrrevocable = true
      then storeDirtyIrr true (s.txs c).wsetBuffers.keys s
      else storeDirty true (s.txs c).wsetBuffers.keys s)) :=
      usedLe_trans d2 (usedLe_of_vars ks.vars)
    have k3 := ks.irrLock.trans d3
    revert kself k1 k2 k3
    generalize killReaders th c (if (s.txs c).amIIrrevocable = true
      then storeDirtyIrr true (s.txs c).wsetBuffers.keys s
      else storeDirty true (s.txs c).wsetBuffers.keys s) = s2
    intro kself k1 k2 k3
    have hc2 : s2.currentTransaction th = some c := by rw [k1]; exact hc
    have hab : (s.txs c).aborted = false := by simpa using c2
    by_cases c3 : (s2.txs c).amIIrrevocable = true
    · rw [if_pos c3]
      rw [kself] at c3
      obtain ⟨q1, q2, q3, -⟩ := hi.irr_locks c hca c3
      exact commitFinish_extra hc2 (by rw [kself]; exact hi.hij_empty c hca) k2 k3
        (by rw [kself]) (by rw [kself]) (by rw [kself]) (by rw [kself])
        (by rw [kself]; exact q1) (by rw [kself]; exact q2) (by rw [kself]; exact q3)
    · rw [if_neg c3]
      have hirr : (s.txs c).amIIrrevocable = false := by
        rw [kself] at c3; simpa using c3
      by_cases c4 : (s2.txs c).cleanReadsetLock = true
      · rw [if_pos c4]
        refine Extra.ofAbort _ ?_ ?_ ?_ hirr (hsd _ _ k2) ?_ ?_
        · rw [storeDirty_cur]; exact hc2
        · rw [storeDirty_txs, kself]; exact hcom
        · rw [storeDirty_txs, kself]; exact hirr
        · intro h; rw [storeDirty_irrLock, k3] at h; exact h
        · intro w h; rw [storeDirty_txs, kself]; exact h
      · rw [if_neg c4]
        by_cases c5 : ((s2.modTx c fun t => { t with cleanReadsetLock := true }).txs
            c).commitLock = true
        · rw [if_pos c5]
          refine Extra.ofAbort _ ?_ ?_ ?_ hirr (hsd _ _ (usedLe_trans k2 (usedLe_of_vars rfl)))
            ?_ ?_
          · rw [storeDirty_cur]; exact hc2
          · rw [storeDirty_txs]; simpa [kself] using hcom
          · rw [storeDirty_txs]; simpa [kself] using hirr
          · intro h; rw [storeDirty_irrLock] at h; rw [← k3]; exact h
          · intro w h; rw [storeDirty_txs]; simpa [kself] using h
        · rw [if_neg c5]
          apply commitFinish_extra (s := s)
          · exact hc2
          · simpa [kself] using hi.hij_empty c hca
          · exact usedLe_trans k2 (usedLe_of_vars rfl)
          · exact k3
          all_goals simp [kself, hab]

theorem abortT_extra {th c : Nat} {s : State} (hi : Inv s)
    (hc : s.currentTransaction th = some c) : Extra c s (abortT th s).2 := by
  have hca := hi.cur_alive th c hc
  have hcom := hi.not_comitted c hca
  unfold abortT
  rw [hc]
  dsimp only
  cases hirr : (s.txs c).amIIrrevocable with
  | false =>
    have h := @Extra.ofAbort Unit th c s s .InvalidUseException hc hcom hirr hirr
      (usedLe_refl s) (fun h => h) (fun _ h => h)
    rw [abortThrow_revocable _ hcom hirr] at h
    rw [abort_revocable hcom hirr]
    exact h
  | true =>
    unfold abort
    rw [if_neg (by rw [hcom]; simp), if_pos hirr]
    cases hk : s.forcingAbortOnIrr with
    | some e => exact Extra.unchanged hca
    | none =>
      dsimp only
      have hc4 : ({ (State.modTx (storeUsedByIrr false
          ((storeUsedByIrr false (s.txs c).rsetBuffers.keys s).txs c).wsetBuffers.keys
          (storeUsedByIrr false (s.txs c).rsetBuffers.keys s)) c
          fun t => { t with aborted := true }) with irrTransactionLock := false } :
          State).currentTransaction th = some c := by simpa using hc
      have hdead := cleanup_txs hc4 c
      rw [if_pos rfl] at hdead
      constructor
      · intro w hw
        left
        have := usedLe_cleanup _ _ _ w hw
        simp only [modTx_vars] at this
        rw [storeUsedByIrr_vars, storeUsedByIrr_vars] at this
        revert this
        split <;> split <;> simp
      · intro _ _ w hm
        rw [cleanup_vars hc4]
        simp only [modTx_vars, storeUsedByIrr_txs]
        rw [storeUsedByIrr_vars, storeUsedByIrr_vars]
        rcases hm with hm | hm
        · have := AList.mem_keys.1 hm
          split <;> split <;> simp [this]
        · have := AList.mem_keys.1 hm
          split <;> simp [this]
      · intro h; rw [hdead] at h; cases h
      · intro h
        rw [(cleanup_rest hc4).2.2.2.1] at h
        cases h
      · intro _ _
        rw [(cleanup_rest hc4).2.2.2.1]
      · intro _ w hm
        rw [cleanup_vars hc4]
        simp [hm]
      · intro h; rw [hdead] at h; cases h
      · intro _ h
        rw [hdead] at h
        simp [hcom] at h

/-! ## Tidy holds in every reachable state -/

theorem Tidy.sameButHeap3 {s : State} (h : Tidy s) (hp : Buf → Int) :
    Tidy { s with heap := hp } :=
  ⟨h.owner, h.lock_owner, h.used_owner, h.flag_owner, h.held_sets, h.clean, h.fate⟩

theorem beginT_tidy {th : Nat} {s : State} (hi : Inv s) (ht : Tidy s)
    (hc : s.currentTransaction th = none) : Tidy (beginT th s).2 := by
  unfold beginT
  rw [hc]
  dsimp only
  have hne : ∀ x, (s.txs x).alive = true → x ≠ s.nextTx :=
    fun x hx => Nat.ne_of_lt (hi.alive_lt x hx)
  have old : ∀ x, (s.txs x).alive = true →
      (Function.update s.txs s.nextTx { alive := true } x) = s.txs x :=
    fun x hx => Function.update_noteq (hne x hx) _ _
  constructor
  · intro x hx
    by_cases hxn : x = s.nextTx
    · exact ⟨th, by simp [hxn]⟩
    · dsimp only at hx
      rw [Function.update_noteq hxn] at hx
      obtain ⟨t, h⟩ := ht.owner x hx
      refine ⟨t, ?_⟩
      have : t ≠ th := by intro e; rw [e, hc] at h; cases h
      simpa [Function.update_noteq this] using h
  · intro v hv
    obtain ⟨x, h1, h2⟩ := ht.lock_owner v hv
    exact ⟨x, by dsimp only; rw [old x h1]; exact ⟨h1, h2⟩⟩
  · intro v hv
    obtain ⟨x, h1, h2⟩ := ht.used_owner v hv
    exact ⟨x, by dsimp only; rw [old x h1]; exact ⟨h1, h2⟩⟩
  · intro hf
    obtain ⟨x, h1, h2⟩ := ht.flag_owner hf
    exact ⟨x, by dsimp only; rw [old x h1]; exact ⟨h1, h2⟩⟩
  · intro x v hx hv
    dsimp only at hx hv ⊢
    by_cases hxn : x = s.nextTx
    · rw [hxn, Function.update_same] at hv
      cases hv
    · rw [Function.update_noteq hxn] at hx hv ⊢
      exact ht.held_sets x v hx hv
  · exact ht.clean
  · intro x hx
    dsimp only at hx ⊢
    by_cases hxn : x = s.nextTx
    · rw [hxn, Function.update_same] at hx
      cases hx
    · rw [Function.update_noteq hxn] at hx ⊢
      exact ht.fate x hx

/-- The extra footprint of any call of a thread whose slot holds transaction `c`. -/
theorem exec_extra {th c : Nat} {s : State} (hi : Inv s)
    (hc : s.currentTransaction th = some c) (op : Op) : Extra c s (exec th op s).2 := by
  cases op with
  | beginT =>
    have : (exec th .beginT s).2 = s := by simp [exec, beginT, hc]
    rw [this]
    exact Extra.unchanged (hi.cur_alive th c hc)
  | abortT => exact abortT_extra hi hc
  | irrT => exact irrT_extra hi hc
  | commitT => exact commitT_extra hi hc
  | ro v => exact ro_extra hi hc
  | rw v => exact rw_extra hi hc
  | assign v val =>
    show Extra c s (assign th v val s).2
    rcases assign_state th v val s with h | ⟨b, -, -, h⟩
    · rw [h]; exact rw_extra hi hc
    · rw [h]; exact (rw_extra hi hc).sameButHeap2 _

/-- Every call keeps the invariant `Tidy`. -/
theorem exec_tidy {s : State} (hi : Inv s) (ht : Tidy s) (th : Nat) (op : Op) :
    Tidy (exec th op s).2 := by
  rcases exec_eff hi th op with ⟨hp, h⟩ | ⟨c, h⟩ | ⟨c, h⟩ | ⟨hc, h⟩
  · rw [h]; exact ht.sameButHeap3 hp
  · exact h.keepsTidy hi ht (exec_extra hi h.cur op) (exec_clean hi ht.clean th op)
  · exact h.restoresTidy hi ht (exec_extra hi h.cur op) (exec_clean hi ht.clean th op)
  · rw [h]; exact beginT_tidy hi ht hc

theorem initState_tidy (n : Nat) (vals : Nat → Int) (h1 h2 : Option Exc) :
    Tidy (initState n vals h1 h2) := by
  constructor <;> intros <;> simp_all [initState, Clean]

/-- The invariant `Tidy` holds in every reachable state. -/
theorem reachable_tidy {s : State} (h : Reachable s) : Tidy s := by
  induction h with
  | init n vals h1 h2 => exact initState_tidy n vals h1 h2
  | step s th op hr _ ih => exact exec_tidy (reachable_inv hr) ih th op

/-! ## C11: abortT on an irrevocable transaction -/

theorem pledged_reachable : Reachable pledged :=
  Reachable.run start_reachable _ (by decide)

theorem released_reachable : Reachable released :=
  Reachable.run (Reachable.init _ _ _ _) _ (by decide)

/-- The commit of an irrevocable transaction returns normally. -/
theorem commitT_irr_ok {th c : Nat} {s : State} (hi : Inv s)
    (hc : s.currentTransaction th = some c) (hirr : (s.txs c).amIIrrevocable = true) :
    (commitT th s).1 = .ok () := by
  rcases @commitT_cases th s hi with ⟨h, -⟩ | ⟨c', h, -⟩ | ⟨c', -, h2, h3⟩
  · rw [hc] at h; cases h
  · exact h
  · have := h2.cur
    rw [hc] at this
    cases this
    rw [hirr] at h3
    cases h3

/-- C11: `abortT` on an irrevocable transaction calls the hook `forcingAbortOnIrr` first.
If the hook throws (the default hook throws `InvalidUseException`), `abortT` throws the same
exception and the state is exactly as before the call: the transaction is still installed,
irrevocable and not marked aborted, `irrTransactionLock` and the variable locks of the
transaction are still held, every `usedByIrr` flag is as it was, and a following `commitT`
returns normally. If the hook returns, `abortT` returns normally, `usedByIrr` is false on the
read and write sets of the transaction, the transaction is marked aborted,
`irrTransactionLock` and all locks the transaction held are released and the slot of the
thread is empty. -/
theorem forced_abort {s : State} {th c : Nat} (hr : Reachable s)
    (hc : s.currentTransaction th = some c) (hirr : (s.txs c).amIIrrevocable = true) :
    (∀ e, s.forcingAbortOnIrr = some e →
      abortT th s = (.error e, s) ∧
      (s.txs c).aborted = false ∧ s.irrTransactionLock = true ∧
      (∀ v, v ∈ (s.txs c).locksHeld → (s.vars v).lock = true) ∧
      (commitT th (abortT th s).2).1 = .ok ()) ∧
    (s.forcingAbortOnIrr = none →
      (abortT th s).1 = .ok () ∧
      (∀ v, v ∈ (s.txs c).rsetBuffers ∨ v ∈ (s.txs c).wsetBuffers →
        ((abortT th s).2.vars v).usedByIrr = false) ∧
      ((abortT th s).2.txs c).aborted = true ∧
      (abortT th s).2.irrTransactionLock = false ∧
      (∀ v, v ∈ (s.txs c).locksHeld → ((abortT th s).2.vars v).lock = false) ∧
      (abortT th s).2.currentTransaction th = none) := by
  have hi := reachable_inv hr
  have hca := hi.cur_alive th c hc
  have hcom := hi.not_comitted c hca
  obtain ⟨-, -, k3, k4⟩ := hi.irr_locks c hca hirr
  constructor
  · intro e he
    have h : abortT th s = (.error e, s) := by
      unfold abortT
      rw [hc]
      dsimp only
      unfold abort
      rw [if_neg (by rw [hcom]; simp), if_pos hirr, he]
    refine ⟨h, k3, k4, fun v hv => hi.held_locked c v hca hv, ?_⟩
    rw [h]
    exact commitT_irr_ok hi hc hirr
  · intro hk
    obtain ⟨r1, r2⟩ := abortT_releases hi hc hirr hk
    have he := abortT_extra hi hc
    rcases @abortT_cases th s hi with ⟨e, h⟩ | ⟨c', -, hd⟩
    · rw [h] at r1; cases r1
    · have := hd.cur
      rw [hc] at this
      cases this
      refine ⟨r1, he.used_gone hd.dead hirr, ?_, r2, he.unlocked hd.dead, ?_⟩
      · unfold abortT
        rw [hc]
        dsimp only
        unfold abort
        rw [if_neg (by rw [hcom]; simp), if_pos hirr, hk]
        dsimp only
        rw [cleanup_txs (by simpa using hc), if_pos rfl]
        simp
      · rw [hd.cur_eq]
        simp

theorem forced_abort_witness :
    (pledged.currentTransaction 0 = some 0 ∧ (pledged.txs 0).amIIrrevocable = true ∧
      pledged.forcingAbortOnIrr = some .InvalidUseException ∧
      abortT 0 pledged = (.error .InvalidUseException, pledged) ∧
      (commitT 0 (abortT 0 pledged).2).1 = .ok ()) ∧
    (released.currentTransaction 0 = some 0 ∧ (released.txs 0).amIIrrevocable = true ∧
      released.forcingAbortOnIrr = none ∧ (released.vars 0).usedByIrr = true ∧
      (released.vars 0).lock = true ∧ released.irrTransactionLock = true ∧
      (abortT 0 released).1 = .ok () ∧ ((abortT 0 released).2.vars 0).usedByIrr = false ∧
      ((abortT 0 released).2.vars 0).lock = false ∧
      (abortT 0 released).2.irrTransactionLock = false ∧
      (abortT 0 released).2.currentTransaction 0 = none) :=
  have h1 := (@forced_abort pledged 0 0 pledged_reachable (by decide) (by decide)).1
    .InvalidUseException (by decide)
  have h2 := (@forced_abort released 0 0 released_reachable (by decide) (by decide)).2
    (by decide)
  ⟨⟨by decide, by decide, by decide, h1.1, h1.2.2.2.2⟩,
    ⟨by decide, by decide, by decide, by decide, by decide, by decide, h2.1,
      h2.2.1 0 (Or.inl (by decide)), h2.2.2.2.2.1 0 (by decide), h2.2.2.2.1, h2.2.2.2.2.2⟩⟩

/-! ## C13: committed and aborted exclude each other -/

theorem settled_reachable : Reachable settled :=
  Reachable.step _ 0 .commitT wroteFive_reachable (by decide)

theorem Lives.comitted_eq {th c : Nat} {s s' : State} (h : Lives th c s s') (x : Nat) :
    (s'.txs x).comitted = (s.txs x).comitted := by
  by_cases hx : x = c
  · rw [hx]; exact h.c_comitted
  · exact (h.others x hx).comitted

/-- A transaction that a failed call has ended is not committed. -/
theorem Ended.not_comitted {th c : Nat} {s s' : State} (ht : Tidy s') (h : Ended th c s s') :
    (s'.txs c).comitted = false := by
  cases hcm : (s'.txs c).comitted
  · rfl
  · have := (ht.fate c hcm).2.2
    rw [h.aborted] at this
    cases this

/-- An `abortT` that returns normally has marked the transaction aborted. -/
theorem abortT_marks {th c : Nat} {s : State} (hi : Inv s)
    (hc : s.currentTransaction th = some c) (hok : (abortT th s).1 = .ok ()) :
    ((abortT th s).2.txs c).aborted = true := by
  have hca := hi.cur_alive th c hc
  have hcom := hi.not_comitted c hca
  revert hok
  unfold abortT
  rw [hc]
  dsimp only
  cases hirr : (s.txs c).amIIrrevocable with
  | false =>
    rw [abort_revocable hcom hirr]
    intro _
    dsimp only
    rw [cleanup_txs (by simpa using hc), if_pos rfl]
    simp
  | true =>
    unfold abort
    rw [if_neg (by rw [hcom]; simp), if_pos hirr]
    cases hk : s.forcingAbortOnIrr with
    | some e => intro h; cases h
    | none =>
      intro _
      dsimp only
      rw [cleanup_txs (by simpa using hc), if_pos rfl]
      simp

/-- Only its own `commitT`, returning normally and having found `aborted` false, sets the
`comitted` flag of a transaction. -/
theorem exec_commits {s : State} (hi : Inv s) (ht : Tidy s) (th : Nat) (op : Op) (x : Nat)
    (h0 : (s.txs x).comitted = false) (h1 : ((exec th op s).2.txs x).comitted = true) :
    op = .commitT ∧ s.currentTransaction th = some x ∧ (s.txs x).aborted = false ∧
      (exec th op s).1 = .ok () := by
  have ht' := exec_tidy hi ht th op
  have no : ∀ s' : State, (s'.txs x).comitted = (s.txs x).comitted →
      (s'.txs x).comitted = true → False := by
    intro s' h h'
    rw [h, h0] at h'
    cases h'
  have dies : ∀ {c : Nat} {s' : State}, Dies th c s s' → Ended th c s s' → Tidy s' →
      (s'.txs x).comitted = true → False := by
    intro c s' hd he htt h
    by_cases hx : x = c
    · rw [hx, he.not_comitted htt] at h
      cases h
    · exact no s' (hd.others x hx).comitted h
  have hrw : ∀ v, ((rw th v s).2.txs x).comitted = true → False := by
    intro v h
    have htt : Tidy (rw th v s).2 := exec_tidy hi ht th (.rw v)
    rcases @rw_cases th v s hi with
      ⟨c, b, -, -, e⟩ | ⟨-, -, e⟩ | ⟨e', -, -, e⟩ | ⟨c, b, -, hl, -⟩ | ⟨c, e, hd, hirr⟩
    · exact no _ (by rw [e]) h
    · exact no _ (by rw [e]) h
    · exact no _ (by rw [e]) h
    · exact no _ (hl.comitted_eq x) h
    · rcases rw_failed (v := v) hi hd.cur hirr with ⟨b, hb⟩ | ⟨-, he⟩
      · rw [e] at hb; cases hb
      · exact dies hd he htt h
  cases op with
  | beginT =>
    exfalso
    revert h1
    simp only [exec, beginT]
    cases hc : s.currentTransaction th with
    | some c => exact no s rfl
    | none =>
      dsimp only
      by_cases hx : x = s.nextTx
      · rw [hx, Function.update_same]; simp
      · rw [Function.update_noteq hx, h0]; simp
  | abortT =>
    exfalso
    rcases @abortT_cases th s hi with ⟨e, h⟩ | ⟨c, hok, hd⟩
    · exact no _ (by simp only [exec]; rw [h]) h1
    · by_cases hx : x = c
      · have := abortT_marks hi hd.cur hok
        have h2 := (ht'.fate x h1).2.2
        rw [hx] at h2
        simp only [exec] at h2
        rw [this] at h2
        cases h2
      · exact no _ (hd.others x hx).comitted h1
  | irrT =>
    exfalso
    rcases @irrT_cases th s hi with ⟨-, e⟩ | ⟨c, -, -, e⟩ | ⟨c, -, hl, -⟩ | ⟨c, e, hd, hirr⟩
    · exact no _ (by simp only [exec]; rw [e]) h1
    · exact no _ (by simp only [exec]; rw [e]) h1
    · exact no _ (hl.comitted_eq x) h1
    · rcases irrT_failed hi hd.cur hirr with hb | ⟨-, he⟩
      · rw [e] at hb; cases hb
      · exact dies hd he ht' h1
  | commitT =>
    rcases @commitT_cases th s hi with ⟨-, e⟩ | ⟨c, hok, hd, hab⟩ | ⟨c, e, hd, hirr⟩
    · exact (no _ (by simp only [exec]; rw [e]) h1).elim
    · by_cases hx : x = c
      · rw [hx]
        exact ⟨rfl, hd.cur, hab, hok⟩
      · exact (no _ (hd.others x hx).comitted h1).elim
    · exfalso
      rcases commitT_failed hi hd.cur hirr with hb | ⟨-, he⟩
      · rw [e] at hb; cases hb
      · exact dies hd he ht' h1
  | ro v =>
    exfalso
    rcases @ro_cases th v s hi with
      ⟨c, b, -, -, e⟩ | ⟨-, -, e⟩ | ⟨e', -, -, e⟩ | ⟨c, b, -, hl, -⟩ | ⟨c, e, hd, hirr⟩
    · exact no _ (by simp only [exec]; rw [e]) h1
    · exact no _ (by simp only [exec]; rw [e]) h1
    · exact no _ (by simp only [exec]; rw [e]) h1
    · exact no _ (hl.comitted_eq x) h1
    · rcases ro_failed (v := v) hi hd.cur hirr with ⟨b, hb⟩ | ⟨-, he⟩
      · rw [e] at hb; cases hb
      · exact dies hd he ht' h1
  | rw v => exact (hrw v h1).elim
  | assign v val =>
    exfalso
    apply hrw v
    have h2 : ((assign th v val s).2.txs x).comitted = true := h1
    rcases assign_state th v val s with e | ⟨b, -, -, e⟩
    · rw [e] at h2; exact h2
    · rw [e] at h2; exact h2

/-- A committed transaction has been assigned its number already. -/
theorem reachable_born {s : State} (hr : Reachable s) (x : Nat)
    (hx : (s.txs x).comitted = true) : x < s.nextTx := by
  induction hr with
  | init n vals h1 h2 => simp [initState] at hx
  | step s th op hr _ ih =>
    have hi := reachable_inv hr
    cases h0 : (s.txs x).comitted with
    | true =>
      have := ih h0
      rcases exec_eff hi th op with ⟨hp, h⟩ | ⟨c, h⟩ | ⟨c, h⟩ | ⟨-, h⟩
      · rw [h]; exact this
      · rw [h.nextTx_eq]; exact this
      · rw [h.nextTx_eq]; exact this
      · rw [h]
        unfold beginT
        split
        · exact this
        · exact Nat.lt_succ_of_lt this
    | false =>
      obtain ⟨-, hc, -, -⟩ := exec_commits hi (reachable_tidy hr) th op x h0 hx
      have hn : (exec th .commitT s).2.nextTx = s.nextTx := by
        rcases exec_eff hi th .commitT with ⟨hp, h⟩ | ⟨c, h⟩ | ⟨c, h⟩ | ⟨hn, h⟩
        · rw [h]
        · exact h.nextTx_eq
        · exact h.nextTx_eq
        · rw [hc] at hn; cases hn
      have hop := (exec_commits hi (reachable_tidy hr) th op x h0 hx).1
      subst hop
      rw [hn]
      exact hi.alive_lt x (hi.cur_alive th x hc)

/-- No call resets the `comitted` flag of a transaction. -/
theorem exec_stays_comitted {s : State} (hr : Reachable s) (th : Nat) (op : Op) (x : Nat)
    (hx : (s.txs x).comitted = true) : ((exec th op s).2.txs x).comitted = true := by
  have hi := reachable_inv hr
  have hne : ∀ c, (s.txs c).alive = true → x ≠ c := by
    intro c hc e
    rw [e, hi.not_comitted c hc] at hx
    cases hx
  rcases exec_eff hi th op with ⟨hp, h⟩ | ⟨c, h⟩ | ⟨c, h⟩ | ⟨-, h⟩
  · rw [h]; exact hx
  · rw [h.comitted_eq]; exact hx
  · rw [(h.others x (hne c (hi.cur_alive th c h.cur))).comitted]; exact hx
  · rw [h]
    unfold beginT
    split
    · exact hx
    · dsimp only
      rw [Function.update_noteq (Nat.ne_of_lt (reachable_born hr x hx))]
      exact hx

/-! ## C14: a failed promotion -/

theorem shadowed_reachable : Reachable shadowed :=
  Reachable.run start_reachable _ (by decide)

/-- The loop of `acquireReadset` gets through when every lock it asks for is free. -/
theorem acquireReadsetLoop_some (rest acquired used : List Nat) (s : State)
    (hn : rest.Nodup) (hf : ∀ k ∈ rest, (s.vars k).lock = false) :
    ∃ acq, (acquireReadsetLoop rest acquired used s).1 = some acq := by
  induction rest generalizing acquired used s with
  | nil => exact ⟨acquired, rfl⟩
  | cons var rest ih =>
    obtain ⟨-, a2, a3⟩ := acquireRead_spec var s
    rw [acquireReadsetLoop]
    rw [hf var (List.mem_cons_self _ _)] at a2
    simp only [Bool.not_false] at a2
    rw [a2]
    simp only [if_true]
    apply ih _ _ _ (List.nodup_cons.1 hn).2
    intro k hk
    rw [(a3 k).2.2.2, hf k (List.mem_cons_of_mem _ hk)]
    have : k ≠ var := fun e => (List.nodup_cons.1 hn).1 (e ▸ hk)
    simp [this]

theorem acquireReadset_ok (c : Nat) (s : State)
    (hf : ∀ k, k ∈ (s.txs c).rsetBuffers → (s.vars k).lock = false) :
    (acquireReadset c s).1 = true := by
  obtain ⟨acq, h⟩ := acquireReadsetLoop_some (s.txs c).rsetBuffers.keys [] [] s
    (s.txs c).rsetBuffers.keys_nodup (fun k hk => hf k (AList.mem_keys.2 hk))
  unfold acquireReadset
  revert h
  generalize acquireReadsetLoop (s.txs c).rsetBuffers.keys [] [] s = r
  obtain ⟨r1, r2⟩ := r
  intro h
  simp only at h
  subst h
  rfl

/-- The promotion of a revocable transaction succeeds when `irrTransactionLock`, the locks of
its read set and its own two locks are all free. -/
theorem irrT_succeeds {th c : Nat} {s : State}
    (hc : s.currentTransaction th = some c) (hirr : (s.txs c).amIIrrevocable = false)
    (hl : s.irrTransactionLock = false)
    (hf : ∀ k, k ∈ (s.txs c).rsetBuffers → (s.vars k).lock = false)
    (h1 : (s.txs c).cleanReadsetLock = false) (h2 : (s.txs c).commitLock = false) :
    (irrT th s).1 = .ok () := by
  unfold irrT
  rw [hc]
  dsimp only
  unfold irr
  simp only [hirr, hl, Bool.false_eq_true, if_false]
  have hok := acquireReadset_ok c { s with irrTransactionLock := true } hf
  obtain ⟨-, -, -, -, -, -, -, -, a9⟩ :=
    acquireReadset_spec c { s with irrTransactionLock := true }
  revert a9 hok
  generalize acquireReadset c { s with irrTransactionLock := true } = r
  obtain ⟨r1, r2⟩ := r
  intro hok a9
  simp only at a9 hok
  subst hok
  obtain ⟨⟨lh, b1, -⟩, -, -⟩ := a9 rfl
  simp only [Bool.not_true, Bool.false_eq_true, if_false]
  have e1 : (r2.txs c).cleanReadsetLock = false := by rw [b1]; exact h1
  have e2 : (r2.txs c).commitLock = false := by rw [b1]; exact h2
  simp [e1, e2]

theorem abortThrow_stays_revocable {α : Type} {th c : Nat} {s1 : State} (e : Exc)
    (hc : s1.currentTransaction th = some c) (h1 : (s1.txs c).comitted = false)
    (h2 : (s1.txs c).amIIrrevocable = false) :
    ((abortThrow th c e s1 : Res α).2.txs c).amIIrrevocable = false := by
  rw [abortThrow_revocable e h1 h2]
  dsimp only
  rw [cleanup_txs (by simpa using hc), if_pos rfl]
  simpa using h2

/-- A promotion that fails does not set `amIIrrevocable`. -/
theorem irrT_failed_revocable {th c : Nat} {s : State} (hi : Inv s)
    (hc : s.currentTransaction th = some c) (hirr : (s.txs c).amIIrrevocable = false)
    (hf : (irrT th s).1 ≠ .ok ()) : ((irrT th s).2.txs c).amIIrrevocable = false := by
  have hcom := hi.not_comitted c (hi.cur_alive th c hc)
  revert hf
  unfold irrT
  rw [hc]
  dsimp only
  unfold irr
  simp only [hirr, Bool.false_eq_true, if_false]
  split
  · intro _
    exact abortThrow_stays_revocable _ hc hcom hirr
  · obtain ⟨a1, -, -, -, -, -, -, a8, a9⟩ :=
      acquireReadset_spec c { s with irrTransactionLock := true }
    revert a1 a8 a9
    generalize acquireReadset c { s with irrTransactionLock := true } = r
    obtain ⟨r1, r2⟩ := r
    intro a1 a8 a9
    simp only at a1 a8 a9
    cases r1 with
    | false =>
      obtain ⟨b1, -⟩ := a8 rfl
      simp only [Bool.not_false, if_true]
      intro _
      refine abortThrow_stays_revocable _ ?_ ?_ ?_
      · show r2.currentTransaction th = some c
        rw [a1]; exact hc
      · show (r2.txs c).comitted = false
        rw [b1]; exact hcom
      · show (r2.txs c).amIIrrevocable = false
        rw [b1]; exact hirr
    | true =>
      obtain ⟨⟨lh, b1, b2⟩, -⟩ := a9 rfl
      simp only [Bool.not_true, Bool.false_eq_true, if_false]
      split
      · intro _
        refine abortThrow_stays_revocable _ ?_ ?_ ?_
        · show (storeUsedByIrr false _ _).currentTransaction th = some c
          rw [storeUsedByIrr_cur]
          split
          · show r2.currentTransaction th = some c
            rw [a1]; exact hc
          · show r2.currentTransaction th = some c
            rw [a1]; exact hc
        · show ((storeUsedByIrr false _ _).txs c).comitted = false
          rw [storeUsedByIrr_txs]
          split <;> simp [b1, hcom]
        · show ((storeUsedByIrr false _ _).txs c).amIIrrevocable = false
          rw [storeUsedByIrr_txs]
          split <;> simp [b1, hirr]
      · intro h
        exact absurd rfl h

/-- A promotion that finds `irrTransactionLock` held touches no `usedByIrr` flag. -/
theorem irrT_contended_used {th c : Nat} {s : State} (hi : Inv s)
    (hc : s.currentTransaction th = some c) (hirr : (s.txs c).amIIrrevocable = false)
    (hl : s.irrTransactionLock = true) (v : Nat) :
    ((irrT th s).2.vars v).usedByIrr = (s.vars v).usedByIrr := by
  have hcom := hi.not_comitted c (hi.cur_alive th c hc)
  unfold irrT
  rw [hc]
  dsimp only
  unfold irr
  simp only [hirr, hl, Bool.false_eq_true, if_false, if_true]
  rw [abortThrow_revocable _ hcom hirr]
  dsimp only
  rw [cleanup_vars (by simpa using hc)]
  split <;> simp

/-- C14 (amended): for a revocable transaction `c` installed in a reachable state, `irrT`
fails exactly when `irrTransactionLock` is held, or the lock of a variable of the read set is
held, or `cleanReadsetLock` or `commitLock` of the transaction is taken. When it fails it
throws `IrrevocTransException`, the transaction is marked aborted, is not irrevocable and is
no longer installed, every `usedByIrr` flag is exactly as before the call (all are false if
`irrTransactionLock` was free, and a flag raised by the holder of `irrTransactionLock` stays
raised), the locks the transaction held are free, every other lock is as it was, and
`irrTransactionLock` is as before the call. -/
theorem failed_promotion {s : State} {th c : Nat} (hr : Reachable s)
    (hc : s.currentTransaction th = some c) (hirr : (s.txs c).amIIrrevocable = false) :
    ((irrT th s).1 ≠ .ok () ↔
      (s.irrTransactionLock = true ∨
        (∃ v, v ∈ (s.txs c).rsetBuffers ∧ (s.vars v).lock = true) ∨
        (s.txs c).cleanReadsetLock = true ∨ (s.txs c).commitLock = true)) ∧
    ((irrT th s).1 ≠ .ok () →
      (irrT th s).1 = .error .IrrevocTransException ∧
      ((irrT th s).2.txs c).aborted = true ∧
      ((irrT th s).2.txs c).amIIrrevocable = false ∧
      (irrT th s).2.currentTransaction th = none ∧
      (∀ v, ((irrT th s).2.vars v).usedByIrr = (s.vars v).usedByIrr) ∧
      (s.irrTransactionLock = false → ∀ v, ((irrT th s).2.vars v).usedByIrr = false) ∧
      (∀ v, v ∈ (s.txs c).locksHeld → ((irrT th s).2.vars v).lock = false) ∧
      (∀ v, v ∉ (s.txs c).locksHeld → ((irrT th s).2.vars v).lock = (s.vars v).lock) ∧
      (irrT th s).2.irrTransactionLock = s.irrTransactionLock) := by
  have hi := reachable_inv hr
  have ht := reachable_tidy hr
  have hca := hi.cur_alive th c hc
  have notirr : ∀ x, (s.txs x).alive = true → (s.txs x).amIIrrevocable = true →
      s.irrTransactionLock = true := fun x h1 h2 => (hi.irr_locks x h1 h2).2.2.2
  have fails : (irrT th s).1 ≠ .ok () →
      (irrT th s).1 = .error .IrrevocTransException ∧ Ended th c s (irrT th s).2 ∧
      Dies th c s (irrT th s).2 := by
    intro hf
    rcases irrT_failed hi hc hirr with h | ⟨h1, h2⟩
    · exact absurd h hf
    · refine ⟨h1, h2, ?_⟩
      rcases @irrT_cases th s hi with ⟨h, -⟩ | ⟨c', -, -, h⟩ | ⟨c', h, -⟩ | ⟨c', -, hd, -⟩
      · rw [hc] at h; cases h
      · rw [h] at hf; exact absurd rfl hf
      · exact absurd h hf
      · have := hd.cur
        rw [hc] at this
        cases this
        exact hd
  constructor
  · constructor
    · intro hf
      by_contra hno
      simp only [not_or, not_exists, not_and, Bool.not_eq_true] at hno
      obtain ⟨n1, n2, n3, n4⟩ := hno
      exact hf (irrT_succeeds hc hirr n1 n2 n3 n4)
    · intro hcause hok
      rcases hcause with h | ⟨v, hv, hl⟩ | h | h
      · rcases @irrT_cases th s hi with ⟨e, -⟩ | ⟨c', e, e2, -⟩ | ⟨c', -, -, -, -, e⟩ |
          ⟨c', e, -, -⟩
        · rw [hc] at e; cases e
        · rw [hc] at e; cases e; rw [hirr] at e2; cases e2
        · rw [h] at e; cases e
        · rw [hok] at e; cases e
      · have := (irrT_ok_sets hc hirr hok).2.2 v hv
        rw [hl] at this; cases this
      · rcases @irrT_cases th s hi with ⟨e, -⟩ | ⟨c', e, e2, -⟩ | ⟨c', -, hl, -, e4, -⟩ |
          ⟨c', e, -, -⟩
        · rw [hc] at e; cases e
        · rw [hc] at e; cases e; rw [hirr] at e2; cases e2
        · have := hl.cur
          rw [hc] at this
          cases this
          have hab : (s.txs c).aborted = true := by
            rcases hi.crl_dead c hca h with h' | h'
            · exact h'
            · rw [hirr] at h'; cases h'
          have := (hl.c_irr_new e4 hirr).2.2.1
          rw [hl.c_aborted, hab] at this
          cases this
        · rw [hok] at e; cases e
      · rcases @irrT_cases th s hi with ⟨e, -⟩ | ⟨c', e, e2, -⟩ | ⟨c', -, hl, -, e4, -⟩ |
          ⟨c', e, -, -⟩
        · rw [hc] at e; cases e
        · rw [hc] at e; cases e; rw [hirr] at e2; cases e2
        · have := hl.cur
          rw [hc] at this
          cases this
          have hab : (s.txs c).aborted = true := by
            rcases hi.cl_dead c hca h with h' | h'
            · exact h'
            · rw [hirr] at h'; cases h'
          have := (hl.c_irr_new e4 hirr).2.2.1
          rw [hl.c_aborted, hab] at this
          cases this
        · rw [hok] at e; cases e
  · intro hf
    obtain ⟨f1, f2, f3⟩ := fails hf
    have he := irrT_extra hi hc
    have down : ∀ v, ((irrT th s).2.vars v).usedByIrr = true → (s.vars v).usedByIrr = true := by
      intro v hv
      rcases he.used_le v hv with h | ⟨h, -⟩
      · exact h
      · rw [f2.dead] at h; cases h
    have free : s.irrTransactionLock = false → ∀ v, (s.vars v).usedByIrr = false := by
      intro hl v
      cases hu : (s.vars v).usedByIrr
      · rfl
      · obtain ⟨x, x1, x2, -⟩ := ht.used_owner v hu
        rw [notirr x x1 x2] at hl
        cases hl
    have same : ∀ v, ((irrT th s).2.vars v).usedByIrr = (s.vars v).usedByIrr := by
      intro v
      cases hl : s.irrTransactionLock
      · rw [free hl v]
        cases hu : ((irrT th s).2.vars v).usedByIrr
        · rfl
        · have := down v hu
          rw [free hl v] at this
          cases this
      · exact irrT_contended_used hi hc hirr hl v
    refine ⟨f1, f2.aborted, irrT_failed_revocable hi hc hirr hf, f2.slot, same, ?_, f2.unlocked,
      ?_, ?_⟩
    · intro hl v
      rw [same v]
      exact free hl v
    · intro v hv
      rcases f3.lock v with h | h
      · exact h
      · exact absurd h hv
    · rcases f3.irrLock with h | h
      · exact h
      · rw [hirr] at h; cases h

/-- C14, at a concrete input: thread 0 read variable 0, thread 1 was promoted and read it
too; the `irrT` of thread 0 fails and `usedByIrr` of variable 0, a variable of the read set
of the failed transaction, is still raised. -/
theorem lingering_flag_counterexample :
    shadowed.currentTransaction 0 = some 0 ∧
    (shadowed.txs 0).rsetBuffers.lookup 0 = some (Buf.alloc 0) ∧
    (irrT 0 shadowed).1 = .error .IrrevocTransException ∧
    ((irrT 0 shadowed).2.vars 0).usedByIrr = true := by
  decide

theorem failed_promotion_witness :
    Reachable shadowed ∧ shadowed.currentTransaction 0 = some 0 ∧
    (shadowed.txs 0).amIIrrevocable = false ∧ shadowed.irrTransactionLock = true ∧
    (irrT 0 shadowed).1 = .error .IrrevocTransException ∧
    ((irrT 0 shadowed).2.txs 0).aborted = true ∧
    (irrT 0 shadowed).2.irrTransactionLock = true ∧
    ((irrT 0 shadowed).2.vars 0).lock = (shadowed.vars 0).lock :=
  have h := @failed_promotion shadowed 0 0 shadowed_reachable (by decide) (by decide)
  have hf : (irrT 0 shadowed).1 ≠ .ok () := h.1.2 (Or.inl (by decide))
  ⟨shadowed_reachable, by decide, by decide, by decide, (h.2 hf).1, (h.2 hf).2.1,
    (h.2 hf).2.2.2.2.2.2.2.2.trans (by decide), (h.2 hf).2.2.2.2.2.2.2.1 0 (by decide)⟩

/-! ## C16 and C17: the first access of a variable by a revocable transaction -/

theorem lookup_none_of_not_mem {m : BufMap} {v : Nat} (h : v ∉ m) : m.lookup v = none := by
  cases hl : m.lookup v with
  | none => rfl
  | some b => exact absurd (mem_iff_lookup.2 ⟨b, hl⟩) h

/-- The first `ro` of a variable by a revocable transaction that is not marked aborted, the
dirty flags of the variable being false: the closed form. `usedByIrr` is not consulted. -/
theorem ro_revocable_first {th c v : Nat} {s : State}
    (hc : s.currentTransaction th = some c) (hirr : (s.txs c).amIIrrevocable = false)
    (hr : (s.txs c).rsetBuffers.lookup v = none) (hw : (s.txs c).wsetBuffers.lookup v = none)
    (hd : (s.vars v).dirty = false) (hdi : (s.vars v).dirtyIrr = false)
    (hab : (s.txs c).aborted = false) :
    ro th v s = (.ok (Buf.alloc s.nextBuf), setRset c v (Buf.alloc s.nextBuf)
      ((s.modVar v fun x =>
        { x with readers := Function.update x.readers th (some c) }).newT
          (s.heap (s.vars v).varPtr))) := by
  unfold ro roFuel
  simp [hc, hr, hw, hirr, hd, hdi, hab]

/-- The first `ro` of a variable by a revocable transaction that is marked aborted. -/
theorem ro_revocable_poisoned {th c v : Nat} {s : State}
    (hc : s.currentTransaction th = some c) (hcom : (s.txs c).comitted = false)
    (hirr : (s.txs c).amIIrrevocable = false)
    (hr : (s.txs c).rsetBuffers.lookup v = none) (hw : (s.txs c).wsetBuffers.lookup v = none)
    (hab : (s.txs c).aborted = true) :
    (ro th v s).1 = .error .ReadFailedException := by
  have key : ∀ s1 : State, (s1.txs c).comitted = false → (s1.txs c).amIIrrevocable = false →
      (abortThrow th c .ReadFailedException s1 : Res Buf).1 = .error .ReadFailedException := by
    intro s1 h1 h2
    rw [abortThrow_revocable _ h1 h2]
  unfold ro roFuel
  simp only [hc, hr, hw, hirr, Bool.false_eq_true, if_false]
  split
  · exact key _ (by simpa using hcom) (by simpa using hirr)
  · simp only [newT_txs, modVar_txs, hab, if_true]
    exact key _ (by simpa using hcom) (by simpa using hirr)

/-- The first `rw` of a variable by a revocable transaction, `usedByIrr` being raised or the
lock being held: the closed form. -/
theorem rw_revocable_blocked {th c v : Nat} {s : State}
    (hc : s.currentTransaction th = some c) (hcom : (s.txs c).comitted = false)
    (hirr : (s.txs c).amIIrrevocable = false)
    (hw : (s.txs c).wsetBuffers.lookup v = none)
    (hb : (s.vars v).usedByIrr = true ∨ (s.vars v).lock = true) :
    rw th v s = (.error .WriteFailedException,
      cleanup th c (s.modTx c fun t => { t with aborted := true })) := by
  unfold rw rwFuel
  simp only [hc, hw, hirr, Bool.false_eq_true, if_false]
  rcases hb with hb | hb
  · rw [if_pos hb, abortThrow_revocable _ hcom hirr]
  · split
    · rw [abortThrow_revocable _ hcom hirr]
    · first
      | rw [if_pos hb, abortThrow_revocable _ hcom hirr]
      | rw [abortThrow_revocable _ hcom hirr]

/-- The first `rw` of a variable by a revocable transaction that is not marked aborted,
`usedByIrr` being false and the lock free: the closed form. -/
theorem rw_revocable_free {th c v : Nat} {s : State}
    (hc : s.currentTransaction th = some c) (hirr : (s.txs c).amIIrrevocable = false)
    (hw : (s.txs c).wsetBuffers.lookup v = none)
    (hu : (s.vars v).usedByIrr = false) (hl : (s.vars v).lock = false)
    (hab : (s.txs c).aborted = false) :
    (∀ rb, (s.txs c).rsetBuffers.lookup v = some rb →
      rw th v s = (.ok rb, (setWset c v rb (unsetRset c v (s.modVar v fun x =>
        { x with lock := true, previousLockOwner := x.mostRecentLockOwner,
                 mostRecentLockOwner := some c }))).modTx c fun t =>
          { t with locksHeld := t.locksHeld.insert v })) ∧
    ((s.txs c).rsetBuffers.lookup v = none →
      rw th v s = (.ok (Buf.alloc s.nextBuf), (setWset c v (Buf.alloc s.nextBuf)
        ((s.modVar v fun x =>
          { x with lock := true, previousLockOwner := x.mostRecentLockOwner,
                   mostRecentLockOwner := some c }).newT (s.heap (s.vars v).varPtr))).modTx c
          fun t => { t with locksHeld := t.locksHeld.insert v })) := by
  constructor
  · intro rb hr
    unfold rw rwFuel rwLocked
    simp [hc, hw, hirr, hu, hl, hr, unsetRset, hab]
  · intro hr
    unfold rw rwFuel rwLocked
    simp [hc, hw, hirr, hu, hl, hr, hab]

theorem bystander_reachable : Reachable bystander :=
  Reachable.step _ 0 .beginT (Reachable.run start_reachable _ (by decide)) (by decide)

/-- C16 (amended): a revocable transaction `c` of a reachable state accesses a variable `v`
that is in neither of its sets. If `usedByIrr` of `v` is raised, `rw` throws
`WriteFailedException`, the transaction is marked aborted and is no longer installed. `ro`
does not consult `usedByIrr`: if the transaction is not marked aborted, `ro` returns a new
buffer holding the authoritative value, whatever `usedByIrr` is, and the transaction goes on,
with `v` in its read set; if the transaction is marked aborted, `ro` throws
`ReadFailedException`. -/
theorem used_flag_stops_writers {s : State} {th c v : Nat} (hr : Reachable s)
    (hc : s.currentTransaction th = some c) (hirr : (s.txs c).amIIrrevocable = false)
    (h1 : v ∉ (s.txs c).rsetBuffers) (h2 : v ∉ (s.txs c).wsetBuffers) :
    ((s.vars v).usedByIrr = true →
      (rw th v s).1 = .error .WriteFailedException ∧
      ((rw th v s).2.txs c).aborted = true ∧ (rw th v s).2.currentTransaction th = none) ∧
    ((s.txs c).aborted = false →
      (ro th v s).1 = .ok (Buf.alloc s.nextBuf) ∧
      (ro th v s).2.heap (Buf.alloc s.nextBuf) = s.value v ∧
      (ro th v s).2.currentTransaction th = some c ∧
      ((ro th v s).2.txs c).aborted = false ∧
      ((ro th v s).2.txs c).rsetBuffers.lookup v = some (Buf.alloc s.nextBuf) ∧
      ((ro th v s).2.vars v).usedByIrr = (s.vars v).usedByIrr) ∧
    ((s.txs c).aborted = true → (ro th v s).1 = .error .ReadFailedException) := by
  have hi := reachable_inv hr
  have ht := reachable_tidy hr
  have hca := hi.cur_alive th c hc
  have hcom := hi.not_comitted c hca
  have l1 := lookup_none_of_not_mem h1
  have l2 := lookup_none_of_not_mem h2
  refine ⟨?_, ?_, ?_⟩
  · intro hu
    rcases rw_failed (v := v) hi hc hirr with ⟨b, hb⟩ | ⟨e, he⟩
    · rw [rw_revocable_blocked hc hcom hirr l2 (Or.inl hu)] at hb
      cases hb
    · exact ⟨e, he.aborted, he.slot⟩
  · intro hab
    rw [ro_revocable_first hc hirr l1 l2 (ht.clean v).1 (ht.clean v).2 hab]
    refine ⟨rfl, ?_, ?_, ?_, ?_, ?_⟩
    · simp [setRset, State.newT, State.value]
    · simpa [setRset] using hc
    · simpa [setRset] using hab
    · simp [setRset]
    · simp [setRset]
  · intro hab
    exact ro_revocable_poisoned hc hcom hirr l1 l2 hab

/-- C16, at a concrete input: `usedByIrr` of variable 0 is raised by the irrevocable
transaction of thread 1, and the first `ro` of variable 0 by the revocable transaction of
thread 0 returns a buffer; the transaction is not aborted. -/
theorem reader_passes_counterexample :
    (bystander.vars 0).usedByIrr = true ∧ bystander.currentTransaction 0 = some 1 ∧
    (bystander.txs 1).amIIrrevocable = false ∧
    (bystander.txs 1).rsetBuffers.lookup 0 = none ∧
    (bystander.txs 1).wsetBuffers.lookup 0 = none ∧
    (ro 0 0 bystander).1 = .ok (Buf.alloc 1) ∧
    ((ro 0 0 bystander).2.txs 1).aborted = false ∧
    (ro 0 0 bystander).2.currentTransaction 0 = some 1 := by
  decide

theorem used_flag_stops_writers_witness :
    Reachable bystander ∧ bystander.currentTransaction 0 = some 1 ∧
    (bystander.txs 1).amIIrrevocable = false ∧ (bystander.vars 0).usedByIrr = true ∧
    (bystander.txs 1).aborted = false ∧
    (rw 0 0 bystander).1 = .error .WriteFailedException ∧
    (ro 0 0 bystander).1 = .ok (Buf.alloc bystander.nextBuf) :=
  have h := @used_flag_stops_writers bystander 0 1 0 bystander_reachable (by decide)
    (by decide) (by decide) (by decide)
  ⟨bystander_reachable, by decide, by decide, by decide, by decide, (h.1 (by decide)).1,
    (h.2.1 (by decide)).1⟩

theorem contender_begun : Reachable (exec 0 .beginT start).2 :=
  Reachable.step _ 0 .beginT start_reachable (by decide)

/-- C17: the first `rw` of a variable `v` by a revocable transaction `c` of a reachable
state (`v` is not in the write set) does not wait. The lock of `v` is not held by `c`. If
`usedByIrr` of `v` is raised or the lock of `v` is held, `rw` throws `WriteFailedException`,
the transaction is marked aborted and no longer installed, and the lock of `v`, its
`mostRecentLockOwner`, its `varPtr` and its authoritative value are as before the call.
If the flag is false, the lock free and the transaction not marked aborted, `rw` returns a
buffer `b`: the lock of `v` is held and in `locksHeld` of `c`, `mostRecentLockOwner` is `c`,
`v` is bound to `b` in the write set, the authoritative value of `v` is unchanged, and `b`
is the buffer the read set held for `v`, with its content and taken out of the read set, or,
if `v` was not in the read set, a new cell holding the authoritative value. -/
theorem first_rw_revocable {s : State} {th c v : Nat} (hr : Reachable s)
    (hc : s.currentTransaction th = some c) (hirr : (s.txs c).amIIrrevocable = false)
    (hw : v ∉ (s.txs c).wsetBuffers) :
    v ∉ (s.txs c).locksHeld ∧
    ((s.vars v).usedByIrr = true ∨ (s.vars v).lock = true →
      (rw th v s).1 = .error .WriteFailedException ∧
      ((rw th v s).2.txs c).aborted = true ∧ (rw th v s).2.currentTransaction th = none ∧
      ((rw th v s).2.vars v).lock = (s.vars v).lock ∧
      ((rw th v s).2.vars v).mostRecentLockOwner = (s.vars v).mostRecentLockOwner ∧
      ((rw th v s).2.vars v).varPtr = (s.vars v).varPtr ∧
      (rw th v s).2.value v = s.value v) ∧
    ((s.vars v).usedByIrr = false → (s.vars v).lock = false → (s.txs c).aborted = false →
      ∃ b, (rw th v s).1 = .ok b ∧
        ((rw th v s).2.vars v).lock = true ∧ v ∈ ((rw th v s).2.txs c).locksHeld ∧
        ((rw th v s).2.vars v).mostRecentLockOwner = some c ∧
        ((rw th v s).2.txs c).wsetBuffers.lookup v = some b ∧
        (rw th v s).2.currentTransaction th = some c ∧
        (rw th v s).2.value v = s.value v ∧
        (∀ rb, (s.txs c).rsetBuffers.lookup v = some rb →
          b = rb ∧ (rw th v s).2.heap b = s.heap rb ∧
          ((rw th v s).2.txs c).rsetBuffers.lookup v = none) ∧
        ((s.txs c).rsetBuffers.lookup v = none →
          b = Buf.alloc s.nextBuf ∧ (rw th v s).2.heap b = s.value v)) := by
  have hi := reachable_inv hr
  have ht := reachable_tidy hr
  have hca := hi.cur_alive th c hc
  have hcom := hi.not_comitted c hca
  have l2 := lookup_none_of_not_mem hw
  have hnl : v ∉ (s.txs c).locksHeld := by
    intro h
    rcases ht.held_sets c v hca h with h' | ⟨h', -⟩
    · exact hw h'
    · rw [hirr] at h'; cases h'
  refine ⟨hnl, ?_, ?_⟩
  · intro hb
    rw [rw_revocable_blocked hc hcom hirr l2 hb]
    have hc' : (s.modTx c fun t => { t with aborted := true }).currentTransaction th = some c :=
      hc
    have hv : (cleanup th c (s.modTx c fun t => { t with aborted := true })).vars v =
        s.vars v := by
      rw [cleanup_vars hc']
      simp [hnl]
    refine ⟨rfl, ?_, ?_, ?_, ?_, ?_, ?_⟩
    · dsimp only
      rw [cleanup_txs hc', if_pos rfl]
      simp
    · dsimp only
      rw [cleanup_cur hc']
      simp
    · dsimp only; rw [hv]
    · dsimp only; rw [hv]
    · dsimp only; rw [hv]
    · simp only [State.value]
      rw [hv, (cleanup_rest hc').1]
      rfl
  · intro hu hl hab
    obtain ⟨f1, f2⟩ := rw_revocable_free hc hirr l2 hu hl hab
    have hauth : ∀ n, (s.vars v).varPtr ≠ Buf.alloc n ∨ n < s.nextBuf := by
      intro n
      by_cases h : (s.vars v).varPtr = Buf.alloc n
      · exact Or.inr (hi.var_lt v n h)
      · exact Or.inl h
    cases hrl : (s.txs c).rsetBuffers.lookup v with
    | some rb =>
      rw [f1 rb hrl]
      refine ⟨rb, rfl, ?_, ?_, ?_, ?_, ?_, ?_, ?_, ?_⟩
      · simp [setWset, unsetRset]
      · simp [setWset, unsetRset]
      · simp [setWset, unsetRset]
      · simp [setWset, unsetRset]
      · simpa [setWset, unsetRset] using hc
      · simp [setWset, unsetRset, State.value]
      · intro rb' h
        cases h
        refine ⟨rfl, ?_, ?_⟩
        · simp [setWset, unsetRset]
        · simp [setWset, unsetRset]
      · intro h; cases h
    | none =>
      rw [f2 hrl]
      have hne : (s.vars v).varPtr ≠ Buf.alloc s.nextBuf := by
        intro h
        exact Nat.lt_irrefl _ (hi.var_lt v _ h)
      refine ⟨Buf.alloc s.nextBuf, rfl, ?_, ?_, ?_, ?_, ?_, ?_, ?_, ?_⟩
      · simp [setWset]
      · simp [setWset]
      · simp [setWset]
      · simp [setWset]
      · simpa [setWset] using hc
      · simp [setWset, State.value, State.newT, Function.update_noteq hne]
      · intro rb' h; cases h
      · intro _
        refine ⟨rfl, ?_⟩
        simp [setWset, State.value, State.newT]

theorem first_rw_revocable_witness :
    (Reachable contender ∧ contender.currentTransaction 1 = some 1 ∧
      (contender.txs 1).amIIrrevocable = false ∧ (contender.vars 0).lock = true ∧
      (rw 1 0 contender).1 = .error .WriteFailedException ∧
      ((rw 1 0 contender).2.vars 0).lock = true ∧
      ((rw 1 0 contender).2.vars 0).mostRecentLockOwner = some 0 ∧
      (rw 1 0 contender).2.value 0 = 100) ∧
    (Reachable (exec 0 .beginT start).2 ∧
      ∃ b, (rw 0 0 (exec 0 .beginT start).2).1 = .ok b ∧
        ((rw 0 0 (exec 0 .beginT start).2).2.vars 0).lock = true ∧
        ((rw 0 0 (exec 0 .beginT start).2).2.vars 0).mostRecentLockOwner = some 0 ∧
        (rw 0 0 (exec 0 .beginT start).2).2.heap b = 100) :=
  have h1 := (@first_rw_revocable contender 1 1 0 contender_reachable (by decide) (by decide)
    (by decide)).2.1 (Or.inr (by decide))
  have h2 := (@first_rw_revocable (exec 0 .beginT start).2 0 0 0 contender_begun (by decide)
    (by decide) (by decide)).2.2 (by decide) (by decide) (by decide)
  ⟨⟨contender_reachable, by decide, by decide, by decide, h1.1,
      h1.2.2.2.1.trans (by decide), h1.2.2.2.2.1.trans (by decide),
      h1.2.2.2.2.2.2.trans (by decide)⟩,
    ⟨contender_begun, h2.elim fun b hb => ⟨b, hb.1, hb.2.1, hb.2.2.2.1,
      (hb.2.2.2.2.2.2.2.2 (by decide)).2.trans (by decide)⟩⟩⟩

/-! ## C18: every held lock has one holder -/

theorem irrRead_reachable : Reachable irrRead :=
  Reachable.run start_reachable _ (by decide)

/-- C18 (amended): in every reachable state a held variable lock has exactly one holder, an
installed transaction with the variable in `locksHeld`; the variable is in the write set of
the holder, or the holder is irrevocable and has the variable in its read set. If the holder
is revocable, `mostRecentLockOwner` of the variable is the holder. (An irrevocable
transaction takes locks in `irrAcquire` and `acquireRead` without storing
`mostRecentLockOwner`.) -/
theorem lock_has_one_holder {s : State} (hr : Reachable s) (v : Nat)
    (hl : (s.vars v).lock = true) :
    ∃ x, (s.txs x).alive = true ∧ v ∈ (s.txs x).locksHeld ∧
      (∀ y, (s.txs y).alive = true → v ∈ (s.txs y).locksHeld → y = x) ∧
      (∃ t, s.currentTransaction t = some x) ∧
      (v ∈ (s.txs x).wsetBuffers ∨
        ((s.txs x).amIIrrevocable = true ∧ v ∈ (s.txs x).rsetBuffers)) ∧
      ((s.txs x).amIIrrevocable = false → (s.vars v).mostRecentLockOwner = some x) := by
  have hi := reachable_inv hr
  have ht := reachable_tidy hr
  obtain ⟨x, x1, x2⟩ := ht.lock_owner v hl
  refine ⟨x, x1, x2, fun y y1 y2 => hi.lock_excl y x v y1 x1 y2 x2, ht.owner x x1,
    ht.held_sets x v x1 x2, ?_⟩
  intro hirr
  rcases ht.held_sets x v x1 x2 with h | ⟨h, -⟩
  · exact (hi.wset_held x v x1 hirr h).2
  · rw [hirr] at h; cases h

/-- C18, at a concrete input: the irrevocable transaction of thread 1 holds the lock of
variable 0, taken in `irrAcquire`, and no transaction is recorded as
`mostRecentLockOwner` of the variable. -/
theorem unrecorded_owner_counterexample :
    irrRead.currentTransaction 1 = some 0 ∧ (irrRead.txs 0).amIIrrevocable = true ∧
    (irrRead.vars 0).lock = true ∧ (irrRead.txs 0).locksHeld = [0] ∧
    (irrRead.vars 0).mostRecentLockOwner = none ∧
    (released.vars 0).lock = true ∧ 0 ∈ (released.txs 0).locksHeld ∧
    (released.vars 0).mostRecentLockOwner = none := by
  decide

theorem lock_has_one_holder_witness :
    Reachable contender ∧ (contender.vars 0).lock = true ∧
    ∃ x, (contender.txs x).alive = true ∧ 0 ∈ (contender.txs x).locksHeld ∧
      ((contender.txs x).amIIrrevocable = false →
        (contender.vars 0).mostRecentLockOwner = some x) :=
  ⟨contender_reachable, by decide,
    (lock_has_one_holder contender_reachable 0 (by decide)).elim
      fun x hx => ⟨x, hx.1, hx.2.1, hx.2.2.2.2.2⟩⟩

/-! ## C19: every raised usedByIrr flag has an owner -/

/-- After the irrevocable transaction has ended no `usedByIrr` flag is raised. -/
theorem Dies.clears_used {th c : Nat} {s s' : State} (hi : Inv s) (ht' : Tidy s')
    (hd : Dies th c s s') (hirr : (s.txs c).amIIrrevocable = true) (v : Nat) :
    (s'.vars v).usedByIrr = false := by
  cases hu : (s'.vars v).usedByIrr
  · rfl
  · exfalso
    obtain ⟨x, x1, x2, -⟩ := ht'.used_owner v hu
    have hxc : x ≠ c := by
      intro e
      rw [e, hd.dead] at x1
      cases x1
    have hto := hd.others x hxc
    rw [hto.alive] at x1
    rw [hto.irr] at x2
    exact hxc (hi.irr_unique x c x1 (hi.cur_alive th c hd.cur) x2 hirr)

/-- A failed promotion leaves every `usedByIrr` flag as it was. -/
theorem irrT_failed_flags {th c : Nat} {s : State} (hi : Inv s) (ht : Tidy s)
    (hc : s.currentTransaction th = some c) (hf : (irrT th s).1 ≠ .ok ()) (v : Nat) :
    ((irrT th s).2.vars v).usedByIrr = (s.vars v).usedByIrr := by
  have hirr : (s.txs c).amIIrrevocable = false := by
    cases h : (s.txs c).amIIrrevocable
    · rfl
    · exfalso
      apply hf
      simp [irrT, hc, irr, h]
  have hdead : ((irrT th s).2.txs c).alive = false := by
    rcases irrT_failed hi hc hirr with h | ⟨-, h⟩
    · exact absurd h hf
    · exact h.dead
  have he := irrT_extra hi hc
  have down : ((irrT th s).2.vars v).usedByIrr = true → (s.vars v).usedByIrr = true := by
    intro hv
    rcases he.used_le v hv with h | ⟨h, -⟩
    · exact h
    · rw [hdead] at h; cases h
  cases hl : s.irrTransactionLock
  · have free : (s.vars v).usedByIrr = false := by
      cases hu : (s.vars v).usedByIrr
      · rfl
      · obtain ⟨x, x1, x2, -⟩ := ht.used_owner v hu
        rw [(hi.irr_locks x x1 x2).2.2.2] at hl
        cases hl
    rw [free]
    cases hu : ((irrT th s).2.vars v).usedByIrr
    · rfl
    · have := down hu
      rw [free] at this
      cases this
  · exact irrT_contended_used hi hc hirr hl v

/-- C19: in every reachable state a raised `usedByIrr` flag has an owner: an installed
irrevocable transaction with the variable in its read set or its write set (the hijacked
set of an installed transaction is empty between calls). So after the `commitT` of the
irrevocable transaction, and after its `abortT` when the forced-abort hook returns, no
`usedByIrr` flag is raised; and a failed `irrT` leaves every `usedByIrr` flag as it was
before the call, all false if `irrTransactionLock` was free. -/
theorem used_flag_has_owner {s : State} (hr : Reachable s) :
    (∀ v, (s.vars v).usedByIrr = true →
      ∃ x, (s.txs x).alive = true ∧ (s.txs x).amIIrrevocable = true ∧
        (∃ t, s.currentTransaction t = some x) ∧
        (v ∈ (s.txs x).rsetBuffers ∨ v ∈ (s.txs x).wsetBuffers) ∧
        (s.txs x).hijackedWsetBuffers = ∅) ∧
    (∀ th c, s.currentTransaction th = some c → (s.txs c).amIIrrevocable = true →
      (commitT th s).1 = .ok () ∧
      (∀ v, ((commitT th s).2.vars v).usedByIrr = false) ∧
      ((abortT th s).1 = .ok () → ∀ v, ((abortT th s).2.vars v).usedByIrr = false)) ∧
    (∀ th c, s.currentTransaction th = some c → (irrT th s).1 ≠ .ok () →
      (∀ v, ((irrT th s).2.vars v).usedByIrr = (s.vars v).usedByIrr) ∧
      (s.irrTransactionLock = false → ∀ v, ((irrT th s).2.vars v).usedByIrr = false)) := by
  have hi := reachable_inv hr
  have ht := reachable_tidy hr
  refine ⟨?_, ?_, ?_⟩
  · intro v hv
    obtain ⟨x, x1, x2, x3⟩ := ht.used_owner v hv
    exact ⟨x, x1, x2, ht.owner x x1, x3, hi.hij_empty x x1⟩
  · intro th c hc hirr
    have same : ∀ c', s.currentTransaction th = some c' → c' = c := by
      intro c' h; rw [hc] at h; cases h; rfl
    refine ⟨commitT_irr_ok hi hc hirr, ?_, ?_⟩
    · intro v
      rcases @commitT_cases th s hi with ⟨h, -⟩ | ⟨c', -, hd, -⟩ | ⟨c', -, hd, -⟩
      · rw [hc] at h; cases h
      · have := same c' hd.cur; subst this
        exact hd.clears_used hi (exec_tidy hi ht th .commitT) hirr v
      · have := same c' hd.cur; subst this
        exact hd.clears_used hi (exec_tidy hi ht th .commitT) hirr v
    · intro hok v
      rcases @abortT_cases th s hi with ⟨e, h⟩ | ⟨c', -, hd⟩
      · rw [h] at hok; cases hok
      · have := same c' hd.cur; subst this
        exact hd.clears_used hi (exec_tidy hi ht th .abortT) hirr v
  · intro th c hc hf
    refine ⟨irrT_failed_flags hi ht hc hf, ?_⟩
    intro hl v
    rw [irrT_failed_flags hi ht hc hf v]
    cases hu : (s.vars v).usedByIrr
    · rfl
    · obtain ⟨x, x1, x2, -⟩ := ht.used_owner v hu
      rw [(hi.irr_locks x x1 x2).2.2.2] at hl
      cases hl

theorem used_flag_has_owner_witness :
    Reachable pledged ∧ (pledged.vars 0).usedByIrr = true ∧
    pledged.currentTransaction 0 = some 0 ∧ (pledged.txs 0).amIIrrevocable = true ∧
    (∃ x, (pledged.txs x).alive = true ∧ (pledged.txs x).amIIrrevocable = true ∧
      (0 ∈ (pledged.txs x).rsetBuffers ∨ 0 ∈ (pledged.txs x).wsetBuffers)) ∧
    (commitT 0 pledged).1 = .ok () ∧ ((commitT 0 pledged).2.vars 0).usedByIrr = false :=
  have h := used_flag_has_owner pledged_reachable
  ⟨pledged_reachable, by decide, by decide, by decide,
    (h.1 0 (by decide)).elim fun x hx => ⟨x, hx.1, hx.2.1, hx.2.2.2.1⟩,
    (h.2.1 0 0 (by decide) (by decide)).1, (h.2.1 0 0 (by decide) (by decide)).2.1 0⟩

/-! ## C20: the commit of a read-only transaction -/

theorem abortThrow_mrlo {α : Type} {th c : Nat} {s1 : State} (e : Exc)
    (hc : s1.currentTransaction th = some c) (h1 : (s1.txs c).comitted = false)
    (h2 : (s1.txs c).amIIrrevocable = false) (w : Nat) :
    ((abortThrow th c e s1 : Res α).2.vars w).mostRecentLockOwner =
      (s1.vars w).mostRecentLockOwner := by
  rw [abortThrow_revocable e h1 h2]
  dsimp only
  rw [cleanup_vars (by simpa using hc)]
  split <;> simp

theorem commitFinish_mrlo {th c : Nat} {s : State} (hc : s.currentTransaction th = some c)
    (hh : (s.txs c).hijackedWsetBuffers = ∅) (w : Nat) :
    ((commitFinish th c s).vars w).mostRecentLockOwner = (s.vars w).mostRecentLockOwner := by
  obtain ⟨s6, e0, e1, -, -, -, -, -, -, -, e9⟩ := commitFinish_eq th c s
  obtain ⟨-, -, -, -, -, p6, -, -, -, p10⟩ := publish_spec hh
  have hc6 : s6.currentTransaction th = some c := by rw [e1, p6]; exact hc
  rw [e0, cleanup_vars hc6]
  have : (s6.vars w).mostRecentLockOwner = (s.vars w).mostRecentLockOwner := by
    rw [(e9 w).2.2.1, (p10 w).2.2.1]
  split
  · simpa using this
  · exact this

/-- No `commitT` stores to `mostRecentLockOwner`. -/
theorem commitT_mrlo {th c : Nat} {s : State} (hi : Inv s)
    (hc : s.currentTransaction th = some c) (w : Nat) :
    ((commitT th s).2.vars w).mostRecentLockOwner = (s.vars w).mostRecentLockOwner := by
  have hca := hi.cur_alive th c hc
  have hcom := hi.not_comitted c hca
  have hd : ∀ s1 : State, s1 = (if (s.txs c).amIIrrevocable = true
      then storeDirtyIrr true (s.txs c).wsetBuffers.keys s
      else storeDirty true (s.txs c).wsetBuffers.keys s) →
      s1.txs = s.txs ∧ s1.currentTransaction = s.currentTransaction ∧
      (∀ w, (s1.vars w).readers = (s.vars w).readers) ∧
      ∀ w, (s1.vars w).mostRecentLockOwner = (s.vars w).mostRecentLockOwner := by
    intro s1 h
    rw [h]
    split
    · refine ⟨by simp, by simp, ?_, ?_⟩
      · intro w; rw [storeDirtyIrr_vars]; split <;> rfl
      · intro w; rw [storeDirtyIrr_vars]; split <;> rfl
    · refine ⟨by simp, by simp, ?_, ?_⟩
      · intro w; rw [storeDirty_vars]; split <;> rfl
      · intro w; rw [storeDirty_vars]; split <;> rfl
  have hsd : ∀ (X : State) (keys : List Nat),
      ((storeDirty false keys X).vars w).mostRecentLockOwner =
        (X.vars w).mostRecentLockOwner := by
    intro X keys
    rw [storeDirty_vars]; split <;> rfl
  unfold commitT
  rw [hc]
  dsimp only
  unfold commit
  rw [if_neg (by rw [hcom]; simp)]
  by_cases c2 : (s.txs c).aborted = true
  · rw [if_pos c2]
    split
    · rfl
    · rename_i hirr
      have hirr' : (s.txs c).amIIrrevocable = false := by simpa using hirr
      exact abortThrow_mrlo _ hc hcom hirr' w
  · rw [if_neg c2]
    dsimp only
    obtain ⟨d1, d4, d5, d6⟩ := hd _ rfl
    have ks := killReaders_step th c (if (s.txs c).amIIrrevocable = true
      then storeDirtyIrr true (s.txs c).wsetBuffers.keys s
      else storeDirty true (s.txs c).wsetBuffers.keys s)
    have kself := @killReaders_self th c s _ hi hc d5
    rw [d1] at kself
    have k1 := ks.cur.trans d4
    have k2 : ((killReaders th c (if (s.txs c).amIIrrevocable = true
      then storeDirtyIrr true (s.txs c).wsetBuffers.keys s
      else storeDirty true (s.txs c).wsetBuffers.keys s)).vars w).mostRecentLockOwner =
        (s.vars w).mostRecentLockOwner := by
      rw [ks.vars]; exact d6 w
    revert kself k1 k2
    generalize killReaders th c (if (s.txs c).amIIrrevocable = true
      then storeDirtyIrr true (s.txs c).wsetBuffers.keys s
      else storeDirty true (s.txs c).wsetBuffers.keys s) = s2
    intro kself k1 k2
    have hc2 : s2.currentTransaction th = some c := by rw [k1]; exact hc
    have hh2 : (s2.txs c).hijackedWsetBuffers = ∅ := by
      rw [kself]; exact hi.hij_empty c hca
    by_cases c3 : (s2.txs c).amIIrrevocable = true
    · rw [if_pos c3]
      exact (commitFinish_mrlo hc2 hh2 w).trans k2
    · rw [if_neg c3]
      have hirr : (s.txs c).amIIrrevocable = false := by
        rw [kself] at c3; simpa using c3
      by_cases c4 : (s2.txs c).cleanReadsetLock = true
      · rw [if_pos c4]
        refine (abortThrow_mrlo _ ?_ ?_ ?_ w).trans ((hsd _ _).trans k2)
        · rw [storeDirty_cur]; exact hc2
        · rw [storeDirty_txs, kself]; exact hcom
        · rw [storeDirty_txs, kself]; exact hirr
      · rw [if_neg c4]
        by_cases c5 : ((s2.modTx c fun t => { t with cleanReadsetLock := true }).txs
            c).commitLock = true
        · rw [if_pos c5]
          refine (abortThrow_mrlo _ ?_ ?_ ?_ w).trans ((hsd _ _).trans k2)
          · rw [storeDirty_cur]; exact hc2
          · rw [storeDirty_txs]; simpa [kself] using hcom
          · rw [storeDirty_txs]; simpa [kself] using hirr
        · rw [if_neg c5]
          refine (commitFinish_mrlo (s := (s2.modTx c fun t =>
            { t with cleanReadsetLock := true }).modTx c fun t =>
              { t with commitLock := true }) hc2 ?_ w).trans k2
          simpa using hh2

/-- C20 (amended): `commitT` of a transaction with an empty write set in a reachable state,
whether it returns or throws, leaves the `dirty` and `dirtyIrr` flags, `mostRecentLockOwner`,
`varPtr` and the authoritative value of every variable as they were, and the lock of every
variable the transaction does not hold. The locks the transaction holds are released: there
are none if the transaction is revocable, so then every lock is as it was; for an
irrevocable transaction they are locks of variables of its read set, held before the commit
and free after it. -/
theorem read_only_commit {s : State} {th c : Nat} (hr : Reachable s)
    (hc : s.currentTransaction th = some c) (hw : (s.txs c).wsetBuffers = ∅) :
    (∀ v, ((commitT th s).2.vars v).dirty = (s.vars v).dirty ∧
      ((commitT th s).2.vars v).dirtyIrr = (s.vars v).dirtyIrr ∧
      ((commitT th s).2.vars v).mostRecentLockOwner = (s.vars v).mostRecentLockOwner ∧
      ((commitT th s).2.vars v).varPtr = (s.vars v).varPtr ∧
      (commitT th s).2.value v = s.value v) ∧
    (∀ v, v ∉ (s.txs c).locksHeld → ((commitT th s).2.vars v).lock = (s.vars v).lock) ∧
    (∀ v, v ∈ (s.txs c).locksHeld →
      (s.txs c).amIIrrevocable = true ∧ v ∈ (s.txs c).rsetBuffers ∧
      (s.vars v).lock = true ∧ ((commitT th s).2.vars v).lock = false) ∧
    ((s.txs c).amIIrrevocable = false →
      ∀ v, ((commitT th s).2.vars v).lock = (s.vars v).lock) := by
  have hi := reachable_inv hr
  have ht := reachable_tidy hr
  have hca := hi.cur_alive th c hc
  have ht' : Tidy (commitT th s).2 := exec_tidy hi ht th .commitT
  have hd : Dies th c s (commitT th s).2 := by
    rcases @commitT_cases th s hi with ⟨h, -⟩ | ⟨c', -, hd, -⟩ | ⟨c', -, hd, -⟩
    · rw [hc] at h; cases h
    · have := hd.cur
      rw [hc] at this
      cases this
      exact hd
    · have := hd.cur
      rw [hc] at this
      cases this
      exact hd
  have he := commitT_extra hi hc
  have hvp : ∀ v, ((commitT th s).2.vars v).varPtr = (s.vars v).varPtr := by
    intro v
    rcases hd.varPtr v with h | h
    · exact h
    · rw [hw] at h
      simp at h
  have hheld : ∀ v, v ∈ (s.txs c).locksHeld →
      (s.txs c).amIIrrevocable = true ∧ v ∈ (s.txs c).rsetBuffers := by
    intro v hv
    rcases ht.held_sets c v hca hv with h | h
    · rw [hw] at h
      exact absurd h (AList.not_mem_empty v)
    · exact h
  have hfree : ∀ v, v ∉ (s.txs c).locksHeld →
      ((commitT th s).2.vars v).lock = (s.vars v).lock := by
    intro v hv
    rcases hd.lock v with h | h
    · exact h
    · exact absurd h hv
  refine ⟨?_, hfree, ?_, ?_⟩
  · intro v
    refine ⟨?_, ?_, commitT_mrlo hi hc v, hvp v, ?_⟩
    · rw [(ht'.clean v).1, (ht.clean v).1]
    · rw [(ht'.clean v).2, (ht.clean v).2]
    · by_cases hok : (commitT th s).1 = .ok ()
      · have hcm : commitT th s = commit th c s := by simp [commitT, hc]
        have hh : (commitT th s).2.heap = s.heap := by
          rw [hcm] at hok ⊢
          exact commit_ok_heap hc (hi.hij_empty c hca) hok
        simp only [State.value]
        rw [hvp v, hh]
      · exact exec_values hi th .commitT (Or.inl (by rw [hc]; simp))
          (fun h => hok h.2) v
  · intro v hv
    exact ⟨(hheld v hv).1, (hheld v hv).2, hi.held_locked c v hca hv,
      he.unlocked hd.dead v hv⟩
  · intro hirr v
    apply hfree
    intro hv
    have := (hheld v hv).1
    rw [hirr] at this
    cases this

/-- C20, at a concrete input: the irrevocable transaction of thread 1 has read variable 0
and written nothing; its `commitT` returns normally and the lock of variable 0, held before
the commit, is free after it. -/
theorem read_only_unlock_counterexample :
    irrRead.currentTransaction 1 = some 0 ∧ (irrRead.txs 0).wsetBuffers.keys = [] ∧
    (irrRead.txs 0).rsetBuffers.keys = [0] ∧ (irrRead.vars 0).lock = true ∧
    (commitT 1 irrRead).1 = .ok () ∧ ((commitT 1 irrRead).2.vars 0).lock = false := by
  decide

theorem read_only_commit_witness :
    Reachable irrRead ∧ irrRead.currentTransaction 1 = some 0 ∧
    (irrRead.txs 0).wsetBuffers = ∅ ∧
    ((commitT 1 irrRead).2.vars 0).mostRecentLockOwner = none ∧
    (commitT 1 irrRead).2.value 0 = 100 ∧
    ((commitT 1 irrRead).2.vars 1).lock = false ∧
    ((commitT 1 irrRead).2.vars 0).lock = false :=
  have e : (irrRead.txs 0).wsetBuffers = ∅ := AList.ext (by decide)
  have h := @read_only_commit irrRead 1 0 irrRead_reachable (by decide) e
  ⟨irrRead_reachable, by decide, e, (h.1 0).2.2.1.trans (by decide),
    (h.1 0).2.2.2.2.trans (by decide), (h.2.1 1 (by decide)).trans (by decide),
    (h.2.2.1 0 (by decide)).2.2.2⟩

/-! ## C12: a single thread never aborts -/

/-- In a single-threaded run the installed transaction is the only live one. -/
theorem Running.only {th c : Nat} {s : State} (h : Running th c s) (x : Nat)
    (hx : (s.txs x).alive = true) : x = c := by
  obtain ⟨t, ht⟩ := h.tidy.owner x hx
  by_cases e : t = th
  · subst e
    rw [h.cur] at ht
    cases ht
    rfl
  · rw [h.alone t e] at ht
    cases ht

theorem Running.flag_free {th c : Nat} {s : State} (h : Running th c s)
    (hirr : (s.txs c).amIIrrevocable = false) : s.irrTransactionLock = false := by
  cases hl : s.irrTransactionLock
  · rfl
  · obtain ⟨x, x1, x2⟩ := h.tidy.flag_owner hl
    rw [h.only x x1, hirr] at x2
    cases x2

theorem Running.unused {th c : Nat} {s : State} (h : Running th c s)
    (hirr : (s.txs c).amIIrrevocable = false) (v : Nat) : (s.vars v).usedByIrr = false := by
  cases hu : (s.vars v).usedByIrr
  · rfl
  · obtain ⟨x, x1, x2, -⟩ := h.tidy.used_owner v hu
    rw [h.only x x1, hirr] at x2
    cases x2

theorem Running.unlocked {th c : Nat} {s : State} (h : Running th c s)
    (hirr : (s.txs c).amIIrrevocable = false) (v : Nat) (hw : v ∉ (s.txs c).wsetBuffers) :
    (s.vars v).lock = false := by
  cases hl : (s.vars v).lock
  · rfl
  · exfalso
    obtain ⟨x, x1, x2⟩ := h.tidy.lock_owner v hl
    have e := h.only x x1
    subst e
    rcases h.tidy.held_sets x v x1 x2 with h' | ⟨h', -⟩
    · exact hw h'
    · rw [hirr] at h'; cases h'

theorem Running.own_locks_free {th c : Nat} {s : State} (h : Running th c s)
    (hirr : (s.txs c).amIIrrevocable = false) :
    (s.txs c).cleanReadsetLock = false ∧ (s.txs c).commitLock = false := by
  have hca := h.inv.cur_alive th c h.cur
  constructor
  · cases hl : (s.txs c).cleanReadsetLock
    · rfl
    · rcases h.inv.crl_dead c hca hl with h' | h'
      · rw [h.sound] at h'; cases h'
      · rw [hirr] at h'; cases h'
  · cases hl : (s.txs c).commitLock
    · rfl
    · rcases h.inv.cl_dead c hca hl with h' | h'
      · rw [h.sound] at h'; cases h'
      · rw [hirr] at h'; cases h'

/-- A call after which the transaction goes on keeps the single-threaded run going. -/
theorem Running.goes_on {th c : Nat} {s : State} (h : Running th c s) (op : Op)
    (hl : Lives th c s (exec th op s).2 ∨ ∃ hp, (exec th op s).2 = { s with heap := hp }) :
    Running th c (exec th op s).2 := by
  refine ⟨exec_inv h.inv th op, exec_tidy h.inv h.tidy th op, ?_, ?_, ?_⟩
  · intro t ht
    rcases hl with hl | ⟨hp, hl⟩
    · rw [hl.cur_eq]; exact h.alone t ht
    · rw [hl]; exact h.alone t ht
  · rcases hl with hl | ⟨hp, hl⟩
    · rw [hl.cur_eq]; exact h.cur
    · rw [hl]; exact h.cur
  · rcases hl with hl | ⟨hp, hl⟩
    · rw [hl.c_aborted]; exact h.sound
    · rw [hl]; exact h.sound

/-- In a single-threaded run `ro` returns normally. -/
theorem Running.ro_ok {th c : Nat} {s : State} (h : Running th c s) (v : Nat) :
    ∃ b, (ro th v s).1 = .ok b := by
  have hi := h.inv
  have hc := h.cur
  cases hirr : (s.txs c).amIIrrevocable with
  | true =>
    rcases @ro_cases th v s hi with
      ⟨c', b, -, -, e⟩ | ⟨e, -, -⟩ | ⟨e', e, -, -⟩ | ⟨c', b, e, -⟩ | ⟨c', -, hd, e⟩
    · exact ⟨b, by rw [e]⟩
    · rw [hc] at e; cases e
    · rw [hc] at e; cases e
    · exact ⟨b, e⟩
    · have := hd.cur
      rw [hc] at this
      cases this
      rw [hirr] at e
      cases e
  | false =>
    cases hr : (s.txs c).rsetBuffers.lookup v with
    | some b => exact ⟨b, by unfold ro; rw [roFuel_hit 1 hc (Or.inl hr)]⟩
    | none =>
      cases hw : (s.txs c).wsetBuffers.lookup v with
      | some b => exact ⟨b, by unfold ro; rw [roFuel_hit 1 hc (Or.inr ⟨hr, hw⟩)]⟩
      | none =>
        exact ⟨_, by rw [ro_revocable_first hc hirr hr hw (h.tidy.clean v).1
          (h.tidy.clean v).2 h.sound]⟩

/-- In a single-threaded run `rw` returns normally. -/
theorem Running.rw_ok {th c : Nat} {s : State} (h : Running th c s) (v : Nat) :
    ∃ b, (rw th v s).1 = .ok b := by
  have hi := h.inv
  have hc := h.cur
  cases hirr : (s.txs c).amIIrrevocable with
  | true =>
    rcases @rw_cases th v s hi with
      ⟨c', b, -, -, e⟩ | ⟨e, -, -⟩ | ⟨e', e, -, -⟩ | ⟨c', b, e, -⟩ | ⟨c', -, hd, e⟩
    · exact ⟨b, by rw [e]⟩
    · rw [hc] at e; cases e
    · rw [hc] at e; cases e
    · exact ⟨b, e⟩
    · have := hd.cur
      rw [hc] at this
      cases this
      rw [hirr] at e
      cases e
  | false =>
    cases hw : (s.txs c).wsetBuffers.lookup v with
    | some b => exact ⟨b, by unfold rw; rw [rwFuel_hit 1 hc hw]⟩
    | none =>
      have hnw : v ∉ (s.txs c).wsetBuffers := by
        intro hm
        obtain ⟨b, hb⟩ := mem_iff_lookup.1 hm
        rw [hw] at hb
        cases hb
      obtain ⟨f1, f2⟩ := rw_revocable_free hc hirr hw (h.unused hirr v)
        (h.unlocked hirr v hnw) h.sound
      cases hr : (s.txs c).rsetBuffers.lookup v with
      | some rb => exact ⟨rb, by rw [f1 rb hr]⟩
      | none => exact ⟨_, by rw [f2 hr]⟩

/-- A `ro` or `rw` that returns normally leaves the transaction installed. -/
theorem Running.after_ro {th c : Nat} {s : State} (h : Running th c s) (v : Nat) :
    Running th c (exec th (.ro v) s).2 := by
  obtain ⟨b0, hb0⟩ := h.ro_ok v
  apply h.goes_on
  rcases @ro_cases th v s h.inv with
    ⟨c', b, -, -, e⟩ | ⟨e, -, -⟩ | ⟨e', e, -, -⟩ | ⟨c', b, -, hl, -⟩ | ⟨c', e, -, -⟩
  · exact Or.inr ⟨s.heap, by simp [exec, e]⟩
  · rw [h.cur] at e; cases e
  · rw [h.cur] at e; cases e
  · have := hl.cur
    rw [h.cur] at this
    cases this
    exact Or.inl hl
  · rw [hb0] at e; cases e

theorem Running.after_rw {th c : Nat} {s : State} (h : Running th c s) (v : Nat) :
    Running th c (exec th (.rw v) s).2 := by
  obtain ⟨b0, hb0⟩ := h.rw_ok v
  apply h.goes_on
  rcases @rw_cases th v s h.inv with
    ⟨c', b, -, -, e⟩ | ⟨e, -, -⟩ | ⟨e', e, -, -⟩ | ⟨c', b, -, hl, -⟩ | ⟨c', e, -, -⟩
  · exact Or.inr ⟨s.heap, by simp [exec, e]⟩
  · rw [h.cur] at e; cases e
  · rw [h.cur] at e; cases e
  · have := hl.cur
    rw [h.cur] at this
    cases this
    exact Or.inl hl
  · rw [hb0] at e; cases e

/-- In a single-threaded run every access returns normally and the run goes on. -/
theorem Running.access {th c : Nat} {s : State} (h : Running th c s) (op : Op)
    (ha : op.isAccess = true) :
    (exec th op s).1 = .ok () ∧ Running th c (exec th op s).2 := by
  cases op with
  | beginT => cases ha
  | abortT => cases ha
  | irrT => cases ha
  | commitT => cases ha
  | ro v =>
    obtain ⟨b, hb⟩ := h.ro_ok v
    exact ⟨by simp [exec, hb, Except.map], h.after_ro v⟩
  | rw v =>
    obtain ⟨b, hb⟩ := h.rw_ok v
    exact ⟨by simp [exec, hb, Except.map], h.after_rw v⟩
  | assign v val =>
    obtain ⟨b, hb⟩ := h.rw_ok v
    have hrun := h.after_rw v
    have hst : (exec th (.rw v) s).2 = (rw th v s).2 := rfl
    rw [hst] at hrun
    have e1 : (assign th v val s).1 = .ok () := by
      unfold assign
      revert hb
      generalize rw th v s = r
      obtain ⟨r1, r2⟩ := r
      intro hb
      simp only at hb
      subst hb
      rfl
    refine ⟨e1, exec_inv h.inv th _, exec_tidy h.inv h.tidy th _, ?_, ?_, ?_⟩
    · intro t ht
      show (assign th v val s).2.currentTransaction t = none
      rcases assign_state th v val s with e | ⟨b', -, -, e⟩
      · rw [e]; exact hrun.alone t ht
      · rw [e]; exact hrun.alone t ht
    · show (assign th v val s).2.currentTransaction th = some c
      rcases assign_state th v val s with e | ⟨b', -, -, e⟩
      · rw [e]; exact hrun.cur
      · rw [e]; exact hrun.cur
    · show ((assign th v val s).2.txs c).aborted = false
      rcases assign_state th v val s with e | ⟨b', -, -, e⟩
      · rw [e]; exact hrun.sound
      · rw [e]; exact hrun.sound

/-- In a single-threaded run `irrT` returns normally and the run goes on. -/
theorem Running.promote {th c : Nat} {s : State} (h : Running th c s) :
    (exec th .irrT s).1 = .ok () ∧ Running th c (exec th .irrT s).2 := by
  have hok : (irrT th s).1 = .ok () := by
    cases hirr : (s.txs c).amIIrrevocable with
    | true => simp [irrT, h.cur, irr, hirr]
    | false =>
      refine irrT_succeeds h.cur hirr (h.flag_free hirr) ?_ (h.own_locks_free hirr).1
        (h.own_locks_free hirr).2
      intro k hk
      exact h.unlocked hirr k
        (h.inv.sets_disj c k (h.inv.cur_alive th c h.cur) hk)
  refine ⟨hok, h.goes_on .irrT ?_⟩
  rcases @irrT_cases th s h.inv with ⟨e, -⟩ | ⟨c', -, -, e⟩ | ⟨c', -, hl, -⟩ | ⟨c', e, -, -⟩
  · rw [h.cur] at e; cases e
  · exact Or.inr ⟨s.heap, by simp [exec, e]⟩
  · have := hl.cur
    rw [h.cur] at this
    cases this
    exact Or.inl hl
  · rw [hok] at e; cases e

/-- In a single-threaded run `commitT` returns normally and leaves no transaction installed. -/
theorem Running.commits {th c : Nat} {s : State} (h : Running th c s) :
    (exec th .commitT s).1 = .ok () ∧ Inv (exec th .commitT s).2 ∧
    Tidy (exec th .commitT s).2 ∧ Idle (exec th .commitT s).2 := by
  have hi := h.inv
  have hca := hi.cur_alive th c h.cur
  have hok : (commitT th s).1 = .ok () := by
    cases hirr : (s.txs c).amIIrrevocable with
    | true => exact commitT_irr_ok hi h.cur hirr
    | false =>
      have hself : (killReaders th c (storeDirty true (s.txs c).wsetBuffers.keys s)).txs c =
          s.txs c := by
        rw [killReaders_self hi h.cur (fun w => by rw [storeDirty_vars]; split <;> rfl)]
        simp
      unfold commitT
      rw [h.cur]
      dsimp only
      rw [commit_revocable_ok (hi.not_comitted c hca) hirr h.sound hself
        (h.own_locks_free hirr).1 (h.own_locks_free hirr).2]
  refine ⟨hok, exec_inv hi th _, exec_tidy hi h.tidy th _, ?_⟩
  intro t
  rcases @commitT_cases th s hi with ⟨e, -⟩ | ⟨c', -, hd, -⟩ | ⟨c', -, hd, -⟩
  · rw [h.cur] at e; cases e
  · show (commitT th s).2.currentTransaction t = none
    rw [hd.cur_eq]
    by_cases e : t = th
    · rw [e]; simp
    · rw [Function.update_noteq e]; exact h.alone t e
  · show (commitT th s).2.currentTransaction t = none
    rw [hd.cur_eq]
    by_cases e : t = th
    · rw [e]; simp
    · rw [Function.update_noteq e]; exact h.alone t e

/-- With no transaction installed `beginT` returns normally and starts a single-threaded
run. -/
theorem beginT_running {th : Nat} {s : State} (hi : Inv s) (ht : Tidy s) (hidle : Idle s) :
    (exec th .beginT s).1 = .ok () ∧ Running th s.nextTx (exec th .beginT s).2 := by
  have e : exec th .beginT s = (.ok (), { s with
      txs := Function.update s.txs s.nextTx { alive := true }
      nextTx := s.nextTx + 1
      currentTransaction := Function.update s.currentTransaction th (some s.nextTx) }) := by
    simp [exec, beginT, hidle th]
  refine ⟨by rw [e], exec_inv hi th _, exec_tidy hi ht th _, ?_, ?_, ?_⟩
  · intro t hne
    rw [e]
    dsimp only
    rw [Function.update_noteq hne]
    exact hidle t
  · rw [e]; simp
  · rw [e]; simp

theorem runAll_cons_ok (th : Nat) (op : Op) (ops : List Op) (s : State)
    (h : (exec th op s).1 = .ok ()) :
    runAll th (op :: ops) s = runAll th ops (exec th op s).2 := by
  rw [runAll, if_pos h]

theorem runAll_cons_fail (th : Nat) (op : Op) (ops : List Op) (s : State)
    (h : (exec th op s).1 ≠ .ok ()) :
    runAll th (op :: ops) s = (false, (exec th op s).2) := by
  rw [runAll, if_neg h]

theorem runAll_append (th : Nat) (a b : List Op) (s : State) (h : (runAll th a s).1 = true) :
    runAll th (a ++ b) s = runAll th b (runAll th a s).2 := by
  induction a generalizing s with
  | nil => rfl
  | cons op a ih =>
    by_cases hok : (exec th op s).1 = .ok ()
    · rw [List.cons_append, runAll_cons_ok th op _ s hok, runAll_cons_ok th op a s hok]
      rw [runAll_cons_ok th op a s hok] at h
      exact ih _ h
    · rw [runAll_cons_fail th op a s hok] at h
      cases h

/-- The accesses of a transaction body all return normally and the run goes on. -/
theorem Running.accesses {th c : Nat} {s : State} (h : Running th c s) (acc : List Op)
    (ha : ∀ op ∈ acc, op.isAccess = true) :
    (runAll th acc s).1 = true ∧ Running th c (runAll th acc s).2 := by
  induction acc generalizing s with
  | nil => exact ⟨rfl, h⟩
  | cons op acc ih =>
    obtain ⟨h1, h2⟩ := h.access op (ha op (List.mem_cons_self _ _))
    rw [runAll_cons_ok th op acc s h1]
    exact ih h2 (fun o ho => ha o (List.mem_cons_of_mem _ ho))

/-- One transaction of the workload, run with no transaction installed. -/
theorem transaction_commits {th : Nat} {s : State} (hi : Inv s) (ht : Tidy s) (hidle : Idle s)
    (irrevocable : Bool) (acc : List Op) (ha : ∀ op ∈ acc, op.isAccess = true) :
    (runAll th (transactionCalls irrevocable acc) s).1 = true ∧
    Inv (runAll th (transactionCalls irrevocable acc) s).2 ∧
    Tidy (runAll th (transactionCalls irrevocable acc) s).2 ∧
    Idle (runAll th (transactionCalls irrevocable acc) s).2 := by
  obtain ⟨b1, b2⟩ := @beginT_running th s hi ht hidle
  have tail : ∀ s1 : State, Running th s.nextTx s1 →
      (runAll th (acc ++ [.commitT]) s1).1 = true ∧
      Inv (runAll th (acc ++ [.commitT]) s1).2 ∧
      Tidy (runAll th (acc ++ [.commitT]) s1).2 ∧
      Idle (runAll th (acc ++ [.commitT]) s1).2 := by
    intro s1 h1
    obtain ⟨a1, a2⟩ := h1.accesses acc ha
    obtain ⟨c1, c2, c3, c4⟩ := a2.commits
    rw [runAll_append th acc [.commitT] s1 a1]
    have e : runAll th [.commitT] (runAll th acc s1).2 =
        (true, (exec th .commitT (runAll th acc s1).2).2) := by
      rw [runAll_cons_ok th _ _ _ c1]
      rfl
    rw [e]
    exact ⟨rfl, c2, c3, c4⟩
  unfold transactionCalls
  rw [runAll_cons_ok th _ _ _ b1]
  cases irrevocable with
  | false => exact tail _ b2
  | true =>
    obtain ⟨p1, p2⟩ := b2.promote
    simp only [if_true, List.cons_append, List.nil_append]
    rw [runAll_cons_ok th _ _ _ p1]
    exact tail _ p2

/-- C12: starting from a reachable state in which no transaction is installed, a single
thread runs transactions one after another, each made of `beginT`, `irrT` right after it or
not, any sequence of `ro`, `rw` and assignments on any variables, and `commitT`: every call
returns normally (no exception at all), in revocable and in irrevocable mode, and at the end
no transaction is installed. -/
theorem single_thread_never_aborts {s : State} (hr : Reachable s) (hidle : Idle s)
    (th : Nat) (txns : List (Bool × List Op))
    (ha : ∀ p ∈ txns, ∀ op ∈ p.2, op.isAccess = true) :
    (runAll th (workload txns) s).1 = true ∧ Idle (runAll th (workload txns) s).2 := by
  have key : ∀ s : State, Inv s → Tidy s → Idle s →
      (runAll th (workload txns) s).1 = true ∧ Idle (runAll th (workload txns) s).2 := by
    induction txns with
    | nil => intro s _ _ h; exact ⟨rfl, h⟩
    | cons p ps ih =>
      intro s hi ht hid
      obtain ⟨t1, t2, t3, t4⟩ := @transaction_commits th s hi ht hid p.1 p.2
        (ha p (List.mem_cons_self _ _))
      unfold workload
      rw [runAll_append th _ _ s t1]
      exact ih (fun q hq => ha q (List.mem_cons_of_mem _ hq)) _ t2 t3 t4
  exact key s (reachable_inv hr) (reachable_tidy hr) hidle

theorem single_thread_never_aborts_witness :
    Reachable start ∧ Idle start ∧
    (runAll 0 (workload [(false, [.ro 0, .assign 1 7, .rw 0]),
      (true, [.rw 0, .ro 1, .assign 2 1])]) start).1 = true ∧
    Idle (runAll 0 (workload [(false, [.ro 0, .assign 1 7, .rw 0]),
      (true, [.rw 0, .ro 1, .assign 2 1])]) start).2 :=
  have h := @single_thread_never_aborts start start_reachable (fun _ => rfl) 0
    [(false, [.ro 0, .assign 1 7, .rw 0]), (true, [.rw 0, .ro 1, .assign 2 1])] (by decide)
  ⟨start_reachable, fun _ => rfl, h.1, h.2⟩

/-! ## C22: no lock or flag is left behind -/

/-- A thread whose number is not below `maxThreadNum` never has a transaction installed. -/
theorem reachable_bounded {s : State} (hr : Reachable s) (t : Nat)
    (ht : s.maxThreadNum ≤ t) : s.currentTransaction t = none := by
  induction hr with
  | init n vals h1 h2 => rfl
  | step s th op hr hth ih =>
    rw [exec_max] at ht
    have hne : t ≠ th := fun e => absurd (e ▸ hth) (Nat.not_lt.2 ht)
    have hi := reachable_inv hr
    rcases exec_eff hi th op with ⟨hp, h⟩ | ⟨c, h⟩ | ⟨c, h⟩ | ⟨-, h⟩
    · rw [h]; exact ih ht
    · rw [h.cur_eq]; exact ih ht
    · rw [h.cur_eq, Function.update_noteq hne]; exact ih ht
    · rw [h]
      unfold beginT
      split
      · exact ih ht
      · dsimp only
        rw [Function.update_noteq hne]
        exact ih ht

theorem idle_of_below {s : State} (hr : Reachable s)
    (h : ∀ t, t < s.maxThreadNum → s.currentTransaction t = none) : Idle s := by
  intro t
  by_cases ht : t < s.maxThreadNum
  · exact h t ht
  · exact reachable_bounded hr t (Nat.not_lt.1 ht)

theorem seized_reachable : Reachable seized :=
  Reachable.run start_reachable _ (by decide)

theorem aftermath_reachable : Reachable aftermath :=
  Reachable.run seized_reachable _ (by decide)

/-- C22: in every reachable state in which no thread has a transaction installed, the lock
of every variable is free, `dirty`, `dirtyIrr` and `usedByIrr` of every variable are false,
`irrTransactionLock` is free and no transaction object is left. -/
theorem quiescence {s : State} (hr : Reachable s) (hidle : Idle s) :
    (∀ v, (s.vars v).lock = false ∧ (s.vars v).dirty = false ∧
      (s.vars v).dirtyIrr = false ∧ (s.vars v).usedByIrr = false) ∧
    s.irrTransactionLock = false ∧ (∀ x, (s.txs x).alive = false) := by
  have ht := reachable_tidy hr
  have dead : ∀ x, (s.txs x).alive = false := by
    intro x
    cases hx : (s.txs x).alive
    · rfl
    · obtain ⟨t, h⟩ := ht.owner x hx
      rw [hidle t] at h
      cases h
  refine ⟨?_, ?_, dead⟩
  · intro v
    refine ⟨?_, (ht.clean v).1, (ht.clean v).2, ?_⟩
    · cases hl : (s.vars v).lock
      · rfl
      · obtain ⟨x, x1, -⟩ := ht.lock_owner v hl
        rw [dead x] at x1
        cases x1
    · cases hu : (s.vars v).usedByIrr
      · rfl
      · obtain ⟨x, x1, -⟩ := ht.used_owner v hu
        rw [dead x] at x1
        cases x1
  · cases hl : s.irrTransactionLock
    · rfl
    · obtain ⟨x, x1, -⟩ := ht.flag_owner hl
      rw [dead x] at x1
      cases x1

theorem quiescence_witness :
    (seized.vars 0).lock = true ∧ (seized.vars 0).usedByIrr = true ∧
    (seized.txs 1).amIIrrevocable = true ∧ (seized.txs 1).locksHeld = [] ∧
    (seized.txs 1).wsetBuffers.lookup 0 = some (Buf.alloc 1) ∧
    (seized.txs 0).aborted = true ∧ (seized.txs 0).locksHeld = [0] ∧
    Reachable aftermath ∧ Idle aftermath ∧
    (aftermath.vars 0).lock = false ∧ (aftermath.vars 0).usedByIrr = false ∧
    aftermath.irrTransactionLock = false ∧ aftermath.value 0 = 7 :=
  have hidle : Idle aftermath := idle_of_below aftermath_reachable (by decide)
  have h := quiescence aftermath_reachable hidle
  ⟨by decide, by decide, by decide, by decide, by decide, by decide, by decide,
    aftermath_reachable, hidle, (h.1 0).1, (h.1 0).2.2.2, h.2.1, by decide⟩

/-! ## C21: publication of a hijacked buffer -/

/-- The hijack branch of `irrAcquire`: the lock of `v` is held by a live owner whose
`commitLock` is taken and who is neither aborted nor committed. -/
theorem irrAcquire_hijacks {b a v : Nat} {h : Buf} {wantReadOnly : Bool} {s : State}
    (hl : (s.vars v).lock = true) (hm : (s.vars v).mostRecentLockOwner = some a)
    (ha : (s.txs a).alive = true) (hcl : (s.txs a).commitLock = true)
    (hab : (s.txs a).aborted = false) (hcom : (s.txs a).comitted = false)
    (hw : (s.txs a).wsetBuffers.lookup v = some h) :
    (irrAcquire b v wantReadOnly s).1 = .ok () ∧
    ((irrAcquire b v wantReadOnly s).2.txs b).hijackedWsetBuffers.lookup v = some h ∧
    ((irrAcquire b v wantReadOnly s).2.txs b).wsetBuffers.lookup v =
      some (Buf.alloc s.nextBuf) ∧
    (irrAcquire b v wantReadOnly s).2.heap (Buf.alloc s.nextBuf) = s.heap h ∧
    ((irrAcquire b v wantReadOnly s).2.vars v).usedByIrr = true := by
  unfold irrAcquire
  simp [State.lockWeak, hl, hm, ha, hcl, hab, hcom, hw, setWset, State.newT]

/-- One call of `performWriteAsIrr` on a variable other than `v`. -/
theorem performWriteAsIrr_other {c v k : Nat} {h nb bk : Buf} {s : State} (hk : k ≠ v)
    (hd : ∀ e ∈ (s.txs c).hijackedWsetBuffers.entries, e.1 ≠ v → e.2 ≠ h ∧ e.2 ≠ nb) :
    (performWriteAsIrr c k bk s).txs = s.txs ∧ (performWriteAsIrr c k bk s).heap h = s.heap h ∧
    (performWriteAsIrr c k bk s).heap nb = s.heap nb ∧
    (performWriteAsIrr c k bk s).vars v = s.vars v := by
  unfold performWriteAsIrr
  cases hl : (s.txs c).hijackedWsetBuffers.lookup k with
  | none => simp [modVar_vars_ne _ _ _ _ (Ne.symm hk)]
  | some hb =>
    have hm : (⟨k, hb⟩ : Σ _ : Nat, Buf) ∈ (s.txs c).hijackedWsetBuffers.entries :=
      AList.mem_lookup_iff.1 hl
    obtain ⟨d1, d2⟩ := hd _ hm hk
    simp [modVar_vars_ne _ _ _ _ (Ne.symm hk), Function.update_noteq (Ne.symm d1),
      Function.update_noteq (Ne.symm d2)]

/-- The publishing loop of an irrevocable commit, at a variable `v` whose buffer `h` was
hijacked: the content of the own buffer `nb` is written into `h` and `h` is installed. -/
theorem foldl_performWriteAsIrr_hijacked (c v : Nat) (h nb : Buf)
    (l : List (Σ _ : Nat, Buf)) (hl : l.NodupKeys) (s : State)
    (hh : (s.txs c).hijackedWsetBuffers.lookup v = some h)
    (hd : ∀ e ∈ (s.txs c).hijackedWsetBuffers.entries, e.1 ≠ v → e.2 ≠ h ∧ e.2 ≠ nb) :
    (l.foldl (fun st e => performWriteAsIrr c e.1 e.2 st) s).txs = s.txs ∧
    (l.dlookup v = some nb →
      (l.foldl (fun st e => performWriteAsIrr c e.1 e.2 st) s).heap h = s.heap nb ∧
      ((l.foldl (fun st e => performWriteAsIrr c e.1 e.2 st) s).vars v).varPtr = h ∧
      ((l.foldl (fun st e => performWriteAsIrr c e.1 e.2 st) s).vars v).dirtyIrr = false ∧
      ((l.foldl (fun st e => performWriteAsIrr c e.1 e.2 st) s).vars v).dirty =
        (s.vars v).dirty) ∧
    (l.dlookup v = none →
      (l.foldl (fun st e => performWriteAsIrr c e.1 e.2 st) s).heap h = s.heap h ∧
      (l.foldl (fun st e => performWriteAsIrr c e.1 e.2 st) s).heap nb = s.heap nb ∧
      (l.foldl (fun st e => performWriteAsIrr c e.1 e.2 st) s).vars v = s.vars v) := by
  induction l generalizing s with
  | nil =>
    refine ⟨rfl, ?_, ?_⟩
    · intro hn; simp at hn
    · intro _; exact ⟨rfl, rfl, rfl⟩
  | cons e l ih =>
    obtain ⟨k, bk⟩ := e
    rw [List.nodupKeys_cons] at hl
    simp only [List.foldl_cons]
    by_cases hk : k = v
    · subst hk
      have hstep : performWriteAsIrr c k bk s =
          ({ s with heap := Function.update s.heap h (s.heap bk) } : State).modVar k
            fun x => { x with varPtr := h, dirtyIrr := false } := by
        simp [performWriteAsIrr, hh]
      have hnone : l.dlookup k = none := List.dlookup_eq_none.2 hl.1
      have htx : (performWriteAsIrr c k bk s).txs = s.txs := by rw [hstep]; simp
      obtain ⟨i1, -, i3⟩ := ih hl.2 (performWriteAsIrr c k bk s)
        (by rw [htx]; exact hh) (by rw [htx]; exact hd)
      obtain ⟨j1, -, j3⟩ := i3 hnone
      refine ⟨i1.trans htx, ?_, ?_⟩
      · intro hlook
        rw [List.dlookup_cons_eq] at hlook
        cases hlook
        rw [j1, j3, hstep]
        simp
      · intro hlook
        rw [List.dlookup_cons_eq] at hlook
        cases hlook
    · obtain ⟨o1, o2, o3, o4⟩ := @performWriteAsIrr_other c v k h nb bk s hk hd
      obtain ⟨i1, i2, i3⟩ := ih hl.2 (performWriteAsIrr c k bk s)
        (by rw [o1]; exact hh) (by rw [o1]; exact hd)
      refine ⟨i1.trans o1, ?_, ?_⟩
      · intro hlook
        rw [List.dlookup_cons_ne _ _ (Ne.symm hk)] at hlook
        obtain ⟨j1, j2, j3, j4⟩ := i2 hlook
        exact ⟨j1.trans o3, j2, j3, by rw [j4, o4]⟩
      · intro hlook
        rw [List.dlookup_cons_ne _ _ (Ne.symm hk)] at hlook
        obtain ⟨j1, j2, j3⟩ := i3 hlook
        exact ⟨j1.trans o2, j2.trans o3, by rw [j3, o4]⟩

/-- The publishing loop of the irrevocable transaction `b` at a hijacked variable. -/
theorem publish_hijacked {b v : Nat} {h nb : Buf} {s : State}
    (hirr : (s.txs b).amIIrrevocable = true)
    (hh : (s.txs b).hijackedWsetBuffers.lookup v = some h)
    (hb : (s.txs b).wsetBuffers.lookup v = some nb)
    (hd : ∀ e ∈ (s.txs b).hijackedWsetBuffers.entries, e.1 ≠ v → e.2 ≠ h ∧ e.2 ≠ nb) :
    (publish b s).txs = s.txs ∧ (publish b s).heap h = s.heap nb ∧
    ((publish b s).vars v).varPtr = h ∧ ((publish b s).vars v).dirtyIrr = false ∧
    ((publish b s).vars v).dirty = (s.vars v).dirty := by
  obtain ⟨f1, f2, -⟩ := foldl_performWriteAsIrr_hijacked b v h nb
    (s.txs b).wsetBuffers.entries (s.txs b).wsetBuffers.nodupKeys s hh hd
  unfold publish
  rw [if_pos hirr]
  exact ⟨f1, f2 hb⟩

/-- The publishing loop of the revocable transaction `a` at a variable of its write set. -/
theorem publish_revocable {a v : Nat} {h : Buf} {s : State}
    (hirr : (s.txs a).amIIrrevocable = false)
    (ha : (s.txs a).wsetBuffers.lookup v = some h) :
    (publish a s).txs = s.txs ∧ (publish a s).heap = s.heap ∧
    ((publish a s).vars v).varPtr = h ∧ ((publish a s).vars v).dirty = false ∧
    ((publish a s).vars v).dirtyIrr = (s.vars v).dirtyIrr := by
  obtain ⟨f1, f2, -, -, -, -, -, -, -, f10⟩ := foldl_performWrite
    (s.txs a).wsetBuffers.entries (s.txs a).wsetBuffers.nodupKeys s
  have hv := f10 v
  have hl : (s.txs a).wsetBuffers.entries.dlookup v = some h := ha
  rw [hl] at hv
  unfold publish
  rw [if_neg (by rw [hirr]; simp)]
  refine ⟨f1, f2, ?_, ?_, ?_⟩
  · rw [hv]
  · rw [hv]
  · rw [hv]

/-- C21: let the irrevocable transaction `b` have hijacked, for variable `v`, the write
buffer `h` of the revocable owner `a`, let `nb` be the buffer of `v` in the write set of `b`,
and let the other hijacked buffers of `b` be cells different from `h` and `nb`. In whichever
order the publishing loop of `a` (`performWrite`) and the publishing loop of `b`
(`performWriteAsIrr`) run, afterwards `varPtr` of `v` is the shared buffer `h`, the
authoritative value of `v` is the value `b` had in `nb`, and `dirty` and `dirtyIrr` of `v`
are false. The hijack itself happens in `irrAcquire` when the lock of `v` is held by a live
owner that has taken its `commitLock` and is neither aborted nor committed: `h` enters the
hijacked set of `b` and a new cell with the content of `h` enters its write set. -/
theorem hijack_order_independent {s : State} {a b v : Nat} {h nb : Buf}
    (hra : (s.txs a).amIIrrevocable = false) (hrb : (s.txs b).amIIrrevocable = true)
    (hh : (s.txs b).hijackedWsetBuffers.lookup v = some h)
    (ha : (s.txs a).wsetBuffers.lookup v = some h)
    (hb : (s.txs b).wsetBuffers.lookup v = some nb)
    (hd : ∀ e ∈ (s.txs b).hijackedWsetBuffers.entries, e.1 ≠ v → e.2 ≠ h ∧ e.2 ≠ nb) :
    ((publish b (publish a s)).value v = s.heap nb ∧
      ((publish b (publish a s)).vars v).varPtr = h ∧
      ((publish b (publish a s)).vars v).dirty = false ∧
      ((publish b (publish a s)).vars v).dirtyIrr = false) ∧
    ((publish a (publish b s)).value v = s.heap nb ∧
      ((publish a (publish b s)).vars v).varPtr = h ∧
      ((publish a (publish b s)).vars v).dirty = false ∧
      ((publish a (publish b s)).vars v).dirtyIrr = false) ∧
    ((performWriteAsIrr b v nb (performWrite v h s)).value v = s.heap nb ∧
      (performWrite v h (performWriteAsIrr b v nb s)).value v = s.heap nb) ∧
    (∀ (s0 : State) (w : Bool), (s0.vars v).lock = true →
      (s0.vars v).mostRecentLockOwner = some a → (s0.txs a).alive = true →
      (s0.txs a).commitLock = true → (s0.txs a).aborted = false →
      (s0.txs a).comitted = false → (s0.txs a).wsetBuffers.lookup v = some h →
      (irrAcquire b v w s0).1 = .ok () ∧
      ((irrAcquire b v w s0).2.txs b).hijackedWsetBuffers.lookup v = some h ∧
      ((irrAcquire b v w s0).2.txs b).wsetBuffers.lookup v = some (Buf.alloc s0.nextBuf) ∧
      (irrAcquire b v w s0).2.heap (Buf.alloc s0.nextBuf) = s0.heap h) := by
  refine ⟨?_, ?_, ?_, ?_⟩
  · obtain ⟨a1, a2, a3, a4, a5⟩ := publish_revocable hra ha
    obtain ⟨b1, b2, b3, b4, b5⟩ := @publish_hijacked b v h nb (publish a s)
      (by rw [a1]; exact hrb) (by rw [a1]; exact hh) (by rw [a1]; exact hb)
      (by rw [a1]; exact hd)
    refine ⟨?_, b3, by rw [b5, a4], b4⟩
    simp only [State.value]
    rw [b3, b2, a2]
  · obtain ⟨b1, b2, b3, b4, b5⟩ := publish_hijacked hrb hh hb hd
    obtain ⟨a1, a2, a3, a4, a5⟩ := @publish_revocable a v h (publish b s)
      (by rw [b1]; exact hra) (by rw [b1]; exact ha)
    refine ⟨?_, a3, a4, by rw [a5, b4]⟩
    simp only [State.value]
    rw [a3, a2, b2]
  · constructor
    · simp [performWriteAsIrr, performWrite, hh, State.value]
    · simp [performWriteAsIrr, performWrite, hh, State.value]
  · intro s0 w h1 h2 h3 h4 h5 h6 h7
    obtain ⟨r1, r2, r3, r4, -⟩ := @irrAcquire_hijacks b a v h w s0 h1 h2 h3 h4 h5 h6 h7
    exact ⟨r1, r2, r3, r4⟩

theorem hijack_order_independent_witness :
    ((committing.vars 0).lock = true ∧ (committing.vars 0).mostRecentLockOwner = some 0 ∧
      (committing.txs 0).commitLock = true ∧ (committing.txs 0).aborted = false ∧
      (committing.txs 0).wsetBuffers.lookup 0 = some (Buf.alloc 0) ∧
      ((irrAcquire 1 0 false committing).2.txs 1).hijackedWsetBuffers.lookup 0 =
        some (Buf.alloc 0)) ∧
    ((hijacking.txs 0).amIIrrevocable = false ∧ (hijacking.txs 1).amIIrrevocable = true ∧
      (hijacking.txs 1).hijackedWsetBuffers.lookup 0 = some (Buf.alloc 0) ∧
      (hijacking.txs 0).wsetBuffers.lookup 0 = some (Buf.alloc 0) ∧
      (hijacking.txs 1).wsetBuffers.lookup 0 = some (Buf.alloc 1) ∧
      hijacking.heap (Buf.alloc 0) = 5 ∧ hijacking.heap (Buf.alloc 1) = 9 ∧
      hijacking.value 0 = 100 ∧
      (hijacking.vars 0).dirty = true ∧ (hijacking.vars 0).dirtyIrr = true ∧
      (publish 1 (publish 0 hijacking)).value 0 = 9 ∧
      (publish 0 (publish 1 hijacking)).value 0 = 9 ∧
      ((publish 0 (publish 1 hijacking)).vars 0).dirty = false ∧
      ((publish 0 (publish 1 hijacking)).vars 0).dirtyIrr = false) :=
  have h := @hijack_order_independent hijacking 0 1 0 (Buf.alloc 0) (Buf.alloc 1)
    (by decide) (by decide) (by decide) (by decide) (by decide) (by decide)
  ⟨⟨by decide, by decide, by decide, by decide, by decide,
      (h.2.2.2 committing false (by decide) (by decide) (by decide) (by decide) (by decide)
        (by decide) (by decide)).2.1⟩,
    ⟨by decide, by decide, by decide, by decide, by decide, by decide, by decide, by decide,
      by decide, by decide, h.1.1.trans (by decide), h.2.1.1.trans (by decide), h.2.1.2.2.1,
      h.2.1.2.2.2⟩⟩

/-! ## C23: the read set and the write set are disjoint -/

/-- After `irrAcquire` for a read, a variable that was in neither set is in one set only. -/
theorem irrAcquire_one_set {c v : Nat} {s : State}
    (hr : (s.txs c).rsetBuffers.lookup v = none) (hw : (s.txs c).wsetBuffers.lookup v = none) :
    ((irrAcquire c v true s).2.txs c).wsetBuffers.lookup v = none ∨
    ((irrAcquire c v true s).2.txs c).rsetBuffers.lookup v = none := by
  unfold irrAcquire irrAcquireCopy
  dsimp only
  split
  · left; simp [setRset, hw]
  · split
    · left; simp [setRset, hw]
    · rename_i lockOwner _
      split
      · left
        by_cases e : c = lockOwner
        · subst e; simp [setRset, hw]
        · simp [setRset, hw, modTx_txs_ne _ _ _ _ e]
      · split
        · left; simp [setRset, hw]
        · split
          · left; simp [hw]
          · right; simp [setWset, hr]

/-- With the read set and the write set of the current transaction disjoint at `v`, the two
orders of lookup give the same result. -/
theorem roSpecFuel_eq (n th v : Nat) (s : State)
    (hd : ∀ c, s.currentTransaction th = some c →
      (s.txs c).wsetBuffers.lookup v = none ∨ (s.txs c).rsetBuffers.lookup v = none) :
    roSpecFuel n th v s = roFuel n th v s := by
  induction n generalizing s with
  | zero => rfl
  | succ n ih =>
    unfold roSpecFuel roFuel
    cases hc : s.currentTransaction th with
    | none => rfl
    | some c =>
      dsimp only
      cases hr : (s.txs c).rsetBuffers.lookup v with
      | some rb =>
        rcases hd c hc with h | h
        · rw [h]
        · rw [hr] at h; cases h
      | none =>
        cases hw : (s.txs c).wsetBuffers.lookup v with
        | some wb => rfl
        | none =>
          dsimp only
          split
          · have h1 := @irrAcquire_one_set c v s hr hw
            have h2 : (irrAcquire c v true s).2.currentTransaction = s.currentTransaction :=
              irrAcquire_cur c v true s
            revert h1 h2
            generalize irrAcquire c v true s = r
            obtain ⟨r1, r2⟩ := r
            intro h1 h2
            cases r1 with
            | error e => rfl
            | ok u =>
              dsimp only
              apply ih
              intro c' hc'
              dsimp only at h2
              rw [h2, hc] at hc'
              cases hc'
              exact h1
          · rfl

/-- The first `ro` of a variable by the irrevocable transaction is `irrAcquire` followed by a
hit in the read set. -/
theorem ro_irr_first {th c v : Nat} {s : State} (hi : Inv s)
    (hc : s.currentTransaction th = some c) (hirr : (s.txs c).amIIrrevocable = true)
    (hr : v ∉ (s.txs c).rsetBuffers) (hw : v ∉ (s.txs c).wsetBuffers) :
    ro th v s = (.ok (Buf.alloc s.nextBuf), (irrAcquire c v true s).2) := by
  obtain ⟨h1, h2, h3, -⟩ := @irrAcquire_lives th c v true s hi hc hirr hw
    (fun h => by cases h)
  simp only [if_true] at h3
  have hc1 : (irrAcquire c v true s).2.currentTransaction th = some c := by
    rw [h2.cur_eq]; exact hc
  unfold ro
  rw [roFuel]
  simp only [hc, AList.lookup_eq_none.2 hw, AList.lookup_eq_none.2 hr, hirr, if_true]
  revert h1 h3 hc1
  generalize irrAcquire c v true s = r
  obtain ⟨r1, r2⟩ := r
  intro h1 h3 hc1
  simp only at h1 h3 hc1
  subst h1
  exact roFuel_hit 0 hc1 (Or.inl h3)

/-- The `rw` of a variable of its read set by the irrevocable transaction moves the buffer
to the write set. -/
theorem rw_irr_moves {th c v : Nat} {rb : Buf} {s : State}
    (hc : s.currentTransaction th = some c) (hirr : (s.txs c).amIIrrevocable = true)
    (hr : (s.txs c).rsetBuffers.lookup v = some rb)
    (hw : (s.txs c).wsetBuffers.lookup v = none) :
    rw th v s = (.ok rb, setWset c v rb (unsetRset c v s)) := by
  unfold rw
  rw [rwFuel]
  simp only [hc, hw, hirr, if_true, hr]
  exact rwFuel_hit 0 (by simpa [setWset, unsetRset] using hc) (by simp [setWset, unsetRset])

/-- C23: in every reachable state the read set and the write set of every installed
transaction are disjoint. A `ro` that returns either found the variable in one of the sets
and changed nothing, or found it in neither set and put it into the read set, not into the
write set. After a `rw` that returns the variable is in the write set and not in the read
set. For the irrevocable transaction `irrAcquire` runs exactly for a variable in neither set:
with the variable in the read set `ro` changes nothing and `rw` moves the buffer to the write
set, with the variable in the write set both change nothing, and with the variable in
neither set they leave the state of `irrAcquire`. So `ro` with the write set looked up
first, as specified, gives the same result and the same state as `ro` of the source, which
looks up the read set first. -/
theorem sets_disjoint {s : State} (hr : Reachable s) :
    (∀ x v, (s.txs x).alive = true → v ∈ (s.txs x).rsetBuffers →
      v ∉ (s.txs x).wsetBuffers) ∧
    (∀ th c v b, s.currentTransaction th = some c → (ro th v s).1 = .ok b →
      ((v ∈ (s.txs c).rsetBuffers ∨ v ∈ (s.txs c).wsetBuffers) ∧ (ro th v s).2 = s) ∨
      (v ∉ (s.txs c).rsetBuffers ∧ v ∉ (s.txs c).wsetBuffers ∧
        ((ro th v s).2.txs c).rsetBuffers.lookup v = some b ∧
        v ∉ ((ro th v s).2.txs c).wsetBuffers)) ∧
    (∀ th c v b, s.currentTransaction th = some c → (rw th v s).1 = .ok b →
      ((rw th v s).2.txs c).wsetBuffers.lookup v = some b ∧
      v ∉ ((rw th v s).2.txs c).rsetBuffers) ∧
    (∀ th c v, s.currentTransaction th = some c → (s.txs c).amIIrrevocable = true →
      (∀ rb, (s.txs c).rsetBuffers.lookup v = some rb →
        ro th v s = (.ok rb, s) ∧ rw th v s = (.ok rb, setWset c v rb (unsetRset c v s))) ∧
      (∀ wb, (s.txs c).wsetBuffers.lookup v = some wb →
        ro th v s = (.ok wb, s) ∧ rw th v s = (.ok wb, s)) ∧
      (v ∉ (s.txs c).rsetBuffers → v ∉ (s.txs c).wsetBuffers →
        (ro th v s).2 = (irrAcquire c v true s).2 ∧
        (rw th v s).2 = (irrAcquire c v false s).2)) ∧
    (∀ th v, roSpec th v s = ro th v s) := by
  have hi := reachable_inv hr
  have same : ∀ {th c c' : Nat}, s.currentTransaction th = some c →
      s.currentTransaction th = some c' → c' = c := by
    intro th c c' h h'
    rw [h] at h'
    cases h'
    rfl
  refine ⟨hi.sets_disj, ?_, ?_, ?_, ?_⟩
  · intro th c v b hc hok
    rcases @ro_cases th v s hi with
      ⟨c', b', hc', hlook, e⟩ | ⟨e, -, -⟩ | ⟨e', e, -, -⟩ | ⟨c', b', e, hl, n1, n2, -, look⟩ |
        ⟨c', e, -, -⟩
    · have := same hc hc'; subst this
      left
      refine ⟨?_, by rw [e]⟩
      rcases hlook with h | ⟨-, h⟩
      · exact Or.inl (mem_iff_lookup.2 ⟨b', h⟩)
      · exact Or.inr (mem_iff_lookup.2 ⟨b', h⟩)
    · rw [hc] at e; cases e
    · rw [hc] at e; cases e
    · have := same hc hl.cur; subst this
      right
      rw [hok] at e
      cases e
      exact ⟨n1, n2, look, hl.c_disj v (mem_iff_lookup.2 ⟨b, look⟩)⟩
    · rw [hok] at e; cases e
  · intro th c v b hc hok
    rcases @rw_cases th v s hi with
      ⟨c', b', hc', hlook, e⟩ | ⟨e, -, -⟩ | ⟨e', e, -, -⟩ | ⟨c', b', e, hl, look, -⟩ |
        ⟨c', e, -, -⟩
    · have := same hc hc'; subst this
      rw [e] at hok ⊢
      cases hok
      exact ⟨hlook, fun hm => hi.sets_disj c' v (hi.cur_alive th c' hc) hm
        (mem_iff_lookup.2 ⟨b, hlook⟩)⟩
    · rw [hc] at e; cases e
    · rw [hc] at e; cases e
    · have := same hc hl.cur; subst this
      rw [hok] at e
      cases e
      exact ⟨look, fun hm => hl.c_disj v hm (mem_iff_lookup.2 ⟨b, look⟩)⟩
    · rw [hok] at e; cases e
  · intro th c v hc hirr
    have hca := hi.cur_alive th c hc
    refine ⟨?_, ?_, ?_⟩
    · intro rb hrb
      have hw : (s.txs c).wsetBuffers.lookup v = none :=
        lookup_none_of_not_mem (hi.sets_disj c v hca (mem_iff_lookup.2 ⟨rb, hrb⟩))
      exact ⟨by unfold ro; exact roFuel_hit 1 hc (Or.inl hrb), rw_irr_moves hc hirr hrb hw⟩
    · intro wb hwb
      exact wset_hit hi hc hwb
    · intro n1 n2
      rw [ro_irr_first hi hc hirr n1 n2, (rw_irr_first hi hc hirr n1 n2).1]
      exact ⟨rfl, rfl⟩
  · intro th v
    unfold roSpec ro
    apply roSpecFuel_eq
    intro c hc
    cases hrl : (s.txs c).rsetBuffers.lookup v with
    | none => exact Or.inr rfl
    | some rb =>
      exact Or.inl (lookup_none_of_not_mem
        (hi.sets_disj c v (hi.cur_alive th c hc) (mem_iff_lookup.2 ⟨rb, hrl⟩)))

theorem sets_disjoint_witness :
    Reachable pledged ∧ pledged.currentTransaction 0 = some 0 ∧
    (pledged.txs 0).rsetBuffers.lookup 0 = some (Buf.alloc 0) ∧
    (pledged.txs 0).wsetBuffers.lookup 1 = some (Buf.alloc 1) ∧
    (pledged.txs 0).wsetBuffers.lookup 0 = none ∧
    ((rw 0 0 pledged).2.txs 0).wsetBuffers.lookup 0 = some (Buf.alloc 0) ∧
    0 ∉ ((rw 0 0 pledged).2.txs 0).rsetBuffers ∧
    roSpec 0 0 pledged = ro 0 0 pledged ∧ roSpec 0 1 pledged = ro 0 1 pledged ∧
    (overlapping.txs 0).rsetBuffers.lookup 0 = some (Buf.alloc 0) ∧
    (overlapping.txs 0).wsetBuffers.lookup 0 = some (Buf.alloc 7) ∧
    (ro 0 0 overlapping).1 = .ok (Buf.alloc 0) ∧
    (roSpec 0 0 overlapping).1 = .ok (Buf.alloc 7) :=
  have h := sets_disjoint pledged_reachable
  ⟨pledged_reachable, by decide, by decide, by decide, by decide,
    (h.2.2.1 0 0 0 (Buf.alloc 0) (by decide) (by decide)).1,
    (h.2.2.1 0 0 0 (Buf.alloc 0) (by decide) (by decide)).2,
    h.2.2.2.2 0 0, h.2.2.2.2 0 1, by decide, by decide, by decide, by decide⟩

/-! ## C2: calls that publish nothing, in any state -/

theorem Quiet.value_alloc {s s' : State} (h : Quiet s s') (ha : Allocated s) (w : Nat) :
    s'.value w = s.value w := by
  unfold State.value
  rw [h.varPtr, h.heap]
  exact fun n hn => ha w n hn

theorem Quiet.allocated {s s' : State} (h : Quiet s s') (ha : Allocated s) : Allocated s' := by
  intro w n hn
  rw [h.varPtr] at hn
  exact Nat.lt_of_lt_of_le (ha w n hn) h.nextBuf_le

/-- Every call but an assignment and a `commitT` that returns normally repoints no variable
and writes no existing cell, in whatever state it is made. -/
theorem exec_quiet (th : Nat) (op : Op) (s : State) (h1 : op.isAssign = false)
    (h2 : ¬ (op = Op.commitT ∧ (exec th op s).1 = .ok ())) : Quiet s (exec th op s).2 := by
  cases op with
  | beginT => exact quiet_beginT th s
  | abortT =>
    simp only [exec, abortT]
    split
    · exact quiet_refl s
    · exact quiet_abort _ _ _
  | irrT =>
    simp only [exec, irrT]
    split
    · exact quiet_refl s
    · exact quiet_irr _ _ _
  | commitT =>
    have h3 : (commitT th s).1 ≠ .ok () := fun h => h2 ⟨rfl, h⟩
    revert h3
    simp only [exec, commitT]
    split
    · intro _; exact quiet_refl s
    · intro h3; exact quiet_commit _ _ _ h3
  | ro v => exact quiet_roFuel 2 th v s
  | rw v => exact quiet_rwFuel 2 th v s
  | assign v val => cases h1

theorem cleanup_heap (th c : Nat) (s : State) : (cleanup th c s).heap = s.heap := by
  unfold cleanup resetCurrent
  dsimp only
  split <;> simp

theorem cleanup_varPtr (th c : Nat) (s : State) (w : Nat) :
    ((cleanup th c s).vars w).varPtr = (s.vars w).varPtr := (quiet_cleanup th c s).varPtr w

theorem abortThrow_heap {α : Type} (th c : Nat) (e : Exc) (s : State) :
    (abortThrow th c e s : Res α).2.heap = s.heap := by
  have h : (abort th c s).2.heap = s.heap := by
    unfold abort
    repeat' split
    all_goals first | rfl | (dsimp only; rw [cleanup_heap]; simp)
  unfold abortThrow
  split <;> exact h

/-- A `commit` that throws leaves the heap and every authoritative pointer as they were, in
whatever state it is called. -/
theorem commit_failed_frame (th c : Nat) (s : State) (h : (commit th c s).1 ≠ .ok ()) :
    (commit th c s).2.heap = s.heap ∧
    ∀ w, ((commit th c s).2.vars w).varPtr = (s.vars w).varPtr := by
  refine ⟨?_, (quiet_commit th c s h).varPtr⟩
  have hd : (killReaders th c (if (s.txs c).amIIrrevocable = true
      then storeDirtyIrr true (s.txs c).wsetBuffers.keys s
      else storeDirty true (s.txs c).wsetBuffers.keys s)).heap = s.heap := by
    rw [(killReaders_step th c _).heap]
    split <;> simp
  unfold commit at h ⊢
  by_cases c1 : (s.txs c).comitted = true
  · rw [if_pos c1]
  · rw [if_neg c1] at h ⊢
    by_cases c2 : (s.txs c).aborted = true
    · rw [if_pos c2]
      split
      · rfl
      · exact abortThrow_heap _ _ _ _
    · rw [if_neg c2] at h ⊢
      dsimp only at h ⊢
      revert h hd
      generalize killReaders th c (if (s.txs c).amIIrrevocable = true
        then storeDirtyIrr true (s.txs c).wsetBuffers.keys s
        else storeDirty true (s.txs c).wsetBuffers.keys s) = s2
      intro h hd
      by_cases c3 : (s2.txs c).amIIrrevocable = true
      · rw [if_pos c3] at h; exact absurd rfl h
      · rw [if_neg c3] at h ⊢
        by_cases c4 : (s2.txs c).cleanReadsetLock = true
        · rw [if_pos c4, abortThrow_heap, storeDirty_heap]
          exact hd
        · rw [if_neg c4] at h ⊢
          by_cases c5 : ((s2.modTx c fun t => { t with cleanReadsetLock := true }).txs
              c).commitLock = true
          · rw [if_pos c5, abortThrow_heap, storeDirty_heap]
            exact hd
          · rw [if_neg c5] at h; exact absurd rfl h

/-- The value of every variable after a call that is not a `commitT` returning normally,
made in a state between calls. -/
theorem exec_values_any {s : State} (hi : Inv s) (th : Nat) (op : Op)
    (hin : op.isAssign = true → s.currentTransaction th ≠ none ∨ s.nonTransAccess ≠ none)
    (hno : ¬ (op = Op.commitT ∧ (exec th op s).1 = .ok ())) (w : Nat) :
    (exec th op s).2.value w = s.value w := by
  cases ha : op.isAssign with
  | true => exact exec_values hi th op (hin ha) hno w
  | false => exact (exec_quiet th op s ha hno).value_alloc (fun w n h => hi.var_lt w n h) w

/-- C2: in whatever state it is made (other threads may be inside a call), provided every
authoritative pointer is a cell of the program, a call of `beginT`, `ro`, `rw`, `irrT`,
`abortT`, or a `commitT` that throws, leaves the authoritative value of every variable as it
was; a `commit` that throws, through whichever of its exits (the transaction was marked
aborted, or it lost `cleanReadsetLock`, or it lost `commitLock`), leaves the heap and every
authoritative pointer untouched, so it publishes nothing. Hence from a state between calls a
run of calls of any threads none of which is a `commitT` that returns normally, assignments
through `rw` included, leaves the authoritative value of every variable as it was; in
particular a transaction that ends in abort has changed none. -/
theorem abort_leaves_values {s : State} (ha : Allocated s) (w : Nat) :
    (∀ th op, op.isAssign = false → ¬ (op = Op.commitT ∧ (exec th op s).1 = .ok ()) →
      (exec th op s).2.value w = s.value w ∧ Allocated (exec th op s).2) ∧
    (∀ th c, (commit th c s).1 ≠ .ok () →
      (commit th c s).2.heap = s.heap ∧
      (∀ v, ((commit th c s).2.vars v).varPtr = (s.vars v).varPtr) ∧
      (commit th c s).2.value w = s.value w) ∧
    (∀ th c, s.currentTransaction th = some c → (s.txs c).comitted = false →
      (s.txs c).amIIrrevocable = false →
      (s.txs c).aborted = true ∨ (s.txs c).cleanReadsetLock = true ∨
        (s.txs c).commitLock = true →
      (commitT th s).1 = .error .CommitFailedException ∧ (commitT th s).2.value w = s.value w) ∧
    (Reachable s → ∀ calls, NoCommit calls s → (run calls s).value w = s.value w) := by
  refine ⟨?_, ?_, ?_, ?_⟩
  · intro th op h1 h2
    have hq := exec_quiet th op s h1 h2
    exact ⟨hq.value_alloc ha w, hq.allocated ha⟩
  · intro th c h
    obtain ⟨f1, f2⟩ := commit_failed_frame th c s h
    refine ⟨f1, f2, ?_⟩
    simp only [State.value]
    rw [f1, f2]
  · intro th c hc hcom hirr hcause
    have hfail : (commitT th s).1 = .error .CommitFailedException := by
      have ks := killReaders_step th c (storeDirty true (s.txs c).wsetBuffers.keys s)
      have kc := ks.touched c
      have key : ∀ s1 : State, (s1.txs c).comitted = false → (s1.txs c).amIIrrevocable = false →
          (abortThrow th c .CommitFailedException s1 : Res Unit).1 =
            .error .CommitFailedException := by
        intro s1 h1 h2
        rw [abortThrow_revocable _ h1 h2]
      have k2 : ((killReaders th c (storeDirty true (s.txs c).wsetBuffers.keys s)).txs
          c).comitted = false := by rw [kc.comitted]; simpa using hcom
      have k3 : ((killReaders th c (storeDirty true (s.txs c).wsetBuffers.keys s)).txs
          c).amIIrrevocable = false := by rw [kc.irr]; simpa using hirr
      have k4 : (s.txs c).cleanReadsetLock = true →
          ((killReaders th c (storeDirty true (s.txs c).wsetBuffers.keys s)).txs
            c).cleanReadsetLock = true := fun h => kc.crl (by simpa using h)
      have k5 : (s.txs c).commitLock = true →
          ((killReaders th c (storeDirty true (s.txs c).wsetBuffers.keys s)).txs
            c).commitLock = true := fun h => kc.cl (by simpa using h)
      unfold commitT
      rw [hc]
      dsimp only
      unfold commit
      simp only [hcom, hirr, Bool.false_eq_true, if_false]
      by_cases hab : (s.txs c).aborted = true
      · rw [if_pos hab]
        exact key s hcom hirr
      · rw [if_neg hab]
        revert k2 k3 k4 k5
        generalize killReaders th c (storeDirty true (s.txs c).wsetBuffers.keys s) = s2
        intro k2 k3 k4 k5
        simp only [k3, Bool.false_eq_true, if_false]
        by_cases c4 : (s2.txs c).cleanReadsetLock = true
        · rw [if_pos c4]
          exact key _ (by rw [storeDirty_txs]; exact k2) (by rw [storeDirty_txs]; exact k3)
        · rw [if_neg c4]
          have hcl : (s.txs c).commitLock = true := by
            rcases hcause with h | h | h
            · exact absurd h hab
            · exact absurd (k4 h) c4
            · exact h
          rw [if_pos (by simpa using k5 hcl)]
          exact key _ (by rw [storeDirty_txs]; simpa using k2)
            (by rw [storeDirty_txs]; simpa using k3)
    refine ⟨hfail, ?_⟩
    have hq := exec_quiet th .commitT s rfl (fun h => by
      have h2 : (commitT th s).1 = .ok () := h.2
      rw [hfail] at h2
      cases h2)
    exact hq.value_alloc ha w
  · intro hr calls
    have key : ∀ (s : State), Reachable s → NoCommit calls s →
        (run calls s).value w = s.value w := by
      induction calls with
      | nil => intro s _ _; rfl
      | cons c cs ih =>
        intro s hr h
        obtain ⟨h1, h2, h3, h4⟩ := h
        rw [run, ih _ (Reachable.step s c.1 c.2 hr h1) h4]
        exact exec_values_any (reachable_inv hr) c.1 c.2 h2 h3 w
    exact key s hr

theorem raced_allocated : Allocated raced :=
  fun w n h => (reachable_inv wroteFive_reachable).var_lt w n h

theorem outbid_allocated : Allocated outbid :=
  fun w n h => (reachable_inv wroteFive_reachable).var_lt w n h

theorem abort_leaves_values_witness :
    (raced.currentTransaction 0 = some 0 ∧ (raced.txs 0).aborted = false ∧
      (raced.txs 0).cleanReadsetLock = true ∧
      (raced.txs 0).wsetBuffers.lookup 0 = some (Buf.alloc 0) ∧ raced.heap (Buf.alloc 0) = 5 ∧
      (commitT 0 raced).1 = .error .CommitFailedException ∧
      (commitT 0 raced).2.value 0 = 100) ∧
    (outbid.currentTransaction 0 = some 0 ∧ (outbid.txs 0).aborted = false ∧
      (outbid.txs 0).cleanReadsetLock = false ∧ (outbid.txs 0).commitLock = true ∧
      (commitT 0 outbid).1 = .error .CommitFailedException ∧
      (commitT 0 outbid).2.value 0 = 100) ∧
    (Reachable start ∧ NoCommit abortingRun start ∧
      (exec 0 .commitT (run (abortingRun.take 5) start)).1 = .error .CommitFailedException ∧
      (run abortingRun start).value 0 = 100 ∧ (run abortingRun start).value 2 = 100) ∧
    (Reachable permissive ∧ permissive.nonTransAccess = none ∧
      NoCommit lenientRun permissive ∧ (run lenientRun permissive).value 0 = 100) :=
  have h1 := (abort_leaves_values raced_allocated 0).2.2.1 0 0 (by decide) (by decide)
    (by decide) (Or.inr (Or.inl (by decide)))
  have h2 := (abort_leaves_values outbid_allocated 0).2.2.1 0 0 (by decide) (by decide)
    (by decide) (Or.inr (Or.inr (by decide)))
  have hn : NoCommit abortingRun start := by decide
  have hs : Allocated start := fun w n h => (reachable_inv start_reachable).var_lt w n h
  have hp : Allocated permissive :=
    fun w n h => (reachable_inv (Reachable.init 32 _ _ _)).var_lt w n h
  have hl : NoCommit lenientRun permissive := by decide
  ⟨⟨by decide, by decide, by decide, by decide, by decide, h1.1, h1.2.trans (by decide)⟩,
    ⟨by decide, by decide, by decide, by decide, h2.1, h2.2.trans (by decide)⟩,
    ⟨start_reachable, hn, by decide,
      ((abort_leaves_values hs 0).2.2.2 start_reachable abortingRun hn).trans (by decide),
      ((abort_leaves_values hs 2).2.2.2 start_reachable abortingRun hn).trans (by decide)⟩,
    ⟨Reachable.init 32 _ _ _, by decide, hl,
      ((abort_leaves_values hp 0).2.2.2 (Reachable.init 32 _ _ _) lenientRun hl).trans
        (by decide)⟩⟩

/-! ## The footprint of a call made in any state -/

theorem performWriteAsIrr_frame (c v : Nat) (b : Buf) (s : State) :
    (performWriteAsIrr c v b s).txs = s.txs ∧
    (performWriteAsIrr c v b s).currentTransaction = s.currentTransaction ∧
    (performWriteAsIrr c v b s).nextTx = s.nextTx ∧
    (performWriteAsIrr c v b s).irrTransactionLock = s.irrTransactionLock := by
  unfold performWriteAsIrr
  split <;> exact ⟨rfl, rfl, rfl, rfl⟩

/-- The publishing loops of `commit` change no transaction object and no slot, whatever the
state. -/
theorem publish_frame (c : Nat) (s : State) :
    (publish c s).txs = s.txs ∧ (publish c s).currentTransaction = s.currentTransaction ∧
    (publish c s).nextTx = s.nextTx ∧
    (publish c s).irrTransactionLock = s.irrTransactionLock := by
  have h1 : ∀ (l : List (Σ _ : Nat, Buf)) (s : State),
      (l.foldl (fun st e => performWriteAsIrr c e.1 e.2 st) s).txs = s.txs ∧
      (l.foldl (fun st e => performWriteAsIrr c e.1 e.2 st) s).currentTransaction =
        s.currentTransaction ∧
      (l.foldl (fun st e => performWriteAsIrr c e.1 e.2 st) s).nextTx = s.nextTx ∧
      (l.foldl (fun st e => performWriteAsIrr c e.1 e.2 st) s).irrTransactionLock =
        s.irrTransactionLock := by
    intro l
    induction l with
    | nil => intro s; exact ⟨rfl, rfl, rfl, rfl⟩
    | cons e l ih =>
      intro s
      obtain ⟨a1, a2, a3, a4⟩ := ih (performWriteAsIrr c e.1 e.2 s)
      obtain ⟨b1, b2, b3, b4⟩ := performWriteAsIrr_frame c e.1 e.2 s
      rw [List.foldl_cons]
      exact ⟨a1.trans b1, a2.trans b2, a3.trans b3, a4.trans b4⟩
  have h2 : ∀ (l : List (Σ _ : Nat, Buf)) (s : State),
      (l.foldl (fun st e => performWrite e.1 e.2 st) s).txs = s.txs ∧
      (l.foldl (fun st e => performWrite e.1 e.2 st) s).currentTransaction =
        s.currentTransaction ∧
      (l.foldl (fun st e => performWrite e.1 e.2 st) s).nextTx = s.nextTx ∧
      (l.foldl (fun st e => performWrite e.1 e.2 st) s).irrTransactionLock =
        s.irrTransactionLock := by
    intro l
    induction l with
    | nil => intro s; exact ⟨rfl, rfl, rfl, rfl⟩
    | cons e l ih =>
      intro s
      obtain ⟨a1, a2, a3, a4⟩ := ih (performWrite e.1 e.2 s)
      rw [List.foldl_cons]
      exact ⟨a1, a2, a3, a4⟩
  unfold publish
  split
  · exact h1 _ _
  · exact h2 _ _

theorem resetCurrent_cur (th : Nat) (s : State) :
    (resetCurrent th s).currentTransaction = Function.update s.currentTransaction th none := by
  unfold resetCurrent
  split
  · rename_i h
    funext u
    by_cases hu : u = th
    · subst hu; simp [h]
    · simp [hu]
  · rfl

theorem cleanup_slots (th c : Nat) (s : State) :
    (cleanup th c s).currentTransaction = Function.update s.currentTransaction th none := by
  unfold cleanup
  dsimp only
  rw [resetCurrent_cur]
  simp

theorem cleanup_nextTx (th c : Nat) (s : State) : (cleanup th c s).nextTx = s.nextTx := by
  unfold cleanup resetCurrent
  dsimp only
  split <;> simp

/-- The function `cleanup` leaves alone every transaction object but its own and the one
installed in the slot of the thread. -/
theorem cleanup_txs_other {th c x : Nat} (s : State) (h1 : x ≠ c)
    (h2 : s.currentTransaction th ≠ some x) : (cleanup th c s).txs x = s.txs x := by
  unfold cleanup resetCurrent
  dsimp only
  split
  · simp [modTx_txs_ne _ _ _ _ h1]
  · rename_i y hy
    have hy' : s.currentTransaction th = some y := by simpa using hy
    have hxy : x ≠ y := fun e => h2 (by rw [hy', e])
    simp [modTx_txs_ne _ _ _ _ h1, modTx_txs_ne _ _ _ _ hxy]

theorem abort_slots (th c : Nat) (s : State) (u : Nat) (hu : u ≠ th) :
    (abort th c s).2.currentTransaction u = s.currentTransaction u := by
  unfold abort
  repeat' split
  all_goals first
    | rfl
    | (dsimp only; rw [cleanup_slots, Function.update_noteq hu]; simp)

theorem abort_nextTx (th c : Nat) (s : State) : (abort th c s).2.nextTx = s.nextTx := by
  unfold abort
  repeat' split
  all_goals first
    | rfl
    | (dsimp only; rw [cleanup_nextTx]; simp)

theorem abort_txs_other {th c x : Nat} (s : State) (h1 : x ≠ c)
    (h2 : s.currentTransaction th ≠ some x) : (abort th c s).2.txs x = s.txs x := by
  unfold abort
  repeat' split
  all_goals first
    | rfl
    | (dsimp only
       rw [cleanup_txs_other _ h1 (by simpa using h2)]
       simp [modTx_txs_ne _ _ _ _ h1])

theorem abortThrow_slots {α : Type} (th c : Nat) (e : Exc) (s : State) (u : Nat) (hu : u ≠ th) :
    (abortThrow th c e s : Res α).2.currentTransaction u = s.currentTransaction u := by
  unfold abortThrow
  split <;> exact abort_slots th c s u hu

theorem abortThrow_nextTx {α : Type} (th c : Nat) (e : Exc) (s : State) :
    (abortThrow th c e s : Res α).2.nextTx = s.nextTx := by
  unfold abortThrow
  split <;> exact abort_nextTx th c s

theorem abortThrow_txs_other {α : Type} {th c x : Nat} (e : Exc) (s : State) (h1 : x ≠ c)
    (h2 : s.currentTransaction th ≠ some x) :
    (abortThrow th c e s : Res α).2.txs x = s.txs x := by
  unfold abortThrow
  split <;> exact abort_txs_other s h1 h2

/-- Marking a transaction aborted after winning its free `commitLock` is a touch. -/
theorem Touched.winCommitLock {t : Transaction} (h : t.commitLock = false) :
    Touched t { t with commitLock := true, aborted := true } := by
  constructor <;> simp [h]

theorem irrAcquireCopy_txs_other {c v x : Nat} (b : Bool) (s : State) (h : x ≠ c) :
    (irrAcquireCopy c v b s).txs x = s.txs x := by
  unfold irrAcquireCopy
  dsimp only
  split <;> simp [setRset, setWset, modTx_txs_ne _ _ _ _ h]

/-- What `irrAcquire` does to a transaction object other than the caller, in any state: at
most it wins its free `commitLock` and marks it aborted. -/
theorem irrAcquire_touched {c v x : Nat} (b : Bool) (s : State) (h : x ≠ c) :
    Touched (s.txs x) ((irrAcquire c v b s).2.txs x) := by
  unfold irrAcquire
  dsimp only
  split
  · rw [irrAcquireCopy_txs_other _ _ h]
    simp [modTx_txs_ne _ _ _ _ h]
    exact Touched.same _
  · split
    · rw [irrAcquireCopy_txs_other _ _ h]
      exact Touched.same _
    · rename_i y _
      split
      · rename_i hcl
        rw [irrAcquireCopy_txs_other _ _ h]
        by_cases hxy : x = y
        · subst hxy
          rw [modTx_txs_same]
          exact Touched.winCommitLock (by simpa using hcl)
        · rw [modTx_txs_ne _ _ _ _ hxy]
          exact Touched.same _
      · split
        · rw [irrAcquireCopy_txs_other _ _ h]
          exact Touched.same _
        · split
          · exact Touched.same _
          · simp [setWset, modTx_txs_ne _ _ _ _ h]
            exact Touched.same _

theorem irrAcquire_nextTx (c v : Nat) (b : Bool) (s : State) :
    (irrAcquire c v b s).2.nextTx = s.nextTx := by
  unfold irrAcquire irrAcquireCopy
  dsimp only
  repeat' split
  all_goals simp [setRset, setWset]

/-- What `ro` does to a transaction object that is not the one installed in the slot of the
calling thread, in any state. -/
theorem roFuel_touched (n : Nat) {th v x : Nat} (s : State)
    (h : s.currentTransaction th ≠ some x) :
    Touched (s.txs x) ((roFuel n th v s).2.txs x) := by
  induction n generalizing s with
  | zero => exact Touched.same _
  | succ n ih =>
    unfold roFuel
    split
    · split <;> exact Touched.same _
    · rename_i c hc
      have hxc : x ≠ c := fun e => h (by rw [hc, e])
      split
      · exact Touched.same _
      · split
        · exact Touched.same _
        · split
          · have t1 := irrAcquire_touched (v := v) true s hxc
            have c1 := irrAcquire_cur c v true s
            revert t1 c1
            generalize irrAcquire c v true s = r
            obtain ⟨r1, r2⟩ := r
            intro t1 c1
            cases r1 with
            | error e => exact t1
            | ok u =>
              dsimp only
              exact t1.andThen (ih r2 (by rw [show r2.currentTransaction = _ from c1]; exact h))
          · dsimp only
            split
            · rw [abortThrow_txs_other _ _ hxc (by simpa using h)]
              simp
              exact Touched.same _
            · split
              · rw [abortThrow_txs_other _ _ hxc (by simpa using h)]
                simp
                exact Touched.same _
              · simp [setRset, modTx_txs_ne _ _ _ _ hxc]
                exact Touched.same _

theorem rwLocked_txs_other {th c v x : Nat} (s : State) (hxc : x ≠ c)
    (h : s.currentTransaction th ≠ some x) : (rwLocked th c v s).2.txs x = s.txs x := by
  unfold rwLocked
  split
  · rw [abortThrow_txs_other _ _ hxc (by simpa using h)]
    simp
  · cases hr : (s.txs c).rsetBuffers.lookup v with
    | some rb =>
      dsimp only
      split
      · rw [abortThrow_txs_other _ _ hxc (by simpa [unsetRset] using h)]
        simp [unsetRset, modTx_txs_ne _ _ _ _ hxc]
      · simp [setWset, unsetRset, modTx_txs_ne _ _ _ _ hxc]
    | none =>
      dsimp only
      split
      · rw [abortThrow_txs_other _ _ hxc (by simpa using h)]
        simp
      · simp [setWset, modTx_txs_ne _ _ _ _ hxc]

/-- What `rw` does to a transaction object that is not the one installed in the slot of the
calling thread, in any state. -/
theorem rwFuel_touched (n : Nat) {th v x : Nat} (s : State)
    (h : s.currentTransaction th ≠ some x) :
    Touched (s.txs x) ((rwFuel n th v s).2.txs x) := by
  induction n generalizing s with
  | zero => exact Touched.same _
  | succ n ih =>
    unfold rwFuel
    split
    · split <;> exact Touched.same _
    · rename_i c hc
      have hxc : x ≠ c := fun e => h (by rw [hc, e])
      split
      · exact Touched.same _
      · split
        · split
          · rename_i rb hrb
            have := ih (setWset c v rb (unsetRset c v s))
              (by simpa [setWset, unsetRset] using h)
            simpa [setWset, unsetRset, modTx_txs_ne _ _ _ _ hxc] using this
          · have t1 := irrAcquire_touched (v := v) false s hxc
            have c1 := irrAcquire_cur c v false s
            revert t1 c1
            generalize irrAcquire c v false s = r
            obtain ⟨r1, r2⟩ := r
            intro t1 c1
            cases r1 with
            | error e => exact t1
            | ok u =>
              dsimp only
              exact t1.andThen (ih r2 (by rw [show r2.currentTransaction = _ from c1]; exact h))
        · split
          · rw [abortThrow_txs_other _ _ hxc h]
            exact Touched.same _
          · split
            · rw [abortThrow_txs_other _ _ hxc h]
              exact Touched.same _
            · rw [rwLocked_txs_other _ hxc (by simpa using h)]
              simp
              exact Touched.same _

theorem irr_txs_other {th c x : Nat} (s : State) (hxc : x ≠ c)
    (h : s.currentTransaction th ≠ some x) : (irr th c s).2.txs x = s.txs x := by
  unfold irr
  split
  · rfl
  · split
    · exact abortThrow_txs_other _ _ hxc h
    · obtain ⟨a1, -, -, -, -, a6, -⟩ :=
        acquireReadset_spec c { s with irrTransactionLock := true }
      have a6' := a6 x hxc
      dsimp only
      revert a1 a6'
      generalize acquireReadset c { s with irrTransactionLock := true } = r
      obtain ⟨r1, r2⟩ := r
      intro a1 a6'
      simp only at a1 a6'
      have hcur : r2.currentTransaction th ≠ some x := by rw [a1]; exact h
      split
      · rw [abortThrow_txs_other _ _ hxc (by simpa using hcur)]
        exact a6'
      · split
        · rw [abortThrow_txs_other _ _ hxc (by
            simp only [storeUsedByIrr_cur]
            split <;> simpa using hcur)]
          simp only [storeUsedByIrr_txs]
          split <;> simp [modTx_txs_ne _ _ _ _ hxc, a6']
        · dsimp only
          split <;> simp [modTx_txs_ne _ _ _ _ hxc, a6']

theorem irr_slots (th c : Nat) (s : State) (u : Nat) (hu : u ≠ th) :
    (irr th c s).2.currentTransaction u = s.currentTransaction u := by
  unfold irr
  split
  · rfl
  · split
    · exact abortThrow_slots _ _ _ _ u hu
    · obtain ⟨a1, -⟩ := acquireReadset_spec c { s with irrTransactionLock := true }
      dsimp only
      revert a1
      generalize acquireReadset c { s with irrTransactionLock := true } = r
      obtain ⟨r1, r2⟩ := r
      intro a1
      simp only at a1
      split
      · rw [abortThrow_slots _ _ _ _ u hu]
        simp [a1]
      · split
        · rw [abortThrow_slots _ _ _ _ u hu]
          simp only [storeUsedByIrr_cur]
          split <;> simp [a1]
        · dsimp only
          split <;> simp [a1]

theorem commitFinish_txs_other {th c x : Nat} (s : State) (hxc : x ≠ c)
    (h : s.currentTransaction th ≠ some x) : (commitFinish th c s).txs x = s.txs x := by
  obtain ⟨p1, p2, -⟩ := publish_frame c s
  unfold commitFinish
  revert p1 p2
  generalize publish c s = p
  intro p1 p2
  dsimp only
  rw [cleanup_txs_other _ hxc]
  · split <;> split <;> simp [modTx_txs_ne _ _ _ _ hxc, p1]
  · split <;> split <;> simp [p2, h]

theorem commitFinish_slots (th c : Nat) (s : State) (u : Nat) (hu : u ≠ th) :
    (commitFinish th c s).currentTransaction u = s.currentTransaction u := by
  obtain ⟨-, p2, -⟩ := publish_frame c s
  unfold commitFinish
  revert p2
  generalize publish c s = p
  intro p2
  dsimp only
  rw [cleanup_slots, Function.update_noteq hu]
  split <;> split <;> simp [p2]

/-- What `commit` does to a transaction object that is not the one installed in the slot of
the calling thread, in any state: at most `killReaders` wins its free `cleanReadsetLock` and
marks it aborted. -/
theorem commit_touched {th c x : Nat} (s : State) (hxc : x ≠ c)
    (h : s.currentTransaction th ≠ some x) :
    Touched (s.txs x) ((commit th c s).2.txs x) := by
  have hk : ∀ s1 : State, s1.txs = s.txs ∧ s1.currentTransaction = s.currentTransaction →
      Touched (s.txs x) ((killReaders th c s1).txs x) ∧
      (killReaders th c s1).currentTransaction = s.currentTransaction := by
    intro s1 h1
    have ks := killReaders_step th c s1
    refine ⟨?_, ks.cur.trans h1.2⟩
    have := ks.touched x
    rw [h1.1] at this
    exact this
  have hd := hk (if (s.txs c).amIIrrevocable = true
      then storeDirtyIrr true (s.txs c).wsetBuffers.keys s
      else storeDirty true (s.txs c).wsetBuffers.keys s) (by split <;> simp)
  unfold commit
  split
  · exact Touched.same _
  · split
    · split
      · exact Touched.same _
      · rw [abortThrow_txs_other _ _ hxc h]
        exact Touched.same _
    · dsimp only
      revert hd
      generalize killReaders th c (if (s.txs c).amIIrrevocable = true
        then storeDirtyIrr true (s.txs c).wsetBuffers.keys s
        else storeDirty true (s.txs c).wsetBuffers.keys s) = s2
      intro hd
      obtain ⟨hd1, hd2⟩ := hd
      have h2 : s2.currentTransaction th ≠ some x := by rw [hd2]; exact h
      split
      · rw [commitFinish_txs_other _ hxc h2]
        exact hd1
      · split
        · rw [abortThrow_txs_other _ _ hxc (by simpa using h2)]
          simpa using hd1
        · split
          · rw [abortThrow_txs_other _ _ hxc (by simpa using h2)]
            simpa [modTx_txs_ne _ _ _ _ hxc] using hd1
          · rw [commitFinish_txs_other _ hxc (by simpa using h2)]
            simpa [modTx_txs_ne _ _ _ _ hxc] using hd1

theorem commit_slots (th c : Nat) (s : State) (u : Nat) (hu : u ≠ th) :
    (commit th c s).2.currentTransaction u = s.currentTransaction u := by
  have hd : (killReaders th c (if (s.txs c).amIIrrevocable = true
      then storeDirtyIrr true (s.txs c).wsetBuffers.keys s
      else storeDirty true (s.txs c).wsetBuffers.keys s)).currentTransaction =
      s.currentTransaction := by
    rw [(killReaders_step th c _).cur]
    split <;> simp
  unfold commit
  split
  · rfl
  · split
    · split
      · rfl
      · exact abortThrow_slots _ _ _ _ u hu
    · dsimp only
      revert hd
      generalize killReaders th c (if (s.txs c).amIIrrevocable = true
        then storeDirtyIrr true (s.txs c).wsetBuffers.keys s
        else storeDirty true (s.txs c).wsetBuffers.keys s) = s2
      intro hd
      split
      · rw [commitFinish_slots _ _ _ u hu, hd]
      · split
        · rw [abortThrow_slots _ _ _ _ u hu]
          simp [hd]
        · split
          · rw [abortThrow_slots _ _ _ _ u hu]
            simp [hd]
          · rw [commitFinish_slots _ _ _ u hu]
            simp [hd]

theorem roFuel_slots (n : Nat) (th v : Nat) (s : State) (u : Nat) (hu : u ≠ th) :
    (roFuel n th v s).2.currentTransaction u = s.currentTransaction u := by
  induction n generalizing s with
  | zero => rfl
  | succ n ih =>
    unfold roFuel
    split
    · split <;> rfl
    · rename_i c hc
      split
      · rfl
      · split
        · rfl
        · split
          · have c1 := irrAcquire_cur c v true s
            revert c1
            generalize irrAcquire c v true s = r
            obtain ⟨r1, r2⟩ := r
            intro c1
            cases r1 with
            | error e => exact congrFun c1 u
            | ok x =>
              dsimp only
              rw [ih r2]
              exact congrFun c1 u
          · dsimp only
            split
            · rw [abortThrow_slots _ _ _ _ u hu]
              simp
            · split
              · rw [abortThrow_slots _ _ _ _ u hu]
                simp
              · simp [setRset]

theorem rwLocked_slots (th c v : Nat) (s : State) (u : Nat) (hu : u ≠ th) :
    (rwLocked th c v s).2.currentTransaction u = s.currentTransaction u := by
  unfold rwLocked
  split
  · rw [abortThrow_slots _ _ _ _ u hu]
    simp
  · cases hr : (s.txs c).rsetBuffers.lookup v with
    | some rb =>
      dsimp only
      split
      · rw [abortThrow_slots _ _ _ _ u hu]
        simp [unsetRset]
      · simp [setWset, unsetRset]
    | none =>
      dsimp only
      split
      · rw [abortThrow_slots _ _ _ _ u hu]
        simp
      · simp [setWset]

theorem rwFuel_slots (n : Nat) (th v : Nat) (s : State) (u : Nat) (hu : u ≠ th) :
    (rwFuel n th v s).2.currentTransaction u = s.currentTransaction u := by
  induction n generalizing s with
  | zero => rfl
  | succ n ih =>
    unfold rwFuel
    split
    · split <;> rfl
    · rename_i c hc
      split
      · rfl
      · split
        · split
          · rename_i rb hrb
            rw [ih]
            simp [setWset, unsetRset]
          · have c1 := irrAcquire_cur c v false s
            revert c1
            generalize irrAcquire c v false s = r
            obtain ⟨r1, r2⟩ := r
            intro c1
            cases r1 with
            | error e => exact congrFun c1 u
            | ok x =>
              dsimp only
              rw [ih r2]
              exact congrFun c1 u
        · split
          · exact abortThrow_slots _ _ _ _ u hu
          · split
            · exact abortThrow_slots _ _ _ _ u hu
            · rw [rwLocked_slots _ _ _ _ u hu]
              simp

/-- A call never changes the slot of another thread, in any state. -/
theorem exec_slots (th : Nat) (op : Op) (s : State) (u : Nat) (hu : u ≠ th) :
    (exec th op s).2.currentTransaction u = s.currentTransaction u := by
  cases op with
  | beginT =>
    simp only [exec, beginT]
    split
    · rfl
    · simp [Function.update_noteq hu]
  | abortT =>
    simp only [exec, abortT]
    split
    · rfl
    · exact abort_slots _ _ _ u hu
  | irrT =>
    simp only [exec, irrT]
    split
    · rfl
    · exact irr_slots _ _ _ u hu
  | commitT =>
    simp only [exec, commitT]
    split
    · rfl
    · exact commit_slots _ _ _ u hu
  | ro v => exact roFuel_slots 2 th v s u hu
  | rw v => exact rwFuel_slots 2 th v s u hu
  | assign v val =>
    simp only [exec, assign]
    have := rwFuel_slots 2 th v s u hu
    unfold rw
    revert this
    generalize rwFuel 2 th v s = r
    obtain ⟨r1, r2⟩ := r
    intro this
    cases r1 <;> exact this

/-- What a call does to a transaction object that is not installed in the slot of the calling
thread and is not the object `beginT` would create, in any state: the call may only take one
of its two locks and mark it aborted. -/
theorem exec_touched (th : Nat) (op : Op) (s : State) {x : Nat}
    (h : s.currentTransaction th ≠ some x) (hb : x ≠ s.nextTx) :
    Touched (s.txs x) ((exec th op s).2.txs x) := by
  cases op with
  | beginT =>
    simp only [exec, beginT]
    split
    · exact Touched.same _
    · simp [Function.update_noteq hb]
      exact Touched.same _
  | abortT =>
    simp only [exec, abortT]
    split
    · exact Touched.same _
    · rename_i c hc
      rw [abort_txs_other _ (fun e => h (by rw [hc, e])) h]
      exact Touched.same _
  | irrT =>
    simp only [exec, irrT]
    split
    · exact Touched.same _
    · rename_i c hc
      rw [irr_txs_other _ (fun e => h (by rw [hc, e])) h]
      exact Touched.same _
  | commitT =>
    simp only [exec, commitT]
    split
    · exact Touched.same _
    · rename_i c hc
      exact commit_touched _ (fun e => h (by rw [hc, e])) h
  | ro v => exact roFuel_touched 2 s h
  | rw v => exact rwFuel_touched 2 s h
  | assign v val =>
    simp only [exec, assign]
    have := rwFuel_touched 2 (v := v) s h
    unfold rw
    revert this
    generalize rwFuel 2 th v s = r
    obtain ⟨r1, r2⟩ := r
    intro this
    cases r1 <;> exact this

/-! ## C3: an irrevocable transaction never fails, in any state -/

/-- The assertion of `irrAcquire` holds, and the call returns normally, when the variable is
`Owned`; the state is arbitrary otherwise. -/
theorem irrAcquire_ok {c v : Nat} {b : Bool} {s : State} (ho : Owned v s) :
    (irrAcquire c v b s).1 = .ok () := by
  unfold irrAcquire
  dsimp only
  split
  · rfl
  · split
    · rfl
    · rename_i y hy
      split
      · rfl
      · rename_i hcl
        split
        · rfl
        · rename_i hfin
          split
          · rename_i hw
            exfalso
            simp only [modVar_txs, modVar_vars_same] at hy hcl hfin hw
            simp only [Bool.or_eq_true, not_or, Bool.not_eq_true] at hfin
            have hy' : s.lockWeak (s.vars v).mostRecentLockOwner = some y := hy
            exact ho y hy' (by simpa using hcl) hfin.1 hfin.2 hw
          · rfl

theorem irrAcquire_irr (c v : Nat) (b : Bool) (s : State) :
    ((irrAcquire c v b s).2.txs c).amIIrrevocable = (s.txs c).amIIrrevocable := by
  unfold irrAcquire irrAcquireCopy
  dsimp only
  split
  · split <;> simp [setRset, setWset]
  · split
    · split <;> simp [setRset, setWset]
    · rename_i y _
      split
      · by_cases e : c = y
        · subst e
          split <;> simp [setRset, setWset]
        · split <;> simp [setRset, setWset, modTx_txs_ne _ _ _ _ e]
      · split
        · split <;> simp [setRset, setWset]
        · split
          · rfl
          · simp [setWset]

/-- After an `irrAcquire` that returned normally the variable is in the read set or in the
write set of the caller, and in the write set when it was asked for writing. -/
theorem irrAcquire_found {c v : Nat} {b : Bool} {s : State}
    (h : (irrAcquire c v b s).1 = .ok ()) :
    (b = false → ∃ buf, ((irrAcquire c v b s).2.txs c).wsetBuffers.lookup v = some buf) ∧
    ((∃ buf, ((irrAcquire c v b s).2.txs c).rsetBuffers.lookup v = some buf) ∨
      ∃ buf, ((irrAcquire c v b s).2.txs c).wsetBuffers.lookup v = some buf) := by
  have copy : ∀ s1 : State,
      (b = false → ∃ buf, ((irrAcquireCopy c v b s1).txs c).wsetBuffers.lookup v = some buf) ∧
      ((∃ buf, ((irrAcquireCopy c v b s1).txs c).rsetBuffers.lookup v = some buf) ∨
        ∃ buf, ((irrAcquireCopy c v b s1).txs c).wsetBuffers.lookup v = some buf) := by
    intro s1
    unfold irrAcquireCopy
    dsimp only
    cases b with
    | true =>
      refine ⟨fun h => (by cases h), Or.inl ⟨Buf.alloc s1.nextBuf, ?_⟩⟩
      simp [setRset]
    | false =>
      have : ((setWset c v (Buf.alloc s1.nextBuf)
          (s1.newT (s1.heap (s1.vars v).varPtr))).txs c).wsetBuffers.lookup v =
          some (Buf.alloc s1.nextBuf) := by simp [setWset]
      simp only [Bool.false_eq_true, if_false]
      exact ⟨fun _ => ⟨_, this⟩, Or.inr ⟨_, this⟩⟩
  revert h
  unfold irrAcquire
  dsimp only
  split
  · intro _; exact copy _
  · split
    · intro _; exact copy _
    · split
      · intro _; exact copy _
      · split
        · intro _; exact copy _
        · split
          · intro h; cases h
          · intro _
            have : ∀ (s2 : State) (nb : Buf),
                ((setWset c v nb s2).txs c).wsetBuffers.lookup v = some nb := by
              intro s2 nb; simp [setWset]
            exact ⟨fun _ => ⟨_, this _ _⟩, Or.inr ⟨_, this _ _⟩⟩

/-- A first or repeated `ro` of an irrevocable transaction returns normally in any state in
which the variable is `Owned`. -/
theorem ro_promoted {th c v : Nat} {s : State} (hc : s.currentTransaction th = some c)
    (hirr : (s.txs c).amIIrrevocable = true) (ho : Owned v s) :
    (∃ b, (ro th v s).1 = .ok b) ∧ (ro th v s).2.currentTransaction th = some c ∧
    ((ro th v s).2.txs c).amIIrrevocable = true := by
  unfold ro roFuel
  simp only [hc]
  cases hr : (s.txs c).rsetBuffers.lookup v with
  | some b => exact ⟨⟨b, rfl⟩, hc, hirr⟩
  | none =>
    cases hw : (s.txs c).wsetBuffers.lookup v with
    | some b => exact ⟨⟨b, rfl⟩, hc, hirr⟩
    | none =>
      simp only [hirr, if_true]
      have h1 := @irrAcquire_ok c v true s ho
      have h2 := irrAcquire_cur c v true s
      have h3 := irrAcquire_irr c v true s
      have h4 := @irrAcquire_found c v true s h1
      revert h1 h2 h3 h4
      generalize irrAcquire c v true s = r
      obtain ⟨r1, r2⟩ := r
      intro h1 h2 h3 h4
      simp only at h1 h2 h3 h4
      subst h1
      dsimp only
      have hc2 : r2.currentTransaction th = some c := by rw [h2]; exact hc
      have hirr2 : (r2.txs c).amIIrrevocable = true := by rw [h3]; exact hirr
      cases hr2 : (r2.txs c).rsetBuffers.lookup v with
      | some b =>
        rw [roFuel_hit 0 hc2 (Or.inl hr2)]
        exact ⟨⟨b, rfl⟩, hc2, hirr2⟩
      | none =>
        rcases h4.2 with ⟨b, hb⟩ | ⟨b, hb⟩
        · rw [hr2] at hb; cases hb
        · rw [roFuel_hit 0 hc2 (Or.inr ⟨hr2, hb⟩)]
          exact ⟨⟨b, rfl⟩, hc2, hirr2⟩

/-- A first or repeated `rw` of an irrevocable transaction returns normally in any state in
which the variable is `Owned`. -/
theorem rw_promoted {th c v : Nat} {s : State} (hc : s.currentTransaction th = some c)
    (hirr : (s.txs c).amIIrrevocable = true) (ho : Owned v s) :
    (∃ b, (rw th v s).1 = .ok b) ∧ (rw th v s).2.currentTransaction th = some c ∧
    ((rw th v s).2.txs c).amIIrrevocable = true := by
  unfold rw rwFuel
  simp only [hc]
  cases hw : (s.txs c).wsetBuffers.lookup v with
  | some b => exact ⟨⟨b, rfl⟩, hc, hirr⟩
  | none =>
    simp only [hirr, if_true]
    cases hr : (s.txs c).rsetBuffers.lookup v with
    | some rb =>
      dsimp only
      have hc2 : (setWset c v rb (unsetRset c v s)).currentTransaction th = some c := by
        simpa [setWset, unsetRset] using hc
      have hw2 : ((setWset c v rb (unsetRset c v s)).txs c).wsetBuffers.lookup v = some rb := by
        simp [setWset, unsetRset]
      rw [rwFuel_hit 0 hc2 hw2]
      exact ⟨⟨rb, rfl⟩, hc2, by simpa [setWset, unsetRset] using hirr⟩
    | none =>
      have h1 := @irrAcquire_ok c v false s ho
      have h2 := irrAcquire_cur c v false s
      have h3 := irrAcquire_irr c v false s
      have h4 := @irrAcquire_found c v false s h1
      revert h1 h2 h3 h4
      generalize irrAcquire c v false s = r
      obtain ⟨r1, r2⟩ := r
      intro h1 h2 h3 h4
      simp only at h1 h2 h3 h4
      subst h1
      dsimp only
      have hc2 : r2.currentTransaction th = some c := by rw [h2]; exact hc
      have hirr2 : (r2.txs c).amIIrrevocable = true := by rw [h3]; exact hirr
      obtain ⟨b, hb⟩ := h4.1 trivial
      rw [rwFuel_hit 0 hc2 hb]
      exact ⟨⟨b, rfl⟩, hc2, hirr2⟩

theorem assign_of_rw {th v : Nat} {s : State} {b : Buf} (val : Int)
    (h : (rw th v s).1 = .ok b) : (assign th v val s).1 = .ok () := by
  unfold assign
  revert h
  generalize rw th v s = r
  obtain ⟨r1, r2⟩ := r
  intro h
  simp only at h
  subst h
  rfl

/-- The call `commitT` of an irrevocable transaction that is neither committed nor marked
aborted returns normally, in any state. -/
theorem commitT_promoted {th c : Nat} {s : State} (hc : s.currentTransaction th = some c)
    (hirr : (s.txs c).amIIrrevocable = true) (hcom : (s.txs c).comitted = false)
    (hab : (s.txs c).aborted = false) : (commitT th s).1 = .ok () := by
  have ks := killReaders_step th c (storeDirtyIrr true (s.txs c).wsetBuffers.keys s)
  have h2 : ((killReaders th c (storeDirtyIrr true (s.txs c).wsetBuffers.keys s)).txs
      c).amIIrrevocable = true := by
    rw [(ks.touched c).irr]; simpa using hirr
  unfold commitT
  rw [hc]
  dsimp only
  unfold commit
  simp only [hcom, hab, hirr, Bool.false_eq_true, if_false, if_true]
  rw [if_pos h2]

/-- Between calls an irrevocable transaction is `Promoted` and every variable is `Owned`. -/
theorem promoted_of_inv {s : State} {th c : Nat} (hi : Inv s)
    (hc : s.currentTransaction th = some c) (hirr : (s.txs c).amIIrrevocable = true) :
    Promoted th c s ∧ ∀ v, Owned v s := by
  have hca := hi.cur_alive th c hc
  obtain ⟨k1, k2, k3, -⟩ := hi.irr_locks c hca hirr
  refine ⟨⟨?_, hi.alive_lt c hca, hca, k1, k2, k3, hi.not_comitted c hca⟩, ?_⟩
  · intro u hu h
    exact hu (hi.cur_inj u th c h hc)
  · intro v x hx _ _ _
    obtain ⟨hm, hxa⟩ := lockWeak_some hx
    have := hi.mrlo_wset v x hm hxa
    obtain ⟨b, hb⟩ := mem_iff_lookup.1 this
    rw [hb]
    simp

/-- C3: let `c` be the irrevocable transaction installed in the slot of thread `th`. In
whatever state the call is made (other threads may be inside calls, for instance inside
`commit` with `commitLock` held and `dirty` set), `ro th v`, `rw th v` and an assignment
through `rw` return normally (no exception, no failed assertion) and leave `c` installed and
irrevocable for every variable `v` that is `Owned` (a live, unaborted, uncommitted holder of
its own `commitLock` that is recorded as the most recent lock owner of `v` has `v` in its
write set, which is what the assertion of `irrAcquire` relies on); a repeated `irrT` returns
normally; `commitT` returns normally when `c` is neither committed nor marked aborted; and
when `c` is `Promoted` (it holds its two locks, is alive, unaborted, uncommitted, and no
other thread has it installed), no call of another thread marks it aborted, ends it or makes
it revocable. In a state between calls all these conditions hold: `c` is `Promoted`, every
variable is `Owned`. -/
theorem irrevocable_never_fails {s : State} {th c : Nat}
    (hc : s.currentTransaction th = some c) (hirr : (s.txs c).amIIrrevocable = true) :
    (Reachable s → Promoted th c s ∧ ∀ v, Owned v s) ∧
    (∀ v, Owned v s →
      (∃ b, (ro th v s).1 = .ok b) ∧ (ro th v s).2.currentTransaction th = some c ∧
      ((ro th v s).2.txs c).amIIrrevocable = true) ∧
    (∀ v, Owned v s →
      (∃ b, (rw th v s).1 = .ok b) ∧ (rw th v s).2.currentTransaction th = some c ∧
      ((rw th v s).2.txs c).amIIrrevocable = true) ∧
    (∀ v val, Owned v s → (assign th v val s).1 = .ok ()) ∧
    (irrT th s).1 = .ok () ∧
    ((s.txs c).comitted = false → (s.txs c).aborted = false → (commitT th s).1 = .ok ()) ∧
    (Promoted th c s → ∀ u op, u ≠ th →
      ((exec u op s).2.txs c).aborted = false ∧
      ((exec u op s).2.txs c).amIIrrevocable = true ∧
      ((exec u op s).2.txs c).alive = true ∧
      ((exec u op s).2.txs c).cleanReadsetLock = true ∧
      ((exec u op s).2.txs c).commitLock = true ∧
      ((exec u op s).2.txs c).comitted = false ∧
      (exec u op s).2.currentTransaction th = some c) := by
  refine ⟨fun hr => promoted_of_inv (reachable_inv hr) hc hirr,
    fun v ho => ro_promoted hc hirr ho, fun v ho => rw_promoted hc hirr ho, ?_, ?_,
    fun hcom hab => commitT_promoted hc hirr hcom hab, ?_⟩
  · intro v val ho
    obtain ⟨⟨b, hb⟩, -⟩ := @rw_promoted th c v s hc hirr ho
    exact assign_of_rw val hb
  · unfold irrT
    rw [hc]
    dsimp only
    unfold irr
    rw [if_pos hirr]
  · intro hp u op hu
    have ht := exec_touched u op s (hp.own u hu) (Nat.ne_of_lt hp.born)
    refine ⟨?_, by rw [ht.irr]; exact hirr, by rw [ht.alive]; exact hp.alive,
      ht.crl hp.crl, ht.cl hp.cl, by rw [ht.comitted]; exact hp.comitted,
      by rw [exec_slots u op s th (Ne.symm hu)]; exact hc⟩
    cases hab : ((exec u op s).2.txs c).aborted
    · rfl
    · rcases ht.kill hab with h | h | h
      · rw [hp.aborted] at h; cases h
      · rw [hp.crl] at h; cases h
      · rw [hp.cl] at h; cases h

theorem committing_promoted : Promoted 1 1 committing :=
  ⟨fun u hu h => hu ((reachable_inv rivals_reachable).cur_inj u 1 1 h (by decide)),
    by decide, by decide, by decide, by decide, by decide, by decide⟩

theorem irrevocable_never_fails_witness :
    (Reachable rivals ∧ rivals.currentTransaction 1 = some 1 ∧
      (rivals.txs 1).amIIrrevocable = true ∧ (rivals.vars 0).lock = true ∧
      Owned 0 rivals ∧ Promoted 1 1 rivals ∧
      (∃ b, (rw 1 0 rivals).1 = .ok b) ∧ (irrT 1 rivals).1 = .ok () ∧
      (commitT 1 rivals).1 = .ok () ∧
      ((exec 0 .commitT rivals).2.txs 1).aborted = false) ∧
    (committing.currentTransaction 1 = some 1 ∧ (committing.txs 1).amIIrrevocable = true ∧
      (committing.vars 0).lock = true ∧ (committing.vars 0).dirty = true ∧
      (committing.vars 0).mostRecentLockOwner = some 0 ∧
      (committing.txs 0).alive = true ∧ (committing.txs 0).commitLock = true ∧
      (committing.txs 0).aborted = false ∧ (committing.txs 0).comitted = false ∧
      Owned 0 committing ∧
      (∃ b, (ro 1 0 committing).1 = .ok b) ∧ (∃ b, (rw 1 0 committing).1 = .ok b) ∧
      (assign 1 0 9 committing).1 = .ok () ∧ (commitT 1 committing).1 = .ok () ∧
      ((exec 0 .commitT committing).2.txs 1).aborted = false) :=
  have h := @irrevocable_never_fails rivals 1 1 (by decide) (by decide)
  have hr := h.1 rivals_reachable
  have k := @irrevocable_never_fails committing 1 1 (by decide) (by decide)
  have ho : Owned 0 committing := by decide
  ⟨⟨rivals_reachable, by decide, by decide, by decide, hr.2 0, hr.1,
      (h.2.2.1 0 (hr.2 0)).1, h.2.2.2.2.1, h.2.2.2.2.2.1 (by decide) (by decide),
      (h.2.2.2.2.2.2 hr.1 0 .commitT (by decide)).1⟩,
    ⟨by decide, by decide, by decide, by decide, by decide, by decide, by decide, by decide,
      by decide, ho, (k.2.1 0 ho).1, (k.2.2.1 0 ho).1, k.2.2.2.1 0 9 ho,
      k.2.2.2.2.2.1 (by decide) (by decide),
      (k.2.2.2.2.2.2 committing_promoted 0 .commitT (by decide)).1⟩⟩

/-! ## C5: a failed call ends the transaction, in any state -/

/-- The pair `abort(); throw e;` run by a revocable, uncommitted transaction in state `s1`
of a call that began in state `s`: the transaction ends, and no lock is left behind when
the locks of `s1` are those of `s` but for locks the transaction holds. -/
theorem abortThrow_gone {α : Type} {th c : Nat} {s s1 : State} (e : Exc)
    (hc : s1.currentTransaction th = some c) (h1 : (s1.txs c).comitted = false)
    (h2 : (s1.txs c).amIIrrevocable = false)
    (hl : ∀ v, v ∈ (s.txs c).locksHeld → v ∈ (s1.txs c).locksHeld)
    (hk : ∀ w, (s1.vars w).lock = true → w ∉ (s1.txs c).locksHeld →
      (s.vars w).lock = true ∧ w ∉ (s.txs c).locksHeld) :
    (abortThrow th c e s1 : Res α).1 = .error e ∧
      Ended th c s (abortThrow th c e s1 : Res α).2 ∧
      LocksReleased c s (abortThrow th c e s1 : Res α).2 := by
  obtain ⟨a1, a2⟩ := @abortThrow_ended α th c s s1 e hc h1 h2 hl
  refine ⟨a1, a2, ?_⟩
  rw [abortThrow_revocable e h1 h2]
  have hc' : (s1.modTx c fun t => { t with aborted := true }).currentTransaction th = some c := hc
  intro w hw
  rw [cleanup_vars hc'] at hw
  by_cases hm : w ∈ (s1.txs c).locksHeld
  · simp [hm] at hw
  · simp [hm] at hw
    exact hk w hw hm

theorem abortThrow_gone_here {α : Type} {th c : Nat} {s : State} (e : Exc)
    (hc : s.currentTransaction th = some c) (h1 : (s.txs c).comitted = false)
    (h2 : (s.txs c).amIIrrevocable = false) :
    (abortThrow th c e s : Res α).1 = .error e ∧
      Ended th c s (abortThrow th c e s : Res α).2 ∧
      LocksReleased c s (abortThrow th c e s : Res α).2 :=
  abortThrow_gone e hc h1 h2 (fun _ h => h) (fun _ h hm => ⟨h, hm⟩)

/-- How a call of `ro` by a revocable, uncommitted transaction ends, in any state. -/
theorem ro_gone {th c v : Nat} {s : State}
    (hc : s.currentTransaction th = some c) (hcom : (s.txs c).comitted = false)
    (hirr : (s.txs c).amIIrrevocable = false) :
    (∃ b, (ro th v s).1 = .ok b) ∨
    ((ro th v s).1 = .error .ReadFailedException ∧ Ended th c s (ro th v s).2 ∧
      LocksReleased c s (ro th v s).2) := by
  unfold ro roFuel
  simp only [hc]
  cases hr : (s.txs c).rsetBuffers.lookup v with
  | some b => exact Or.inl ⟨b, rfl⟩
  | none =>
    cases hw : (s.txs c).wsetBuffers.lookup v with
    | some b => exact Or.inl ⟨b, rfl⟩
    | none =>
      simp only [hirr, Bool.false_eq_true, if_false]
      split
      · refine Or.inr (abortThrow_gone _ hc hcom hirr (fun _ h => h) ?_)
        intro w h hm
        refine ⟨?_, hm⟩
        by_cases hwv : w = v
        · subst hwv; simpa using h
        · simpa [modVar_vars_ne _ _ _ _ hwv] using h
      · split
        · refine Or.inr (abortThrow_gone _ hc hcom hirr (fun _ h => h) ?_)
          intro w h hm
          refine ⟨?_, hm⟩
          by_cases hwv : w = v
          · subst hwv; simpa using h
          · simpa [modVar_vars_ne _ _ _ _ hwv] using h
        · exact Or.inl ⟨_, rfl⟩

/-- How the part of `rw` after the lock was taken ends when it fails, in any state `s1`:
the lock just taken is given back, and the transaction ends. -/
theorem rwLocked_gone {th c v : Nat} {s1 : State}
    (hc : s1.currentTransaction th = some c) (hcom : (s1.txs c).comitted = false)
    (hirr : (s1.txs c).amIIrrevocable = false) :
    (∃ b, (rwLocked th c v s1).1 = .ok b) ∨
    ((rwLocked th c v s1).1 = .error .WriteFailedException ∧
      Ended th c s1 (rwLocked th c v s1).2 ∧
      ((rwLocked th c v s1).2.vars v).lock = false ∧
      ∀ w, ((rwLocked th c v s1).2.vars w).lock = true →
        (s1.vars w).lock = true ∧ w ∉ (s1.txs c).locksHeld ∧ w ≠ v) := by
  have key : ∀ s2 : State, s2.currentTransaction th = some c → (s2.txs c).comitted = false →
      (s2.txs c).amIIrrevocable = false → (s2.txs c).locksHeld = (s1.txs c).locksHeld →
      s2.vars = s1.vars →
      ((abortThrow th c .WriteFailedException
          (s2.modVar v fun x => { x with lock := false }) : Res Buf).1 =
        .error .WriteFailedException ∧
      Ended th c s1 (abortThrow th c .WriteFailedException
          (s2.modVar v fun x => { x with lock := false }) : Res Buf).2 ∧
      ((abortThrow th c .WriteFailedException
          (s2.modVar v fun x => { x with lock := false }) : Res Buf).2.vars v).lock = false ∧
      ∀ w, ((abortThrow th c .WriteFailedException
          (s2.modVar v fun x => { x with lock := false }) : Res Buf).2.vars w).lock = true →
        (s1.vars w).lock = true ∧ w ∉ (s1.txs c).locksHeld ∧ w ≠ v) := by
    intro s2 k1 k2 k3 k4 k5
    have hc' : (s2.modVar v fun x => { x with lock := false }).currentTransaction th =
        some c := k1
    obtain ⟨a1, a2⟩ := @abortThrow_ended Buf th c s1
      (s2.modVar v fun x => { x with lock := false }) .WriteFailedException hc'
      (by simpa using k2) (by simpa using k3) (fun w h => by simpa [k4] using h)
    refine ⟨a1, a2, ?_⟩
    rw [abortThrow_revocable (α := Buf) .WriteFailedException
      (show ((s2.modVar v fun x => { x with lock := false }).txs c).comitted = false by
        simpa using k2)
      (show ((s2.modVar v fun x => { x with lock := false }).txs c).amIIrrevocable = false by
        simpa using k3)]
    have hc'' : ((s2.modVar v fun x => { x with lock := false }).modTx c
        fun t => { t with aborted := true }).currentTransaction th = some c := k1
    have hv : ∀ w, ((cleanup th c ((s2.modVar v fun x => { x with lock := false }).modTx c
        fun t => { t with aborted := true })).vars w).lock = true →
        (s1.vars w).lock = true ∧ w ∉ (s1.txs c).locksHeld ∧ w ≠ v := by
      intro w hw
      rw [cleanup_vars hc''] at hw
      by_cases hm : w ∈ (s2.txs c).locksHeld
      · simp [hm] at hw
      · simp [hm] at hw
        by_cases hwv : w = v
        · subst hwv; simp at hw
        · rw [modVar_vars_ne _ _ _ _ hwv, k5] at hw
          exact ⟨hw, by rw [← k4]; exact hm, hwv⟩
    refine ⟨?_, hv⟩
    cases hl : ((cleanup th c ((s2.modVar v fun x => { x with lock := false }).modTx c
        fun t => { t with aborted := true })).vars v).lock
    · rfl
    · exact absurd rfl (hv v hl).2.2
  unfold rwLocked
  split
  · exact Or.inr (key s1 hc hcom hirr rfl rfl)
  · cases hr : (s1.txs c).rsetBuffers.lookup v with
    | some rb =>
      dsimp only
      split
      · refine Or.inr (key _ ?_ ?_ ?_ ?_ ?_)
        · simpa [unsetRset] using hc
        · simpa [unsetRset] using hcom
        · simpa [unsetRset] using hirr
        · simp [unsetRset]
        · simp [unsetRset]
      · exact Or.inl ⟨_, rfl⟩
    | none =>
      dsimp only
      split
      · exact Or.inr (key _ hc hcom hirr rfl rfl)
      · exact Or.inl ⟨_, rfl⟩

/-- How a call of `rw` by a revocable, uncommitted transaction ends, in any state. -/
theorem rw_gone {th c v : Nat} {s : State}
    (hc : s.currentTransaction th = some c) (hcom : (s.txs c).comitted = false)
    (hirr : (s.txs c).amIIrrevocable = false) :
    (∃ b, (rw th v s).1 = .ok b) ∨
    ((rw th v s).1 = .error .WriteFailedException ∧ Ended th c s (rw th v s).2 ∧
      LocksReleased c s (rw th v s).2) := by
  unfold rw rwFuel
  simp only [hc]
  cases hw : (s.txs c).wsetBuffers.lookup v with
  | some b => exact Or.inl ⟨b, rfl⟩
  | none =>
    simp only [hirr, Bool.false_eq_true, if_false]
    split
    · exact Or.inr (abortThrow_gone_here _ hc hcom hirr)
    · split
      · exact Or.inr (abortThrow_gone_here _ hc hcom hirr)
      · rename_i hu hl
        have hl' : (s.vars v).lock = false := by simpa using hl
        rcases @rwLocked_gone th c v (s.modVar v fun x =>
          { x with lock := true, previousLockOwner := x.mostRecentLockOwner,
                   mostRecentLockOwner := some c }) hc hcom hirr with h | ⟨h1, h2, h3, h4⟩
        · exact Or.inl h
        · refine Or.inr ⟨h1, ⟨h2.aborted, h2.dead, fun w hw => ?_, h2.slot⟩, ?_⟩
          · exact h2.unlocked w (by simpa using hw)
          · intro w hw
            obtain ⟨b1, b2, b3⟩ := h4 w hw
            rw [modVar_vars_ne _ _ _ _ b3] at b1
            exact ⟨b1, by simpa using b2⟩

/-- How a call of `irrT` by a revocable, uncommitted transaction ends, in any state. -/
theorem irrT_gone {th c : Nat} {s : State}
    (hc : s.currentTransaction th = some c) (hcom : (s.txs c).comitted = false)
    (hirr : (s.txs c).amIIrrevocable = false) :
    (irrT th s).1 = .ok () ∨
    ((irrT th s).1 = .error .IrrevocTransException ∧ Ended th c s (irrT th s).2 ∧
      LocksReleased c s (irrT th s).2) := by
  unfold irrT
  rw [hc]
  dsimp only
  unfold irr
  simp only [hirr, Bool.false_eq_true, if_false]
  split
  · exact Or.inr (abortThrow_gone_here _ hc hcom hirr)
  · obtain ⟨a1, -, -, -, -, -, -, a8, a9⟩ :=
      acquireReadset_spec c { s with irrTransactionLock := true }
    revert a1 a8 a9
    generalize acquireReadset c { s with irrTransactionLock := true } = r
    obtain ⟨r1, r2⟩ := r
    intro a1 a8 a9
    simp only at a1 a8 a9
    cases r1 with
    | false =>
      obtain ⟨b1, b2⟩ := a8 rfl
      simp only [Bool.not_false, if_true]
      refine Or.inr (abortThrow_gone _ ?_ ?_ ?_ ?_ ?_)
      · show r2.currentTransaction th = some c
        rw [a1]; exact hc
      · show (r2.txs c).comitted = false
        rw [b1]; exact hcom
      · show (r2.txs c).amIIrrevocable = false
        rw [b1]; exact hirr
      · intro w h
        show w ∈ (r2.txs c).locksHeld
        rw [b1]; exact h
      · intro w h hm
        have h' : (r2.vars w).lock = true := h
        have hm' : w ∉ (r2.txs c).locksHeld := hm
        rw [b2 w] at h'
        rw [b1] at hm'
        exact ⟨h', hm'⟩
    | true =>
      obtain ⟨⟨lh, b1, b2⟩, b3, b4⟩ := a9 rfl
      simp only [Bool.not_true, Bool.false_eq_true, if_false]
      split
      · refine Or.inr (abortThrow_gone _ ?_ ?_ ?_ ?_ ?_)
        · show (storeUsedByIrr false _ _).currentTransaction th = some c
          rw [storeUsedByIrr_cur]
          split
          · show r2.currentTransaction th = some c
            rw [a1]; exact hc
          · show r2.currentTransaction th = some c
            rw [a1]; exact hc
        · show ((storeUsedByIrr false _ _).txs c).comitted = false
          rw [storeUsedByIrr_txs]
          split <;> simp [b1, hcom]
        · show ((storeUsedByIrr false _ _).txs c).amIIrrevocable = false
          rw [storeUsedByIrr_txs]
          split <;> simp [b1, hirr]
        · intro w h
          show w ∈ ((storeUsedByIrr false _ _).txs c).locksHeld
          rw [storeUsedByIrr_txs]
          split <;> simp [b1, (b2 w).2 (Or.inr h)]
        · intro w h hm
          have hm' : w ∉ lh := by
            intro hin
            apply hm
            show w ∈ ((storeUsedByIrr false _ _).txs c).locksHeld
            rw [storeUsedByIrr_txs]
            split <;> simp [b1, hin]
          have hm2 : ¬ (w ∈ (s.txs c).rsetBuffers.keys ∨ w ∈ (s.txs c).locksHeld) :=
            fun h => hm' ((b2 w).2 h)
          have h' : (r2.vars w).lock = true := by
            have h0 : ((storeUsedByIrr false _ _).vars w).lock = true := h
            rw [storeUsedByIrr_vars] at h0
            revert h0
            split <;> split <;> simp
          rw [b4 w] at h'
          simp only [not_or] at hm2
          simp [hm2.1] at h'
          exact ⟨h', hm2.2⟩
      · exact Or.inl rfl

/-- How a call of `commitT` by a revocable, uncommitted transaction ends, in any state. -/
theorem commitT_gone {th c : Nat} {s : State}
    (hc : s.currentTransaction th = some c) (hcom : (s.txs c).comitted = false)
    (hirr : (s.txs c).amIIrrevocable = false) :
    (commitT th s).1 = .ok () ∨
    ((commitT th s).1 = .error .CommitFailedException ∧ Ended th c s (commitT th s).2 ∧
      LocksReleased c s (commitT th s).2) := by
  have ks := killReaders_step th c (storeDirty true (s.txs c).wsetBuffers.keys s)
  have kc := ks.touched c
  have k1 : (killReaders th c (storeDirty true (s.txs c).wsetBuffers.keys s)).currentTransaction th
      = some c := by rw [ks.cur]; simpa using hc
  have k2 : ((killReaders th c (storeDirty true (s.txs c).wsetBuffers.keys s)).txs c).comitted
      = false := by rw [kc.comitted]; simpa using hcom
  have k3 : ((killReaders th c (storeDirty true (s.txs c).wsetBuffers.keys s)).txs c).amIIrrevocable
      = false := by rw [kc.irr]; simpa using hirr
  have k4 : ((killReaders th c (storeDirty true (s.txs c).wsetBuffers.keys s)).txs c).locksHeld =
      (s.txs c).locksHeld := by rw [kc.locks]; simp
  have k5 : ∀ w, ((killReaders th c (storeDirty true (s.txs c).wsetBuffers.keys s)).vars w).lock =
      (s.vars w).lock := by
    intro w
    rw [ks.vars, storeDirty_vars]
    split <;> rfl
  unfold commitT
  rw [hc]
  dsimp only
  unfold commit
  simp only [hcom, hirr, Bool.false_eq_true, if_false]
  split
  · exact Or.inr (abortThrow_gone_here _ hc hcom hirr)
  · revert k1 k2 k3 k4 k5
    generalize killReaders th c (storeDirty true (s.txs c).wsetBuffers.keys s) = s2
    intro k1 k2 k3 k4 k5
    simp only [k3, Bool.false_eq_true, if_false]
    have hlockD : ∀ (s3 : State) (ks : List Nat) (w : Nat),
        ((storeDirty false ks s3).vars w).lock = (s3.vars w).lock := by
      intro s3 ks w
      rw [storeDirty_vars]
      split <;> rfl
    split
    · refine Or.inr (abortThrow_gone _ ?_ ?_ ?_ ?_ ?_)
      · rw [storeDirty_cur]; exact k1
      · rw [storeDirty_txs]; exact k2
      · rw [storeDirty_txs]; exact k3
      · intro w h; rw [storeDirty_txs, k4]; exact h
      · intro w h hm
        rw [hlockD, k5] at h
        rw [storeDirty_txs, k4] at hm
        exact ⟨h, hm⟩
    · split
      · refine Or.inr (abortThrow_gone _ ?_ ?_ ?_ ?_ ?_)
        · rw [storeDirty_cur]; exact k1
        · rw [storeDirty_txs]; simpa using k2
        · rw [storeDirty_txs]; simpa using k3
        · intro w h; rw [storeDirty_txs]; simpa [k4] using h
        · intro w h hm
          rw [hlockD] at h
          rw [storeDirty_txs] at hm
          exact ⟨by simpa [k5] using h, by simpa [k4] using hm⟩
      · exact Or.inl rfl

/-- Between calls every variable is `Owned`. -/
theorem owned_of_inv {s : State} (hi : Inv s) (v : Nat) : Owned v s := by
  intro x hx _ _ _
  obtain ⟨hm, hxa⟩ := lockWeak_some hx
  obtain ⟨b, hb⟩ := mem_iff_lookup.1 (hi.mrlo_wset v x hm hxa)
  rw [hb]
  simp

/-- C5: let `c` be the transaction installed in the slot of thread `th`, not yet committed.
In whatever state the call is made (other threads may be inside calls: a variable may be
`dirty`, `usedByIrr` or locked, and `c` itself may have lost `cleanReadsetLock` or
`commitLock` or may be marked aborted), when `c` is revocable a call of `ro`, `rw`, `irrT` or
`commitT` that does not return normally throws exactly `ReadFailedException`,
`WriteFailedException`, `IrrevocTransException` or `CommitFailedException` respectively
(never `InvalidUseException`), and leaves `c` marked aborted and destroyed, every variable
lock it held released (the variables still locked were locked before, by others) and the slot
of the thread empty, so that `beginT` called next returns normally; the same holds of the
part of `rw` that runs after the lock of the variable was taken (`rwLocked`, entered in any
state), which also gives back the lock just taken. When `c` is irrevocable and not marked
aborted, none of the four calls fails, on any variable that is `Owned`. In a state between
calls the conditions hold (`c` is not committed, not marked aborted when irrevocable, every
variable is `Owned`), so there every failing call ends the transaction as described. -/
theorem failure_ends_transaction {s : State} {th c : Nat}
    (hc : s.currentTransaction th = some c) :
    ((s.txs c).comitted = false → (s.txs c).amIIrrevocable = false →
      (∀ v e, (ro th v s).1 = .error e → e = .ReadFailedException ∧
        Ended th c s (ro th v s).2 ∧ LocksReleased c s (ro th v s).2 ∧
        (beginT th (ro th v s).2).1 = .ok ()) ∧
      (∀ v e, (rw th v s).1 = .error e → e = .WriteFailedException ∧
        Ended th c s (rw th v s).2 ∧ LocksReleased c s (rw th v s).2 ∧
        (beginT th (rw th v s).2).1 = .ok ()) ∧
      (∀ e, (irrT th s).1 = .error e → e = .IrrevocTransException ∧
        Ended th c s (irrT th s).2 ∧ LocksReleased c s (irrT th s).2 ∧
        (beginT th (irrT th s).2).1 = .ok ()) ∧
      (∀ e, (commitT th s).1 = .error e → e = .CommitFailedException ∧
        Ended th c s (commitT th s).2 ∧ LocksReleased c s (commitT th s).2 ∧
        (beginT th (commitT th s).2).1 = .ok ()) ∧
      (∀ v e, (rwLocked th c v s).1 = .error e → e = .WriteFailedException ∧
        Ended th c s (rwLocked th c v s).2 ∧
        ((rwLocked th c v s).2.vars v).lock = false ∧
        (∀ w, ((rwLocked th c v s).2.vars w).lock = true →
          (s.vars w).lock = true ∧ w ∉ (s.txs c).locksHeld ∧ w ≠ v) ∧
        (beginT th (rwLocked th c v s).2).1 = .ok ())) ∧
    ((s.txs c).comitted = false → (s.txs c).amIIrrevocable = true →
      (s.txs c).aborted = false →
      (∀ v, Owned v s → (∃ b, (ro th v s).1 = .ok b) ∧ (∃ b, (rw th v s).1 = .ok b)) ∧
      (irrT th s).1 = .ok () ∧ (commitT th s).1 = .ok ()) ∧
    (Reachable s → (s.txs c).comitted = false ∧
      ((s.txs c).amIIrrevocable = true → (s.txs c).aborted = false) ∧ ∀ v, Owned v s) ∧
    (Reachable s →
      (∀ v e, (ro th v s).1 = .error e → e = .ReadFailedException ∧
        Ended th c s (ro th v s).2 ∧ LocksReleased c s (ro th v s).2 ∧
        (beginT th (ro th v s).2).1 = .ok ()) ∧
      (∀ v e, (rw th v s).1 = .error e → e = .WriteFailedException ∧
        Ended th c s (rw th v s).2 ∧ LocksReleased c s (rw th v s).2 ∧
        (beginT th (rw th v s).2).1 = .ok ()) ∧
      (∀ e, (irrT th s).1 = .error e → e = .IrrevocTransException ∧
        Ended th c s (irrT th s).2 ∧ LocksReleased c s (irrT th s).2 ∧
        (beginT th (irrT th s).2).1 = .ok ()) ∧
      (∀ e, (commitT th s).1 = .error e → e = .CommitFailedException ∧
        Ended th c s (commitT th s).2 ∧ LocksReleased c s (commitT th s).2 ∧
        (beginT th (commitT th s).2).1 = .ok ())) := by
  have rev : (s.txs c).comitted = false → (s.txs c).amIIrrevocable = false →
      (∀ v e, (ro th v s).1 = .error e → e = .ReadFailedException ∧
        Ended th c s (ro th v s).2 ∧ LocksReleased c s (ro th v s).2 ∧
        (beginT th (ro th v s).2).1 = .ok ()) ∧
      (∀ v e, (rw th v s).1 = .error e → e = .WriteFailedException ∧
        Ended th c s (rw th v s).2 ∧ LocksReleased c s (rw th v s).2 ∧
        (beginT th (rw th v s).2).1 = .ok ()) ∧
      (∀ e, (irrT th s).1 = .error e → e = .IrrevocTransException ∧
        Ended th c s (irrT th s).2 ∧ LocksReleased c s (irrT th s).2 ∧
        (beginT th (irrT th s).2).1 = .ok ()) ∧
      (∀ e, (commitT th s).1 = .error e → e = .CommitFailedException ∧
        Ended th c s (commitT th s).2 ∧ LocksReleased c s (commitT th s).2 ∧
        (beginT th (commitT th s).2).1 = .ok ()) := by
    intro hcom hirr
    refine ⟨?_, ?_, ?_, ?_⟩
    · intro v e he
      rcases @ro_gone th c v s hc hcom hirr with ⟨b, h⟩ | ⟨h1, h2, h3⟩
      · rw [h] at he; cases he
      · rw [h1] at he; cases he
        exact ⟨rfl, h2, h3, beginT_after h2⟩
    · intro v e he
      rcases @rw_gone th c v s hc hcom hirr with ⟨b, h⟩ | ⟨h1, h2, h3⟩
      · rw [h] at he; cases he
      · rw [h1] at he; cases he
        exact ⟨rfl, h2, h3, beginT_after h2⟩
    · intro e he
      rcases irrT_gone hc hcom hirr with h | ⟨h1, h2, h3⟩
      · rw [h] at he; cases he
      · rw [h1] at he; cases he
        exact ⟨rfl, h2, h3, beginT_after h2⟩
    · intro e he
      rcases commitT_gone hc hcom hirr with h | ⟨h1, h2, h3⟩
      · rw [h] at he; cases he
      · rw [h1] at he; cases he
        exact ⟨rfl, h2, h3, beginT_after h2⟩
  have irrv : (s.txs c).comitted = false → (s.txs c).amIIrrevocable = true →
      (s.txs c).aborted = false →
      (∀ v, Owned v s → (∃ b, (ro th v s).1 = .ok b) ∧ (∃ b, (rw th v s).1 = .ok b)) ∧
      (irrT th s).1 = .ok () ∧ (commitT th s).1 = .ok () := by
    intro hcom hirr hab
    refine ⟨fun v ho => ⟨(ro_promoted hc hirr ho).1, (rw_promoted hc hirr ho).1⟩, ?_,
      commitT_promoted hc hirr hcom hab⟩
    unfold irrT
    rw [hc]
    dsimp only
    unfold irr
    rw [if_pos hirr]
  have btw : Reachable s → (s.txs c).comitted = false ∧
      ((s.txs c).amIIrrevocable = true → (s.txs c).aborted = false) ∧ ∀ v, Owned v s := by
    intro hr
    have hi := reachable_inv hr
    have hca := hi.cur_alive th c hc
    exact ⟨hi.not_comitted c hca, fun h => (hi.irr_locks c hca (by rw [h])).2.2.1,
      owned_of_inv hi⟩
  refine ⟨?_, irrv, btw, ?_⟩
  · intro hcom hirr
    obtain ⟨r1, r2, r3, r4⟩ := rev hcom hirr
    refine ⟨r1, r2, r3, r4, ?_⟩
    intro v e he
    rcases @rwLocked_gone th c v s hc hcom hirr with ⟨b, h⟩ | ⟨h1, h2, h3, h4⟩
    · rw [h] at he; cases he
    · rw [h1] at he; cases he
      exact ⟨rfl, h2, h3, h4, beginT_after h2⟩
  · intro hr
    obtain ⟨hcom, hab, ho⟩ := btw hr
    cases hirr : (s.txs c).amIIrrevocable with
    | false => exact rev hcom hirr
    | true =>
      obtain ⟨i1, i2, i3⟩ := irrv hcom hirr (hab hirr)
      refine ⟨?_, ?_, ?_, ?_⟩
      · intro v e he
        obtain ⟨b, hb⟩ := (i1 v (ho v)).1
        rw [hb] at he; cases he
      · intro v e he
        obtain ⟨b, hb⟩ := (i1 v (ho v)).2
        rw [hb] at he; cases he
      · intro e he
        rw [i2] at he; cases he
      · intro e he
        rw [i3] at he; cases he

theorem failure_ends_transaction_witness :
    (latecomer.currentTransaction 2 = some 2 ∧ (latecomer.vars 0).dirty = true ∧
      (ro 2 0 latecomer).1 = .error .ReadFailedException ∧
      ((ro 2 0 latecomer).2.txs 2).aborted = true ∧
      (ro 2 0 latecomer).2.currentTransaction 2 = none ∧
      (beginT 2 (ro 2 0 latecomer).2).1 = .ok ()) ∧
    (overtaken.currentTransaction 0 = some 0 ∧ (overtaken.vars 1).usedByIrr = true ∧
      (overtaken.vars 1).lock = true ∧
      (rwLocked 0 0 1 overtaken).1 = .error .WriteFailedException ∧
      ((rwLocked 0 0 1 overtaken).2.txs 0).aborted = true ∧
      ((rwLocked 0 0 1 overtaken).2.vars 1).lock = false ∧
      ((rwLocked 0 0 1 overtaken).2.vars 0).lock = false) ∧
    ((struck.txs 0).aborted = true ∧
      (rwLocked 0 0 1 struck).1 = .error .WriteFailedException ∧
      ((rwLocked 0 0 1 struck).2.vars 1).lock = false ∧
      (rwLocked 0 0 1 struck).2.currentTransaction 0 = none) ∧
    ((raced.txs 0).cleanReadsetLock = true ∧ (raced.txs 0).aborted = false ∧
      (commitT 0 raced).1 = .error .CommitFailedException ∧
      ((commitT 0 raced).2.txs 0).aborted = true ∧
      ((commitT 0 raced).2.vars 0).lock = false ∧
      (commitT 0 raced).2.currentTransaction 0 = none ∧
      (irrT 0 raced).1 = .error .IrrevocTransException ∧
      ((irrT 0 raced).2.vars 0).lock = false ∧
      (beginT 0 (irrT 0 raced).2).1 = .ok ()) ∧
    ((outbid.txs 0).commitLock = true ∧ (outbid.txs 0).aborted = false ∧
      (commitT 0 outbid).1 = .error .CommitFailedException ∧
      ((commitT 0 outbid).2.txs 0).aborted = true ∧
      (beginT 0 (commitT 0 outbid).2).1 = .ok ()) ∧
    (Reachable contender ∧ contender.currentTransaction 1 = some 1 ∧
      (rw 1 0 contender).1 = .error .WriteFailedException ∧
      ((rw 1 0 contender).2.txs 1).aborted = true ∧
      (rw 1 0 contender).2.currentTransaction 1 = none ∧
      (beginT 1 (rw 1 0 contender).2).1 = .ok ()) :=
  have a := (@failure_ends_transaction latecomer 2 2 (by decide)).1 (by decide) (by decide)
  have a1 := a.1 0 .ReadFailedException (by decide)
  have b := (@failure_ends_transaction overtaken 0 0 (by decide)).1 (by decide) (by decide)
  have b1 := b.2.2.2.2 1 .WriteFailedException (by decide)
  have c := (@failure_ends_transaction struck 0 0 (by decide)).1 (by decide) (by decide)
  have c1 := c.2.2.2.2 1 .WriteFailedException (by decide)
  have d := (@failure_ends_transaction raced 0 0 (by decide)).1 (by decide) (by decide)
  have d1 := d.2.2.2.1 .CommitFailedException (by decide)
  have d2 := d.2.2.1 .IrrevocTransException (by decide)
  have e := (@failure_ends_transaction outbid 0 0 (by decide)).1 (by decide) (by decide)
  have e1 := e.2.2.2.1 .CommitFailedException (by decide)
  have f := (@failure_ends_transaction contender 1 1 (by decide)).2.2.2 contender_reachable
  have f1 := f.2.1 0 .WriteFailedException (by decide)
  ⟨⟨by decide, by decide, by decide, a1.2.1.aborted, a1.2.1.slot, a1.2.2.2⟩,
    ⟨by decide, by decide, by decide, by decide, b1.2.1.aborted, b1.2.2.1,
      b1.2.1.unlocked 0 (by decide)⟩,
    ⟨by decide, by decide, c1.2.2.1, c1.2.1.slot⟩,
    ⟨by decide, by decide, by decide, d1.2.1.aborted, d1.2.1.unlocked 0 (by decide),
      d1.2.1.slot, by decide, d2.2.1.unlocked 0 (by decide), d2.2.2.2⟩,
    ⟨by decide, by decide, by decide, e1.2.1.aborted, e1.2.2.2⟩,
    ⟨contender_reachable, by decide, by decide, f1.2.1.aborted, f1.2.1.slot, f1.2.2.2⟩⟩

/-! ## The lock discipline of the flags, in any state -/

theorem Keeps.asIs (s : State) : Keeps s s := fun _ => ⟨id, rfl⟩

theorem Keeps.followedBy {a b c : State} (h1 : Keeps a b) (h2 : Keeps b c) : Keeps a c :=
  fun x => ⟨fun h => (h2 x).1 ((h1 x).1 h), (h2 x).2.trans (h1 x).2⟩

theorem Keeps.of_txs {s s' : State} (h : s'.txs = s.txs) : Keeps s s' := by
  intro x
  rw [h]
  exact ⟨id, rfl⟩

theorem Keeps.atObject {s : State} {x : Nat} {f : Transaction → Transaction}
    (h : (s.txs x).Keeps (f (s.txs x))) : Keeps s (s.modTx x f) := by
  intro y
  by_cases hy : y = x
  · subst hy
    rw [modTx_txs_same]
    exact h
  · rw [modTx_txs_ne _ _ _ _ hy]
    exact ⟨id, rfl⟩

/-- A step that keeps the five flags of a transaction object keeps the lock discipline. -/
theorem Transaction.Keeps.of_flags {t t' : Transaction} (h1 : t'.comitted = t.comitted)
    (h2 : t'.aborted = t.aborted) (h3 : t'.amIIrrevocable = t.amIIrrevocable)
    (h4 : t'.cleanReadsetLock = t.cleanReadsetLock) (h5 : t'.commitLock = t.commitLock) :
    t.Keeps t' := by
  unfold Transaction.Keeps Transaction.Sealed
  rw [h1, h2, h3, h4, h5]
  exact ⟨id, rfl⟩

/-- A touch (another thread takes one of the two locks and marks the transaction aborted)
keeps the lock discipline: the locks of a committed or irrevocable transaction are taken. -/
theorem Touched.keeps {t t' : Transaction} (h : Touched t t') : t.Keeps t' := by
  refine ⟨?_, h.comitted⟩
  intro hs
  unfold Transaction.Sealed at hs ⊢
  rw [h.comitted, h.irr]
  constructor
  · intro hc
    obtain ⟨l1, l2⟩ := hs.2 (Or.inl hc)
    cases hab : t'.aborted
    · rfl
    · rcases h.kill hab with k | k | k
      · rw [hs.1 hc] at k; cases k
      · rw [l1] at k; cases k
      · rw [l2] at k; cases k
  · intro hc
    obtain ⟨l1, l2⟩ := hs.2 hc
    exact ⟨h.crl l1, h.cl l2⟩

theorem Keeps.thenTxs {s a b : State} (h : Keeps s a) (e : b.txs = a.txs) : Keeps s b :=
  h.followedBy (Keeps.of_txs e)

theorem Keeps.thenModTx {s s1 : State} {x : Nat} {f : Transaction → Transaction}
    (h : Keeps s s1) (hf : (s1.txs x).Keeps (f (s1.txs x))) : Keeps s (s1.modTx x f) :=
  h.followedBy (Keeps.atObject hf)

/-- A store to fields of a transaction object other than the five flags. -/
theorem Keeps.thenSet {s s1 : State} {x : Nat} {f : Transaction → Transaction}
    (h : Keeps s s1)
    (h1 : ∀ t, (f t).comitted = t.comitted) (h2 : ∀ t, (f t).aborted = t.aborted)
    (h3 : ∀ t, (f t).amIIrrevocable = t.amIIrrevocable)
    (h4 : ∀ t, (f t).cleanReadsetLock = t.cleanReadsetLock)
    (h5 : ∀ t, (f t).commitLock = t.commitLock) : Keeps s (s1.modTx x f) :=
  h.thenModTx (Transaction.Keeps.of_flags (h1 _) (h2 _) (h3 _) (h4 _) (h5 _))

theorem Keeps.thenModVar {s s1 : State} (h : Keeps s s1) (v : Nat) (f : Variable → Variable) :
    Keeps s (s1.modVar v f) := h.thenTxs rfl

theorem Keeps.thenNewT {s s1 : State} (h : Keeps s s1) (val : Int) : Keeps s (s1.newT val) :=
  h.thenTxs rfl

theorem killReaders_keeps (th c : Nat) (s : State) : Keeps s (killReaders th c s) :=
  fun x => ((killReaders_step th c s).touched x).keeps

theorem resetCurrent_keeps (th : Nat) (s : State) : Keeps s (resetCurrent th s) := by
  unfold resetCurrent
  split
  · exact Keeps.asIs s
  · rename_i y _
    have : Keeps s (s.modTx y fun t => { t with alive := false }) :=
      (Keeps.asIs s).thenSet (fun _ => rfl) (fun _ => rfl) (fun _ => rfl) (fun _ => rfl)
        (fun _ => rfl)
    exact this

theorem cleanup_keeps (th c : Nat) (s : State) : Keeps s (cleanup th c s) := by
  unfold cleanup
  dsimp only
  refine Keeps.followedBy ?_ (resetCurrent_keeps _ _)
  refine Keeps.thenSet ?_ (fun _ => rfl) (fun _ => rfl) (fun _ => rfl) (fun _ => rfl)
    (fun _ => rfl)
  exact (Keeps.asIs s).thenTxs (unlockAll_txs _ s)

/-- Marking an uncommitted transaction aborted keeps the lock discipline. -/
theorem Transaction.Keeps.markAborted {t : Transaction} (h : t.comitted = false) :
    t.Keeps { t with aborted := true } := by
  unfold Transaction.Keeps Transaction.Sealed
  simp [h]

theorem abort_keeps (th c : Nat) (s : State) : Keeps s (abort th c s).2 := by
  unfold abort
  split
  · exact Keeps.asIs s
  · rename_i hcom
    have hcom' : (s.txs c).comitted = false := by simpa using hcom
    split
    · split
      · exact Keeps.asIs s
      · dsimp only
        refine Keeps.followedBy ?_ (cleanup_keeps _ _ _)
        refine Keeps.thenTxs (a := (storeUsedByIrr false
            ((storeUsedByIrr false (s.txs c).rsetBuffers.keys s).txs c).wsetBuffers.keys
            (storeUsedByIrr false (s.txs c).rsetBuffers.keys s)).modTx c
              fun t => { t with aborted := true }) ?_ rfl
        refine Keeps.thenModTx ?_ (Transaction.Keeps.markAborted (by simpa using hcom'))
        exact (Keeps.asIs s).thenTxs (by simp)
    · dsimp only
      refine Keeps.followedBy ?_ (cleanup_keeps _ _ _)
      exact (Keeps.asIs s).thenModTx (Transaction.Keeps.markAborted hcom')

theorem abortThrow_keeps {α : Type} (th c : Nat) (e : Exc) (s : State) :
    Keeps s (abortThrow th c e s : Res α).2 := by
  unfold abortThrow
  split <;> exact abort_keeps th c s

theorem Keeps.thenAbortThrow {α : Type} {s s1 : State} (h : Keeps s s1) (th c : Nat) (e : Exc) :
    Keeps s (abortThrow th c e s1 : Res α).2 := h.followedBy (abortThrow_keeps th c e s1)

/-- Winning the free `commitLock` of a transaction and marking it aborted keeps the lock
discipline: a committed or irrevocable transaction holds its `commitLock`. -/
theorem Transaction.Keeps.lostCommitLock {t : Transaction} (h : t.commitLock = false) :
    t.Keeps { t with commitLock := true, aborted := true } :=
  (Touched.winCommitLock h).keeps

theorem irrAcquireCopy_keeps (c v : Nat) (b : Bool) (s : State) :
    Keeps s (irrAcquireCopy c v b s) := by
  unfold irrAcquireCopy setRset setWset
  dsimp only
  split
  · exact ((Keeps.asIs s).thenNewT _).thenSet (fun _ => rfl) (fun _ => rfl) (fun _ => rfl)
      (fun _ => rfl) (fun _ => rfl)
  · exact ((Keeps.asIs s).thenNewT _).thenSet (fun _ => rfl) (fun _ => rfl) (fun _ => rfl)
      (fun _ => rfl) (fun _ => rfl)

theorem Keeps.thenCopy {s s1 : State} (h : Keeps s s1) (c v : Nat) (b : Bool) :
    Keeps s (irrAcquireCopy c v b s1) := h.followedBy (irrAcquireCopy_keeps c v b s1)

theorem irrAcquire_keeps (c v : Nat) (b : Bool) (s : State) :
    Keeps s (irrAcquire c v b s).2 := by
  have h0 : Keeps s (s.modVar v fun x => { x with usedByIrr := true }) :=
    (Keeps.asIs s).thenModVar _ _
  unfold irrAcquire
  dsimp only
  split
  · refine Keeps.thenCopy ?_ _ _ _
    exact (h0.thenModVar _ _).thenSet (fun _ => rfl) (fun _ => rfl) (fun _ => rfl)
      (fun _ => rfl) (fun _ => rfl)
  · split
    · exact h0.thenCopy _ _ _
    · split
      · rename_i hcl
        refine Keeps.thenCopy ?_ _ _ _
        exact h0.thenModTx (Transaction.Keeps.lostCommitLock (by simpa using hcl))
      · split
        · exact h0.thenCopy _ _ _
        · split
          · exact h0
          · unfold setWset
            dsimp only
            refine Keeps.thenSet ?_ (fun _ => rfl) (fun _ => rfl) (fun _ => rfl)
              (fun _ => rfl) (fun _ => rfl)
            refine Keeps.thenNewT ?_ _
            exact h0.thenSet (fun _ => rfl) (fun _ => rfl) (fun _ => rfl)
              (fun _ => rfl) (fun _ => rfl)

theorem roFuel_keeps (n th v : Nat) (s : State) : Keeps s (roFuel n th v s).2 := by
  induction n generalizing s with
  | zero => exact Keeps.asIs s
  | succ n ih =>
    unfold roFuel
    split
    · split <;> exact Keeps.asIs s
    · rename_i c hc
      split
      · exact Keeps.asIs s
      · split
        · exact Keeps.asIs s
        · split
          · have t1 := irrAcquire_keeps c v true s
            revert t1
            generalize irrAcquire c v true s = r
            obtain ⟨r1, r2⟩ := r
            intro t1
            cases r1 with
            | error e => exact t1
            | ok u => exact t1.followedBy (ih r2)
          · dsimp only
            have h0 : Keeps s (s.modVar v fun x =>
                { x with readers := Function.update x.readers th (some c) }) :=
              (Keeps.asIs s).thenModVar _ _
            split
            · exact h0.thenAbortThrow _ _ _
            · split
              · exact (h0.thenNewT _).thenAbortThrow _ _ _
              · unfold setRset
                dsimp only
                exact (h0.thenNewT _).thenSet (fun _ => rfl) (fun _ => rfl) (fun _ => rfl)
                  (fun _ => rfl) (fun _ => rfl)

theorem rwLocked_keeps (th c v : Nat) (s : State) : Keeps s (rwLocked th c v s).2 := by
  unfold rwLocked
  split
  · exact ((Keeps.asIs s).thenModVar _ _).thenAbortThrow _ _ _
  · have h1 : Keeps s (unsetRset c v s) :=
      (Keeps.asIs s).thenSet (fun _ => rfl) (fun _ => rfl) (fun _ => rfl) (fun _ => rfl)
        (fun _ => rfl)
    have h2 : Keeps s (s.newT (s.heap (s.vars v).varPtr)) := (Keeps.asIs s).thenNewT _
    have fin : ∀ (s2 : State) (b : Buf), Keeps s s2 → Keeps s
        ((setWset c v b s2).modTx c fun t => { t with locksHeld := t.locksHeld.insert v }) := by
      intro s2 b h
      unfold setWset
      refine Keeps.thenSet ?_ (fun _ => rfl) (fun _ => rfl) (fun _ => rfl) (fun _ => rfl)
        (fun _ => rfl)
      exact h.thenSet (fun _ => rfl) (fun _ => rfl) (fun _ => rfl) (fun _ => rfl)
        (fun _ => rfl)
    cases hr : (s.txs c).rsetBuffers.lookup v with
    | some rb =>
      dsimp only
      split
      · exact (h1.thenModVar _ _).thenAbortThrow _ _ _
      · exact fin _ _ h1
    | none =>
      dsimp only
      split
      · exact (h2.thenModVar _ _).thenAbortThrow _ _ _
      · exact fin _ _ h2

theorem rwFuel_keeps (n th v : Nat) (s : State) : Keeps s (rwFuel n th v s).2 := by
  induction n generalizing s with
  | zero => exact Keeps.asIs s
  | succ n ih =>
    unfold rwFuel
    split
    · split <;> exact Keeps.asIs s
    · rename_i c hc
      split
      · exact Keeps.asIs s
      · split
        · split
          · rename_i rb hrb
            refine Keeps.followedBy ?_ (ih _)
            unfold setWset unsetRset
            refine Keeps.thenSet ?_ (fun _ => rfl) (fun _ => rfl) (fun _ => rfl)
              (fun _ => rfl) (fun _ => rfl)
            exact (Keeps.asIs s).thenSet (fun _ => rfl) (fun _ => rfl) (fun _ => rfl)
              (fun _ => rfl) (fun _ => rfl)
          · have t1 := irrAcquire_keeps c v false s
            revert t1
            generalize irrAcquire c v false s = r
            obtain ⟨r1, r2⟩ := r
            intro t1
            cases r1 with
            | error e => exact t1
            | ok u => exact t1.followedBy (ih r2)
        · split
          · exact abortThrow_keeps _ _ _ _
          · split
            · exact abortThrow_keeps _ _ _ _
            · exact ((Keeps.asIs s).thenModVar _ _).followedBy (rwLocked_keeps _ _ _ _)

theorem acquireReadset_keeps (c : Nat) (s : State) : Keeps s (acquireReadset c s).2 := by
  obtain ⟨-, -, -, -, -, a6, -, a8, a9⟩ := acquireReadset_spec c s
  intro x
  by_cases hx : x = c
  · subst hx
    cases hr : (acquireReadset x s).1 with
    | false => rw [(a8 hr).1]; exact ⟨id, rfl⟩
    | true =>
      obtain ⟨⟨lh, b1, -⟩, -⟩ := a9 hr
      rw [b1]
      exact Transaction.Keeps.of_flags rfl rfl rfl rfl rfl
  · rw [a6 x hx]
    exact ⟨id, rfl⟩

/-- Taking one of the own locks keeps the discipline. -/
theorem Transaction.Keeps.takeCrl {t : Transaction} :
    t.Keeps { t with cleanReadsetLock := true } := by
  unfold Transaction.Keeps Transaction.Sealed
  simp
  intro h1 h2
  exact ⟨h1, fun h => (h2 h).2⟩

theorem Transaction.Keeps.takeCl {t : Transaction} :
    t.Keeps { t with commitLock := true } := by
  unfold Transaction.Keeps Transaction.Sealed
  simp
  intro h1 h2
  exact ⟨h1, fun h => (h2 h).1⟩

/-- Setting `amIIrrevocable` on a transaction that holds both own locks keeps the
discipline. -/
theorem Transaction.Keeps.setIrrevocable {t : Transaction} (h1 : t.cleanReadsetLock = true)
    (h2 : t.commitLock = true) : t.Keeps { t with amIIrrevocable := true } := by
  unfold Transaction.Keeps Transaction.Sealed
  simp [h1, h2]

theorem irr_keeps (th c : Nat) (s : State) : Keeps s (irr th c s).2 := by
  unfold irr
  split
  · exact Keeps.asIs s
  · split
    · exact abortThrow_keeps _ _ _ _
    · dsimp only
      have h1 : Keeps s (acquireReadset c { s with irrTransactionLock := true }).2 :=
        Keeps.followedBy (b := { s with irrTransactionLock := true }) (Keeps.of_txs rfl)
          (acquireReadset_keeps c { s with irrTransactionLock := true })
      revert h1
      generalize acquireReadset c { s with irrTransactionLock := true } = r
      obtain ⟨r1, r2⟩ := r
      intro h1
      have h1' : Keeps s r2 := h1
      dsimp only
      split
      · refine Keeps.thenAbortThrow ?_ _ _ _
        exact h1'.thenTxs rfl
      · have h3 : Keeps s (r2.modTx c fun t => { t with cleanReadsetLock := true }) :=
          Keeps.thenModTx (f := fun t => { t with cleanReadsetLock := true }) h1'
            Transaction.Keeps.takeCrl
        cases hcrl : (r2.txs c).cleanReadsetLock with
        | true =>
          simp only [Bool.true_or, if_true]
          refine Keeps.thenAbortThrow ?_ _ _ _
          refine Keeps.thenTxs (a := storeUsedByIrr false
            ((r2.modTx c fun t => { t with cleanReadsetLock := true }).txs c).rsetBuffers.keys
            (r2.modTx c fun t => { t with cleanReadsetLock := true })) ?_ rfl
          exact h3.thenTxs (by simp)
        | false =>
          simp only [Bool.false_or, Bool.false_eq_true, if_false]
          have h4 : Keeps s ((r2.modTx c fun t => { t with cleanReadsetLock := true }).modTx c
              fun t => { t with commitLock := true }) :=
            Keeps.thenModTx (f := fun t => { t with commitLock := true }) h3
              Transaction.Keeps.takeCl
          split
          · refine Keeps.thenAbortThrow ?_ _ _ _
            refine Keeps.thenTxs (a := storeUsedByIrr false
              (((r2.modTx c fun t => { t with cleanReadsetLock := true }).modTx c
                fun t => { t with commitLock := true }).txs c).rsetBuffers.keys
              ((r2.modTx c fun t => { t with cleanReadsetLock := true }).modTx c
                fun t => { t with commitLock := true })) ?_ rfl
            exact h4.thenTxs (by simp)
          · exact Keeps.thenModTx (f := fun t => { t with amIIrrevocable := true }) h4
              (Transaction.Keeps.setIrrevocable (by simp) (by simp))

theorem cleanup_own {th c : Nat} {s : State} (hc : s.currentTransaction th = some c) :
    (cleanup th c s).txs c = { s.txs c with locksHeld := [], alive := false } := by
  rw [cleanup_txs hc, if_pos rfl]

/-- The transaction object of the caller after the last part of `commit`, in any state. -/
theorem commitFinish_own {th c : Nat} {s : State} (hc : s.currentTransaction th = some c) :
    (commitFinish th c s).txs c =
      { s.txs c with comitted := true, locksHeld := [], alive := false } := by
  obtain ⟨p1, p2, -⟩ := publish_frame c s
  unfold commitFinish
  revert p1 p2
  generalize publish c s = p
  intro p1 p2
  dsimp only
  cases hirr : (p.txs c).amIIrrevocable with
  | true =>
    simp only [if_true, modTx_txs_same, unlockAll_txs, storeUsedByIrr_txs, hirr]
    rw [cleanup_own (by simpa [p2] using hc)]
    simp [p1]
  | false =>
    simp only [Bool.false_eq_true, if_false, modTx_txs_same, unlockAll_txs, hirr]
    rw [cleanup_own (by simpa [p2] using hc)]
    simp [p1]

/-- The transaction object of the caller after `abort(); throw e;`, when the transaction is
revocable and not committed, in any state. -/
theorem abortThrow_own {α : Type} {th c : Nat} {s : State} (e : Exc)
    (hc : s.currentTransaction th = some c) (h1 : (s.txs c).comitted = false)
    (h2 : (s.txs c).amIIrrevocable = false) :
    (abortThrow th c e s : Res α) = (.error e, (abortThrow th c e s : Res α).2) ∧
    (abortThrow th c e s : Res α).2.txs c =
      { s.txs c with aborted := true, locksHeld := [], alive := false } := by
  rw [abortThrow_revocable e h1 h2]
  refine ⟨rfl, ?_⟩
  have hc' : (s.modTx c fun t => { t with aborted := true }).currentTransaction th = some c := hc
  rw [cleanup_txs hc']
  simp

/-- What `commit` decides, in any state, for the uncommitted transaction installed in the slot
of the calling thread: when it returns normally it found `aborted` false and, if revocable,
its two own locks free, and it leaves the object committed, holding both locks and not marked
aborted (for an irrevocable transaction: provided it held both locks); when it throws, the
object is not committed; and a revocable transaction that is marked aborted or has lost one
of its own locks gets `CommitFailedException` and is marked aborted. -/
theorem commit_verdict {th c : Nat} {s : State} (hc : s.currentTransaction th = some c)
    (hcom : (s.txs c).comitted = false) :
    ((commit th c s).1 = .ok () →
      (s.txs c).aborted = false ∧
      ((s.txs c).amIIrrevocable = false →
        (s.txs c).cleanReadsetLock = false ∧ (s.txs c).commitLock = false) ∧
      ((commit th c s).2.txs c).comitted = true ∧
      ((commit th c s).2.txs c).amIIrrevocable = (s.txs c).amIIrrevocable ∧
      ((s.txs c).amIIrrevocable = false ∨
          ((s.txs c).cleanReadsetLock = true ∧ (s.txs c).commitLock = true) →
        ((commit th c s).2.txs c).aborted = false ∧
        ((commit th c s).2.txs c).cleanReadsetLock = true ∧
        ((commit th c s).2.txs c).commitLock = true)) ∧
    ((commit th c s).1 ≠ .ok () →
      ((commit th c s).2.txs c).comitted = false ∧
      ((commit th c s).2.txs c).amIIrrevocable = (s.txs c).amIIrrevocable ∧
      ((s.txs c).amIIrrevocable = true → (commit th c s).2 = s)) ∧
    ((s.txs c).amIIrrevocable = false →
      (s.txs c).aborted = true ∨ (s.txs c).cleanReadsetLock = true ∨
        (s.txs c).commitLock = true →
      (commit th c s).1 = .error .CommitFailedException ∧
      ((commit th c s).2.txs c).aborted = true) := by
  have hk : ∀ s1 : State, s1.txs = s.txs → s1.currentTransaction = s.currentTransaction →
      Touched (s.txs c) ((killReaders th c s1).txs c) ∧
      (killReaders th c s1).currentTransaction th = some c := by
    intro s1 e1 e2
    have ks := killReaders_step th c s1
    have := ks.touched c
    rw [e1] at this
    exact ⟨this, by rw [ks.cur, e2]; exact hc⟩
  have hd := hk (if (s.txs c).amIIrrevocable = true
      then storeDirtyIrr true (s.txs c).wsetBuffers.keys s
      else storeDirty true (s.txs c).wsetBuffers.keys s)
    (by split <;> simp) (by split <;> simp)
  unfold commit
  simp only [hcom, Bool.false_eq_true, if_false]
  by_cases hab : (s.txs c).aborted = true
  · rw [if_pos hab]
    by_cases hirr : (s.txs c).amIIrrevocable = true
    · rw [if_pos hirr]
      refine ⟨fun h => (by cases h), fun _ => ⟨hcom, rfl, fun _ => rfl⟩, fun h => ?_⟩
      rw [hirr] at h; cases h
    · rw [if_neg hirr]
      have hirr' : (s.txs c).amIIrrevocable = false := by simpa using hirr
      obtain ⟨a1, a2⟩ := @abortThrow_own Unit th c s .CommitFailedException hc hcom hirr'
      rw [a1]
      dsimp only
      rw [a2]
      refine ⟨fun h => (by cases h), fun _ => ⟨hcom, rfl, fun h => ?_⟩, fun _ _ => ⟨rfl, rfl⟩⟩
      rw [hirr'] at h; cases h
  · rw [if_neg hab]
    have hab' : (s.txs c).aborted = false := by simpa using hab
    revert hd
    generalize killReaders th c (if (s.txs c).amIIrrevocable = true
      then storeDirtyIrr true (s.txs c).wsetBuffers.keys s
      else storeDirty true (s.txs c).wsetBuffers.keys s) = s2
    intro hd
    obtain ⟨kc, k0⟩ := hd
    have k1 : (s2.txs c).comitted = false := by rw [kc.comitted]; exact hcom
    by_cases hirr : (s.txs c).amIIrrevocable = true
    · have k2 : (s2.txs c).amIIrrevocable = true := by rw [kc.irr]; exact hirr
      rw [if_pos k2]
      dsimp only
      rw [commitFinish_own k0]
      dsimp only
      refine ⟨fun _ => ⟨hab', fun h => ?_, rfl, ?_, fun h => ?_⟩, fun h => absurd rfl h,
        fun h => ?_⟩
      · rw [hirr] at h; cases h
      · rw [k2, hirr]
      · rcases h with h | ⟨h1, h2⟩
        · rw [hirr] at h; cases h
        · refine ⟨?_, kc.crl h1, kc.cl h2⟩
          cases h3 : (s2.txs c).aborted
          · rfl
          · rcases kc.kill h3 with k | k | k
            · rw [hab'] at k; cases k
            · rw [h1] at k; cases k
            · rw [h2] at k; cases k
      · rw [hirr] at h; cases h
    · have hirr' : (s.txs c).amIIrrevocable = false := by simpa using hirr
      have k2 : (s2.txs c).amIIrrevocable = false := by rw [kc.irr]; exact hirr'
      rw [if_neg (by rw [k2]; simp)]
      by_cases hcrl : (s2.txs c).cleanReadsetLock = true
      · rw [if_pos hcrl]
        obtain ⟨a1, a2⟩ := @abortThrow_own Unit th c
          (storeDirty false (s2.txs c).wsetBuffers.keys s2) .CommitFailedException
          (by simpa using k0) (by simpa using k1) (by simpa using k2)
        rw [a1]
        dsimp only
        rw [a2]
        refine ⟨fun h => (by cases h), fun _ => ⟨by simpa using k1, by simp [k2, hirr'],
          fun h => ?_⟩, fun _ _ => ⟨rfl, rfl⟩⟩
        rw [hirr'] at h; cases h
      · rw [if_neg hcrl]
        have hcrl' : (s2.txs c).cleanReadsetLock = false := by simpa using hcrl
        by_cases hcl : (s2.txs c).commitLock = true
        · rw [if_pos (by simpa using hcl)]
          obtain ⟨a1, a2⟩ := @abortThrow_own Unit th c
            (storeDirty false
              ((s2.modTx c fun t => { t with cleanReadsetLock := true }).txs c).wsetBuffers.keys
              (s2.modTx c fun t => { t with cleanReadsetLock := true })) .CommitFailedException
            (by simpa using k0) (by simpa using k1) (by simpa using k2)
          rw [a1]
          dsimp only
          rw [a2]
          refine ⟨fun h => (by cases h), fun _ => ⟨by simpa using k1, by simp [k2, hirr'],
            fun h => ?_⟩, fun _ _ => ⟨rfl, rfl⟩⟩
          rw [hirr'] at h; cases h
        · rw [if_neg (by simpa using hcl)]
          have hcl' : (s2.txs c).commitLock = false := by simpa using hcl
          have hab2 : (s2.txs c).aborted = false := by
            cases h3 : (s2.txs c).aborted
            · rfl
            · rcases kc.ab_lock h3 with k | k | k
              · rw [hab'] at k; cases k
              · rw [hcrl'] at k; cases k
              · rw [hcl'] at k; cases k
          have n1 : (s.txs c).cleanReadsetLock = false := by
            cases h3 : (s.txs c).cleanReadsetLock
            · rfl
            · have := kc.crl h3
              rw [hcrl'] at this; cases this
          have n2 : (s.txs c).commitLock = false := by
            cases h3 : (s.txs c).commitLock
            · rfl
            · have := kc.cl h3
              rw [hcl'] at this; cases this
          dsimp only
          rw [commitFinish_own (by simpa using k0)]
          refine ⟨fun _ => ⟨hab', fun _ => ⟨n1, n2⟩, rfl, by simp [k2, hirr'], fun _ => ?_⟩,
            fun h => absurd rfl h, fun _ h => ?_⟩
          · simp [hab2]
          · rcases h with h | h | h
            · rw [hab'] at h; cases h
            · rw [n1] at h; cases h
            · rw [n2] at h; cases h

/-- Whatever the state, `commit` keeps the lock discipline of every transaction object. -/
theorem commit_seals {th c : Nat} {s : State} (hc : s.currentTransaction th = some c)
    (x : Nat) (hs : (s.txs x).Sealed) : ((commit th c s).2.txs x).Sealed := by
  by_cases hx : x = c
  · subst hx
    cases hcom : (s.txs x).comitted with
    | true =>
      have : commit th x s = (.error .AssertionFailure, s) := by
        unfold commit
        simp [hcom]
      rw [this]
      exact hs
    | false =>
      obtain ⟨v1, v2, -⟩ := commit_verdict hc hcom
      by_cases hok : (commit th x s).1 = .ok ()
      · obtain ⟨-, -, a3, a4, a5⟩ := v1 hok
        have hl : (s.txs x).amIIrrevocable = false ∨
            ((s.txs x).cleanReadsetLock = true ∧ (s.txs x).commitLock = true) := by
          cases hirr : (s.txs x).amIIrrevocable
          · exact Or.inl rfl
          · exact Or.inr (hs.2 (Or.inr hirr))
        obtain ⟨b1, b2, b3⟩ := a5 hl
        exact ⟨fun _ => b1, fun _ => ⟨b2, b3⟩⟩
      · obtain ⟨a1, a2, a3⟩ := v2 hok
        cases hirr : (s.txs x).amIIrrevocable
        · refine ⟨fun h => ?_, fun h => ?_⟩
          · rw [a1] at h; cases h
          · rcases h with h | h
            · rw [a1] at h; cases h
            · rw [a2, hirr] at h; cases h
        · rw [a3 hirr]
          exact hs
  · exact ((commit_touched s hx (fun e => hx (by rw [hc] at e; cases e; rfl))).keeps).1 hs

/-- The call `beginT` creates an object that respects the lock discipline. -/
theorem beginT_seals (th : Nat) {s : State} (hs : Sealed s) : Sealed (beginT th s).2 := by
  unfold beginT
  split
  · exact hs
  · intro x
    dsimp only
    by_cases hx : x = s.nextTx
    · subst hx
      rw [Function.update_same]
      decide
    · rw [Function.update_noteq hx]
      exact hs x

/-- Every call but `beginT` and `commitT` keeps the lock discipline and the `comitted` flag of
every transaction object, in any state. -/
theorem exec_keeps (th : Nat) (op : Op) (s : State) (h1 : op ≠ .beginT) (h2 : op ≠ .commitT) :
    Keeps s (exec th op s).2 := by
  cases op with
  | beginT => exact absurd rfl h1
  | commitT => exact absurd rfl h2
  | abortT =>
    simp only [exec, abortT]
    split
    · exact Keeps.asIs s
    · exact abort_keeps _ _ _
  | irrT =>
    simp only [exec, irrT]
    split
    · exact Keeps.asIs s
    · exact irr_keeps _ _ _
  | ro v => exact roFuel_keeps 2 th v s
  | rw v => exact rwFuel_keeps 2 th v s
  | assign v val =>
    simp only [exec, assign]
    have := rwFuel_keeps 2 th v s
    unfold rw
    revert this
    generalize rwFuel 2 th v s = r
    obtain ⟨r1, r2⟩ := r
    intro this
    cases r1
    · exact this
    · exact Keeps.thenTxs this rfl

/-- Every call keeps the lock discipline, in any state. -/
theorem exec_seals (th : Nat) (op : Op) {s : State} (hs : Sealed s) :
    Sealed (exec th op s).2 := by
  by_cases h1 : op = .beginT
  · subst h1
    exact beginT_seals th hs
  · by_cases h2 : op = .commitT
    · subst h2
      simp only [exec, commitT]
      split
      · exact hs
      · rename_i c hc
        exact fun x => commit_seals hc x (hs x)
    · exact fun x => (exec_keeps th op s h1 h2 x).1 (hs x)

theorem run_seals (calls : List (Nat × Op)) {s : State} (hs : Sealed s) :
    Sealed (run calls s) := by
  induction calls generalizing s with
  | nil => exact hs
  | cons c cs ih => exact ih (exec_seals c.1 c.2 hs)

theorem reachable_sealed {s : State} (h : Reachable s) : Sealed s := by
  induction h with
  | init n vals h1 h2 =>
    intro x
    show ({} : Transaction).Sealed
    decide
  | step s th op _ _ ih => exact exec_seals th op ih

/-- In any state a call that sets the `comitted` flag of a transaction object (other than the
one `beginT` would create) is the `commitT` of the thread that has it installed, and it
returns normally. -/
theorem exec_sets_comitted (th : Nat) (op : Op) {s : State} {x : Nat} (hx : x ≠ s.nextTx)
    (h0 : (s.txs x).comitted = false) (h1 : ((exec th op s).2.txs x).comitted = true) :
    op = .commitT ∧ s.currentTransaction th = some x ∧ (exec th op s).1 = .ok () := by
  by_cases hb : op = .beginT
  · subst hb
    exfalso
    revert h1
    simp only [exec, beginT]
    split
    · rw [h0]; simp
    · dsimp only
      rw [Function.update_noteq hx, h0]; simp
  · by_cases hcm : op = .commitT
    · subst hcm
      refine ⟨rfl, ?_⟩
      revert h1
      simp only [exec, commitT]
      split
      · rw [h0]; simp
      · rename_i c hc
        intro h1
        by_cases hxc : x = c
        · subst hxc
          refine ⟨hc, ?_⟩
          by_contra hok
          rw [((commit_verdict hc h0).2.1 hok).1] at h1
          cases h1
        · have := (commit_touched s hxc (fun e => hxc (by rw [hc] at e; cases e; rfl))).comitted
          rw [this, h0] at h1
          cases h1
    · rw [(exec_keeps th op s hb hcm x).2, h0] at h1
      cases h1

/-- In any state no call resets the `comitted` flag of a transaction object (other than the
one `beginT` would create). -/
theorem exec_stays_set (th : Nat) (op : Op) {s : State} {x : Nat} (hx : x ≠ s.nextTx)
    (h0 : (s.txs x).comitted = true) : ((exec th op s).2.txs x).comitted = true := by
  by_cases hb : op = .beginT
  · subst hb
    simp only [exec, beginT]
    split
    · exact h0
    · dsimp only
      rw [Function.update_noteq hx]; exact h0
  · by_cases hcm : op = .commitT
    · subst hcm
      simp only [exec, commitT]
      split
      · exact h0
      · rename_i c hc
        by_cases hxc : x = c
        · subst hxc
          have : commit th x s = (.error .AssertionFailure, s) := by
            unfold commit
            simp [h0]
          rw [this]
          exact h0
        · rw [(commit_touched s hxc
            (fun e => hxc (by rw [hc] at e; cases e; rfl))).comitted]
          exact h0
    · rw [(exec_keeps th op s hb hcm x).2]
      exact h0

theorem killReader_spares {th v i x : Nat} {s : State}
    (h : (s.txs x).cleanReadsetLock = true) : (killReader th v i s).txs x = s.txs x := by
  unfold killReader
  split
  · rfl
  · split
    · rfl
    · rename_i y _
      split
      · rfl
      · rename_i hy
        have : x ≠ y := by
          intro e
          subst e
          exact hy h
        rw [modTx_txs_ne _ _ _ _ this]

theorem foldl_spares {α : Type} (f : State → α → State) (x : Nat)
    (hf : ∀ s a, (s.txs x).cleanReadsetLock = true → (f s a).txs x = s.txs x)
    (l : List α) (s : State) (h : (s.txs x).cleanReadsetLock = true) :
    (l.foldl f s).txs x = s.txs x := by
  induction l generalizing s with
  | nil => rfl
  | cons a l ih =>
    rw [List.foldl_cons, ih (f s a) (by rw [hf s a h]; exact h), hf s a h]

/-- The function `killReaders` leaves alone a transaction whose `cleanReadsetLock` is taken,
in any state: it marks a reader aborted only after winning that lock. -/
theorem killReaders_spares (th c : Nat) {x : Nat} {s : State}
    (h : (s.txs x).cleanReadsetLock = true) : (killReaders th c s).txs x = s.txs x := by
  unfold killReaders
  apply foldl_spares _ x _ _ _ h
  intro s1 v h1
  unfold Variable.killReaders
  apply foldl_spares _ x _ _ _ h1
  intro s2 i h2
  exact killReader_spares h2

/-- The function `irrAcquire` does not change the `aborted` flag of a transaction whose
`commitLock` is taken, in any state: it marks the lock owner aborted only after winning that
lock. -/
theorem irrAcquire_spares (c v : Nat) (b : Bool) {x : Nat} {s : State}
    (h : (s.txs x).commitLock = true) :
    ((irrAcquire c v b s).2.txs x).aborted = (s.txs x).aborted := by
  have copy : ∀ s1 : State, ((irrAcquireCopy c v b s1).txs x).aborted = (s1.txs x).aborted := by
    intro s1
    unfold irrAcquireCopy setRset setWset
    dsimp only
    by_cases hx : x = c
    · subst hx
      split <;> simp
    · split <;> simp [modTx_txs_ne _ _ _ _ hx]
  unfold irrAcquire
  dsimp only
  split
  · rw [copy]
    by_cases hx : x = c
    · subst hx; simp
    · simp [modTx_txs_ne _ _ _ _ hx]
  · split
    · rw [copy]; simp
    · rename_i y _
      split
      · rename_i hcl
        rw [copy]
        have : x ≠ y := by
          intro e
          subst e
          simp [h] at hcl
        simp [modTx_txs_ne _ _ _ _ this]
      · split
        · rw [copy]; simp
        · split
          · simp
          · unfold setWset
            by_cases hx : x = c
            · subst hx; simp
            · simp [modTx_txs_ne _ _ _ _ hx]

/-! ## C13: committed and aborted exclude each other, in any state -/

theorem Sealed.store {s : State} {x : Nat} {f : Transaction → Transaction} (hs : Sealed s)
    (h : (f (s.txs x)).Sealed) : Sealed (s.modTx x f) := by
  intro y
  by_cases hy : y = x
  · subst hy
    rw [modTx_txs_same]
    exact h
  · rw [modTx_txs_ne _ _ _ _ hy]
    exact hs y

/-- C13: no transaction is both committed and aborted, and the transition out of the active
state is taken once. Between calls: no object is committed and aborted, a committed object
holds `cleanReadsetLock` and `commitLock` and is no longer installed, only its own `commitT`,
returning normally and having found `aborted` false, sets `comitted`, and afterwards no call
sets `aborted` or resets `comitted`. In any state, also one in which other threads are inside
calls: the lock discipline `Sealed` (a committed object is not marked aborted; a committed or
irrevocable object holds both own locks) holds between calls and is kept by every call from
any state that has it, so no run from such a state makes an object committed and aborted; a
call that sets `comitted` is the `commitT` of the thread that has the object installed, it
returns normally, it found `aborted` false and, if the transaction is revocable, found both
own locks free and took them, and it leaves the object not marked aborted; a revocable
`commitT` that finds the transaction marked aborted or one of its own locks taken (a killer
won the lock and has not stored `aborted` yet) throws `CommitFailedException`, leaves
`comitted` false and marks the transaction aborted; `killReaders` leaves alone every object
whose `cleanReadsetLock` is taken and `irrAcquire` does not change `aborted` of an object
whose `commitLock` is taken, so they mark an object aborted only after winning the lock; and
`Transaction::abort` on a committed transaction throws `InvalidUseException` and changes
nothing. -/
theorem committed_never_aborted {s : State} (x : Nat) :
    (Reachable s →
      Sealed s ∧
      ((s.txs x).comitted = true → (s.txs x).aborted = false) ∧
      ((s.txs x).aborted = true → (s.txs x).comitted = false) ∧
      ((s.txs x).comitted = true →
        (s.txs x).cleanReadsetLock = true ∧ (s.txs x).commitLock = true ∧
        (s.txs x).alive = false) ∧
      (∀ th op, (s.txs x).comitted = false → ((exec th op s).2.txs x).comitted = true →
        op = .commitT ∧ s.currentTransaction th = some x ∧ (s.txs x).aborted = false ∧
        (exec th op s).1 = .ok ()) ∧
      (∀ th op, (s.txs x).comitted = true →
        ((exec th op s).2.txs x).comitted = true ∧
        ((exec th op s).2.txs x).aborted = false)) ∧
    (Sealed s →
      ((s.txs x).comitted = true → (s.txs x).aborted = false ∧
        (s.txs x).cleanReadsetLock = true ∧ (s.txs x).commitLock = true) ∧
      ((s.txs x).aborted = true → (s.txs x).comitted = false) ∧
      (∀ th op, Sealed (exec th op s).2) ∧
      (∀ calls, Sealed (run calls s) ∧
        (((run calls s).txs x).comitted = true → ((run calls s).txs x).aborted = false)) ∧
      (∀ th op, x ≠ s.nextTx → (s.txs x).comitted = true →
        ((exec th op s).2.txs x).comitted = true ∧
        ((exec th op s).2.txs x).aborted = false)) ∧
    (∀ th op, x ≠ s.nextTx → (s.txs x).comitted = false →
      ((exec th op s).2.txs x).comitted = true →
      op = .commitT ∧ s.currentTransaction th = some x ∧ (exec th op s).1 = .ok () ∧
      (s.txs x).aborted = false ∧
      ((s.txs x).amIIrrevocable = false →
        (s.txs x).cleanReadsetLock = false ∧ (s.txs x).commitLock = false) ∧
      ((s.txs x).amIIrrevocable = false ∨
          ((s.txs x).cleanReadsetLock = true ∧ (s.txs x).commitLock = true) →
        ((exec th op s).2.txs x).aborted = false ∧
        ((exec th op s).2.txs x).cleanReadsetLock = true ∧
        ((exec th op s).2.txs x).commitLock = true)) ∧
    (∀ th, s.currentTransaction th = some x → (s.txs x).comitted = false →
      (s.txs x).amIIrrevocable = false →
      (s.txs x).aborted = true ∨ (s.txs x).cleanReadsetLock = true ∨
        (s.txs x).commitLock = true →
      (commitT th s).1 = .error .CommitFailedException ∧
      ((commitT th s).2.txs x).comitted = false ∧
      ((commitT th s).2.txs x).aborted = true) ∧
    (∀ th c, (s.txs x).cleanReadsetLock = true → (killReaders th c s).txs x = s.txs x) ∧
    (∀ c v b, (s.txs x).commitLock = true →
      ((irrAcquire c v b s).2.txs x).aborted = (s.txs x).aborted) ∧
    (∀ th, (s.txs x).comitted = true → abort th x s = (.error .InvalidUseException, s)) := by
  refine ⟨?_, ?_, ?_, ?_, fun th c h => killReaders_spares th c h,
    fun c v b h => irrAcquire_spares c v b h, fun th h => by simp [abort, h]⟩
  · intro hr
    have hi := reachable_inv hr
    have ht := reachable_tidy hr
    refine ⟨reachable_sealed hr, fun h => (ht.fate x h).2.2, ?_, ?_, ?_, ?_⟩
    · intro h
      cases hcm : (s.txs x).comitted
      · rfl
      · have := (ht.fate x hcm).2.2
        rw [h] at this
        cases this
    · intro h
      refine ⟨(ht.fate x h).1, (ht.fate x h).2.1, ?_⟩
      cases ha : (s.txs x).alive
      · rfl
      · rw [hi.not_comitted x ha] at h
        cases h
    · intro th op h0 h1
      exact exec_commits hi ht th op x h0 h1
    · intro th op h
      have h' := exec_stays_comitted hr th op x h
      exact ⟨h', ((exec_tidy hi ht th op).fate x h').2.2⟩
  · intro hs
    refine ⟨fun h => ⟨(hs x).1 h, (hs x).2 (Or.inl h)⟩, ?_, fun th op => exec_seals th op hs,
      fun calls => ⟨run_seals calls hs, fun h => (run_seals calls hs x).1 h⟩, ?_⟩
    · intro h
      cases hcm : (s.txs x).comitted
      · rfl
      · have := (hs x).1 hcm
        rw [h] at this
        cases this
    · intro th op hx h
      have h' := exec_stays_set th op hx h
      exact ⟨h', (exec_seals th op hs x).1 h'⟩
  · intro th op hx h0 h1
    obtain ⟨e1, e2, e3⟩ := exec_sets_comitted th op hx h0 h1
    subst e1
    have hv := (commit_verdict e2 h0).1
    have he : exec th .commitT s = commit th x s := by
      simp only [exec, commitT, e2]
    rw [he] at e3 ⊢
    obtain ⟨a1, a2, -, -, a5⟩ := hv e3
    exact ⟨rfl, e2, e3, a1, a2, a5⟩
  · intro th hc hcom hirr hcause
    have he : commitT th s = commit th x s := by
      simp only [commitT, hc]
    rw [he]
    obtain ⟨-, v2, v3⟩ := commit_verdict hc hcom
    obtain ⟨b1, b2⟩ := v3 hirr hcause
    refine ⟨b1, (v2 ?_).1, b2⟩
    rw [b1]
    intro h
    cases h

theorem committed_never_aborted_witness :
    (Reachable wroteFive ∧ (wroteFive.txs 0).comitted = false ∧
      ((exec 0 .commitT wroteFive).2.txs 0).comitted = true ∧
      wroteFive.currentTransaction 0 = some 0 ∧ (wroteFive.txs 0).aborted = false ∧
      (wroteFive.txs 0).cleanReadsetLock = false ∧ (wroteFive.txs 0).commitLock = false ∧
      ((exec 0 .commitT wroteFive).2.txs 0).aborted = false ∧
      ((exec 0 .commitT wroteFive).2.txs 0).cleanReadsetLock = true ∧
      ((exec 0 .commitT wroteFive).2.txs 0).commitLock = true) ∧
    (Reachable settled ∧ (settled.txs 0).comitted = true ∧ (settled.txs 0).aborted = false ∧
      (settled.txs 0).cleanReadsetLock = true ∧ (settled.txs 0).commitLock = true ∧
      ((exec 1 (.assign 0 9) settled).2.txs 0).aborted = false ∧
      abort 0 0 settled = (.error .InvalidUseException, settled)) ∧
    (Sealed raced ∧ (raced.txs 0).cleanReadsetLock = true ∧ (raced.txs 0).aborted = false ∧
      (commitT 0 raced).1 = .error .CommitFailedException ∧
      ((commitT 0 raced).2.txs 0).comitted = false ∧
      ((commitT 0 raced).2.txs 0).aborted = true ∧
      Sealed (exec 0 .commitT raced).2) ∧
    (Sealed outbid ∧ (outbid.txs 0).commitLock = true ∧ (outbid.txs 0).aborted = false ∧
      (commitT 0 outbid).1 = .error .CommitFailedException ∧
      ((commitT 0 outbid).2.txs 0).comitted = false ∧
      ((commitT 0 outbid).2.txs 0).aborted = true) ∧
    ((committing.txs 0).cleanReadsetLock = true ∧ (committing.txs 0).commitLock = true ∧
      (killReaders 1 1 committing).txs 0 = committing.txs 0 ∧
      ((irrAcquire 1 0 false committing).2.txs 0).aborted = false) :=
  have w := (@committed_never_aborted wroteFive 0).1 wroteFive_reachable
  have w3 := (@committed_never_aborted wroteFive 0).2.2.1 0 .commitT (by decide) (by decide)
    (by decide)
  have w4 := w3.2.2.2.2.2 (Or.inl (by decide))
  have h2 := (@committed_never_aborted settled 0).1 settled_reachable
  have sr : Sealed raced := Sealed.store (reachable_sealed wroteFive_reachable) (by decide)
  have so : Sealed outbid := Sealed.store (reachable_sealed wroteFive_reachable) (by decide)
  have r := (@committed_never_aborted raced 0).2.2.2.1 0 (by decide) (by decide) (by decide)
    (Or.inr (Or.inl (by decide)))
  have r2 := ((@committed_never_aborted raced 0).2.1 sr).2.2.1 0 .commitT
  have o := (@committed_never_aborted outbid 0).2.2.2.1 0 (by decide) (by decide) (by decide)
    (Or.inr (Or.inr (by decide)))
  have k := (@committed_never_aborted committing 0).2.2.2.2
  ⟨⟨wroteFive_reachable, by decide, by decide, w3.2.1, w3.2.2.2.1,
      (w3.2.2.2.2.1 (by decide)).1, (w3.2.2.2.2.1 (by decide)).2, w4.1, w4.2.1, w4.2.2⟩,
    ⟨settled_reachable, by decide, h2.2.1 (by decide), (h2.2.2.2.1 (by decide)).1,
      (h2.2.2.2.1 (by decide)).2.1, (h2.2.2.2.2.2 1 (.assign 0 9) (by decide)).2,
      (@committed_never_aborted settled 0).2.2.2.2.2.2 0 (by decide)⟩,
    ⟨sr, by decide, by decide, r.1, r.2.1, r.2.2, r2⟩,
    ⟨so, by decide, by decide, o.1, o.2.1, o.2.2⟩,
    ⟨by decide, by decide, k.1 1 1 (by decide),
      (k.2.1 1 0 false (by decide)).trans (by decide)⟩⟩

end Tm
